import Mathlib

/-!
# Intel lattice NTT: a shallow embedding

The scalar number-theory routines (`number-theory.cpp`) and the scalar
negacyclic NTT (`ntt-internal.cpp`) are embedded as Lean functions.

* `uint64_t` values are natural numbers; every operation on element values
  that can wrap is reduced modulo `2^64` explicitly (`add64`, `sub64`, `mul64`,
  `shl64`).
* `int64_t` values are integers; results are wrapped by `wrapS64`.
* Buffers and tables are lists, read with `List.getD _ _ 0` and written with
  `List.set`; a pointer `X` into `elements` is the index it points at. Loop
  counters and indices are natural numbers.
* The checked build is modelled: a `LATTICE_CHECK` that fails, a division by
  zero and a loop that exhausts its iteration budget all give `none`, so a
  result `some _` says that the call returned and that no check fired.
  `GeneratePrimes`, whose last statements differ between the builds, also has
  the build without `LATTICE_DEBUG`, as `GeneratePrimesRelease`.
* A `for` loop over a range recurses on the number of rounds left; a loop that
  shifts its counter recurses on a budget of 64 rounds (128 for the Euclid
  loop), which the proofs show is never exhausted on valid arguments.
* The random engine of `GeneratePrimitiveRoot` is a parameter: the sequence
  of values it draws.
* Memory that two pointers may share is a list of buffers; a pointer is the
  number of a buffer and `none` is `nullptr`.
* A `__m512i` value is a function from lane numbers to 64-bit lane values, and
  the intrinsics act lane by lane.
* What `ntt-internal.cpp` takes from headers outside the source tree (build
  flags, CPU feature bits, thresholds, SIMD kernels) is a parameter, `NTTEnv`.
* Definitions marked "Proof device" are not part of the program: they state
  invariants or the action of a loop on residues modulo `q`.
-/

namespace Lattice

/-! ## Machine arithmetic -/

/-- Addition of `uint64_t`. -/
def add64 (a b : Nat) : Nat := (a + b) % 2 ^ 64

/-- Subtraction of `uint64_t` (wraps around below zero). -/
def sub64 (a b : Nat) : Nat := (a + (2 ^ 64 - b % 2 ^ 64)) % 2 ^ 64

/-- Multiplication of `uint64_t`, low 64 bits. -/
def mul64 (a b : Nat) : Nat := (a * b) % 2 ^ 64

/-- Left shift of `uint64_t`. -/
def shl64 (a s : Nat) : Nat := (a <<< s) % 2 ^ 64

/-- The value `static_cast<uint64_t>(-static_cast<int64_t>(b))`: all ones when
`b` holds, zero otherwise. -/
def mask64 (b : Bool) : Nat := if b then 2 ^ 64 - 1 else 0

/-- Conversion of a `uint64_t` to `int64_t` (two's complement). -/
def toS64 (u : Nat) : Int := if u % 2 ^ 64 < 2 ^ 63 then (u % 2 ^ 64 : Nat) else (u % 2 ^ 64 : Nat) - 2 ^ 64

/-- Wrap an integer to the range of `int64_t` (two's complement). -/
def wrapS64 (z : Int) : Int := (z + 2 ^ 63) % 2 ^ 64 - 2 ^ 63

/-- Conversion of an `int64_t` to `uint64_t`. -/
def toU64 (z : Int) : Nat := (z % 2 ^ 64).toNat

/-! ## Helpers declared in headers outside the source tree -/

/-- Modelled from the spec: `IsPowerOfTwo` of `util.hpp` is not in the source
tree; the spec asks for "n power of two", here over 64-bit values. -/
def IsPowerOfTwo (num : Nat) : Bool := (List.range 64).any (fun k => num == 2 ^ k)

/-- Modelled from the spec: `Log2` of `util.hpp` is not in the source tree; the
spec uses it as `log2 n` for a power of two `n`; for a 64-bit `x ≥ 1` the
position of the top bit is the number of `k ≥ 1` with `2^k ≤ x`. -/
def Log2 (x : Nat) : Nat := ((List.range 64).filter (fun k => 2 ^ (k + 1) ≤ x)).length

/-- Modelled from the spec: `s_max_degree_bits` of `ntt.hpp` is not in the
source tree; the spec gives the degree bound `n ≤ 2^17`. -/
def s_max_degree_bits : Nat := 17

/-- Modelled from the spec: `MultiplyUInt64Hi<64>` of `number-theory.hpp` is not
in the source tree; the spec calls it the "high 64 bits" of the product. -/
def MultiplyUInt64Hi64 (x y : Nat) : Nat := (x * y) / 2 ^ 64

/-- Modelled from the spec: `MultiplyFactor(y, B, q).BarrettFactor()` of
`number-theory.hpp` is not in the source tree; the spec defines the factor as
`⌊y · 2^B / q⌋`, stored in a `uint64_t`. A zero modulus divides by zero. -/
def BarrettFactor (operand bit_shift modulus : Nat) : Option Nat :=
  if modulus = 0 then none else some ((operand * 2 ^ bit_shift / modulus) % 2 ^ 64)

/-- Modelled from the spec: `MultiplyUIntModLazy<64>(y, W, W_precon, q)` of
`number-theory.hpp` is not in the source tree; the spec computes
`q_est` = high 64 bits of `y · W_precon` and returns
`(y · W − q_est · q) mod 2^64`. -/
def MultiplyUIntModLazy64 (x y_operand y_barrett_factor modulus : Nat) : Nat :=
  let Q := MultiplyUInt64Hi64 x y_barrett_factor
  sub64 (mul64 y_operand x) (mul64 Q modulus)

/-- Modelled from the spec: the three-argument `MultiplyUIntModLazy<64>(x, y, q)`
of `number-theory.hpp` is not in the source tree; it builds the
`MultiplyFactor` of `y` and runs the four-argument routine. -/
def MultiplyUIntModLazy64_3 (x y modulus : Nat) : Option Nat :=
  (BarrettFactor y 64 modulus).map (fun y_barrett => MultiplyUIntModLazy64 x y y_barrett modulus)

/-- Modelled from the spec: `AddUIntMod` of `number-theory.hpp` is not in the
source tree; the spec's `add_mod` is `(x + y) mod q` for `x, y < q`. -/
def AddUIntMod (x y modulus : Nat) : Option Nat :=
  if x < modulus ∧ y < modulus then some ((x + y) % modulus) else none

/-- Modelled from the spec: `SubUIntMod` of `number-theory.hpp` is not in the
source tree; the spec's `sub_mod` is `(x + q − y) mod q` for `x, y < q`. -/
def SubUIntMod (x y modulus : Nat) : Option Nat :=
  if x < modulus ∧ y < modulus then some ((x + modulus - y) % modulus) else none

/-- Modelled from the spec: the macro `LATTICE_CHECK_BOUNDS(values, n, bound)` of
`check.hpp` is not in the source tree; the spec's checked build tests every
one of the first `n` elements against the bound. The value is whether the
check passes. -/
def LATTICE_CHECK_BOUNDS (values : List Nat) (num_values bound : Nat) : Bool :=
  (List.range num_values).all (fun i => values.getD i 0 < bound)

/-! ## number-theory.cpp -/

/-- The loop `while (a > 1)` of `InverseUIntMod`; `a` and `modulus` are
`uint64_t`, `x`, `y`, `q`, `t` are `int64_t`. -/
def InverseUIntModLoop : Nat → Nat → Nat → Int → Int → Option Int
  | 0, a, _, x, _ => if a > 1 then none else some x
  | fuel + 1, a, modulus, x, y =>
    if a > 1 then
      if modulus = 0 then none
      else
        let q : Int := toS64 (a / modulus)
        let t : Int := toS64 modulus
        let modulus1 := a % modulus
        let a1 := toU64 t
        let t1 := y
        let y1 := wrapS64 (x - wrapS64 (q * y))
        let x1 := t1
        InverseUIntModLoop fuel a1 modulus1 x1 y1
    else some x

/-- Source function `InverseUIntMod(input, modulus)`. The Euclid loop on 64-bit operands ends
within 128 rounds. -/
def InverseUIntMod (input modulus : Nat) : Option Nat :=
  if modulus = 0 then none
  else
    let a := input % modulus
    if a = 0 then none
    else if modulus = 1 then some 0
    else
      let m0 : Int := toS64 modulus
      (InverseUIntModLoop 128 a modulus 1 0).map
        (fun x => toU64 (if x < 0 then wrapS64 (x + m0) else x))

/-- Source function `BarrettReduce128(input, modulus)`. -/
def BarrettReduce128 (input modulus : Nat) : Option Nat :=
  if modulus = 0 then none else some (input % modulus)

/-- Source function `MultiplyUIntMod(x, y, modulus)`; `MultiplyUInt64` is the exact 128-bit
product. -/
def MultiplyUIntMod (x y modulus : Nat) : Option Nat :=
  if modulus = 0 then none
  else if ¬ x < modulus then none
  else if ¬ y < modulus then none
  else BarrettReduce128 (x * y) modulus

/-- The loop `while (exp > 0)` of `PowMod`. -/
def PowModLoop (modulus : Nat) : Nat → Nat → Nat → Nat → Option Nat
  | 0, _, exp, result => if exp > 0 then none else some result
  | fuel + 1, base, exp, result =>
    if exp > 0 then do
      let result1 ← (if exp &&& 1 ≠ 0 then MultiplyUIntMod result base modulus else some result)
      let base1 ← MultiplyUIntMod base base modulus
      PowModLoop modulus fuel base1 (exp >>> 1) result1
    else some result

/-- Source function `PowMod(base, exp, modulus)`; a 64-bit exponent is shifted out within 64
rounds. -/
def PowMod (base exp modulus : Nat) : Option Nat :=
  if modulus = 0 then none
  else PowModLoop modulus 64 (base % modulus) exp 1

/-- Source function `IsPrimitiveRoot(root, degree, modulus)`. -/
def IsPrimitiveRoot (root degree modulus : Nat) : Option Bool :=
  if root = 0 then some false
  else if ¬ IsPowerOfTwo degree then none
  else (PowMod root (degree / 2) modulus).map (fun r => r == sub64 modulus 1)

/-- The loop `for (int i = bit_width; i > 0; i--)` of `ReverseBitsUInt`. -/
def ReverseBitsLoop : Nat → Nat → Nat → Nat
  | 0, _, rev => rev
  | i + 1, x, rev => ReverseBitsLoop i (x >>> 1) (rev ||| shl64 (x &&& 1) i)

/-- Source function `ReverseBitsUInt(x, bit_width)`. -/
def ReverseBitsUInt (x bit_width : Nat) : Nat :=
  if bit_width = 0 then 0 else ReverseBitsLoop bit_width x 0

/-- The loop `for (int trial = 0; trial < 1000; ++trial)` of
`GeneratePrimitiveRoot`. The random engine is a parameter: `distribution trial`
is the value drawn at trial `trial`. When no trial succeeds the final
`LATTICE_CHECK(false, ...)` fails. -/
def GeneratePrimitiveRootLoop (degree modulus size_quotient_group : Nat)
    (distribution : Nat → Nat) : Nat → Nat → Option Nat
  | 0, _ => none
  | cnt + 1, trial =>
    match PowMod (distribution trial) size_quotient_group modulus with
    | none => none
    | some root =>
      match IsPrimitiveRoot root degree modulus with
      | none => none
      | some true => some root
      | some false =>
        GeneratePrimitiveRootLoop degree modulus size_quotient_group distribution cnt (trial + 1)

/-- Source function `GeneratePrimitiveRoot(degree, modulus)`, with the sequence of random
draws as an argument. -/
def GeneratePrimitiveRoot (degree modulus : Nat) (distribution : Nat → Nat) : Option Nat :=
  let size_entire_group := sub64 modulus 1
  if degree = 0 then none
  else
    let size_quotient_group := size_entire_group / degree
    GeneratePrimitiveRootLoop degree modulus size_quotient_group distribution 1000 0

/-- The loop `for (size_t i = 0; i < degree; ++i)` of `MinimalPrimitiveRoot`. -/
def MinimalPrimitiveRootLoop (modulus generator_sq : Nat) : Nat → Nat → Nat → Option Nat
  | 0, _, min_root => some min_root
  | cnt + 1, current_generator, min_root =>
    let min_root1 := if current_generator < min_root then current_generator else min_root
    match MultiplyUIntMod current_generator generator_sq modulus with
    | none => none
    | some current_generator1 =>
      MinimalPrimitiveRootLoop modulus generator_sq cnt current_generator1 min_root1

/-- Source function `MinimalPrimitiveRoot(degree, modulus)`, with the sequence of random draws
as an argument. -/
def MinimalPrimitiveRoot (degree modulus : Nat) (distribution : Nat → Nat) : Option Nat :=
  if ¬ IsPowerOfTwo degree then none
  else
    match GeneratePrimitiveRoot degree modulus distribution with
    | none => none
    | some root =>
      match MultiplyUIntMod root root modulus with
      | none => none
      | some generator_sq =>
        MinimalPrimitiveRootLoop modulus generator_sq degree root root

/-- The static table `as` of `IsPrime`: the twelve Miller-Rabin bases. -/
def as : List Nat := [2, 3, 5, 7, 11, 13, 17, 19, 23, 29, 31, 37]

/-- The first loop of `IsPrime`, over the bases: `some b` when the loop returns
`b`, `none` when it ends without returning. -/
def IsPrimeTrialLoop (n : Nat) : List Nat → Option Bool
  | [] => none
  | a :: rest =>
    if n = a then some true
    else if n % a = 0 then some false
    else IsPrimeTrialLoop n rest

/-- The loop `while (r > 0)` of `IsPrime`, entered with `r = 63`: the largest
`r ≤ 63` with `2^r` dividing `n - 1`, or 0. -/
def IsPrimeFactorLoop (n : Nat) : Nat → Nat
  | 0 => 0
  | r + 1 => if sub64 n 1 % shl64 1 (r + 1) = 0 then r + 1 else IsPrimeFactorLoop n r

/-- The loop `for (uint64_t i = 1; i < r; ++i)` of `IsPrime`: squares `x` and
records whether `n - 1` is met. -/
def IsPrimeSquareLoop (n : Nat) : Nat → Nat → Bool → Option Bool
  | 0, _, prime => some prime
  | cnt + 1, x, prime =>
    match PowMod x 2 n with
    | none => none
    | some x1 => IsPrimeSquareLoop n cnt x1 (if x1 = sub64 n 1 then true else prime)

/-- The second loop of `IsPrime`, over the bases: the Miller-Rabin test of `n`
with `n - 1 = 2^r · d`. -/
def IsPrimeWitnessLoop (n d r : Nat) : List Nat → Option Bool
  | [] => some true
  | a :: rest =>
    match PowMod a d n with
    | none => none
    | some x =>
      if x = 1 ∨ x = sub64 n 1 then IsPrimeWitnessLoop n d r rest
      else
        match IsPrimeSquareLoop n (r - 1) x false with
        | none => none
        | some prime => if ¬ prime then some false else IsPrimeWitnessLoop n d r rest

/-- Source function `IsPrime(n)`. -/
def IsPrime (n : Nat) : Option Bool :=
  match IsPrimeTrialLoop n as with
  | some b => some b
  | none =>
    let r := IsPrimeFactorLoop n 63
    if r = 0 then none
    else
      let d := sub64 n 1 / shl64 1 r
      if ¬ n = add64 (mul64 (shl64 1 r) d) 1 then none
      else if ¬ d % 2 = 1 then none
      else IsPrimeWitnessLoop n d r as

/-! ## ntt-internal.cpp: tables -/

/-- The six tables an `NTTImpl` owns. -/
structure NTTTables where
  root_of_unity_powers : List Nat
  precon52_root_of_unity_powers : List Nat
  precon64_root_of_unity_powers : List Nat
  inv_root_of_unity_powers : List Nat
  precon52_inv_root_of_unity_powers : List Nat
  precon64_inv_root_of_unity_powers : List Nat
deriving DecidableEq

/-- The loop `for (size_t i = 1; i < m_degree; i++)` of
`ComputeRootOfUnityPowers`; `idx` is an `int`, so an index of `2^31` or more
has no meaning. -/
def rootPowersLoop (m_p m_w m_degree_bits : Nat) :
    Nat → Nat → Nat → List Nat → List Nat → Option (List Nat × List Nat)
  | 0, _, _, root_of_unity_powers, inv_root_of_unity_powers =>
    some (root_of_unity_powers, inv_root_of_unity_powers)
  | cnt + 1, i, prev_idx, root_of_unity_powers, inv_root_of_unity_powers =>
    let idx := ReverseBitsUInt i m_degree_bits
    if ¬ idx < 2 ^ 31 then none
    else
      match MultiplyUIntMod (root_of_unity_powers.getD prev_idx 0) m_w m_p with
      | none => none
      | some r =>
        let root_of_unity_powers1 := root_of_unity_powers.set idx r
        match InverseUIntMod (root_of_unity_powers1.getD idx 0) m_p with
        | none => none
        | some ri =>
          rootPowersLoop m_p m_w m_degree_bits cnt (i + 1) idx root_of_unity_powers1
            (inv_root_of_unity_powers.set idx ri)

/-- The loop `for (size_t i = 0; i < m; i++)` of the reordering; returns the
buffer and the running `idx`. -/
def reorderInnerLoop (inv_root_of_unity_powers : List Nat) (m : Nat) :
    Nat → Nat → Nat → List Nat → List Nat × Nat
  | 0, _, idx, temp => (temp, idx)
  | cnt + 1, i, idx, temp =>
    reorderInnerLoop inv_root_of_unity_powers m cnt (i + 1) (idx + 1)
      (temp.set idx (inv_root_of_unity_powers.getD (m + i) 0))

/-- The loop `for (size_t m = (m_degree >> 1); m > 0; m >>= 1)` of the
reordering; a 64-bit `m` is shifted out within 64 rounds. -/
def reorderLoop (inv_root_of_unity_powers : List Nat) :
    Nat → Nat → Nat → List Nat → Option (List Nat)
  | 0, m, _, temp => if m > 0 then none else some temp
  | fuel + 1, m, idx, temp =>
    if m > 0 then
      let r := reorderInnerLoop inv_root_of_unity_powers m m 0 idx temp
      reorderLoop inv_root_of_unity_powers fuel (m >>> 1) r.2 r.1
    else some temp

/-- One of the four loops that fill a preconditioned table. -/
def preconTable (table : List Nat) (bit_shift m_p : Nat) : Option (List Nat) :=
  table.mapM (fun root_of_unity => BarrettFactor root_of_unity bit_shift m_p)

/-- Source function `NTT::NTTImpl::ComputeRootOfUnityPowers()`; the members `m_degree`, `m_p`,
`m_w` and `m_degree_bits` are arguments. -/
def ComputeRootOfUnityPowers (m_degree m_p m_w m_degree_bits : Nat) : Option NTTTables :=
  let root_of_unity_powers := List.replicate m_degree 0
  let inv_root_of_unity_powers := List.replicate m_degree 0
  let root_of_unity_powers := root_of_unity_powers.set 0 1
  match InverseUIntMod 1 m_p with
  | none => none
  | some inv1 =>
    let inv_root_of_unity_powers := inv_root_of_unity_powers.set 0 inv1
    match rootPowersLoop m_p m_w m_degree_bits (m_degree - 1) 1 0 root_of_unity_powers
        inv_root_of_unity_powers with
    | none => none
    | some (root_of_unity_powers, inv_root_of_unity_powers) =>
      let temp := List.replicate m_degree 0
      let temp := temp.set 0 (inv_root_of_unity_powers.getD 0 0)
      match reorderLoop inv_root_of_unity_powers 64 (m_degree >>> 1) 1 temp with
      | none => none
      | some inv_root_of_unity_powers =>
        match preconTable root_of_unity_powers 64 m_p,
              preconTable root_of_unity_powers 52 m_p,
              preconTable inv_root_of_unity_powers 64 m_p,
              preconTable inv_root_of_unity_powers 52 m_p with
        | some p64, some p52, some ip64, some ip52 =>
          some
            { root_of_unity_powers := root_of_unity_powers
              precon52_root_of_unity_powers := p52
              precon64_root_of_unity_powers := p64
              inv_root_of_unity_powers := inv_root_of_unity_powers
              precon52_inv_root_of_unity_powers := ip52
              precon64_inv_root_of_unity_powers := ip64 }
        | _, _, _, _ => none

/-- Source function `CheckArguments(degree, p)`: every check passes or the call fails. -/
def CheckArguments (degree p : Nat) : Option Bool :=
  if ¬ IsPowerOfTwo degree then none
  else if ¬ degree ≤ 1 <<< s_max_degree_bits then none
  else if mul64 2 degree = 0 then none
  else if ¬ p % (mul64 2 degree) = 1 then none
  else some true

/-! ## ntt-internal.cpp: forward transform -/

/-- Body of the innermost loop of `ForwardTransformToBitReverse64`: the Harvey
butterfly with its four `LATTICE_CHECK`s; returns the new `*X` and `*Y`. -/
def fwdButterfly (mod twice_mod W_op W_precon X Y : Nat) : Option (Nat × Nat) :=
  if ¬ X < mul64 mod 4 then none
  else if ¬ Y < mul64 mod 4 then none
  else
    let tx := sub64 X (twice_mod &&& mask64 (decide (X ≥ twice_mod)))
    let T := MultiplyUIntModLazy64 Y W_op W_precon mod
    if ¬ add64 tx T < mul64 mod 4 then none
    else if ¬ sub64 (add64 tx twice_mod) T < mul64 mod 4 then none
    else some (add64 tx T, sub64 (add64 tx twice_mod) T)

/-- The loop `for (size_t j = j1; j < j2; j++)` of the forward transform; `X`
points at `elements[j]` and `Y` at `elements[j + t]`. -/
def fwdInnerLoop (mod twice_mod W_op W_precon t : Nat) :
    Nat → Nat → List Nat → Option (List Nat)
  | 0, _, elements => some elements
  | cnt + 1, j, elements =>
    match fwdButterfly mod twice_mod W_op W_precon (elements.getD j 0)
        (elements.getD (j + t) 0) with
    | none => none
    | some xy =>
      fwdInnerLoop mod twice_mod W_op W_precon t cnt (j + 1)
        ((elements.set j xy.1).set (j + t) xy.2)

/-- The loop `for (size_t i = 0; i < m; i++)` of the forward transform. -/
def fwdGroupLoop (mod twice_mod : Nat) (root_of_unity_powers precon_root_of_unity_powers : List Nat)
    (m t : Nat) : Nat → Nat → Nat → List Nat → Option (List Nat)
  | 0, _, _, elements => some elements
  | cnt + 1, i, j1, elements =>
    let j2 := j1 + t
    let W_op := root_of_unity_powers.getD (m + i) 0
    let W_precon := precon_root_of_unity_powers.getD (m + i) 0
    match fwdInnerLoop mod twice_mod W_op W_precon t (j2 - j1) j1 elements with
    | none => none
    | some elements1 =>
      fwdGroupLoop mod twice_mod root_of_unity_powers precon_root_of_unity_powers m t
        cnt (i + 1) (j1 + (t <<< 1)) elements1

/-- The loop `for (size_t m = 1; m < n; m <<= 1)` of the forward transform; a
64-bit `m` passes `n` within 64 doublings. -/
def fwdLayerLoop (n mod twice_mod : Nat) (root_of_unity_powers precon_root_of_unity_powers : List Nat) :
    Nat → Nat → Nat → List Nat → Option (List Nat)
  | 0, m, _, elements => if m < n then none else some elements
  | fuel + 1, m, t, elements =>
    if m < n then
      match fwdGroupLoop mod twice_mod root_of_unity_powers precon_root_of_unity_powers m t
          m 0 0 elements with
      | none => none
      | some elements1 =>
        fwdLayerLoop n mod twice_mod root_of_unity_powers precon_root_of_unity_powers
          fuel (m <<< 1) (t >>> 1) elements1
    else some elements

/-- Body of the final loop of the forward transform: two conditional
subtractions on `elements[i]` and the `LATTICE_CHECK`. -/
def fwdReduceStep (mod twice_mod i : Nat) (elements : List Nat) : Option (List Nat) :=
  let elements1 :=
    if elements.getD i 0 ≥ twice_mod then elements.set i (sub64 (elements.getD i 0) twice_mod)
    else elements
  let elements2 :=
    if elements1.getD i 0 ≥ mod then elements1.set i (sub64 (elements1.getD i 0) mod)
    else elements1
  if ¬ elements2.getD i 0 < mod then none else some elements2

/-- The loop `for (size_t i = 0; i < n; ++i)` after the forward layers. -/
def fwdReduceLoop (mod twice_mod : Nat) : Nat → Nat → List Nat → Option (List Nat)
  | 0, _, elements => some elements
  | cnt + 1, i, elements =>
    match fwdReduceStep mod twice_mod i elements with
    | none => none
    | some elements1 => fwdReduceLoop mod twice_mod cnt (i + 1) elements1

/-- Source function `ForwardTransformToBitReverse64(n, mod, root_of_unity_powers,
precon_root_of_unity_powers, elements, input_mod_factor, output_mod_factor)`;
the result is the buffer `elements` on return. -/
def ForwardTransformToBitReverse64 (n mod : Nat)
    (root_of_unity_powers precon_root_of_unity_powers elements : List Nat)
    (input_mod_factor output_mod_factor : Nat) : Option (List Nat) :=
  if CheckArguments n mod ≠ some true then none
  else if ¬ LATTICE_CHECK_BOUNDS elements n (mul64 mod input_mod_factor) then none
  else if ¬ (input_mod_factor = 2 ∨ input_mod_factor = 4) then none
  else if ¬ (output_mod_factor = 1 ∨ output_mod_factor = 4) then none
  else
    let twice_mod := shl64 mod 1
    let t := n >>> 1
    match fwdLayerLoop n mod twice_mod root_of_unity_powers precon_root_of_unity_powers
        64 1 t elements with
    | none => none
    | some elements1 =>
      if output_mod_factor = 1 then fwdReduceLoop mod twice_mod n 0 elements1
      else some elements1

/-! ## ntt-internal.cpp: reference forward transform -/

/-- Body of the innermost loop of `ReferenceForwardTransformToBitReverse`. -/
def refButterfly (mod W_op X Y : Nat) : Option (Nat × Nat) :=
  let tx := X
  match MultiplyUIntMod Y W_op mod with
  | none => none
  | some W_x_Y =>
    match AddUIntMod tx W_x_Y mod, SubUIntMod tx W_x_Y mod with
    | some x, some y => some (x, y)
    | _, _ => none

/-- The loop `for (size_t j = j1; j < j2; j++)` of the reference transform. -/
def refInnerLoop (mod W_op t : Nat) : Nat → Nat → List Nat → Option (List Nat)
  | 0, _, elements => some elements
  | cnt + 1, j, elements =>
    match refButterfly mod W_op (elements.getD j 0) (elements.getD (j + t) 0) with
    | none => none
    | some xy =>
      refInnerLoop mod W_op t cnt (j + 1) ((elements.set j xy.1).set (j + t) xy.2)

/-- The loop `for (size_t i = 0; i < m; i++)` of the reference transform. -/
def refGroupLoop (mod : Nat) (root_of_unity_powers : List Nat) (m t : Nat) :
    Nat → Nat → Nat → List Nat → Option (List Nat)
  | 0, _, _, elements => some elements
  | cnt + 1, i, j1, elements =>
    let j2 := j1 + t
    let W_op := root_of_unity_powers.getD (m + i) 0
    match refInnerLoop mod W_op t (j2 - j1) j1 elements with
    | none => none
    | some elements1 =>
      refGroupLoop mod root_of_unity_powers m t cnt (i + 1) (j1 + (t <<< 1)) elements1

/-- The loop `for (size_t m = 1; m < n; m <<= 1)` of the reference transform. -/
def refLayerLoop (n mod : Nat) (root_of_unity_powers : List Nat) :
    Nat → Nat → Nat → List Nat → Option (List Nat)
  | 0, m, _, elements => if m < n then none else some elements
  | fuel + 1, m, t, elements =>
    if m < n then
      match refGroupLoop mod root_of_unity_powers m t m 0 0 elements with
      | none => none
      | some elements1 =>
        refLayerLoop n mod root_of_unity_powers fuel (m <<< 1) (t >>> 1) elements1
    else some elements

/-- Source function `ReferenceForwardTransformToBitReverse(n, mod, root_of_unity_powers,
elements)`. -/
def ReferenceForwardTransformToBitReverse (n mod : Nat)
    (root_of_unity_powers elements : List Nat) : Option (List Nat) :=
  if CheckArguments n mod ≠ some true then none
  else refLayerLoop n mod root_of_unity_powers 64 1 (n >>> 1) elements

/-! ## ntt-internal.cpp: inverse transform -/

/-- Ghost record of the table reads of the inverse transform: the indices at
which `inv_root_of_unity_powers` and `precon_inv_root_of_unity_powers` were
read, in program order. -/
structure InvReads where
  root_reads : List Nat
  precon_reads : List Nat
deriving DecidableEq

/-- Body of the innermost loop of the inverse layers; returns the new `*X` and
`*Y`. -/
def invButterfly (mod twice_mod W_op W_op_precon X Y : Nat) : Nat × Nat :=
  let tx := add64 X Y
  let ty := sub64 (add64 X twice_mod) Y
  (sub64 tx (twice_mod &&& mask64 (decide (tx ≥ twice_mod))),
    MultiplyUIntModLazy64 ty W_op W_op_precon mod)

/-- The loop `for (size_t j = j1; j < j2; j++)` of the inverse layers. -/
def invInnerLoop (mod twice_mod W_op W_op_precon t : Nat) : Nat → Nat → List Nat → List Nat
  | 0, _, elements => elements
  | cnt + 1, j, elements =>
    let xy := invButterfly mod twice_mod W_op W_op_precon (elements.getD j 0)
      (elements.getD (j + t) 0)
    invInnerLoop mod twice_mod W_op W_op_precon t cnt (j + 1)
      ((elements.set j xy.1).set (j + t) xy.2)

/-- The loop `for (size_t i = 0; i < m; i++, root_index++)` of the inverse
layers; returns the buffer, `root_index` and the read record. -/
def invGroupLoop (mod twice_mod : Nat)
    (inv_root_of_unity_powers precon_inv_root_of_unity_powers : List Nat) (t : Nat) :
    Nat → Nat → Nat → List Nat → InvReads → List Nat × Nat × InvReads
  | 0, _, root_index, elements, reads => (elements, root_index, reads)
  | cnt + 1, j1, root_index, elements, reads =>
    let j2 := j1 + t
    let W_op := inv_root_of_unity_powers.getD root_index 0
    let W_op_precon := precon_inv_root_of_unity_powers.getD root_index 0
    let reads1 : InvReads :=
      { root_reads := reads.root_reads ++ [root_index]
        precon_reads := reads.precon_reads ++ [root_index] }
    let elements1 := invInnerLoop mod twice_mod W_op W_op_precon t (j2 - j1) j1 elements
    invGroupLoop mod twice_mod inv_root_of_unity_powers precon_inv_root_of_unity_powers t
      cnt (j1 + (t <<< 1)) (root_index + 1) elements1 reads1

/-- The loop `for (size_t m = (n >> 1); m > 1; m >>= 1)` of the inverse
transform; a 64-bit `m` is shifted out within 64 rounds. -/
def invLayerLoop (mod twice_mod : Nat)
    (inv_root_of_unity_powers precon_inv_root_of_unity_powers : List Nat) :
    Nat → Nat → Nat → Nat → List Nat → InvReads → Option (List Nat × Nat × InvReads)
  | 0, m, _, root_index, elements, reads =>
    if m > 1 then none else some (elements, root_index, reads)
  | fuel + 1, m, t, root_index, elements, reads =>
    if m > 1 then
      let r := invGroupLoop mod twice_mod inv_root_of_unity_powers
        precon_inv_root_of_unity_powers t m 0 root_index elements reads
      invLayerLoop mod twice_mod inv_root_of_unity_powers precon_inv_root_of_unity_powers
        fuel (m >>> 1) (t <<< 1) r.2.1 r.1 r.2.2
    else some (elements, root_index, reads)

/-- The loop `for (size_t j = (n >> 1); j < n; j++)` of the inverse transform:
the last layer fused with the scaling by `1/n`; `X` points at `elements[jx]`
and `Y` at `elements[jx + (n >> 1)]`. -/
def invFinalLoop (n mod twice_mod inv_n inv_n_w : Nat) : Nat → Nat → List Nat → Option (List Nat)
  | 0, _, elements => some elements
  | cnt + 1, jx, elements =>
    let X := elements.getD jx 0
    let Y := elements.getD (jx + (n >>> 1)) 0
    let tx := add64 X Y
    let tx := sub64 tx (twice_mod &&& mask64 (decide (tx ≥ twice_mod)))
    let ty := sub64 (add64 X twice_mod) Y
    match MultiplyUIntModLazy64_3 tx inv_n mod, MultiplyUIntModLazy64_3 ty inv_n_w mod with
    | some x, some y =>
      invFinalLoop n mod twice_mod inv_n inv_n_w cnt (jx + 1)
        ((elements.set jx x).set (jx + (n >>> 1)) y)
    | _, _ => none

/-- Body of the last loop of the inverse transform: one conditional
subtraction on `elements[i]` and the `LATTICE_CHECK`. -/
def invReduceStep (mod i : Nat) (elements : List Nat) : Option (List Nat) :=
  let elements1 :=
    if elements.getD i 0 ≥ mod then elements.set i (sub64 (elements.getD i 0) mod)
    else elements
  if ¬ elements1.getD i 0 < mod then none else some elements1

/-- The loop `for (size_t i = 0; i < n; ++i)` after the inverse layers. -/
def invReduceLoop (mod : Nat) : Nat → Nat → List Nat → Option (List Nat)
  | 0, _, elements => some elements
  | cnt + 1, i, elements =>
    match invReduceStep mod i elements with
    | none => none
    | some elements1 => invReduceLoop mod cnt (i + 1) elements1

/-- Source function `InverseTransformFromBitReverse64(n, mod, inv_root_of_unity_powers,
precon_inv_root_of_unity_powers, elements, input_mod_factor,
output_mod_factor)` together with the ghost record of its table reads. -/
def InverseTransformFromBitReverse64Traced (n mod : Nat)
    (inv_root_of_unity_powers precon_inv_root_of_unity_powers elements : List Nat)
    (input_mod_factor output_mod_factor : Nat) : Option (List Nat × InvReads) :=
  if CheckArguments n mod ≠ some true then none
  else if ¬ (input_mod_factor = 1 ∨ input_mod_factor = 2) then none
  else if ¬ (output_mod_factor = 1 ∨ output_mod_factor = 2) then none
  else
    let twice_mod := shl64 mod 1
    match invLayerLoop mod twice_mod inv_root_of_unity_powers precon_inv_root_of_unity_powers
        64 (n >>> 1) 1 1 elements { root_reads := [], precon_reads := [] } with
    | none => none
    | some (elements1, root_index, reads) =>
      let W_op := inv_root_of_unity_powers.getD root_index 0
      let reads1 : InvReads := { reads with root_reads := reads.root_reads ++ [root_index] }
      match InverseUIntMod n mod with
      | none => none
      | some inv_n =>
        match MultiplyUIntMod inv_n W_op mod with
        | none => none
        | some inv_n_w =>
          match invFinalLoop n mod twice_mod inv_n inv_n_w (n - (n >>> 1)) 0 elements1 with
          | none => none
          | some elements2 =>
            if output_mod_factor = 1 then
              (invReduceLoop mod n 0 elements2).map (fun e => (e, reads1))
            else some (elements2, reads1)

/-- Source function `InverseTransformFromBitReverse64`: the buffer `elements` on return. -/
def InverseTransformFromBitReverse64 (n mod : Nat)
    (inv_root_of_unity_powers precon_inv_root_of_unity_powers elements : List Nat)
    (input_mod_factor output_mod_factor : Nat) : Option (List Nat) :=
  (InverseTransformFromBitReverse64Traced n mod inv_root_of_unity_powers
    precon_inv_root_of_unity_powers elements input_mod_factor output_mod_factor).map Prod.fst

/-! ## number-theory.cpp: prime generation -/

/-- The loop `while (value < (1UL << (bit_size + 1)))` of `GeneratePrimes` and
the two statements after it, `LATTICE_CHECK(false, "Failed to find enough
primes"); return ret;`. With `LATTICE_DEBUG` the check fails and the call
returns nothing; without it the check is compiled out and `return ret` hands
back the primes found so far. A candidate on which a check inside `IsPrime`
fails ends the run in either build: without `LATTICE_DEBUG` the model does not
follow `IsPrime` past its own checks. The iteration budget is `2^64`. -/
def GeneratePrimesLoop (LATTICE_DEBUG : Bool) (num_primes bit_size ntt_size : Nat) :
    Nat → Nat → List Nat → Option (List Nat)
  | 0, _, _ => none
  | fuel + 1, value, ret =>
    if value < shl64 1 (bit_size + 1) then
      match IsPrime value with
      | none => none
      | some true =>
        let ret1 := ret ++ [value]
        if ret1.length = num_primes then some ret1
        else
          GeneratePrimesLoop LATTICE_DEBUG num_primes bit_size ntt_size fuel
            (add64 value (mul64 2 ntt_size)) ret1
      | some false =>
        GeneratePrimesLoop LATTICE_DEBUG num_primes bit_size ntt_size fuel
          (add64 value (mul64 2 ntt_size)) ret
    else if LATTICE_DEBUG then none
    else some ret

/-- Source function `GeneratePrimes(num_primes, bit_size, ntt_size)` in the checked build
(`LATTICE_DEBUG`), as every function of this file. -/
def GeneratePrimes (num_primes bit_size ntt_size : Nat) : Option (List Nat) :=
  if ¬ num_primes > 0 then none
  else if ¬ IsPowerOfTwo ntt_size then none
  else if ¬ Log2 ntt_size < bit_size then none
  else
    let value := add64 (shl64 1 bit_size) 1
    GeneratePrimesLoop true num_primes bit_size ntt_size (2 ^ 64) value []

/-- Source function `GeneratePrimes(num_primes, bit_size, ntt_size)` in a build without
`LATTICE_DEBUG`: the three `LATTICE_CHECK`s on the arguments and the one after
the loop are compiled out. -/
def GeneratePrimesRelease (num_primes bit_size ntt_size : Nat) : Option (List Nat) :=
  let value := add64 (shl64 1 bit_size) 1
  GeneratePrimesLoop false num_primes bit_size ntt_size (2 ^ 64) value []

/-! ## ntt-internal.cpp: the `NTTImpl` object and its dispatch -/

/-- Modelled from the spec: `s_ifma_shift_bits` of `ntt.hpp` is not in the
source tree; the spec latches `bit_shift = 52` for the IFMA path. -/
def s_ifma_shift_bits : Nat := 52

/-- Modelled from the spec: `s_default_shift_bits` of `ntt.hpp` is not in the
source tree; the spec latches `bit_shift = 64` otherwise. -/
def s_default_shift_bits : Nat := 64

/-- Modelled from the spec: what `ntt-internal.cpp` takes from outside the
source tree, as parameters. The two build flags, the two runtime feature bits
of the CPU probe, the two IFMA thresholds of `ntt.hpp` ("distinct thresholds
for forward and inverse paths"), and the SIMD kernels of `fwd-ntt-avx512.hpp`
and `inv-ntt-avx512.hpp`, which take the bit shift (their template argument),
the degree, the modulus, the two tables, the buffer and the two factors and
return the buffer. -/
structure NTTEnv where
  LATTICE_HAS_AVX512IFMA : Bool
  LATTICE_HAS_AVX512DQ : Bool
  has_avx512_ifma : Bool
  has_avx512_dq : Bool
  s_max_fwd_ifma_modulus : Nat
  s_max_inv_ifma_modulus : Nat
  ForwardTransformToBitReverseAVX512 :
    Nat → Nat → Nat → List Nat → List Nat → List Nat → Nat → Nat → Option (List Nat)
  InverseTransformFromBitReverseAVX512 :
    Nat → Nat → Nat → List Nat → List Nat → List Nat → Nat → Nat → Option (List Nat)

/-- The members of an `NTTImpl`; the six tables are `tables`. -/
structure NTTImpl where
  m_degree : Nat
  m_p : Nat
  m_w : Nat
  m_degree_bits : Nat
  m_winv : Nat
  m_fwd_bit_shift : Nat
  m_inv_bit_shift : Nat
  tables : NTTTables
deriving DecidableEq

/-- Source function `NTT::NTTImpl::NTTImpl(degree, p, root_of_unity)`, the constructor. The two
bit shifts start at `s_default_shift_bits` (their initialisers are in `ntt.hpp`,
taken from the spec's "otherwise 64"). -/
def NTTImpl.new (env : NTTEnv) (degree p root_of_unity : Nat) : Option NTTImpl :=
  if CheckArguments degree p ≠ some true then none
  else if IsPrimitiveRoot root_of_unity (mul64 2 degree) p ≠ some true then none
  else
    let m_fwd_bit_shift :=
      if env.LATTICE_HAS_AVX512IFMA ∧ p < env.s_max_fwd_ifma_modulus then s_ifma_shift_bits
      else s_default_shift_bits
    let m_inv_bit_shift :=
      if env.LATTICE_HAS_AVX512IFMA ∧ p < env.s_max_inv_ifma_modulus then s_ifma_shift_bits
      else s_default_shift_bits
    let m_degree_bits := Log2 degree
    match InverseUIntMod root_of_unity p with
    | none => none
    | some m_winv =>
      match ComputeRootOfUnityPowers degree p root_of_unity m_degree_bits with
      | none => none
      | some tables =>
        some
          { m_degree := degree
            m_p := p
            m_w := root_of_unity
            m_degree_bits := m_degree_bits
            m_winv := m_winv
            m_fwd_bit_shift := m_fwd_bit_shift
            m_inv_bit_shift := m_inv_bit_shift
            tables := tables }

/-- Source function `NTT::NTTImpl::NTTImpl(degree, p)`: the constructor that picks the root
with `MinimalPrimitiveRoot`, whose random draws are an argument. -/
def NTTImpl.newMinimalRoot (env : NTTEnv) (degree p : Nat) (distribution : Nat → Nat) :
    Option NTTImpl :=
  match MinimalPrimitiveRoot (mul64 2 degree) p distribution with
  | none => none
  | some root_of_unity => NTTImpl.new env degree p root_of_unity

/-- A build without the AVX512 flags, in which no SIMD kernel is ever called;
it instantiates `NTTEnv` in closed statements. -/
def NTTEnv.scalar : NTTEnv :=
  { LATTICE_HAS_AVX512IFMA := false
    LATTICE_HAS_AVX512DQ := false
    has_avx512_ifma := false
    has_avx512_dq := false
    s_max_fwd_ifma_modulus := 0
    s_max_inv_ifma_modulus := 0
    ForwardTransformToBitReverseAVX512 := fun _ _ _ _ _ _ _ _ => none
    InverseTransformFromBitReverseAVX512 := fun _ _ _ _ _ _ _ _ => none }

/-- Source function `NTT::NTTImpl::ComputeForward(elements, input_mod_factor,
output_mod_factor)`, the in-place overload. Memory is a list of buffers and a
pointer is the number of a buffer (`none` is `nullptr`; a number past the heap
is a dangling pointer and the call fails). -/
def NTTImpl.ComputeForward (env : NTTEnv) (impl : NTTImpl) (heap : List (List Nat))
    (elements : Option Nat) (input_mod_factor output_mod_factor : Nat) :
    Option (List (List Nat)) :=
  if ¬ (impl.m_fwd_bit_shift = s_ifma_shift_bits ∨ impl.m_fwd_bit_shift = s_default_shift_bits)
  then none
  else
    match elements with
    | none => none
    | some p =>
      if ¬ p < heap.length then none
      else
        let buffer := heap.getD p []
        if ¬ LATTICE_CHECK_BOUNDS buffer impl.m_degree (mul64 impl.m_p input_mod_factor)
        then none
        else if env.LATTICE_HAS_AVX512IFMA ∧ env.has_avx512_ifma ∧
            impl.m_fwd_bit_shift = s_ifma_shift_bits ∧
            (impl.m_p < env.s_max_fwd_ifma_modulus ∧ impl.m_degree ≥ 16) then
          (env.ForwardTransformToBitReverseAVX512 s_ifma_shift_bits impl.m_degree impl.m_p
            impl.tables.root_of_unity_powers impl.tables.precon52_root_of_unity_powers
            buffer input_mod_factor output_mod_factor).map (fun r => heap.set p r)
        else if env.LATTICE_HAS_AVX512DQ ∧ env.has_avx512_dq ∧ impl.m_degree ≥ 16 then
          (env.ForwardTransformToBitReverseAVX512 s_default_shift_bits impl.m_degree impl.m_p
            impl.tables.root_of_unity_powers impl.tables.precon64_root_of_unity_powers
            buffer input_mod_factor output_mod_factor).map (fun r => heap.set p r)
        else
          (ForwardTransformToBitReverse64 impl.m_degree impl.m_p
            impl.tables.root_of_unity_powers impl.tables.precon64_root_of_unity_powers
            buffer input_mod_factor output_mod_factor).map (fun r => heap.set p r)

/-- The call `std::memcpy(result, elements, m_degree * sizeof(uint64_t))`: the
first `m_degree` words of buffer `elements` replace those of buffer `result`;
a buffer shorter than `m_degree` words makes the copy fail. -/
def memcpy (heap : List (List Nat)) (result elements m_degree : Nat) :
    Option (List (List Nat)) :=
  if ¬ (m_degree ≤ (heap.getD elements []).length ∧ m_degree ≤ (heap.getD result []).length)
  then none
  else
    some (heap.set result
      ((heap.getD elements []).take m_degree ++ (heap.getD result []).drop m_degree))

/-- Source function `NTT::NTTImpl::ComputeForward(elements, result, input_mod_factor,
output_mod_factor)`, the out-of-place overload. -/
def NTTImpl.ComputeForwardOut (env : NTTEnv) (impl : NTTImpl) (heap : List (List Nat))
    (elements result : Option Nat) (input_mod_factor output_mod_factor : Nat) :
    Option (List (List Nat)) :=
  match elements, result with
  | some e, some r =>
    if ¬ (e < heap.length ∧ r < heap.length) then none
    else
      match (if e ≠ r then memcpy heap r e impl.m_degree else some heap) with
      | none => none
      | some heap1 =>
        NTTImpl.ComputeForward env impl heap1 (some r) input_mod_factor output_mod_factor
  | _, _ => none

/-- Source function `NTT::NTTImpl::ComputeInverse(elements, input_mod_factor,
output_mod_factor)`, the in-place overload. -/
def NTTImpl.ComputeInverse (env : NTTEnv) (impl : NTTImpl) (heap : List (List Nat))
    (elements : Option Nat) (input_mod_factor output_mod_factor : Nat) :
    Option (List (List Nat)) :=
  match elements with
  | none => none
  | some p =>
    if ¬ p < heap.length then none
    else
      let buffer := heap.getD p []
      if ¬ LATTICE_CHECK_BOUNDS buffer impl.m_degree (mul64 impl.m_p input_mod_factor)
      then none
      else if ¬ (impl.m_inv_bit_shift = s_ifma_shift_bits ∨
          impl.m_inv_bit_shift = s_default_shift_bits) then none
      else if env.LATTICE_HAS_AVX512IFMA ∧ impl.m_inv_bit_shift = s_ifma_shift_bits ∧
          impl.m_p < env.s_max_inv_ifma_modulus ∧ impl.m_degree ≥ 16 then
        (env.InverseTransformFromBitReverseAVX512 s_ifma_shift_bits impl.m_degree impl.m_p
          impl.tables.inv_root_of_unity_powers impl.tables.precon52_inv_root_of_unity_powers
          buffer input_mod_factor output_mod_factor).map (fun r => heap.set p r)
      else if env.LATTICE_HAS_AVX512DQ ∧ env.has_avx512_dq ∧ impl.m_degree ≥ 16 then
        (env.InverseTransformFromBitReverseAVX512 s_default_shift_bits impl.m_degree impl.m_p
          impl.tables.inv_root_of_unity_powers impl.tables.precon64_inv_root_of_unity_powers
          buffer input_mod_factor output_mod_factor).map (fun r => heap.set p r)
      else
        (InverseTransformFromBitReverse64 impl.m_degree impl.m_p
          impl.tables.inv_root_of_unity_powers impl.tables.precon64_inv_root_of_unity_powers
          buffer input_mod_factor output_mod_factor).map (fun r => heap.set p r)

/-- Source function `NTT::NTTImpl::ComputeInverse(elements, result, input_mod_factor,
output_mod_factor)`, the out-of-place overload. -/
def NTTImpl.ComputeInverseOut (env : NTTEnv) (impl : NTTImpl) (heap : List (List Nat))
    (elements result : Option Nat) (input_mod_factor output_mod_factor : Nat) :
    Option (List (List Nat)) :=
  match elements, result with
  | some e, some r =>
    if ¬ (e < heap.length ∧ r < heap.length) then none
    else
      match (if e ≠ r then memcpy heap r e impl.m_degree else some heap) with
      | none => none
      | some heap1 =>
        NTTImpl.ComputeInverse env impl heap1 (some r) input_mod_factor output_mod_factor
  | _, _ => none

/-! ## poly-fma-avx512.hpp: fused multiply-add with a scalar -/

/-- A value of type `__m512i`: eight 64-bit lanes, numbered 0 to 7. -/
abbrev m512i : Type := Nat → Nat

/-- Intel intrinsic `_mm512_set1_epi64`: every lane holds `a`. -/
def mm512_set1_epi64 (a : Nat) : m512i := fun _ => a

/-- Intel intrinsic `_mm512_loadu_si512` at word `p` of a buffer; reading past
the end of the buffer fails. -/
def mm512_loadu_si512 (mem : List Nat) (p : Nat) : Option m512i :=
  if p + 8 ≤ mem.length then some (fun l => mem.getD (p + l) 0) else none

/-- Writes the lanes `0 .. cnt - 1` of `v` to the words `p .. p + cnt - 1`. -/
def storeLanes (v : m512i) (p : Nat) : Nat → List Nat → List Nat
  | 0, mem => mem
  | l + 1, mem => (storeLanes v p l mem).set (p + l) (v l)

/-- Intel intrinsic `_mm512_storeu_si512` at word `p` of a buffer; writing past
the end of the buffer fails. -/
def mm512_storeu_si512 (mem : List Nat) (p : Nat) (v : m512i) : Option (List Nat) :=
  if p + 8 ≤ mem.length then some (storeLanes v p 8 mem) else none

/-- Intel intrinsic `_mm512_mullo_epi64`: low 64 bits of the lane products. -/
def mm512_mullo_epi64 (x y : m512i) : m512i := fun l => mul64 (x l) (y l)

/-- Intel intrinsic `_mm512_sub_epi64`: lane-wise wrapping subtraction. -/
def mm512_sub_epi64 (x y : m512i) : m512i := fun l => sub64 (x l) (y l)

/-- Intel intrinsic `_mm512_add_epi64`: lane-wise wrapping addition. -/
def mm512_add_epi64 (x y : m512i) : m512i := fun l => add64 (x l) (y l)

/-- Modelled from the spec: `_mm512_il_mulhi_epi<BitShift>` of
`util/avx512-util.hpp` is not in the source tree; the spec's hot loop does "a
single 64×64 → high-64 multiply" (the source comment reads
`MultiplyUInt64Hi<64>(arg1, arg2_precon)`): the high `BitShift` bits of the
product of the low `BitShift` bits of each lane. -/
def mm512_il_mulhi_epi (BitShift : Nat) (x y : m512i) : m512i :=
  fun l => (x l % 2 ^ BitShift) * (y l % 2 ^ BitShift) / 2 ^ BitShift

/-- Modelled from the spec: `_mm512_il_mullo_epi<BitShift>` of
`util/avx512-util.hpp` is not in the source tree; the spec's "low multiply":
the low `BitShift` bits of the product of the low `BitShift` bits of each
lane. -/
def mm512_il_mullo_epi (BitShift : Nat) (x y : m512i) : m512i :=
  fun l => (x l % 2 ^ BitShift) * (y l % 2 ^ BitShift) % 2 ^ BitShift

/-- Modelled from the spec: `_mm512_il_small_mod_epi64` of
`util/avx512-util.hpp` is not in the source tree; the source comment calls it
the "conditional Barrett subtraction", the spec's "if x ≥ q then x − q". -/
def mm512_il_small_mod_epi64 (x p : m512i) : m512i :=
  fun l => if x l ≥ p l then sub64 (x l) (p l) else x l

/-- Modelled from the spec: `MaximumValue` of `util.hpp` is not in the source
tree; the check that uses it calls its value the "bit shift bound": the largest
value of `bits` bits. -/
def MaximumValue (bits : Nat) : Nat := 2 ^ bits - 1

/-- Loop of the scalar fused multiply-add over the words `i .. i + cnt - 1`. -/
def FMAModScalarNativeLoop (arg1 : List Nat) (arg2 : Nat) (arg3 : Option (List Nat))
    (modulus : Nat) : Nat → Nat → List Nat → List Nat
  | 0, _, out => out
  | cnt + 1, i, out =>
    let v := match arg3 with
      | some c => (arg1.getD i 0 * arg2 + c.getD i 0) % modulus
      | none => arg1.getD i 0 * arg2 % modulus
    FMAModScalarNativeLoop arg1 arg2 arg3 modulus cnt (i + 1) (out.set i v)

/-- Modelled from the spec: `FMAModScalarNative(arg1, arg2, arg3, out,
arg2_barr, n, modulus)` of `poly/poly-fma-internal.hpp` is not in the source
tree; the spec gives `out[i] = (a[i] · b + c[i]) mod q`, the add skipped when
`c` is absent, for inputs `a[i] < q`, which a checked build tests. -/
def FMAModScalarNative (arg1 : List Nat) (arg2 : Nat) (arg3 : Option (List Nat))
    (out : List Nat) (_arg2_barr n modulus : Nat) : Option (List Nat) :=
  if modulus = 0 then none
  else if ¬ LATTICE_CHECK_BOUNDS arg1 n modulus then none
  else if ¬ arg2 < modulus then none
  else some (FMAModScalarNativeLoop arg1 arg2 arg3 modulus n 0 out)

/-- The loop `for (size_t i = n / 8; i > 0; --i)` of `FMAModScalarAVX512` in
the branch `if (arg3)`; the three pointers are word offsets into their
buffers. -/
def FMAModScalarAVX512LoopAdd (BitShift : Nat) (arg1 arg3 : List Nat)
    (varg2 varg2_barr vmodulus : m512i) : Nat → Nat → Nat → Nat → List Nat → Option (List Nat)
  | 0, _, _, _, out => some out
  | i + 1, vp_arg1, vp_arg3, vp_out, out =>
    match mm512_loadu_si512 arg1 vp_arg1, mm512_loadu_si512 arg3 vp_arg3 with
    | some varg1, some varg3 =>
      let vq := mm512_il_mulhi_epi BitShift varg1 varg2_barr
      let vq_times_mod := mm512_mullo_epi64 vq vmodulus
      let va_times_b := mm512_il_mullo_epi 64 varg1 varg2
      let vq := mm512_sub_epi64 va_times_b vq_times_mod
      let vq := mm512_il_small_mod_epi64 vq vmodulus
      let vq := mm512_add_epi64 vq varg3
      let vq := mm512_il_small_mod_epi64 vq vmodulus
      match mm512_storeu_si512 out vp_out vq with
      | none => none
      | some out1 =>
        FMAModScalarAVX512LoopAdd BitShift arg1 arg3 varg2 varg2_barr vmodulus i
          (vp_arg1 + 8) (vp_arg3 + 8) (vp_out + 8) out1
    | _, _ => none

/-- The loop `for (size_t i = n / 8; i > 0; --i)` of `FMAModScalarAVX512` for
`arg3 == nullptr`. -/
def FMAModScalarAVX512LoopMul (BitShift : Nat) (arg1 : List Nat)
    (varg2 varg2_barr vmodulus : m512i) : Nat → Nat → Nat → List Nat → Option (List Nat)
  | 0, _, _, out => some out
  | i + 1, vp_arg1, vp_out, out =>
    match mm512_loadu_si512 arg1 vp_arg1 with
    | some varg1 =>
      let vq := mm512_il_mulhi_epi BitShift varg1 varg2_barr
      let vq_times_mod := mm512_mullo_epi64 vq vmodulus
      let va_times_b := mm512_il_mullo_epi 64 varg1 varg2
      let vq := mm512_sub_epi64 va_times_b vq_times_mod
      let vq := mm512_il_small_mod_epi64 vq vmodulus
      match mm512_storeu_si512 out vp_out vq with
      | none => none
      | some out1 =>
        FMAModScalarAVX512LoopMul BitShift arg1 varg2 varg2_barr vmodulus i
          (vp_arg1 + 8) (vp_out + 8) out1
    | none => none

/-- Source function `FMAModScalarAVX512<BitShift>(arg1, arg2, arg3, out, arg2_barr, n,
modulus)`. The buffers `arg1`, `arg3` and `out` are taken to be disjoint; `out`
is the content of the output buffer before the call and the result is its
content on return. `arg3 = none` is `nullptr`; advancing a null `arg3` (when
`n % 8 ≠ 0`) is undefined and the call fails. As in the source, the pointers
`arg1` and `arg3` are advanced past the scalar head and `out` is not. -/
def FMAModScalarAVX512 (BitShift : Nat) (arg1 : List Nat) (arg2 : Nat)
    (arg3 : Option (List Nat)) (out : List Nat) (arg2_barr n modulus : Nat) :
    Option (List Nat) :=
  let n_mod_8 := n % 8
  match (if n_mod_8 ≠ 0 then
      (if arg3 = none then none
       else (FMAModScalarNative arg1 arg2 arg3 out arg2_barr n_mod_8 modulus).map
        (fun out1 => (out1, n_mod_8, n_mod_8, sub64 n n_mod_8)))
    else some (out, 0, 0, n)) with
  | none => none
  | some (out1, p_arg1, p_arg3, n1) =>
    if ¬ modulus < MaximumValue BitShift then none
    else if ¬ LATTICE_CHECK_BOUNDS (arg1.drop p_arg1) n1 modulus then none
    else if ¬ arg2 < modulus then none
    else if ¬ (BitShift = 52 ∨ BitShift = 64) then none
    else
      let varg2_barr := mm512_set1_epi64 arg2_barr
      let vmodulus := mm512_set1_epi64 modulus
      let varg2 := mm512_set1_epi64 arg2
      match arg3 with
      | some c =>
        FMAModScalarAVX512LoopAdd BitShift arg1 c varg2 varg2_barr vmodulus (n1 / 8)
          p_arg1 p_arg3 0 out1
      | none =>
        FMAModScalarAVX512LoopMul BitShift arg1 varg2 varg2_barr vmodulus (n1 / 8)
          p_arg1 0 out1

/-- Source function `FMAModScalarAVX512<BitShift>(arg1, arg2, arg3, out, n, modulus)`: the
overload that builds the `MultiplyFactor` of `arg2` itself. -/
def FMAModScalarAVX512_6 (BitShift : Nat) (arg1 : List Nat) (arg2 : Nat)
    (arg3 : Option (List Nat)) (out : List Nat) (n modulus : Nat) : Option (List Nat) :=
  match BarrettFactor arg2 BitShift modulus with
  | none => none
  | some barrett_factor =>
    FMAModScalarAVX512 BitShift arg1 arg2 arg3 out barrett_factor n modulus

/-! ## Element-wise kernels known from their tests -/

/-- Modelled from the spec: the loop of a scalar element-wise kernel on two
vectors; the kernels' sources are not in the source tree. Memory is a list of
buffers and a pointer is the number of a buffer, so that "`result_ptr =
operand_a` for in-place" is the call with `result = operand1`. At each index
the two operands are read and the result is written. -/
def EltwiseLoopVV (f : Nat → Nat → Nat) (result operand1 operand2 : Nat) :
    Nat → Nat → List (List Nat) → List (List Nat)
  | 0, _, heap => heap
  | cnt + 1, i, heap =>
    let a := (heap.getD operand1 []).getD i 0
    let b := (heap.getD operand2 []).getD i 0
    EltwiseLoopVV f result operand1 operand2 cnt (i + 1)
      (heap.set result ((heap.getD result []).set i (f a b)))

/-- Modelled from the spec: the loop of a scalar element-wise kernel on a
vector and a scalar ("same with broadcast b"). -/
def EltwiseLoopVS (f : Nat → Nat → Nat) (result operand1 : Nat) (operand2 : Nat) :
    Nat → Nat → List (List Nat) → List (List Nat)
  | 0, _, heap => heap
  | cnt + 1, i, heap =>
    let a := (heap.getD operand1 []).getD i 0
    EltwiseLoopVS f result operand1 operand2 cnt (i + 1)
      (heap.set result ((heap.getD result []).set i (f a operand2)))

/-- Modelled from the spec: the checks of an element-wise kernel on a vector
operand ("inputs must satisfy a[i], b[i] < q"): a pointer into the heap to a
buffer of at least `n` words, all below the modulus. -/
def EltwiseOperandOk (heap : List (List Nat)) (operand n modulus : Nat) : Bool :=
  decide (operand < heap.length) && decide (n ≤ (heap.getD operand []).length) &&
    LATTICE_CHECK_BOUNDS (heap.getD operand []) n modulus

/-- Modelled from the spec: `EltwiseSubModNative(result, operand1, operand2, n,
modulus)` of `eltwise/eltwise-sub-mod-internal.hpp` is not in the source tree
(its tests are); the spec gives `out[i] = (a[i] + q − b[i]) mod q` for inputs
`a[i], b[i] < q`, and the tests expect a failure for `n = 0`, for
`modulus = 1` and for an operand that is not below the modulus. -/
def EltwiseSubModNative (heap : List (List Nat)) (result operand1 operand2 n modulus : Nat) :
    Option (List (List Nat)) :=
  if n = 0 then none
  else if ¬ modulus > 1 then none
  else if ¬ (result < heap.length ∧ n ≤ (heap.getD result []).length) then none
  else if ¬ EltwiseOperandOk heap operand1 n modulus then none
  else if ¬ EltwiseOperandOk heap operand2 n modulus then none
  else
    some (EltwiseLoopVV (fun a b => (a + modulus - b) % modulus) result operand1 operand2 n 0
      heap)

/-- Modelled from the spec: the overload `EltwiseSubModNative(result, operand1,
operand2, n, modulus)` with a scalar `operand2`, of
`eltwise/eltwise-sub-mod-internal.hpp`, is not in the source tree (its tests
are); the spec gives the vector kernel "with broadcast b". -/
def EltwiseSubModNativeScalar (heap : List (List Nat)) (result operand1 : Nat)
    (operand2 n modulus : Nat) : Option (List (List Nat)) :=
  if n = 0 then none
  else if ¬ modulus > 1 then none
  else if ¬ (result < heap.length ∧ n ≤ (heap.getD result []).length) then none
  else if ¬ EltwiseOperandOk heap operand1 n modulus then none
  else if ¬ operand2 < modulus then none
  else
    some (EltwiseLoopVS (fun a b => (a + modulus - b) % modulus) result operand1 operand2 n 0
      heap)

/-- Modelled from the spec: `MultiplyModInPlaceNative(operand1, operand2, n,
modulus)` of `poly/poly-mult-internal.hpp` is not in the source tree (its
tests are); the spec gives `out[i] = a[i] · b[i] mod q`, written over
`operand1`, for inputs below the modulus. -/
def MultiplyModInPlaceNative (heap : List (List Nat)) (operand1 operand2 n modulus : Nat) :
    Option (List (List Nat)) :=
  if n = 0 then none
  else if ¬ modulus > 1 then none
  else if ¬ EltwiseOperandOk heap operand1 n modulus then none
  else if ¬ EltwiseOperandOk heap operand2 n modulus then none
  else
    some (EltwiseLoopVV (fun a b => a * b % modulus) operand1 operand1 operand2 n 0 heap)

/-- Modelled from the spec: `MultiplyModInPlace(operand1, operand2, n,
modulus)` of `poly/poly-mult.hpp` is not in the source tree (its tests are);
it dispatches to a SIMD kernel or to the scalar one, and by the spec "every
implementation produces bit-identical results to the scalar reference". -/
def MultiplyModInPlace (heap : List (List Nat)) (operand1 operand2 n modulus : Nat) :
    Option (List (List Nat)) :=
  MultiplyModInPlaceNative heap operand1 operand2 n modulus

/-! ## avx512_util.hpp: lane helpers (`src/intel-lattice/util` and `src/ntt`) -/

/-- The 32-bit element number `k` of a vector: the low half of lane `k / 2`
for even `k`, the high half for odd `k`. -/
def dword (a : m512i) (k : Nat) : Nat := a (k / 2) / 2 ^ (32 * (k % 2)) % 2 ^ 32

/-- Intel intrinsic `_mm512_shuffle_epi32`: in every group of four 32-bit
elements, element `j` of the result is the element of the same group selected
by bits `2j+1 : 2j` of `imm8`. -/
def mm512_shuffle_epi32 (a : m512i) (imm8 : Nat) : m512i := fun l =>
  dword a (4 * (2 * l / 4) + imm8 / 4 ^ (2 * l % 4) % 4)
    + 2 ^ 32 * dword a (4 * ((2 * l + 1) / 4) + imm8 / 4 ^ ((2 * l + 1) % 4) % 4)

/-- Intel intrinsic `_mm512_mul_epu32`: the 64-bit product of the low 32-bit
halves of the lanes. -/
def mm512_mul_epu32 (a b : m512i) : m512i := fun l => (a l % 2 ^ 32) * (b l % 2 ^ 32)

/-- Intel intrinsic `_mm512_srli_epi64`: lane-wise logical shift right. -/
def mm512_srli_epi64 (a : m512i) (imm8 : Nat) : m512i := fun l =>
  if imm8 > 63 then 0 else a l >>> imm8

/-- Intel intrinsic `_mm512_and_si512`: bitwise and. -/
def mm512_and_si512 (a b : m512i) : m512i := fun l => a l &&& b l

/-- Intel intrinsic `_mm512_min_epu64`: lane-wise unsigned minimum. -/
def mm512_min_epu64 (a b : m512i) : m512i := fun l => min (a l) (b l)

/-- Intel intrinsic `_mm512_cmpgt_epi64_mask`: bit `l` of the mask says that
lane `l` of `a` is greater than lane `l` of `b` as signed integers. -/
def mm512_cmpgt_epi64_mask (a b : m512i) : Nat → Bool := fun l =>
  decide (toS64 (a l) > toS64 (b l))

/-- The comparison operand `_MM_CMPINT_NLT` (not less than). -/
def MM_CMPINT_NLT : Nat := 5

/-- Intel intrinsic `_mm512_cmp_epi64_mask`: the signed comparison selected by
`imm8` (0 equal, 1 less, 2 less or equal, 3 false, 4 not equal, 5 not less,
6 not less or equal, 7 true). -/
def mm512_cmp_epi64_mask (a b : m512i) (imm8 : Nat) : Nat → Bool := fun l =>
  match imm8 % 8 with
  | 0 => decide (toS64 (a l) = toS64 (b l))
  | 1 => decide (toS64 (a l) < toS64 (b l))
  | 2 => decide (toS64 (a l) ≤ toS64 (b l))
  | 3 => false
  | 4 => decide (toS64 (a l) ≠ toS64 (b l))
  | 5 => decide (¬ toS64 (a l) < toS64 (b l))
  | 6 => decide (¬ toS64 (a l) ≤ toS64 (b l))
  | _ => true

/-- Intel intrinsic `_mm_set1_epi64x`: both 64-bit lanes of a `__m128i` hold the
bit pattern of the signed value `a`. -/
def mm_set1_epi64x (a : Int) : Nat → Nat := fun _ => toU64 a

/-- Intel intrinsic `_mm512_maskz_broadcastq_epi64`: lane `l` is the low lane of
`a` when bit `l` of the mask is set, and 0 otherwise. -/
def mm512_maskz_broadcastq_epi64 (k : Nat → Bool) (a : Nat → Nat) : m512i := fun l =>
  if k l then a 0 else 0

/-- Source function `avx512_cmplt_epu64(a, b)` of `src/ntt/avx512_util.hpp`. -/
def ntt.avx512_cmplt_epu64 (a b : m512i) : m512i :=
  let as := mm512_add_epi64 a (mm512_set1_epi64 0x8000000000000000)
  let bs := mm512_add_epi64 b (mm512_set1_epi64 0x8000000000000000)
  let mask := mm512_cmpgt_epi64_mask bs as
  let max_uint : Int := -1
  mm512_maskz_broadcastq_epi64 mask (mm_set1_epi64x max_uint)

/-- Source function `avx512_cmpgteq_epu64(a, b)` of `src/ntt/avx512_util.hpp`. -/
def ntt.avx512_cmpgteq_epu64 (a b : m512i) : m512i :=
  let mask := mm512_cmp_epi64_mask a b MM_CMPINT_NLT
  let max_uint : Int := -1
  let avx_max_uint := mm_set1_epi64x max_uint
  mm512_maskz_broadcastq_epi64 mask avx_max_uint

/-- Source function `avx512_multiply_uint64_hi(x, y)` of `src/ntt/avx512_util.hpp`. -/
def ntt.avx512_multiply_uint64_hi (x y : m512i) : m512i :=
  let lomask := mm512_set1_epi64 0x00000000ffffffff
  let xh := mm512_shuffle_epi32 x 0xB1
  let yh := mm512_shuffle_epi32 y 0xB1
  let w0 := mm512_mul_epu32 x y
  let w1 := mm512_mul_epu32 x yh
  let w2 := mm512_mul_epu32 xh y
  let w3 := mm512_mul_epu32 xh yh
  let w0h := mm512_srli_epi64 w0 32
  let s1 := mm512_add_epi64 w1 w0h
  let s1l := mm512_and_si512 s1 lomask
  let s1h := mm512_srli_epi64 s1 32
  let s2 := mm512_add_epi64 w2 s1l
  let s2h := mm512_srli_epi64 s2 32
  let hi1 := mm512_add_epi64 w3 s1h
  mm512_add_epi64 hi1 s2h

/-- Source function `avx512_multiply_uint64_hi<64>(x, y)` of
`src/intel-lattice/util/avx512_util.hpp`, the specialisation for 64 bits. -/
def avx512_multiply_uint64_hi_64 (x y : m512i) : m512i :=
  let lomask := mm512_set1_epi64 0x00000000ffffffff
  let xh := mm512_shuffle_epi32 x 0xB1
  let yh := mm512_shuffle_epi32 y 0xB1
  let w0 := mm512_mul_epu32 x y
  let w1 := mm512_mul_epu32 x yh
  let w2 := mm512_mul_epu32 xh y
  let w3 := mm512_mul_epu32 xh yh
  let w0h := mm512_srli_epi64 w0 32
  let s1 := mm512_add_epi64 w1 w0h
  let s1l := mm512_and_si512 s1 lomask
  let s1h := mm512_srli_epi64 s1 32
  let s2 := mm512_add_epi64 w2 s1l
  let s2h := mm512_srli_epi64 s2 32
  let hi1 := mm512_add_epi64 w3 s1h
  mm512_add_epi64 hi1 s2h

/-- Source function `avx512_multiply_uint64(x, y, hi, lo)` of
`src/intel-lattice/util/avx512_util.hpp`; the pair is `(*hi, *lo)`. -/
def avx512_multiply_uint64 (x y : m512i) : m512i × m512i :=
  let lomask := mm512_set1_epi64 0x00000000ffffffff
  let xh := mm512_shuffle_epi32 x 0xB1
  let yh := mm512_shuffle_epi32 y 0xB1
  let w0 := mm512_mul_epu32 x y
  let w1 := mm512_mul_epu32 x yh
  let w2 := mm512_mul_epu32 xh y
  let w3 := mm512_mul_epu32 xh yh
  let w0h := mm512_srli_epi64 w0 32
  let s1 := mm512_add_epi64 w1 w0h
  let s1l := mm512_and_si512 s1 lomask
  let s1h := mm512_srli_epi64 s1 32
  let s2 := mm512_add_epi64 w2 s1l
  let s2h := mm512_srli_epi64 s2 32
  let hi1 := mm512_add_epi64 w3 s1h
  let hi1 := mm512_add_epi64 hi1 s2h
  let lo1 := mm512_mullo_epi64 x y
  (hi1, lo1)

/-- Source function `avx512_mod_epu64(x, p)` of
`src/intel-lattice/util/avx512_util.hpp`. -/
def avx512_mod_epu64 (x p : m512i) : m512i :=
  mm512_min_epu64 x (mm512_sub_epi64 x p)

/-! ## number-theory.cpp: the Euclid loop over unbounded integers -/

/-- The loop `while (a > 1)` of `InverseUIntMod` with the `int64_t` variables
held as unbounded integers, so that nothing wraps. The list collects, round by
round, every value the code stores in an `int64_t`: the quotient `q`,
`t = modulus`, `t = y`, the product `q * y`, the difference `x - q * y` and the
new `x`. -/
def InverseUIntModExactLoop :
    Nat → Nat → Nat → Int → Int → List Int → Option (Int × List Int)
  | 0, a, _, x, _, trace => if a > 1 then none else some (x, trace)
  | fuel + 1, a, modulus, x, y, trace =>
    if a > 1 then
      if modulus = 0 then none
      else
        let q : Int := ((a / modulus : Nat) : Int)
        let t : Int := (modulus : Int)
        let modulus1 := a % modulus
        let a1 := modulus
        let t1 := y
        let y1 := x - q * y
        let x1 := t1
        InverseUIntModExactLoop fuel a1 modulus1 x1 y1 (trace ++ [q, t, t1, q * y, y1, x1])
    else some (x, trace)

/-- The function `InverseUIntMod(input, modulus)` over unbounded integers: the
value it returns and the list of all values stored in an `int64_t`, starting
with `m0`, `y = 0`, `x = 1` and ending with `x + m0` when `x` is negative. -/
def InverseUIntModExact (input modulus : Nat) : Option (Int × List Int) :=
  if modulus = 0 then none
  else
    let a := input % modulus
    if a = 0 then none
    else if modulus = 1 then some (0, [])
    else
      let m0 : Int := (modulus : Int)
      (InverseUIntModExactLoop 128 a modulus 1 0 [m0, 0, 1]).map
        (fun r => if r.1 < 0 then (r.1 + m0, r.2 ++ [r.1 + m0]) else r)

/-! ## Proof devices and sample values -/

/-- Invariant of the Euclid loop of `InverseUIntMod`: Bezout congruences for
both coefficients, alternating signs, and the identity `|x|·m + |y|·a = m0`. -/
structure EuclidInv (a0 m0 a m : Nat) (x y : Int) : Prop where
  cop : Nat.Coprime a m
  hx : (m0 : Int) ∣ x * a0 - a
  hy : (m0 : Int) ∣ y * a0 - m
  sgn : (0 ≤ x ∧ y ≤ 0 ∧ x * m - y * a = m0) ∨ (x ≤ 0 ∧ 0 ≤ y ∧ -x * m + y * a = m0)
  xlo : -(m0 : Int) ≤ x
  xhi : x ≤ m0
  le : m ≤ a
  ab : a ≤ m0

/-- Proof device: the common shape of the three innermost butterfly loops. -/
def pairLoop (f : Nat → Nat → Option (Nat × Nat)) (t : Nat) :
    Nat → Nat → List Nat → Option (List Nat)
  | 0, _, e => some e
  | cnt + 1, j, e =>
    match f (e.getD j 0) (e.getD (j + t) 0) with
    | none => none
    | some xy => pairLoop f t cnt (j + 1) ((e.set j xy.1).set (j + t) xy.2)

/-- What one run of a butterfly loop leaves in the buffer: each pair
`(p, p + t)` with `j ≤ p < j + cnt` holds the butterfly of the old pair,
everything else is untouched. -/
structure PairSpec (f : Nat → Nat → Option (Nat × Nat)) (ok : Nat → Prop) (t cnt j : Nat)
    (e e1 : List Nat) : Prop where
  len : e1.length = e.length
  ok1 : ∀ p, p < e1.length → ok (e1.getD p 0)
  pair : ∀ p, j ≤ p → p < j + cnt →
    f (e.getD p 0) (e.getD (p + t) 0) = some (e1.getD p 0, e1.getD (p + t) 0)
  frame : ∀ p, ¬ (j ≤ p ∧ p < j + cnt) → ¬ (j + t ≤ p ∧ p < j + t + cnt) →
    e1.getD p 0 = e.getD p 0

/-- Proof device: the common shape of the loops over butterfly groups. -/
def groupLoop (f : Nat → Nat → Nat → Option (Nat × Nat)) (t : Nat) :
    Nat → Nat → Nat → List Nat → Option (List Nat)
  | 0, _, _, e => some e
  | cnt + 1, i, j1, e =>
    match pairLoop (f i) t t j1 e with
    | none => none
    | some e1 => groupLoop f t cnt (i + 1) (j1 + 2 * t) e1

/-- What one butterfly layer leaves in the buffer. -/
structure LayerSpec (f : Nat → Nat → Nat → Option (Nat × Nat)) (ok : Nat → Prop)
    (t cnt i : Nat) (e e1 : List Nat) : Prop where
  len : e1.length = e.length
  ok1 : ∀ p, p < e1.length → ok (e1.getD p 0)
  pair : ∀ i1 j, i ≤ i1 → i1 < i + cnt → j < t →
    f i1 (e.getD (2 * t * i1 + j) 0) (e.getD (2 * t * i1 + j + t) 0)
      = some (e1.getD (2 * t * i1 + j) 0, e1.getD (2 * t * i1 + j + t) 0)
  frame : ∀ p, ¬ (2 * t * i ≤ p ∧ p < 2 * t * (i + cnt)) → e1.getD p 0 = e.getD p 0

/-- State of the table loop before round `i`: the powers `w^0 .. w^(i-1)` sit
at their bit-reversed positions, each with its inverse. -/
structure RootInv (q w k i : Nat) (R Rinv : List Nat) : Prop where
  lenR : R.length = 2 ^ k
  lenI : Rinv.length = 2 ^ k
  val : ∀ i1, i1 < i → R.getD (ReverseBitsUInt i1 k) 0 = w ^ i1 % q
  inv : ∀ i1, i1 < i → InverseUIntMod (w ^ i1 % q) q = some (Rinv.getD (ReverseBitsUInt i1 k) 0)

/-- Contents of the tables built by `ComputeRootOfUnityPowers` for degree `2^k`. -/
structure TablesSpec (q w k : Nat) (T : NTTTables) : Prop where
  lenR : T.root_of_unity_powers.length = 2 ^ k
  lenI : T.inv_root_of_unity_powers.length = 2 ^ k
  root : ∀ i, i < 2 ^ k → T.root_of_unity_powers.getD (ReverseBitsUInt i k) 0 = w ^ i % q
  inv0 : T.inv_root_of_unity_powers.getD 0 0 = 1
  inv : ∀ s i, s < k → i < 2 ^ s →
    InverseUIntMod (T.root_of_unity_powers.getD (2 ^ s + i) 0) q
      = some (T.inv_root_of_unity_powers.getD (2 ^ k - 2 ^ (s + 1) + 1 + i) 0)
  p64 : T.precon64_root_of_unity_powers
    = T.root_of_unity_powers.map (fun r => r * 2 ^ 64 / q % 2 ^ 64)
  p52 : T.precon52_root_of_unity_powers
    = T.root_of_unity_powers.map (fun r => r * 2 ^ 52 / q % 2 ^ 64)
  ip64 : T.precon64_inv_root_of_unity_powers
    = T.inv_root_of_unity_powers.map (fun r => r * 2 ^ 64 / q % 2 ^ 64)
  ip52 : T.precon52_inv_root_of_unity_powers
    = T.inv_root_of_unity_powers.map (fun r => r * 2 ^ 52 / q % 2 ^ 64)

/-- Proof device: a forward (Cooley-Tukey) butterfly layer with half-width `t`
on an array of residues; `W i` is the twiddle of group `i`. -/
def bflyF {q : Nat} (W : Nat → ZMod q) (t : Nat) (A : Nat → ZMod q) (p : Nat) : ZMod q :=
  if p % (2 * t) < t then A p + W (p / (2 * t)) * A (p + t)
  else A (p - t) - W (p / (2 * t)) * A p

/-- Proof device: an inverse (Gentleman-Sande) butterfly layer with half-width
`t` on an array of residues. -/
def bflyG {q : Nat} (W : Nat → ZMod q) (t : Nat) (B : Nat → ZMod q) (p : Nat) : ZMod q :=
  if p % (2 * t) < t then B p + B (p + t)
  else W (p / (2 * t)) * (B (p - t) - B p)

/-- Two arrays of residues agree on the first `n` positions. -/
def AgreeOn {q : Nat} (n : Nat) (A B : Nat → ZMod q) : Prop := ∀ p, p < n → A p = B p

/-- Proof device: the twiddle factor of group `i` in layer `s`. -/
def twid {q : Nat} (k : Nat) (ω : ZMod q) (s i : Nat) : ZMod q :=
  ω ^ ReverseBitsUInt (2 ^ s + i) k

/-- Proof device: the forward layers `s, s+1, .., s+d-1` on residues, with
twiddle `W s i` for group `i` of layer `s`. -/
def fwdZg {q : Nat} (W : Nat → Nat → ZMod q) (k : Nat) :
    Nat → Nat → (Nat → ZMod q) → (Nat → ZMod q)
  | 0, _, A => A
  | d + 1, s, A => fwdZg W k d (s + 1) (bflyF (W s) (2 ^ (k - 1 - s)) A)

/-- Proof device: the inverse layers `s, s-1, .., s-d+1` on residues. -/
def invZg {q : Nat} (W : Nat → Nat → ZMod q) (k : Nat) :
    Nat → Nat → (Nat → ZMod q) → (Nat → ZMod q)
  | 0, _, B => B
  | d + 1, s, B => invZg W k d (s - 1) (bflyG (W s) (2 ^ (k - 1 - s)) B)

/-- Proof device: after the layers `0 .. s-1`, block `i` of width `2^(k-s)` holds
the input reduced modulo `X^(2^(k-s)) - ω^((2·rev_s(i)+1)·2^(k-s))`. -/
def BlockInv {q : Nat} (k : Nat) (ω : ZMod q) (A0 : Nat → ZMod q) (s : Nat)
    (A : Nat → ZMod q) : Prop :=
  ∀ i j, i < 2 ^ s → j < 2 ^ (k - s) →
    A (i * 2 ^ (k - s) + j)
      = ∑ l in Finset.range (2 ^ s),
          A0 (j + l * 2 ^ (k - s)) * (ω ^ ((2 * ReverseBitsUInt i s + 1) * 2 ^ (k - s))) ^ l

/-- Proof device: a buffer read as an array of residues modulo `q`. -/
def resid (q : Nat) (e : List Nat) (p : Nat) : ZMod q := ((e.getD p 0 : Nat) : ZMod q)

/-- What the forward transform needs from its two tables: reduced roots and
their Barrett factors. -/
structure FwdTab (q k : Nat) (R P : List Nat) : Prop where
  lt : ∀ idx, idx < 2 ^ k → R.getD idx 0 < q
  pre : ∀ idx, idx < 2 ^ k → P.getD idx 0 = R.getD idx 0 * 2 ^ 64 / q

/-- Proof device: the twiddle the forward transform reads for group `i` of
layer `2^s`, as a residue. -/
def tabW (q : Nat) (R : List Nat) (s i : Nat) : ZMod q := ((R.getD (2 ^ s + i) 0 : Nat) : ZMod q)

/-- What the inverse transform needs from its two tables: the entry consumed
by group `i` of layer `2^s` is the inverse twiddle of that group. -/
structure InvTab (q k : Nat) (IR IP : List Nat) : Prop where
  lt : ∀ s i, s < k → i < 2 ^ s → IR.getD (2 ^ k - 2 ^ (s + 1) + 1 + i) 0 < q
  pre : ∀ s i, s < k → i < 2 ^ s →
    IP.getD (2 ^ k - 2 ^ (s + 1) + 1 + i) 0
      = IR.getD (2 ^ k - 2 ^ (s + 1) + 1 + i) 0 * 2 ^ 64 / q

/-- Proof device: the twiddle the inverse transform reads for group `i` of
layer `2^s`, as a residue. -/
def itabW (q k : Nat) (IR : List Nat) (s i : Nat) : ZMod q :=
  ((IR.getD (2 ^ k - 2 ^ (s + 1) + 1 + i) 0 : Nat) : ZMod q)

/-- Proof device: the body of the fused last loop of the inverse transform. -/
def finalButterfly (q tm inv_n inv_n_w X Y : Nat) : Option (Nat × Nat) :=
  match MultiplyUIntModLazy64_3
      (sub64 (add64 X Y) (tm &&& mask64 (decide (add64 X Y ≥ tm)))) inv_n q,
    MultiplyUIntModLazy64_3 (sub64 (add64 X tm) Y) inv_n_w q with
  | some x, some y => some (x, y)
  | _, _ => none

/-- Proof device: where the reordering stores the inverse of root-table entry
`j`: entry `0` stays, entry `2^s + i` moves to `n - 2^(s+1) + 1 + i`. -/
def reorderPos (k j : Nat) : Nat :=
  if j = 0 then 0 else 2 ^ k - 2 ^ (Nat.log 2 j + 1) + 1 + (j - 2 ^ Nat.log 2 j)

/-- The object that `NTTImpl(4, 17, 2)` builds in a build without the AVX512
flags; it instantiates `NTTImpl` in closed statements. -/
def NTTImpl.sample : NTTImpl :=
  { m_degree := 4
    m_p := 17
    m_w := 2
    m_degree_bits := 2
    m_winv := 9
    m_fwd_bit_shift := 64
    m_inv_bit_shift := 64
    tables :=
      { root_of_unity_powers := [1, 4, 2, 8]
        precon52_root_of_unity_powers :=
          [264917625139440, 1059670500557763, 529835250278881, 2119341001115527]
        precon64_root_of_unity_powers :=
          [1085102592571150095, 4340410370284600380, 2170205185142300190,
            8680820740569200760]
        inv_root_of_unity_powers := [1, 9, 15, 13]
        precon52_inv_root_of_unity_powers :=
          [264917625139440, 2384258626254968, 3973764377091614, 3443929126812732]
        precon64_inv_root_of_unity_powers :=
          [1085102592571150095, 9765923333140350855, 16276538888567251425,
            14106333703424951235] } }

/-- A build and CPU given by the four flags and the two IFMA thresholds, with
stand-ins for the SIMD kernels that return their bit shift as the only word of
the buffer, so that the result of a transform tells which kernel ran; it
instantiates `NTTEnv` in closed statements. -/
def NTTEnv.probe (ifma_flag dq_flag ifma dq : Bool) (max_fwd max_inv : Nat) : NTTEnv :=
  { LATTICE_HAS_AVX512IFMA := ifma_flag
    LATTICE_HAS_AVX512DQ := dq_flag
    has_avx512_ifma := ifma
    has_avx512_dq := dq
    s_max_fwd_ifma_modulus := max_fwd
    s_max_inv_ifma_modulus := max_inv
    ForwardTransformToBitReverseAVX512 := fun BitShift _ _ _ _ _ _ _ => some [BitShift]
    InverseTransformFromBitReverseAVX512 := fun BitShift _ _ _ _ _ _ _ => some [BitShift] }

/-! ## Proofs -/

open Finset

theorem sub64_mod_of_le (a b : Nat) (h : b ≤ a) :
    sub64 (a % 2 ^ 64) (b % 2 ^ 64) = (a - b) % 2 ^ 64 := by
  unfold sub64
  norm_num
  omega

theorem add64_of_lt (a b : Nat) (h : a + b < 2 ^ 64) : add64 a b = a + b := by
  unfold add64; exact Nat.mod_eq_of_lt h

theorem sub64_of_le (a b : Nat) (ha : a < 2 ^ 64) (h : b ≤ a) : sub64 a b = a - b := by
  unfold sub64
  norm_num at *
  omega

theorem mul64_of_lt (a b : Nat) (h : a * b < 2 ^ 64) : mul64 a b = a * b := by
  unfold mul64; exact Nat.mod_eq_of_lt h

theorem land_mask64 (a : Nat) (b : Bool) (ha : a < 2 ^ 64) :
    a &&& mask64 b = if b then a else 0 := by
  cases b
  · simp [mask64]
  · simp only [mask64, if_true]
    rw [Nat.and_pow_two_sub_one_eq_mod]
    exact Nat.mod_eq_of_lt ha

/-- The quotient estimate of the lazy multiply is at most the true quotient and
misses it by less than two. -/
theorem lazy_quotient_bounds (q W y : Nat) (hW : W < q) (hy : y < 2 ^ 64) :
    (y * (W * 2 ^ 64 / q) / 2 ^ 64) * q ≤ y * W ∧
    y * W < (y * (W * 2 ^ 64 / q) / 2 ^ 64) * q + 2 * q := by
  have hq : 0 < q := by omega
  set Wp := W * 2 ^ 64 / q with hWp
  set Q := y * Wp / 2 ^ 64 with hQ
  have h1 : Wp * q ≤ W * 2 ^ 64 := Nat.div_mul_le_self _ _
  have h2 : W * 2 ^ 64 < (Wp + 1) * q := by
    have e := Nat.div_add_mod (W * 2 ^ 64) q
    have l := Nat.mod_lt (W * 2 ^ 64) hq
    rw [← hWp] at e
    nlinarith
  have h3 : Q * 2 ^ 64 ≤ y * Wp := Nat.div_mul_le_self _ _
  have h4 : y * Wp < (Q + 1) * 2 ^ 64 := by
    have e := Nat.div_add_mod (y * Wp) (2 ^ 64)
    have l := Nat.mod_lt (y * Wp) (show 0 < 2 ^ 64 by positivity)
    rw [← hQ] at e
    nlinarith
  constructor
  · have : Q * q * 2 ^ 64 ≤ y * W * 2 ^ 64 := by
      calc Q * q * 2 ^ 64 = (Q * 2 ^ 64) * q := by ring
        _ ≤ (y * Wp) * q := Nat.mul_le_mul_right _ h3
        _ = y * (Wp * q) := by ring
        _ ≤ y * (W * 2 ^ 64) := Nat.mul_le_mul_left _ h1
        _ = y * W * 2 ^ 64 := by ring
    exact Nat.le_of_mul_le_mul_right this (by positivity)
  · have : y * W * 2 ^ 64 < (Q * q + 2 * q) * 2 ^ 64 := by
      calc y * W * 2 ^ 64 = y * (W * 2 ^ 64) := by ring
        _ ≤ y * ((Wp + 1) * q) := Nat.mul_le_mul_left _ h2.le
        _ = (y * Wp) * q + y * q := by ring
        _ < ((Q + 1) * 2 ^ 64) * q + 2 ^ 64 * q := by
            have a1 : (y * Wp) * q ≤ ((Q + 1) * 2 ^ 64) * q := Nat.mul_le_mul_right _ h4.le
            have a2 : y * q < 2 ^ 64 * q := Nat.mul_lt_mul_of_pos_right hy hq
            omega
        _ = (Q * q + 2 * q) * 2 ^ 64 := by ring
    exact Nat.lt_of_mul_lt_mul_right this

/-- Value of the lazy multiply: the exact difference `y·W − Q·q`. -/
theorem lazy_eq (q W y : Nat) (hq : 2 * q ≤ 2 ^ 64) (hW : W < q) (hy : y < 2 ^ 64) :
    MultiplyUIntModLazy64 y W (W * 2 ^ 64 / q) q
      = y * W - (y * (W * 2 ^ 64 / q) / 2 ^ 64) * q := by
  obtain ⟨h1, h2⟩ := lazy_quotient_bounds q W y hW hy
  unfold MultiplyUIntModLazy64 MultiplyUInt64Hi64 mul64
  simp only []
  rw [sub64_mod_of_le _ _ (by rw [Nat.mul_comm W y]; exact h1), Nat.mul_comm W y]
  apply Nat.mod_eq_of_lt
  omega

theorem lazy_lt (q W y : Nat) (hq : 2 * q ≤ 2 ^ 64) (hW : W < q) (hy : y < 2 ^ 64) :
    MultiplyUIntModLazy64 y W (W * 2 ^ 64 / q) q < 2 * q := by
  obtain ⟨h1, h2⟩ := lazy_quotient_bounds q W y hW hy
  rw [lazy_eq q W y hq hW hy]; omega

theorem lazy_modEq (q W y : Nat) (hq : 2 * q ≤ 2 ^ 64) (hW : W < q) (hy : y < 2 ^ 64) :
    MultiplyUIntModLazy64 y W (W * 2 ^ 64 / q) q ≡ y * W [MOD q] := by
  obtain ⟨h1, h2⟩ := lazy_quotient_bounds q W y hW hy
  rw [lazy_eq q W y hq hW hy]
  unfold Nat.ModEq
  rw [Nat.mul_comm _ q] at h1 ⊢
  exact Nat.sub_mul_mod h1

theorem MultiplyUIntMod_eq (x y m : Nat) (hx : x < m) (hy : y < m) :
    MultiplyUIntMod x y m = some (x * y % m) := by
  have hm : m ≠ 0 := by omega
  simp [MultiplyUIntMod, BarrettReduce128, hm, hx, hy]

theorem PowModLoop_eq (m : Nat) (hm : 2 ≤ m) :
    ∀ (fuel base exp result : Nat), base < m → result < m → exp < 2 ^ fuel →
      PowModLoop m fuel base exp result = some (result * base ^ exp % m) := by
  intro fuel
  induction fuel with
  | zero =>
    intro base exp result hb hr he
    have : exp = 0 := by simpa using he
    subst this
    simp [PowModLoop, Nat.mod_eq_of_lt hr]
  | succ fuel ih =>
    intro base exp result hb hr he
    unfold PowModLoop
    by_cases h0 : exp > 0
    · simp only [h0, if_true]
      have hb2 : base * base % m < m := Nat.mod_lt _ (by omega)
      have he2 : exp >>> 1 < 2 ^ fuel := by
        rw [Nat.shiftRight_eq_div_pow]; rw [pow_succ] at he; omega
      rw [MultiplyUIntMod_eq base base m hb hb]
      have key : ∀ r, r < m → r * (base * base % m) ^ (exp / 2) % m = r * (base * base) ^ (exp / 2) % m := by
        intro r _
        rw [Nat.mul_mod, Nat.pow_mod, Nat.mod_mod, ← Nat.pow_mod, ← Nat.mul_mod]
      by_cases hodd : exp &&& 1 ≠ 0
      · rw [if_pos hodd]
        rw [MultiplyUIntMod_eq result base m hr hb]
        simp only [Option.bind_eq_bind, Option.some_bind]
        rw [ih _ _ _ hb2 (Nat.mod_lt _ (by omega)) he2, Nat.shiftRight_eq_div_pow, pow_one]
        congr 1
        rw [Nat.and_one_is_mod] at hodd
        have hexp : exp = 2 * (exp / 2) + 1 := by omega
        rw [key _ (Nat.mod_lt _ (by omega))]
        conv_rhs => rw [hexp, pow_succ, pow_mul]
        rw [Nat.mul_mod, Nat.mod_mod, ← Nat.mul_mod]
        congr 1
        rw [pow_two]; ring
      · rw [if_neg hodd]
        simp only [Option.bind_eq_bind, Option.some_bind]
        rw [ih _ _ _ hb2 hr he2, Nat.shiftRight_eq_div_pow, pow_one]
        congr 1
        rw [Nat.and_one_is_mod] at hodd
        have hexp : exp = 2 * (exp / 2) := by omega
        rw [key _ hr]
        conv_rhs => rw [hexp, pow_mul]
        rw [pow_two]
    · have : exp = 0 := by omega
      subst this
      simp [Nat.mod_eq_of_lt hr]

theorem PowMod_eq (b e m : Nat) (hm : 2 ≤ m) (he : e < 2 ^ 64) :
    PowMod b e m = some (b ^ e % m) := by
  unfold PowMod
  rw [if_neg (by omega), PowModLoop_eq m hm 64 (b % m) e 1 (Nat.mod_lt _ (by omega)) (by omega) he]
  rw [one_mul, ← Nat.pow_mod]

theorem toS64_of_lt (u : Nat) (h : u < 2 ^ 63) : toS64 u = (u : Int) := by
  unfold toS64
  have h1 : u % 2 ^ 64 = u := Nat.mod_eq_of_lt (by omega)
  rw [h1, if_pos h]

theorem wrapS64_of_range (z : Int) (h1 : -(2 ^ 63) ≤ z) (h2 : z < 2 ^ 63) : wrapS64 z = z := by
  unfold wrapS64
  norm_num at *
  omega

theorem toU64_natCast (u : Nat) (h : u < 2 ^ 64) : toU64 (u : Int) = u := by
  unfold toU64
  norm_num at *
  omega

theorem EuclidInv.exit {a0 m0 a m : Nat} {x y : Int} (inv : EuclidInv a0 m0 a m x y)
    (ha1 : ¬ a > 1) : (m0 : Int) ∣ x * a0 - 1 := by
  have ha : a = 1 := by
    have hle := inv.le
    have := inv.cop
    rcases Nat.lt_or_ge a 1 with h | h
    · have h0 : a = 0 := by omega
      have hm : m = 0 := by omega
      rw [h0, hm] at this
      simp at this
    · omega
  have := inv.hx
  rw [ha] at this
  simpa using this

theorem EuclidInv.modulus_pos {a0 m0 a m : Nat} {x y : Int} (inv : EuclidInv a0 m0 a m x y)
    (ha1 : a > 1) : 0 < m := by
  rcases Nat.eq_zero_or_pos m with hm | hm
  · have := inv.cop
    rw [hm, Nat.coprime_zero_right] at this
    omega
  · exact hm

theorem EuclidInv.step {a0 m0 a m : Nat} {x y : Int} (inv : EuclidInv a0 m0 a m x y)
    (ha1 : a > 1) :
    EuclidInv a0 m0 m (a % m) y (x - ((a / m : Nat) : Int) * y) ∧
    -(m0 : Int) ≤ ((a / m : Nat) : Int) * y ∧ ((a / m : Nat) : Int) * y ≤ m0 ∧
    -(m0 : Int) ≤ x - ((a / m : Nat) : Int) * y ∧ x - ((a / m : Nat) : Int) * y ≤ m0 := by
  have hmpos := inv.modulus_pos ha1
  have hmI : (0 : Int) < (m : Int) := by exact_mod_cast hmpos
  have haI : (1 : Int) < (a : Int) := by exact_mod_cast ha1
  have key : ((a % m : Nat) : Int) = (a : Int) - ((a / m : Nat) : Int) * m := by
    have := Nat.div_add_mod a m
    have h2 : ((m * (a / m) + a % m : Nat) : Int) = (a : Int) := by rw [this]
    push_cast at h2 ⊢
    linarith
  have hq0 : (0 : Int) ≤ ((a / m : Nat) : Int) := Int.natCast_nonneg _
  have hr0 : (0 : Int) ≤ ((a % m : Nat) : Int) := Int.natCast_nonneg _
  set qi : Int := ((a / m : Nat) : Int) with hqi
  set r : Int := ((a % m : Nat) : Int) with hr
  have hsgn : (0 ≤ y ∧ x - qi * y ≤ 0 ∧ y * r - (x - qi * y) * m = m0) ∨
      (y ≤ 0 ∧ 0 ≤ x - qi * y ∧ -y * r + (x - qi * y) * m = m0) := by
    rcases inv.sgn with ⟨h1, h2, h3⟩ | ⟨h1, h2, h3⟩
    · right
      refine ⟨h2, by nlinarith, by rw [key]; linear_combination h3⟩
    · left
      refine ⟨h2, by nlinarith, by rw [key]; linear_combination h3⟩
  have hyb : -(m0 : Int) ≤ y ∧ y ≤ m0 := by
    rcases inv.sgn with ⟨h1, h2, h3⟩ | ⟨h1, h2, h3⟩
    · constructor
      · nlinarith
      · have : (0:Int) ≤ m0 := Int.natCast_nonneg _
        linarith
    · constructor
      · have : (0:Int) ≤ m0 := Int.natCast_nonneg _
        linarith
      · nlinarith
  have hy1b : -(m0 : Int) ≤ x - qi * y ∧ x - qi * y ≤ m0 := by
    have hm0 : (0:Int) ≤ m0 := Int.natCast_nonneg _
    rcases hsgn with ⟨h1, h2, h3⟩ | ⟨h1, h2, h3⟩
    · constructor
      · nlinarith
      · linarith
    · constructor
      · linarith
      · nlinarith
  have hqyb : -(m0 : Int) ≤ qi * y ∧ qi * y ≤ m0 := by
    rcases inv.sgn with ⟨h1, h2, h3⟩ | ⟨h1, h2, h3⟩
    · have : qi * y ≤ 0 := by nlinarith
      have hm0 : (0:Int) ≤ m0 := Int.natCast_nonneg _
      constructor
      · linarith [hy1b.2]
      · linarith
    · have : 0 ≤ qi * y := by nlinarith
      have hm0 : (0:Int) ≤ m0 := Int.natCast_nonneg _
      constructor
      · linarith
      · linarith [hy1b.1]
  refine ⟨⟨?_, inv.hy, ?_, hsgn, hyb.1, hyb.2, ?_, ?_⟩, hqyb.1, hqyb.2, hy1b.1, hy1b.2⟩
  · have := inv.cop
    rw [Nat.Coprime, Nat.gcd_comm, Nat.gcd_rec] at this
    rw [Nat.Coprime, Nat.gcd_comm]
    exact this
  · have e : (x - qi * y) * a0 - r = (x * a0 - a) - qi * (y * a0 - m) := by
      rw [key]; ring
    rw [e]
    exact Dvd.dvd.sub inv.hx (Dvd.dvd.mul_left inv.hy _)
  · exact (Nat.mod_lt _ hmpos).le
  · exact le_trans inv.le inv.ab

theorem InverseUIntModLoop_spec (a0 m0 : Nat) (hm0 : m0 < 2 ^ 63) :
    ∀ (fuel a m : Nat) (x y : Int), EuclidInv a0 m0 a m x y → a * m < 2 ^ fuel →
      ∃ x1, InverseUIntModLoop fuel a m x y = some x1 ∧ (m0 : Int) ∣ x1 * a0 - 1 ∧
        -(m0 : Int) ≤ x1 ∧ x1 ≤ m0 := by
  intro fuel
  induction fuel with
  | zero =>
    intro a m x y inv hlt
    have ham : a * m = 0 := by simpa using hlt
    have ha1 : ¬ a > 1 := by
      intro ha
      have := inv.modulus_pos ha
      have : 0 < a * m := Nat.mul_pos (by omega) this
      omega
    exact ⟨x, by simp [InverseUIntModLoop, ha1], inv.exit ha1, inv.xlo, inv.xhi⟩
  | succ fuel ih =>
    intro a m x y inv hlt
    unfold InverseUIntModLoop
    by_cases ha1 : a > 1
    · rw [if_pos ha1]
      have hmpos := inv.modulus_pos ha1
      rw [if_neg (by omega)]
      simp only []
      obtain ⟨inv1, q1, q2, y1, y2⟩ := inv.step ha1
      have hab := inv.ab
      have hle := inv.le
      have hdiv : a / m ≤ a := Nat.div_le_self _ _
      have hm0I : ((m0 : Nat) : Int) < 2 ^ 63 := by exact_mod_cast hm0
      rw [toS64_of_lt (a / m) (by omega), toS64_of_lt m (by omega), toU64_natCast m (by omega),
        wrapS64_of_range (((a / m : Nat) : Int) * y) (by linarith) (by linarith),
        wrapS64_of_range (x - ((a / m : Nat) : Int) * y) (by linarith) (by linarith)]
      apply ih _ _ _ _ inv1
      -- the product of the two operands at least halves
      have h1 : a % m < m := Nat.mod_lt _ hmpos
      have h2 := Nat.div_add_mod a m
      have h3 : 1 ≤ a / m := Nat.div_pos hle hmpos
      have h4 : 2 * (a % m) ≤ a := by nlinarith
      have h5 : 2 * (m * (a % m)) ≤ a * m := by nlinarith
      rw [pow_succ] at hlt
      omega
    · rw [if_neg ha1]
      exact ⟨x, rfl, inv.exit ha1, inv.xlo, inv.xhi⟩

theorem nat_mod_eq_one_of_int_dvd (input r m : Nat) (hm : 2 ≤ m)
    (hd : (m : Int) ∣ (input : Int) * r - 1) : input * r % m = 1 := by
  have h1 : ((input : Int) * r) % m = 1 % m := (Int.modEq_iff_dvd.mpr hd).symm
  have h2 : (1 : Int) % (m : Int) = 1 :=
    Int.emod_eq_of_lt (by norm_num) (by exact_mod_cast (show 1 < m by omega))
  rw [h2] at h1
  exact_mod_cast h1

/-- `InverseUIntMod` returns the inverse of every input coprime to a modulus
`2 ≤ m < 2^63`. -/
theorem InverseUIntMod_spec (input m : Nat) (hm2 : 2 ≤ m) (hm : m < 2 ^ 63)
    (hc : Nat.Coprime input m) :
    ∃ r, InverseUIntMod input m = some r ∧ r < m ∧ (input * r) % m = 1 := by
  have hmI : ((m : Nat) : Int) < 2 ^ 63 := by exact_mod_cast hm
  have hm2I : (2 : Int) ≤ (m : Int) := by exact_mod_cast hm2
  have ha0 : input % m ≠ 0 := by
    intro h
    have : m ∣ input := Nat.dvd_of_mod_eq_zero h
    have := Nat.Coprime.eq_one_of_dvd hc.symm this
    omega
  have halt : input % m < m := Nat.mod_lt _ (by omega)
  have hcop : Nat.Coprime (input % m) m := by
    rw [Nat.Coprime, ← Nat.gcd_rec, Nat.gcd_comm]; exact hc
  -- run the loop
  have hloop : ∃ x1, InverseUIntModLoop 128 (input % m) m 1 0 = some x1 ∧
      (m : Int) ∣ x1 * (input % m : Nat) - 1 ∧ -(m : Int) ≤ x1 ∧ x1 ≤ m := by
    by_cases ha1 : input % m > 1
    · have inv0 : EuclidInv (input % m) m m (input % m) 0 1 :=
        ⟨hcop.symm, by simp, by simp, Or.inr ⟨le_refl _, by norm_num, by simp⟩,
          by linarith, by linarith, halt.le, le_refl _⟩
      have hstep : InverseUIntModLoop 128 (input % m) m 1 0
          = InverseUIntModLoop 127 m (input % m) 0 1 := by
        show InverseUIntModLoop (127 + 1) (input % m) m 1 0 = _
        rw [InverseUIntModLoop, if_pos ha1, if_neg (by omega)]
        simp only []
        have hq : input % m / m = 0 := Nat.div_eq_of_lt halt
        rw [hq, Nat.mod_eq_of_lt halt, toS64_of_lt m hm, toU64_natCast m (by omega)]
        have : toS64 0 = 0 := by simp [toS64]
        rw [this]
        have h0 : wrapS64 (0 * 0) = 0 := by simp [wrapS64]
        have h1 : wrapS64 (1 - 0) = 1 := by simp [wrapS64]
        rw [h0, h1]
      rw [hstep]
      apply InverseUIntModLoop_spec (input % m) m hm 127 _ _ _ _ inv0
      have : m * (input % m) < 2 ^ 63 * 2 ^ 63 :=
        Nat.mul_lt_mul'' hm (by omega)
      calc m * (input % m) < 2 ^ 63 * 2 ^ 63 := this
        _ ≤ 2 ^ 127 := by norm_num
    · have ha : input % m = 1 := by omega
      refine ⟨1, ?_, ?_, by linarith, by linarith⟩
      · rw [ha]
        show InverseUIntModLoop (127 + 1) 1 m 1 0 = _
        unfold InverseUIntModLoop
        simp
      · rw [ha]; simp
  obtain ⟨x1, hx1, hdvd, hlo, hhi⟩ := hloop
  -- the loop result is a unit, hence not a multiple of the modulus
  have hdvd2 : (m : Int) ∣ x1 * (input : Int) - 1 := by
    have e : ((input % m : Nat) : Int) = (input : Int) - m * ((input / m : Nat) : Int) := by
      have := Nat.div_add_mod input m
      have h2 : ((m * (input / m) + input % m : Nat) : Int) = (input : Int) := by rw [this]
      push_cast at h2 ⊢
      linarith
    rw [e] at hdvd
    have : x1 * (input : Int) - 1 = (x1 * ((input : Int) - m * ((input / m : Nat) : Int)) - 1)
        + m * (x1 * ((input / m : Nat) : Int)) := by ring
    rw [this]
    exact Dvd.dvd.add hdvd (Dvd.intro _ rfl)
  have hne : ∀ z : Int, x1 ≠ m * z := by
    intro z hz
    rw [hz] at hdvd2
    have h1 : (m : Int) ∣ m * z * input := ⟨z * input, by ring⟩
    have h2 : (m : Int) ∣ 1 := by
      have := Dvd.dvd.sub h1 hdvd2
      simpa using this
    have := Int.le_of_dvd (by norm_num) h2
    linarith
  have hxlo : -(m : Int) < x1 := by
    rcases lt_or_eq_of_le hlo with h | h
    · exact h
    · exact absurd (by rw [← h]; ring) (hne (-1))
  have hxhi : x1 < m := by
    rcases lt_or_eq_of_le hhi with h | h
    · exact h
    · exact absurd (by rw [h]; ring) (hne 1)
  have hx0 : x1 ≠ 0 := by
    intro h; exact hne 0 (by rw [h]; ring)
  -- assemble
  unfold InverseUIntMod
  rw [if_neg (by omega)]
  simp only []
  rw [if_neg ha0, if_neg (by omega), hx1, toS64_of_lt m hm]
  simp only [Option.map_some']
  by_cases hneg : x1 < 0
  · rw [if_pos hneg, wrapS64_of_range _ (by linarith) (by linarith)]
    obtain ⟨r, hr⟩ := Int.eq_ofNat_of_zero_le (show 0 ≤ x1 + m by linarith)
    rw [hr, toU64_natCast r (by
      have : (r : Int) < 2 ^ 63 := by rw [← hr]; linarith
      have : r < 2 ^ 63 := by exact_mod_cast this
      omega)]
    refine ⟨r, rfl, ?_, ?_⟩
    · have : (r : Int) < m := by rw [← hr]; linarith
      exact_mod_cast this
    · have hd : (m : Int) ∣ (input : Int) * r - 1 := by
        have : (input : Int) * r - 1 = (x1 * input - 1) + m * input := by rw [← hr]; ring
        rw [this]
        exact Dvd.dvd.add hdvd2 (Dvd.intro _ rfl)
      exact nat_mod_eq_one_of_int_dvd input r m hm2 hd
  · rw [if_neg hneg]
    obtain ⟨r, hr⟩ := Int.eq_ofNat_of_zero_le (show 0 ≤ x1 by linarith)
    rw [hr, toU64_natCast r (by
      have : (r : Int) < 2 ^ 63 := by rw [← hr]; linarith
      have : r < 2 ^ 63 := by exact_mod_cast this
      omega)]
    refine ⟨r, rfl, ?_, ?_⟩
    · have : (r : Int) < m := by rw [← hr]; linarith
      exact_mod_cast this
    · have hd : (m : Int) ∣ (input : Int) * r - 1 := by
        have : (input : Int) * r - 1 = (x1 * input - 1) := by rw [← hr]; ring
        rw [this]
        exact hdvd2
      exact nat_mod_eq_one_of_int_dvd input r m hm2 hd

theorem ReverseBitsLoop_step (i x c : Nat) (hi : i < 64) :
    ReverseBitsLoop (i + 1) x (2 ^ (i + 1) * c)
      = ReverseBitsLoop i (x / 2) (2 ^ i * (2 * c + x % 2)) := by
  rw [ReverseBitsLoop]
  have hb : x % 2 < 2 := Nat.mod_lt _ (by norm_num)
  have hlt : x % 2 * 2 ^ i < 2 ^ (i + 1) := by
    rw [pow_succ]; nlinarith [(Nat.pow_pos (by norm_num) : 0 < 2 ^ i)]
  have h1 : shl64 (x &&& 1) i = x % 2 * 2 ^ i := by
    unfold shl64
    rw [Nat.and_one_is_mod, Nat.shiftLeft_eq]
    apply Nat.mod_eq_of_lt
    calc x % 2 * 2 ^ i < 2 ^ (i + 1) := hlt
      _ ≤ 2 ^ 64 := Nat.pow_le_pow_right (by norm_num) (by omega)
  rw [h1, ← Nat.mul_add_lt_is_or hlt, Nat.shiftRight_eq_div_pow, pow_one]
  congr 1
  rw [pow_succ]; ring

theorem ReverseBitsLoop_acc :
    ∀ (i x c : Nat), i ≤ 64 →
      ReverseBitsLoop i x (2 ^ i * c) = 2 ^ i * c + ReverseBitsLoop i x 0 := by
  intro i
  induction i with
  | zero => intro x c _; simp [ReverseBitsLoop]
  | succ i ih =>
    intro x c hi
    have h0 := ReverseBitsLoop_step i x 0 (by omega)
    rw [Nat.mul_zero] at h0
    rw [ReverseBitsLoop_step i x c (by omega), h0, ih _ _ (by omega),
      ih (x / 2) (2 * 0 + x % 2) (by omega)]
    rw [pow_succ]; ring

/-- Recursion of the bit reversal over its width: the lowest bit of `x` moves
to the top position. -/
theorem ReverseBitsUInt_succ (x w : Nat) (hw : w < 64) :
    ReverseBitsUInt x (w + 1) = x % 2 * 2 ^ w + ReverseBitsUInt (x / 2) w := by
  unfold ReverseBitsUInt
  rw [if_neg (by omega)]
  have h0 := ReverseBitsLoop_step w x 0 (by omega)
  rw [Nat.mul_zero] at h0
  rw [h0, ReverseBitsLoop_acc w _ _ (by omega)]
  by_cases hw0 : w = 0
  · subst hw0; simp [ReverseBitsLoop]
  · rw [if_neg hw0]; ring

theorem ReverseBitsUInt_zero (x : Nat) : ReverseBitsUInt x 0 = 0 := by
  simp [ReverseBitsUInt]

theorem ReverseBitsUInt_lt : ∀ (w x : Nat), w ≤ 64 → ReverseBitsUInt x w < 2 ^ w := by
  intro w
  induction w with
  | zero => intro x _; simp [ReverseBitsUInt]
  | succ w ih =>
    intro x hw
    rw [ReverseBitsUInt_succ x w (by omega), pow_succ]
    have := ih (x / 2) (by omega)
    have hb : x % 2 < 2 := Nat.mod_lt _ (by norm_num)
    nlinarith

/-- Adding a top bit to the argument adds a bottom bit to the reversal. -/
theorem ReverseBitsUInt_top : ∀ (w x b : Nat), w < 64 → x < 2 ^ w →
    ReverseBitsUInt (x + 2 ^ w * b) (w + 1) = 2 * ReverseBitsUInt x w + b % 2 := by
  intro w
  induction w with
  | zero =>
    intro x b _ hx
    have : x = 0 := by simpa using hx
    subst this
    rw [ReverseBitsUInt_succ _ 0 (by omega)]
    simp [ReverseBitsUInt]
  | succ w ih =>
    intro x b hw hx
    rw [ReverseBitsUInt_succ _ (w + 1) (by omega), ReverseBitsUInt_succ x w (by omega)]
    have e0 : x + 2 ^ (w + 1) * b = x + 2 * (2 ^ w * b) := by rw [pow_succ]; ring
    have e1 : (x + 2 ^ (w + 1) * b) % 2 = x % 2 := by
      rw [e0]; omega
    have e2 : (x + 2 ^ (w + 1) * b) / 2 = x / 2 + 2 ^ w * b := by
      rw [e0]; omega
    rw [e1, e2, ih (x / 2) b (by omega) (by rw [pow_succ] at hx; omega)]
    rw [pow_succ]; ring

theorem ReverseBitsUInt_invol : ∀ (w x : Nat), w ≤ 64 → x < 2 ^ w →
    ReverseBitsUInt (ReverseBitsUInt x w) w = x := by
  intro w
  induction w with
  | zero => intro x _ hx; simp [ReverseBitsUInt]; omega
  | succ w ih =>
    intro x hw hx
    rw [ReverseBitsUInt_succ x w (by omega)]
    have hlt := ReverseBitsUInt_lt w (x / 2) (by omega)
    rw [Nat.add_comm, Nat.mul_comm, ReverseBitsUInt_top w _ _ (by omega) hlt,
      ih (x / 2) (by omega) (by rw [pow_succ] at hx; omega)]
    omega

theorem ReverseBitsUInt_inj (w x y : Nat) (hw : w ≤ 64) (hx : x < 2 ^ w) (hy : y < 2 ^ w)
    (h : ReverseBitsUInt x w = ReverseBitsUInt y w) : x = y := by
  rw [← ReverseBitsUInt_invol w x hw hx, ← ReverseBitsUInt_invol w y hw hy, h]

/-- Reversing within a wider field shifts the reversal up. -/
theorem ReverseBitsUInt_widen : ∀ (d w x : Nat), w + d ≤ 64 → x < 2 ^ w →
    ReverseBitsUInt x (w + d) = 2 ^ d * ReverseBitsUInt x w := by
  intro d
  induction d with
  | zero => intro w x _ _; simp
  | succ d ih =>
    intro w x hw hx
    have h := ReverseBitsUInt_top (w + d) x 0 (by omega)
      (lt_of_lt_of_le hx (Nat.pow_le_pow_right (by norm_num) (by omega)))
    simp only [Nat.mul_zero, Nat.add_zero, Nat.zero_mod] at h
    rw [← Nat.add_assoc, h, ih w x (by omega) hx, pow_succ]; ring

/-- The twiddle index `m + i` of layer `m = 2^s` reverses to an odd multiple of
`2^(k-1-s)`. -/
theorem ReverseBitsUInt_layer (k s i : Nat) (hk : k ≤ 64) (hs : s < k) (hi : i < 2 ^ s) :
    ReverseBitsUInt (2 ^ s + i) k = 2 ^ (k - 1 - s) * (2 * ReverseBitsUInt i s + 1) := by
  have h1 : 2 ^ s + i < 2 ^ (s + 1) := by rw [pow_succ]; omega
  have h2 := ReverseBitsUInt_widen (k - 1 - s) (s + 1) (2 ^ s + i) (by omega) h1
  have e : s + 1 + (k - 1 - s) = k := by omega
  rw [e] at h2
  rw [h2]
  have h3 := ReverseBitsUInt_top s i 1 (by omega) hi
  rw [Nat.mul_one, Nat.add_comm i] at h3
  rw [h3]

theorem getD_set_eq (l : List Nat) (i a : Nat) (h : i < l.length) :
    (l.set i a).getD i 0 = a := by
  simp [List.getD_eq_getElem?_getD, List.getElem?_set_self h]

theorem getD_set_ne (l : List Nat) (i j a : Nat) (h : i ≠ j) :
    (l.set i a).getD j 0 = l.getD j 0 := by
  simp [List.getD_eq_getElem?_getD, List.getElem?_set_ne h]

theorem pairLoop_spec (f : Nat → Nat → Option (Nat × Nat)) (ok : Nat → Prop)
    (hf : ∀ X Y, ok X → ok Y → ∃ xy, f X Y = some xy ∧ ok xy.1 ∧ ok xy.2) (t : Nat) :
    ∀ (cnt j : Nat) (e : List Nat), cnt ≤ t → j + t + cnt ≤ e.length →
      (∀ p, p < e.length → ok (e.getD p 0)) →
      ∃ e1, pairLoop f t cnt j e = some e1 ∧ PairSpec f ok t cnt j e e1 := by
  intro cnt
  induction cnt with
  | zero =>
    intro j e _ _ hok
    exact ⟨e, rfl, ⟨rfl, hok, fun p h1 h2 => by omega, fun p _ _ => rfl⟩⟩
  | succ cnt ih =>
    intro j e hct hlen hok
    obtain ⟨xy, hxy, hx, hy⟩ := hf _ _ (hok j (by omega)) (hok (j + t) (by omega))
    rw [pairLoop, hxy]
    simp only []
    set e' := (e.set j xy.1).set (j + t) xy.2 with he'
    have hlen' : e'.length = e.length := by simp [he']
    have hget : ∀ p, e'.getD p 0 = if p = j + t then xy.2 else if p = j then xy.1 else e.getD p 0 := by
      intro p
      by_cases h1 : p = j + t
      · rw [if_pos h1, h1, he', getD_set_eq _ _ _ (by simp; omega)]
      · rw [if_neg h1, he', getD_set_ne _ _ _ _ (Ne.symm h1)]
        by_cases h2 : p = j
        · rw [if_pos h2, h2, getD_set_eq _ _ _ (by omega)]
        · rw [if_neg h2, getD_set_ne _ _ _ _ (Ne.symm h2)]
    have hok' : ∀ p, p < e'.length → ok (e'.getD p 0) := by
      intro p hp
      rw [hget]
      split_ifs
      · exact hy
      · exact hx
      · exact hok p (by omega)
    obtain ⟨e1, h1, s1⟩ := ih (j + 1) e' (by omega) (by omega) hok'
    refine ⟨e1, h1, ⟨by rw [s1.len, hlen'], s1.ok1, ?_, ?_⟩⟩
    · intro p hp1 hp2
      by_cases hpj : p = j
      · subst hpj
        rw [hxy, s1.frame p (by omega) (by omega), s1.frame (p + t) (by omega) (by omega),
          hget p, hget (p + t), if_neg (by omega), if_pos rfl, if_pos rfl]
      · have := s1.pair p (by omega) (by omega)
        rw [hget, hget] at this
        rw [if_neg (by omega), if_neg hpj, if_neg (by omega), if_neg (by omega)] at this
        exact this
    · intro p hp1 hp2
      rw [s1.frame p (by omega) (by omega), hget, if_neg (by omega), if_neg (by omega)]

theorem groupLoop_spec (f : Nat → Nat → Nat → Option (Nat × Nat)) (ok : Nat → Prop) (t : Nat) :
    ∀ (cnt i : Nat) (e : List Nat),
      (∀ i1, i ≤ i1 → i1 < i + cnt → ∀ X Y, ok X → ok Y →
        ∃ xy, f i1 X Y = some xy ∧ ok xy.1 ∧ ok xy.2) →
      2 * t * (i + cnt) ≤ e.length →
      (∀ p, p < e.length → ok (e.getD p 0)) →
      ∃ e1, groupLoop f t cnt i (2 * t * i) e = some e1 ∧ LayerSpec f ok t cnt i e e1 := by
  intro cnt
  induction cnt with
  | zero =>
    intro i e _ _ hok
    exact ⟨e, rfl, ⟨rfl, hok, fun i1 j h1 h2 => by omega, fun p _ => rfl⟩⟩
  | succ cnt ih =>
    intro i e hf hlen hok
    have hb1 : 2 * t * (i + 1) = 2 * t * i + 2 * t := by ring
    have hb2 : 2 * t * (i + 1) ≤ 2 * t * (i + (cnt + 1)) :=
      Nat.mul_le_mul_left _ (by omega)
    obtain ⟨ea, ha, sa⟩ := pairLoop_spec (f i) ok (hf i (le_refl _) (by omega)) t t
      (2 * t * i) e (le_refl _) (by omega) hok
    rw [groupLoop, ha]
    simp only []
    rw [← hb1]
    obtain ⟨e1, h1, s1⟩ := ih (i + 1) ea
      (fun i1 h1 h2 => hf i1 (by omega) (by omega))
      (by rw [sa.len]; have : i + 1 + cnt = i + (cnt + 1) := by omega
          rw [this]; exact hlen)
      sa.ok1
    refine ⟨e1, h1, ⟨by rw [s1.len, sa.len], s1.ok1, ?_, ?_⟩⟩
    · intro i1 j hi1 hi2 hj
      by_cases hi : i1 = i
      · subst hi
        have := sa.pair (2 * t * i1 + j) (by omega) (by omega)
        rw [this, s1.frame _ (by omega), s1.frame _ (by omega)]
      · have hge : 2 * t * (i + 1) ≤ 2 * t * i1 := Nat.mul_le_mul_left _ (by omega)
        have := s1.pair i1 j (by omega) (by omega) hj
        rw [sa.frame _ (by omega) (by omega), sa.frame _ (by omega) (by omega)] at this
        exact this
    · intro p hp
      have e2 : i + 1 + cnt = i + (cnt + 1) := by omega
      rw [s1.frame p (by rw [e2]; omega), sa.frame p (by omega) (by omega)]

theorem shl64_one (q : Nat) (hq : q < 2 ^ 63) : shl64 q 1 = 2 * q := by
  unfold shl64
  rw [Nat.shiftLeft_eq, pow_one, Nat.mod_eq_of_lt (by omega)]; ring

theorem mul64_four (q : Nat) (hq : q < 2 ^ 62) : mul64 q 4 = 4 * q := by
  unfold mul64
  rw [Nat.mod_eq_of_lt (by omega)]; ring

theorem lazy_cast (q W y : Nat) (hq : 2 * q ≤ 2 ^ 64) (hW : W < q) (hy : y < 2 ^ 64) :
    ((MultiplyUIntModLazy64 y W (W * 2 ^ 64 / q) q : Nat) : ZMod q) = (y : ZMod q) * W := by
  have := (ZMod.natCast_eq_natCast_iff _ _ _).mpr (lazy_modEq q W y hq hW hy)
  rw [this]; push_cast; rfl

/-- The conditional subtraction `X - (twice_mod & -(X >= twice_mod))`. -/
theorem condSub_eq (X tm : Nat) (hX : X < 2 ^ 64) (htm : tm < 2 ^ 64) :
    sub64 X (tm &&& mask64 (decide (X ≥ tm))) = if X ≥ tm then X - tm else X := by
  rw [land_mask64 tm _ htm]
  by_cases h : X ≥ tm
  · simp only [h, decide_True, if_true]
    exact sub64_of_le X tm hX h
  · simp only [h, decide_False, if_false]
    exact sub64_of_le X 0 hX (by omega)

/-- The Harvey butterfly on operands below `4q`: no check fires, no operation
wraps, and the outputs are `tx + T` and `tx + 2q - T`, again below `4q`. -/
theorem fwdButterfly_eq (q W X Y : Nat) (hq : q < 2 ^ 62) (hW : W < q)
    (hX : X < 4 * q) (hY : Y < 4 * q) :
    let tx := if X ≥ 2 * q then X - 2 * q else X
    let T := MultiplyUIntModLazy64 Y W (W * 2 ^ 64 / q) q
    fwdButterfly q (shl64 q 1) W (W * 2 ^ 64 / q) X Y = some (tx + T, tx + 2 * q - T) ∧
    tx < 2 * q ∧ T < 2 * q ∧ tx + T < 4 * q ∧ tx + 2 * q - T < 4 * q ∧ T ≤ tx + 2 * q := by
  intro tx T
  have hT : T < 2 * q := lazy_lt q W Y (by omega) hW (by omega)
  have htx : tx < 2 * q := by
    show (if X ≥ 2 * q then X - 2 * q else X) < 2 * q
    split_ifs <;> omega
  refine ⟨?_, htx, hT, by omega, by omega, by omega⟩
  unfold fwdButterfly
  rw [shl64_one q (by omega), mul64_four q hq, if_neg (by omega), if_neg (by omega)]
  simp only []
  rw [condSub_eq X (2 * q) (by omega) (by omega)]
  have e1 : add64 tx T = tx + T := add64_of_lt _ _ (by omega)
  have e2 : add64 tx (2 * q) = tx + 2 * q := add64_of_lt _ _ (by omega)
  have e3 : sub64 (tx + 2 * q) T = tx + 2 * q - T := sub64_of_le _ _ (by omega) (by omega)
  show (if ¬ add64 tx T < 4 * q then none
    else if ¬ sub64 (add64 tx (2 * q)) T < 4 * q then none
    else some (add64 tx T, sub64 (add64 tx (2 * q)) T)) = _
  rw [e1, e2, e3, if_neg (by omega), if_neg (by omega)]

theorem fwdButterfly_spec (q W X Y : Nat) (hq : q < 2 ^ 62) (hW : W < q)
    (hX : X < 4 * q) (hY : Y < 4 * q) :
    ∃ xy, fwdButterfly q (shl64 q 1) W (W * 2 ^ 64 / q) X Y = some xy ∧
      xy.1 < 4 * q ∧ xy.2 < 4 * q ∧
      ((xy.1 : Nat) : ZMod q) = (X : ZMod q) + W * Y ∧
      ((xy.2 : Nat) : ZMod q) = (X : ZMod q) - W * Y := by
  obtain ⟨h, htx, hT, h1, h2, h3⟩ := fwdButterfly_eq q W X Y hq hW hX hY
  have hc := lazy_cast q W Y (by omega) hW (by omega)
  have htxc : (((if X ≥ 2 * q then X - 2 * q else X) : Nat) : ZMod q) = (X : ZMod q) := by
    split_ifs with hge
    · rw [Nat.cast_sub hge]; simp
    · rfl
  refine ⟨_, h, h1, h2, ?_, ?_⟩
  · show ((_ + _ : Nat) : ZMod q) = _
    rw [Nat.cast_add, hc, htxc]; ring
  · show ((_ + _ - _ : Nat) : ZMod q) = _
    rw [Nat.cast_sub h3, Nat.cast_add, hc, htxc]; simp; ring

theorem BarrettFactor_eq (W q : Nat) (hW : W < q) :
    BarrettFactor W 64 q = some (W * 2 ^ 64 / q) := by
  unfold BarrettFactor
  rw [if_neg (by omega)]
  congr 1
  apply Nat.mod_eq_of_lt
  apply Nat.div_lt_of_lt_mul
  exact Nat.mul_lt_mul_of_pos_right hW (by positivity)

theorem lazy3_eq (q W y : Nat) (hW : W < q) :
    MultiplyUIntModLazy64_3 y W q = some (MultiplyUIntModLazy64 y W (W * 2 ^ 64 / q) q) := by
  unfold MultiplyUIntModLazy64_3
  rw [BarrettFactor_eq W q hW]; rfl

/-- The inverse butterfly on operands below `2q`. -/
theorem invButterfly_spec (q W X Y : Nat) (hq : q < 2 ^ 62) (hW : W < q)
    (hX : X < 2 * q) (hY : Y < 2 * q) :
    (invButterfly q (shl64 q 1) W (W * 2 ^ 64 / q) X Y).1 < 2 * q ∧
    (invButterfly q (shl64 q 1) W (W * 2 ^ 64 / q) X Y).2 < 2 * q ∧
    (((invButterfly q (shl64 q 1) W (W * 2 ^ 64 / q) X Y).1 : Nat) : ZMod q)
      = (X : ZMod q) + Y ∧
    (((invButterfly q (shl64 q 1) W (W * 2 ^ 64 / q) X Y).2 : Nat) : ZMod q)
      = (W : ZMod q) * ((X : ZMod q) - Y) := by
  unfold invButterfly
  simp only []
  rw [shl64_one q (by omega)]
  have e1 : add64 X Y = X + Y := add64_of_lt _ _ (by omega)
  have e2 : add64 X (2 * q) = X + 2 * q := add64_of_lt _ _ (by omega)
  have e3 : sub64 (X + 2 * q) Y = X + 2 * q - Y := sub64_of_le _ _ (by omega) (by omega)
  rw [e1, e2, e3, condSub_eq (X + Y) (2 * q) (by omega) (by omega)]
  have hc := lazy_cast q W (X + 2 * q - Y) (by omega) hW (by omega)
  refine ⟨by split_ifs <;> omega, lazy_lt q W _ (by omega) hW (by omega), ?_, ?_⟩
  · split_ifs with hge
    · rw [Nat.cast_sub hge]; simp
    · simp
  · rw [hc, Nat.cast_sub (by omega)]; simp; ring

/-- The butterfly of the reference transform on reduced operands. -/
theorem refButterfly_spec (q W X Y : Nat) (hW : W < q) (hX : X < q) (hY : Y < q) :
    ∃ xy, refButterfly q W X Y = some xy ∧ xy.1 < q ∧ xy.2 < q ∧
      ((xy.1 : Nat) : ZMod q) = (X : ZMod q) + W * Y ∧
      ((xy.2 : Nat) : ZMod q) = (X : ZMod q) - W * Y := by
  have hq0 : 0 < q := by omega
  have hm : Y * W % q < q := Nat.mod_lt _ hq0
  refine ⟨((X + Y * W % q) % q, (X + q - Y * W % q) % q), ?_, Nat.mod_lt _ hq0,
    Nat.mod_lt _ hq0, ?_, ?_⟩
  · unfold refButterfly
    simp only []
    rw [MultiplyUIntMod_eq Y W q hY hW]
    simp only [AddUIntMod, SubUIntMod, hX, hm, and_self, if_true]
  · simp only []
    rw [ZMod.natCast_mod, Nat.cast_add, ZMod.natCast_mod]; push_cast; ring
  · simp only []
    rw [ZMod.natCast_mod, Nat.cast_sub (by omega), Nat.cast_add, ZMod.natCast_mod]
    push_cast; simp; ring

theorem fwdInnerLoop_eq (mod tm W Wp t : Nat) :
    ∀ (cnt j : Nat) (e : List Nat),
      fwdInnerLoop mod tm W Wp t cnt j e = pairLoop (fwdButterfly mod tm W Wp) t cnt j e := by
  intro cnt
  induction cnt with
  | zero => intro j e; rfl
  | succ cnt ih =>
    intro j e
    rw [fwdInnerLoop, pairLoop]
    cases fwdButterfly mod tm W Wp (e.getD j 0) (e.getD (j + t) 0) with
    | none => rfl
    | some xy => exact ih _ _

theorem fwdGroupLoop_eq (mod tm : Nat) (R P : List Nat) (m t : Nat) :
    ∀ (cnt i j1 : Nat) (e : List Nat),
      fwdGroupLoop mod tm R P m t cnt i j1 e
        = groupLoop (fun i => fwdButterfly mod tm (R.getD (m + i) 0) (P.getD (m + i) 0)) t
            cnt i j1 e := by
  intro cnt
  induction cnt with
  | zero => intro i j1 e; rfl
  | succ cnt ih =>
    intro i j1 e
    rw [fwdGroupLoop, groupLoop]
    rw [Nat.add_sub_cancel_left, fwdInnerLoop_eq]
    cases pairLoop (fwdButterfly mod tm (R.getD (m + i) 0) (P.getD (m + i) 0)) t t j1 e with
    | none => rfl
    | some e1 =>
      simp only []
      rw [Nat.shiftLeft_eq, pow_one, Nat.mul_comm t 2]
      exact ih _ _ _

theorem refInnerLoop_eq (mod W t : Nat) :
    ∀ (cnt j : Nat) (e : List Nat),
      refInnerLoop mod W t cnt j e = pairLoop (refButterfly mod W) t cnt j e := by
  intro cnt
  induction cnt with
  | zero => intro j e; rfl
  | succ cnt ih =>
    intro j e
    rw [refInnerLoop, pairLoop]
    cases refButterfly mod W (e.getD j 0) (e.getD (j + t) 0) with
    | none => rfl
    | some xy => exact ih _ _

theorem refGroupLoop_eq (mod : Nat) (R : List Nat) (m t : Nat) :
    ∀ (cnt i j1 : Nat) (e : List Nat),
      refGroupLoop mod R m t cnt i j1 e
        = groupLoop (fun i => refButterfly mod (R.getD (m + i) 0)) t cnt i j1 e := by
  intro cnt
  induction cnt with
  | zero => intro i j1 e; rfl
  | succ cnt ih =>
    intro i j1 e
    rw [refGroupLoop, groupLoop]
    rw [Nat.add_sub_cancel_left, refInnerLoop_eq]
    cases pairLoop (refButterfly mod (R.getD (m + i) 0)) t t j1 e with
    | none => rfl
    | some e1 =>
      simp only []
      rw [Nat.shiftLeft_eq, pow_one, Nat.mul_comm t 2]
      exact ih _ _ _

theorem invInnerLoop_eq (mod tm W Wp t : Nat) :
    ∀ (cnt j : Nat) (e : List Nat),
      some (invInnerLoop mod tm W Wp t cnt j e)
        = pairLoop (fun X Y => some (invButterfly mod tm W Wp X Y)) t cnt j e := by
  intro cnt
  induction cnt with
  | zero => intro j e; rfl
  | succ cnt ih =>
    intro j e
    rw [invInnerLoop, pairLoop]
    exact ih _ _

theorem Log2_two_pow (k : Nat) (hk : k < 64) : Log2 (2 ^ k) = k := by
  interval_cases k <;> rfl

theorem IsPowerOfTwo_two_pow (k : Nat) (hk : k < 64) : IsPowerOfTwo (2 ^ k) = true := by
  unfold IsPowerOfTwo
  rw [List.any_eq_true]
  exact ⟨k, List.mem_range.mpr hk, by simp⟩

theorem coprime_pow_mod (w q i : Nat) (h : Nat.Coprime w q) : Nat.Coprime (w ^ i % q) q := by
  have h1 : Nat.Coprime (w ^ i) q := Nat.Coprime.pow_left i h
  rw [Nat.Coprime, Nat.gcd_comm, Nat.gcd_rec] at h1
  exact h1

theorem rootPowersLoop_spec (q w k : Nat) (hq2 : 2 ≤ q) (hq : q < 2 ^ 63) (hw : w < q)
    (hc : Nat.Coprime w q) (hk : k ≤ 31) :
    ∀ (cnt i : Nat) (R Rinv : List Nat), 1 ≤ i → i + cnt = 2 ^ k → RootInv q w k i R Rinv →
      ∃ R1 Rinv1, rootPowersLoop q w k cnt i (ReverseBitsUInt (i - 1) k) R Rinv
          = some (R1, Rinv1) ∧ RootInv q w k (2 ^ k) R1 Rinv1 := by
  intro cnt
  induction cnt with
  | zero =>
    intro i R Rinv _ hi h
    have : i = 2 ^ k := by omega
    subst this
    exact ⟨R, Rinv, rfl, h⟩
  | succ cnt ih =>
    intro i R Rinv hi1 hi h
    have hilt : i < 2 ^ k := by omega
    have hidx : ReverseBitsUInt i k < 2 ^ k := ReverseBitsUInt_lt k i (by omega)
    have h31 : (2:Nat) ^ k ≤ 2 ^ 31 := Nat.pow_le_pow_right (by norm_num) hk
    rw [rootPowersLoop]
    simp only []
    rw [if_neg (by omega), h.val (i - 1) (by omega),
      MultiplyUIntMod_eq _ _ _ (Nat.mod_lt _ (by omega)) hw]
    have hpow : w ^ (i - 1) % q * w % q = w ^ i % q := by
      have : i = (i - 1) + 1 := by omega
      conv_rhs => rw [this, pow_succ]
      rw [Nat.mul_mod, Nat.mod_mod, ← Nat.mul_mod]
    rw [hpow]
    simp only []
    rw [getD_set_eq _ _ _ (by rw [h.lenR]; exact hidx)]
    obtain ⟨ri, hri, _, _⟩ := InverseUIntMod_spec (w ^ i % q) q hq2 hq (coprime_pow_mod w q i hc)
    rw [hri]
    simp only []
    have hne : ∀ i1, i1 < i → ReverseBitsUInt i k ≠ ReverseBitsUInt i1 k := by
      intro i1 h1 heq
      have := ReverseBitsUInt_inj k i i1 (by omega) hilt (by omega) heq
      omega
    have hnext : RootInv q w k (i + 1) (R.set (ReverseBitsUInt i k) (w ^ i % q))
        (Rinv.set (ReverseBitsUInt i k) ri) := by
      refine ⟨by simp [h.lenR], by simp [h.lenI], ?_, ?_⟩
      · intro i1 h1
        by_cases he : i1 = i
        · rw [he, getD_set_eq _ _ _ (by rw [h.lenR]; exact hidx)]
        · rw [getD_set_ne _ _ _ _ (hne i1 (by omega))]
          exact h.val i1 (by omega)
      · intro i1 h1
        by_cases he : i1 = i
        · rw [he, getD_set_eq _ _ _ (by rw [h.lenI]; exact hidx)]
          exact hri
        · rw [getD_set_ne _ _ _ _ (hne i1 (by omega))]
          exact h.inv i1 (by omega)
    have := ih (i + 1) _ _ (by omega) (by omega) hnext
    rw [Nat.add_sub_cancel] at this
    exact this

theorem reorderInnerLoop_spec (inv : List Nat) (m : Nat) :
    ∀ (cnt i idx : Nat) (temp : List Nat), idx + cnt ≤ temp.length →
      (reorderInnerLoop inv m cnt i idx temp).2 = idx + cnt ∧
      (reorderInnerLoop inv m cnt i idx temp).1.length = temp.length ∧
      (∀ c, c < cnt →
        (reorderInnerLoop inv m cnt i idx temp).1.getD (idx + c) 0 = inv.getD (m + i + c) 0) ∧
      (∀ p, ¬ (idx ≤ p ∧ p < idx + cnt) →
        (reorderInnerLoop inv m cnt i idx temp).1.getD p 0 = temp.getD p 0) := by
  intro cnt
  induction cnt with
  | zero =>
    intro i idx temp _
    exact ⟨rfl, rfl, fun c hc => by omega, fun p _ => rfl⟩
  | succ cnt ih =>
    intro i idx temp hlen
    rw [reorderInnerLoop]
    obtain ⟨h1, h2, h3, h4⟩ := ih (i + 1) (idx + 1) (temp.set idx (inv.getD (m + i) 0))
      (by simp; omega)
    refine ⟨by rw [h1]; omega, by rw [h2]; simp, ?_, ?_⟩
    · intro c hc
      by_cases hc0 : c = 0
      · subst hc0
        rw [h4 _ (by omega), Nat.add_zero, Nat.add_zero, getD_set_eq _ _ _ (by omega)]
      · have := h3 (c - 1) (by omega)
        have e1 : idx + 1 + (c - 1) = idx + c := by omega
        have e2 : m + (i + 1) + (c - 1) = m + i + c := by omega
        rw [e1, e2] at this
        exact this
    · intro p hp
      rw [h4 p (by omega), getD_set_ne _ _ _ _ (by omega)]

theorem reorderLoop_spec (inv : List Nat) (k : Nat) :
    ∀ (s fuel : Nat) (temp : List Nat), s < k → s < fuel → temp.length = 2 ^ k →
      ∃ temp1, reorderLoop inv fuel (2 ^ s) (2 ^ k - 2 ^ (s + 1) + 1) temp = some temp1 ∧
        temp1.length = 2 ^ k ∧
        (∀ s1 i, s1 ≤ s → i < 2 ^ s1 →
          temp1.getD (2 ^ k - 2 ^ (s1 + 1) + 1 + i) 0 = inv.getD (2 ^ s1 + i) 0) ∧
        (∀ p, p < 2 ^ k - 2 ^ (s + 1) + 1 → temp1.getD p 0 = temp.getD p 0) := by
  intro s
  induction s with
  | zero =>
    intro fuel temp hk hf hlen
    obtain ⟨fuel, rfl⟩ : ∃ f, fuel = f + 1 := ⟨fuel - 1, by omega⟩
    have hle : (2:Nat) ^ (0 + 1) ≤ 2 ^ k := Nat.pow_le_pow_right (by norm_num) (by omega)
    obtain ⟨h1, h2, h3, h4⟩ := reorderInnerLoop_spec inv (2 ^ 0) (2 ^ 0) 0
      (2 ^ k - 2 ^ (0 + 1) + 1) temp (by rw [hlen]; norm_num at hle ⊢; omega)
    rw [reorderLoop, if_pos (by norm_num)]
    simp only []
    have hz : (2:Nat) ^ 0 >>> 1 = 0 := by decide
    rw [hz]
    have hend : ∀ f idx t, reorderLoop inv f 0 idx t = some t := by
      intro f idx t; cases f <;> simp [reorderLoop]
    rw [hend]
    refine ⟨_, rfl, by rw [h2, hlen], ?_, ?_⟩
    · intro s1 i hs1 hi
      have : s1 = 0 := by omega
      subst this
      have hi0 : i = 0 := by simpa using hi
      subst hi0
      have := h3 0 (by norm_num)
      simpa using this
    · intro p hp
      exact h4 p (by omega)
  | succ s ih =>
    intro fuel temp hk hf hlen
    obtain ⟨fuel, rfl⟩ : ∃ f, fuel = f + 1 := ⟨fuel - 1, by omega⟩
    have hle : (2:Nat) ^ (s + 1 + 1) ≤ 2 ^ k := Nat.pow_le_pow_right (by norm_num) (by omega)
    have hp1 : (2:Nat) ^ (s + 1 + 1) = 2 * 2 ^ (s + 1) := by rw [pow_succ]; ring
    have hp2 : (2:Nat) ^ (s + 1) = 2 * 2 ^ s := by rw [pow_succ]; ring
    have hpos : 0 < (2:Nat) ^ s := by positivity
    obtain ⟨h1, h2, h3, h4⟩ := reorderInnerLoop_spec inv (2 ^ (s + 1)) (2 ^ (s + 1)) 0
      (2 ^ k - 2 ^ (s + 1 + 1) + 1) temp (by rw [hlen]; omega)
    rw [reorderLoop, if_pos (by omega)]
    simp only []
    have hz : (2:Nat) ^ (s + 1) >>> 1 = 2 ^ s := by
      rw [Nat.shiftRight_eq_div_pow, pow_one, hp2]; omega
    rw [hz, h1]
    have hidx : 2 ^ k - 2 ^ (s + 1 + 1) + 1 + 2 ^ (s + 1) = 2 ^ k - 2 ^ (s + 1) + 1 := by omega
    rw [hidx]
    obtain ⟨temp1, g1, g2, g3, g4⟩ := ih fuel _ (by omega) (by omega) (by rw [h2, hlen])
    refine ⟨temp1, g1, g2, ?_, ?_⟩
    · intro s1 i hs1 hi
      by_cases hs : s1 ≤ s
      · exact g3 s1 i hs hi
      · have : s1 = s + 1 := by omega
        subst this
        rw [g4 _ (by omega)]
        have := h3 i hi
        rw [Nat.add_zero] at this
        exact this
    · intro p hp
      rw [g4 p (by omega), h4 p (by omega)]

theorem preconTable_eq (R : List Nat) (B q : Nat) (hq : q ≠ 0) :
    preconTable R B q = some (R.map (fun r => r * 2 ^ B / q % 2 ^ 64)) := by
  unfold preconTable
  induction R with
  | nil => rfl
  | cons r R ih =>
    rw [List.mapM_cons, ih]
    simp [BarrettFactor, hq]

theorem InverseUIntMod_one (q : Nat) (hq : 2 ≤ q) : InverseUIntMod 1 q = some 1 := by
  unfold InverseUIntMod
  rw [if_neg (by omega)]
  simp only []
  rw [Nat.mod_eq_of_lt (by omega), if_neg (by omega), if_neg (by omega)]
  show Option.map _ (InverseUIntModLoop (127 + 1) 1 q 1 0) = _
  rw [InverseUIntModLoop, if_neg (by omega)]
  simp [toU64]

theorem ReverseBitsUInt_zero_arg (k : Nat) (hk : k ≤ 64) : ReverseBitsUInt 0 k = 0 := by
  have h := ReverseBitsUInt_widen k 0 0 (by omega) (by norm_num)
  rw [Nat.zero_add] at h
  rw [h, ReverseBitsUInt_zero]; simp

theorem getD_replicate_zero (n p : Nat) : (List.replicate n 0).getD p 0 = 0 := by
  simp only [List.getD_eq_getElem?_getD]
  by_cases h : p < n
  · simp [List.getElem?_replicate, h]
  · simp [List.getElem?_replicate, h]

theorem ComputeRootOfUnityPowers_spec (q w k : Nat) (hq2 : 2 ≤ q) (hq : q < 2 ^ 63)
    (hw : w < q) (hc : Nat.Coprime w q) (hk : k ≤ 31) :
    ∃ T, ComputeRootOfUnityPowers (2 ^ k) q w k = some T ∧ TablesSpec q w k T := by
  have hn : 0 < 2 ^ k := by positivity
  have h0 : RootInv q w k 1 ((List.replicate (2 ^ k) 0).set 0 1)
      ((List.replicate (2 ^ k) 0).set 0 1) := by
    refine ⟨by simp, by simp, ?_, ?_⟩
    · intro i1 h1
      have : i1 = 0 := by omega
      subst this
      rw [ReverseBitsUInt_zero_arg k (by omega), getD_set_eq _ _ _ (by simp), pow_zero,
        Nat.mod_eq_of_lt (by omega)]
    · intro i1 h1
      have : i1 = 0 := by omega
      subst this
      rw [ReverseBitsUInt_zero_arg k (by omega), getD_set_eq _ _ _ (by simp), pow_zero,
        Nat.mod_eq_of_lt (by omega)]
      exact InverseUIntMod_one q hq2
  obtain ⟨R1, Rinv1, hloop, hR⟩ := rootPowersLoop_spec q w k hq2 hq hw hc hk (2 ^ k - 1) 1 _ _
    (le_refl _) (by omega) h0
  rw [Nat.sub_self, ReverseBitsUInt_zero_arg k (by omega)] at hloop
  -- entries of the root table by position
  have hRpos : ∀ j, j < 2 ^ k → R1.getD j 0 = w ^ ReverseBitsUInt j k % q ∧
      InverseUIntMod (R1.getD j 0) q = some (Rinv1.getD j 0) := by
    intro j hj
    have hlt := ReverseBitsUInt_lt k j (by omega)
    have h1 := hR.val _ hlt
    have h2 := hR.inv _ hlt
    rw [ReverseBitsUInt_invol k j (by omega) hj] at h1 h2
    exact ⟨h1, by rw [h1]; exact h2⟩
  have hI0 : Rinv1.getD 0 0 = 1 := by
    have h2 := hR.inv 0 hn
    rw [ReverseBitsUInt_zero_arg k (by omega), pow_zero, Nat.mod_eq_of_lt (by omega),
      InverseUIntMod_one q hq2] at h2
    exact (Option.some.inj h2).symm
  -- the reordering
  have hre : ∃ temp1, reorderLoop Rinv1 64 (2 ^ k >>> 1) 1
        ((List.replicate (2 ^ k) 0).set 0 (Rinv1.getD 0 0)) = some temp1 ∧
      temp1.length = 2 ^ k ∧ temp1.getD 0 0 = 1 ∧
      (∀ s i, s < k → i < 2 ^ s →
        temp1.getD (2 ^ k - 2 ^ (s + 1) + 1 + i) 0 = Rinv1.getD (2 ^ s + i) 0) := by
    rcases Nat.eq_zero_or_pos k with hk0 | hk0
    · subst hk0
      have hz : (2:Nat) ^ 0 >>> 1 = 0 := by decide
      rw [hz]
      refine ⟨(List.replicate (2 ^ 0) 0).set 0 (Rinv1.getD 0 0), by simp [reorderLoop],
        by simp, ?_, fun s i hs _ => by omega⟩
      rw [getD_set_eq _ _ _ (by simp), hI0]
    · obtain ⟨temp1, g1, g2, g3, g4⟩ := reorderLoop_spec Rinv1 k (k - 1) 64
        ((List.replicate (2 ^ k) 0).set 0 (Rinv1.getD 0 0)) (by omega) (by omega) (by simp)
      have e1 : k - 1 + 1 = k := by omega
      rw [e1, Nat.sub_self, Nat.zero_add] at g1 g4
      have e2 : 2 ^ k >>> 1 = 2 ^ (k - 1) := by
        rw [Nat.shiftRight_eq_div_pow, pow_one]
        conv_lhs => rw [← e1, pow_succ]
        omega
      rw [e2]
      refine ⟨temp1, g1, g2, ?_, fun s i hs hi => g3 s i (by omega) hi⟩
      rw [g4 0 (by omega), getD_set_eq _ _ _ (by simp), hI0]
  obtain ⟨temp1, hre1, hre2, hre3, hre4⟩ := hre
  refine ⟨⟨R1, R1.map (fun r => r * 2 ^ 52 / q % 2 ^ 64), R1.map (fun r => r * 2 ^ 64 / q % 2 ^ 64),
    temp1, temp1.map (fun r => r * 2 ^ 52 / q % 2 ^ 64),
    temp1.map (fun r => r * 2 ^ 64 / q % 2 ^ 64)⟩, ?_, ?_⟩
  · unfold ComputeRootOfUnityPowers
    simp only []
    rw [InverseUIntMod_one q hq2]
    simp only []
    rw [hloop]
    simp only []
    rw [hre1]
    simp only []
    rw [preconTable_eq _ _ _ (by omega), preconTable_eq _ _ _ (by omega),
      preconTable_eq _ _ _ (by omega), preconTable_eq _ _ _ (by omega)]
  · refine ⟨hR.lenR, hre2, ?_, hre3, ?_, rfl, rfl, rfl, rfl⟩
    · intro i hi
      exact hR.val i hi
    · intro s i hs hi
      have hlt : 2 ^ s + i < 2 ^ k := by
        have : (2:Nat) ^ (s + 1) ≤ 2 ^ k := Nat.pow_le_pow_right (by norm_num) (by omega)
        rw [pow_succ] at this
        omega
      simp only []
      rw [hre4 s i hs hi]
      exact (hRpos _ hlt).2

theorem divmod_lo (t p : Nat) (h : p % (2 * t) < t) :
    (p + t) % (2 * t) = p % (2 * t) + t ∧ (p + t) / (2 * t) = p / (2 * t) := by
  have ht : 0 < 2 * t := by omega
  have hp := Nat.div_add_mod p (2 * t)
  have e : p + t = (p % (2 * t) + t) + (2 * t) * (p / (2 * t)) := by omega
  rw [e]
  constructor
  · rw [Nat.add_mul_mod_self_left, Nat.mod_eq_of_lt (by omega)]
  · rw [Nat.add_mul_div_left _ _ ht, Nat.div_eq_of_lt (by omega)]; omega

theorem divmod_hi (t p : Nat) (ht : 0 < t) (h : ¬ p % (2 * t) < t) :
    (p - t) % (2 * t) < t ∧ (p - t) / (2 * t) = p / (2 * t) ∧ t ≤ p := by
  have ht2 : 0 < 2 * t := by omega
  have hp := Nat.div_add_mod p (2 * t)
  have hlt := Nat.mod_lt p ht2
  have hle : t ≤ p := by
    have : p % (2 * t) ≤ p := Nat.mod_le _ _
    omega
  have e : p - t = (p % (2 * t) - t) + (2 * t) * (p / (2 * t)) := by omega
  refine ⟨?_, ?_, hle⟩
  · rw [e, Nat.add_mul_mod_self_left, Nat.mod_eq_of_lt (by omega)]; omega
  · rw [e, Nat.add_mul_div_left _ _ ht2, Nat.div_eq_of_lt (by omega)]
    omega

/-- An inverse layer undoes the matching forward layer up to a factor two. -/
theorem bflyG_bflyF {q : Nat} (W W1 : Nat → ZMod q) (hW : ∀ i, W i * W1 i = 1) (t : Nat)
    (ht : 0 < t) (A : Nat → ZMod q) (p : Nat) : bflyG W1 t (bflyF W t A) p = 2 * A p := by
  unfold bflyG
  by_cases h : p % (2 * t) < t
  · obtain ⟨h1, h2⟩ := divmod_lo t p h
    rw [if_pos h]
    unfold bflyF
    rw [if_pos h, if_neg (by omega), h2, Nat.add_sub_cancel]
    ring
  · obtain ⟨h1, h2, h3⟩ := divmod_hi t p ht h
    rw [if_neg h]
    unfold bflyF
    rw [if_pos h1, if_neg h, h2, Nat.sub_add_cancel h3]
    have := hW (p / (2 * t))
    linear_combination (2 * A p) * this

/-- A forward layer undoes the matching inverse layer up to a factor two. -/
theorem bflyF_bflyG {q : Nat} (W W1 : Nat → ZMod q) (hW : ∀ i, W i * W1 i = 1) (t : Nat)
    (ht : 0 < t) (B : Nat → ZMod q) (p : Nat) : bflyF W t (bflyG W1 t B) p = 2 * B p := by
  unfold bflyF
  by_cases h : p % (2 * t) < t
  · obtain ⟨h1, h2⟩ := divmod_lo t p h
    rw [if_pos h]
    unfold bflyG
    rw [if_pos h, if_neg (by omega), h2, Nat.add_sub_cancel]
    have := hW (p / (2 * t))
    linear_combination (B p - B (p + t)) * this
  · obtain ⟨h1, h2, h3⟩ := divmod_hi t p ht h
    rw [if_neg h]
    unfold bflyG
    rw [if_pos h1, if_neg h, Nat.sub_add_cancel h3]
    have := hW (p / (2 * t))
    linear_combination (B p - B (p - t)) * this

theorem bflyG_smul {q : Nat} (W : Nat → ZMod q) (t : Nat) (c : ZMod q) (B : Nat → ZMod q)
    (p : Nat) : bflyG W t (fun x => c * B x) p = c * bflyG W t B p := by
  unfold bflyG
  split_ifs <;> ring

theorem bflyF_smul {q : Nat} (W : Nat → ZMod q) (t : Nat) (c : ZMod q) (A : Nat → ZMod q)
    (p : Nat) : bflyF W t (fun x => c * A x) p = c * bflyF W t A p := by
  unfold bflyF
  split_ifs <;> ring

theorem block_bounds (t m p : Nat) (ht : 0 < t) (hp : p < 2 * t * m) :
    (p % (2 * t) < t → p + t < 2 * t * m) ∧ p / (2 * t) < m := by
  have ht2 : 0 < 2 * t := by omega
  have hdiv : p / (2 * t) < m := Nat.div_lt_of_lt_mul hp
  have hp1 := Nat.div_add_mod p (2 * t)
  refine ⟨fun h => ?_, hdiv⟩
  have : 2 * t * (p / (2 * t) + 1) ≤ 2 * t * m := Nat.mul_le_mul_left _ hdiv
  have e : 2 * t * (p / (2 * t) + 1) = 2 * t * (p / (2 * t)) + 2 * t := by ring
  omega

theorem bflyF_congr {q : Nat} (W W1 : Nat → ZMod q) (t m : Nat) (ht : 0 < t)
    (A B : Nat → ZMod q) (hW : ∀ i, i < m → W i = W1 i) (h : AgreeOn (2 * t * m) A B) :
    AgreeOn (2 * t * m) (bflyF W t A) (bflyF W1 t B) := by
  intro p hp
  obtain ⟨h1, h2⟩ := block_bounds t m p ht hp
  unfold bflyF
  by_cases hlo : p % (2 * t) < t
  · rw [if_pos hlo, if_pos hlo, h p hp, h (p + t) (h1 hlo), hW _ h2]
  · rw [if_neg hlo, if_neg hlo, h p hp, h (p - t) (by omega), hW _ h2]

theorem bflyG_congr {q : Nat} (W W1 : Nat → ZMod q) (t m : Nat) (ht : 0 < t)
    (A B : Nat → ZMod q) (hW : ∀ i, i < m → W i = W1 i) (h : AgreeOn (2 * t * m) A B) :
    AgreeOn (2 * t * m) (bflyG W t A) (bflyG W1 t B) := by
  intro p hp
  obtain ⟨h1, h2⟩ := block_bounds t m p ht hp
  unfold bflyG
  by_cases hlo : p % (2 * t) < t
  · rw [if_pos hlo, if_pos hlo, h p hp, h (p + t) (h1 hlo)]
  · rw [if_neg hlo, if_neg hlo, h p hp, h (p - t) (by omega), hW _ h2]

theorem sum_range_even_odd {R : Type} [AddCommMonoid R] (f : Nat → R) (M : Nat) :
    ∑ l in Finset.range (2 * M), f l = ∑ l in Finset.range M, (f (2 * l) + f (2 * l + 1)) := by
  induction M with
  | zero => simp
  | succ M ih =>
    have : 2 * (M + 1) = 2 * M + 1 + 1 := by ring
    rw [this, Finset.sum_range_succ, Finset.sum_range_succ, ih, Finset.sum_range_succ]
    rw [add_assoc]

theorem twid_mul {q : Nat} (k : Nat) (ω ω1 : ZMod q) (h : ω * ω1 = 1) (s i : Nat) :
    twid k ω s i * twid k ω1 s i = 1 := by
  unfold twid
  rw [← mul_pow, h, one_pow]

theorem invZg_snoc {q : Nat} (W : Nat → Nat → ZMod q) (k : Nat) :
    ∀ (d s : Nat) (B : Nat → ZMod q), d ≤ s →
      invZg W k (d + 1) s B
        = bflyG (W (s - d)) (2 ^ (k - 1 - (s - d))) (invZg W k d s B) := by
  intro d
  induction d with
  | zero => intro s B _; rfl
  | succ d ih =>
    intro s B hd
    rw [invZg, ih (s - 1) _ (by omega), invZg]
    have : s - 1 - d = s - (d + 1) := by omega
    rw [this]

/-- The inverse layers undo the forward layers up to a power of two. -/
theorem invZg_fwdZg {q : Nat} (W W1 : Nat → Nat → ZMod q) (k : Nat)
    (h : ∀ s i, W s i * W1 s i = 1) :
    ∀ (d s : Nat) (A : Nat → ZMod q), s + d = k →
      invZg W1 k d (k - 1) (fwdZg W k d s A) = fun p => 2 ^ d * A p := by
  intro d
  induction d with
  | zero => intro s A _; funext p; simp [invZg, fwdZg]
  | succ d ih =>
    intro s A hs
    rw [invZg_snoc W1 k d (k - 1) _ (by omega), fwdZg, ih (s + 1) _ (by omega)]
    have e : k - 1 - d = s := by omega
    rw [e]
    funext p
    rw [bflyG_smul, bflyG_bflyF _ _ (h s) _ (by positivity), pow_succ]
    ring

theorem fwdZg_congr {q : Nat} (W W1 : Nat → Nat → ZMod q) (k : Nat)
    (hW : ∀ s i, s < k → i < 2 ^ s → W s i = W1 s i) :
    ∀ (d s : Nat) (A B : Nat → ZMod q), s + d ≤ k → AgreeOn (2 ^ k) A B →
      AgreeOn (2 ^ k) (fwdZg W k d s A) (fwdZg W1 k d s B) := by
  intro d
  induction d with
  | zero => intro s A B _ h; exact h
  | succ d ih =>
    intro s A B hs h
    rw [fwdZg, fwdZg]
    apply ih (s + 1) _ _ (by omega)
    have e : 2 ^ k = 2 * 2 ^ (k - 1 - s) * 2 ^ s := by
      rw [mul_assoc, ← pow_add, ← pow_succ']
      congr 1; omega
    rw [e] at h ⊢
    exact bflyF_congr _ _ _ _ (by positivity) A B (fun i hi => hW s i (by omega) hi) h

theorem invZg_congr {q : Nat} (W W1 : Nat → Nat → ZMod q) (k : Nat)
    (hW : ∀ s i, s < k → i < 2 ^ s → W s i = W1 s i) :
    ∀ (d s : Nat) (A B : Nat → ZMod q), d ≤ s + 1 → s < k → AgreeOn (2 ^ k) A B →
      AgreeOn (2 ^ k) (invZg W k d s A) (invZg W1 k d s B) := by
  intro d
  induction d with
  | zero => intro s A B _ _ h; exact h
  | succ d ih =>
    intro s A B hd hs h
    rw [invZg, invZg]
    have e : 2 ^ k = 2 * 2 ^ (k - 1 - s) * 2 ^ s := by
      rw [mul_assoc, ← pow_add, ← pow_succ']
      congr 1; omega
    have h2 : AgreeOn (2 ^ k) (bflyG (W s) (2 ^ (k - 1 - s)) A)
        (bflyG (W1 s) (2 ^ (k - 1 - s)) B) := by
      rw [e] at h ⊢
      exact bflyG_congr _ _ _ _ (by positivity) A B (fun i hi => hW s i hs hi) h
    rcases Nat.eq_zero_or_pos d with hd0 | hd0
    · subst hd0; exact h2
    · exact ih (s - 1) _ _ (by omega) (by omega) h2

theorem mul_add_divmod (d i r : Nat) (hr : r < d) :
    (d * i + r) % d = r ∧ (d * i + r) / d = i := by
  have hd : 0 < d := by omega
  constructor
  · rw [Nat.add_comm, Nat.add_mul_mod_self_left, Nat.mod_eq_of_lt hr]
  · rw [Nat.add_comm, Nat.add_mul_div_left _ _ hd, Nat.div_eq_of_lt hr, Nat.zero_add]

theorem BlockInv_step {q : Nat} (k : Nat) (hk : k ≤ 64) (ω : ZMod q) (hω : ω ^ 2 ^ k = -1)
    (A0 : Nat → ZMod q) (s : Nat) (hs : s < k) (A : Nat → ZMod q)
    (hA : BlockInv k ω A0 s A) :
    BlockInv k ω A0 (s + 1) (bflyF (twid k ω s) (2 ^ (k - 1 - s)) A) := by
  intro i1 j1 hi1 hj1
  have eks : k - (s + 1) = k - 1 - s := by omega
  rw [eks] at hj1 ⊢
  set t := 2 ^ (k - 1 - s) with ht
  have htpos : 0 < t := by positivity
  have hT : 2 ^ (k - s) = 2 * t := by
    rw [ht, ← pow_succ']; congr 1; omega
  have hM : 2 ^ (s + 1) = 2 * 2 ^ s := by rw [pow_succ]; ring
  have hn : 2 ^ (s + 1) * t = 2 ^ k := by
    rw [ht, ← pow_add]; congr 1; omega
  -- split the block index
  set i := i1 / 2 with hi
  set b := i1 % 2 with hb
  have hi1eq : i1 = 2 * i + b := by omega
  have hilt : i < 2 ^ s := by omega
  have hblt : b < 2 := Nat.mod_lt _ (by norm_num)
  have hrev : ReverseBitsUInt i1 (s + 1) = b * 2 ^ s + ReverseBitsUInt i s :=
    ReverseBitsUInt_succ i1 s (by omega)
  set r := ReverseBitsUInt i s with hr
  set γ : ZMod q := ω ^ ((2 * r + 1) * t) with hγ
  have htw : twid k ω s i = γ := by
    unfold twid
    rw [ReverseBitsUInt_layer k s i hk hs hilt, hγ, ← ht, ← hr, Nat.mul_comm]
  have hc : ω ^ ((2 * r + 1) * (2 * t)) = γ ^ 2 := by
    rw [hγ, ← pow_mul]; congr 1; ring
  have hpos : i1 * t + j1 = 2 * t * i + (b * t + j1) := by rw [hi1eq]; ring
  have hrlt : b * t + j1 < 2 * t := by
    rcases Nat.lt_or_ge b 1 with h | h
    · have : b = 0 := by omega
      rw [this]; omega
    · have : b = 1 := by omega
      rw [this]; omega
  obtain ⟨hmod, hdiv⟩ := mul_add_divmod (2 * t) i (b * t + j1) hrlt
  rw [hM, sum_range_even_odd, hrev, hpos]
  have hAi : ∀ j, j < 2 * t →
      A (2 * t * i + j) = ∑ l in range (2 ^ s), A0 (j + l * (2 * t)) * (γ ^ 2) ^ l := by
    intro j hj
    have := hA i j hilt (by rw [hT]; exact hj)
    rw [hT, hc, Nat.mul_comm i (2 * t)] at this
    exact this
  unfold bflyF
  rw [hmod, hdiv, htw]
  rcases Nat.lt_or_ge b 1 with hb0 | hb1
  · have hb0 : b = 0 := by omega
    rw [hb0]
    simp only [Nat.zero_mul, Nat.zero_add]
    rw [if_pos hj1, hAi j1 (by omega),
      Nat.add_assoc, hAi (j1 + t) (by omega), ← hγ, Finset.mul_sum, ← Finset.sum_add_distrib]
    apply Finset.sum_congr rfl
    intro l _
    have e1 : j1 + 2 * l * t = j1 + l * (2 * t) := by ring
    have e2 : j1 + (2 * l + 1) * t = j1 + t + l * (2 * t) := by ring
    rw [e1, e2]
    ring
  · have hb1 : b = 1 := by omega
    have hneg : ω ^ ((2 * (1 * 2 ^ s + r) + 1) * t) = -γ := by
      have : (2 * (1 * 2 ^ s + r) + 1) * t = 2 ^ k + (2 * r + 1) * t := by
        rw [← hn, hM]; ring
      rw [this, pow_add, hω, ← hγ]; ring
    rw [hb1, hneg, Nat.one_mul, if_neg (by omega)]
    have e0 : 2 * t * i + (t + j1) - t = 2 * t * i + j1 := by omega
    rw [e0, hAi j1 (by omega), hAi (t + j1) (by omega), Finset.mul_sum,
      ← Finset.sum_sub_distrib]
    apply Finset.sum_congr rfl
    intro l _
    have e1 : j1 + 2 * l * t = j1 + l * (2 * t) := by ring
    have e2 : j1 + (2 * l + 1) * t = t + j1 + l * (2 * t) := by ring
    have e3 : (-γ) ^ (2 * l) = (γ ^ 2) ^ l := by
      rw [pow_mul, neg_pow_two]
    have e4 : (-γ) ^ (2 * l + 1) = -(γ * (γ ^ 2) ^ l) := by
      rw [pow_succ, e3]; ring
    rw [e1, e2, e3, e4]
    ring

theorem BlockInv_zero {q : Nat} (k : Nat) (ω : ZMod q) (A0 : Nat → ZMod q) :
    BlockInv k ω A0 0 A0 := by
  intro i j hi hj
  have : i = 0 := by simpa using hi
  subst this
  simp

theorem BlockInv_congr {q : Nat} (k : Nat) (ω : ZMod q) (A0 : Nat → ZMod q) (s : Nat)
    (hs : s ≤ k) (A B : Nat → ZMod q) (h : AgreeOn (2 ^ k) A B) (hA : BlockInv k ω A0 s A) :
    BlockInv k ω A0 s B := by
  intro i j hi hj
  rw [← hA i j hi hj]
  symm
  apply h
  have : 2 ^ k = 2 ^ s * 2 ^ (k - s) := by rw [← pow_add]; congr 1; omega
  rw [this]
  have : (i + 1) * 2 ^ (k - s) ≤ 2 ^ s * 2 ^ (k - s) := Nat.mul_le_mul_right _ hi
  have e : (i + 1) * 2 ^ (k - s) = i * 2 ^ (k - s) + 2 ^ (k - s) := by ring
  omega

theorem fwdZ_BlockInv {q : Nat} (k : Nat) (hk : k ≤ 64) (ω : ZMod q) (hω : ω ^ 2 ^ k = -1)
    (A0 : Nat → ZMod q) :
    ∀ (d s : Nat) (A : Nat → ZMod q), s + d = k → BlockInv k ω A0 s A →
      BlockInv k ω A0 k (fwdZg (twid k ω) k d s A) := by
  intro d
  induction d with
  | zero =>
    intro s A hs hA
    have : s = k := by omega
    subst this
    exact hA
  | succ d ih =>
    intro s A hs hA
    rw [fwdZg]
    exact ih (s + 1) _ (by omega) (BlockInv_step k hk ω hω A0 s (by omega) A hA)

/-- Closed form of the forward layers: evaluation of the input polynomial at
the odd powers of `ω`, in bit-reversed order. -/
theorem fwdZ_closed {q : Nat} (k : Nat) (hk : k ≤ 64) (ω : ZMod q) (hω : ω ^ 2 ^ k = -1)
    (A0 : Nat → ZMod q) (p : Nat) (hp : p < 2 ^ k) :
    fwdZg (twid k ω) k k 0 A0 p = ∑ l in range (2 ^ k), A0 l * ω ^ ((2 * ReverseBitsUInt p k + 1) * l) := by
  have h := fwdZ_BlockInv k hk ω hω A0 k 0 A0 (by omega) (BlockInv_zero k ω A0) p 0 hp
    (by simp)
  simp only [Nat.sub_self, pow_zero, Nat.mul_one, Nat.add_zero, Nat.zero_add] at h
  rw [h]
  apply Finset.sum_congr rfl
  intro l _
  rw [← pow_mul]

theorem getD_map (f : Nat → Nat) (R : List Nat) (idx : Nat) (h : idx < R.length) :
    (R.map f).getD idx 0 = f (R.getD idx 0) := by
  simp [List.getD_eq_getElem?_getD, List.getElem?_map, List.getElem?_eq_getElem h]

theorem TablesSpec.root_pos {q w k : Nat} {T : NTTTables} (h : TablesSpec q w k T)
    (hk : k ≤ 64) (idx : Nat) (hidx : idx < 2 ^ k) :
    T.root_of_unity_powers.getD idx 0 = w ^ ReverseBitsUInt idx k % q := by
  have h1 := h.root _ (ReverseBitsUInt_lt k idx hk)
  rw [ReverseBitsUInt_invol k idx hk hidx] at h1
  exact h1

theorem precon_entry (R : List Nat) (q idx : Nat) (hidx : idx < R.length)
    (hlt : R.getD idx 0 < q) :
    (R.map (fun r => r * 2 ^ 64 / q % 2 ^ 64)).getD idx 0 = R.getD idx 0 * 2 ^ 64 / q := by
  rw [getD_map _ _ _ hidx]
  apply Nat.mod_eq_of_lt
  apply Nat.div_lt_of_lt_mul
  exact Nat.mul_lt_mul_of_pos_right hlt (by positivity)

theorem TablesSpec.fwdTab {q w k : Nat} {T : NTTTables} (h : TablesSpec q w k T)
    (hk : k ≤ 64) (hq : 0 < q) :
    FwdTab q k T.root_of_unity_powers T.precon64_root_of_unity_powers := by
  have hlt : ∀ idx, idx < 2 ^ k → T.root_of_unity_powers.getD idx 0 < q := by
    intro idx hidx
    rw [h.root_pos hk idx hidx]
    exact Nat.mod_lt _ hq
  refine ⟨hlt, ?_⟩
  intro idx hidx
  rw [h.p64]
  exact precon_entry _ _ _ (by rw [h.lenR]; exact hidx) (hlt idx hidx)

theorem layer_index_lt (k s i : Nat) (hs : s < k) (hi : i < 2 ^ s) : 2 ^ s + i < 2 ^ k := by
  have : (2:Nat) ^ (s + 1) ≤ 2 ^ k := Nat.pow_le_pow_right (by norm_num) (by omega)
  rw [pow_succ] at this
  omega

theorem TablesSpec.tabW_eq {q w k : Nat} {T : NTTTables} (h : TablesSpec q w k T)
    (hk : k ≤ 64) (s i : Nat) (hs : s < k) (hi : i < 2 ^ s) :
    tabW q T.root_of_unity_powers s i = twid k (w : ZMod q) s i := by
  unfold tabW twid
  rw [h.root_pos hk _ (layer_index_lt k s i hs hi), ZMod.natCast_mod, Nat.cast_pow]

theorem two_pow_split (k s : Nat) (hs : s < k) : 2 * 2 ^ (k - 1 - s) * 2 ^ s = 2 ^ k := by
  rw [mul_assoc, ← pow_add, ← pow_succ']
  congr 1; omega

/-- One forward layer on a buffer below `4q`: it runs without a failed check,
keeps the bound and acts on the residues as the butterfly layer. -/
theorem fwd_layer (q k s : Nat) (R P : List Nat) (hq : q < 2 ^ 62)
    (tab : FwdTab q k R P) (hs : s < k) (e : List Nat) (hlen : e.length = 2 ^ k)
    (hok : ∀ p, p < e.length → e.getD p 0 < 4 * q) :
    ∃ e1, fwdGroupLoop q (shl64 q 1) R P (2 ^ s) (2 ^ (k - 1 - s)) (2 ^ s) 0 0 e = some e1 ∧
      e1.length = 2 ^ k ∧ (∀ p, p < e1.length → e1.getD p 0 < 4 * q) ∧
      AgreeOn (2 ^ k) (resid q e1) (bflyF (tabW q R s) (2 ^ (k - 1 - s)) (resid q e)) := by
  set t := 2 ^ (k - 1 - s) with ht
  have htpos : 0 < t := by positivity
  have hn : 2 * t * 2 ^ s = 2 ^ k := two_pow_split k s hs
  have hidx : ∀ i1, i1 < 2 ^ s → 2 ^ s + i1 < 2 ^ k := fun i1 h1 => layer_index_lt k s i1 hs h1
  have hspec := groupLoop_spec
    (fun i => fwdButterfly q (shl64 q 1) (R.getD (2 ^ s + i) 0) (P.getD (2 ^ s + i) 0))
    (fun v => v < 4 * q) t (2 ^ s) 0 e
    (by
      intro i1 _ h1 X Y hX hY
      rw [Nat.zero_add] at h1
      beta_reduce
      rw [tab.pre _ (hidx i1 h1)]
      obtain ⟨xy, h, a, b, _, _⟩ := fwdButterfly_spec q _ X Y hq (tab.lt _ (hidx i1 h1)) hX hY
      exact ⟨xy, h, a, b⟩)
    (by rw [Nat.zero_add, hn, hlen]) hok
  rw [Nat.mul_zero] at hspec
  obtain ⟨e1, h1, sp⟩ := hspec
  rw [fwdGroupLoop_eq]
  refine ⟨e1, h1, by rw [sp.len, hlen], sp.ok1, ?_⟩
  intro p hp
  rw [← hn] at hp
  obtain ⟨hb1, hb2⟩ := block_bounds t (2 ^ s) p htpos hp
  have hdm := Nat.div_add_mod p (2 * t)
  have hmlt := Nat.mod_lt p (show 0 < 2 * t by omega)
  have hplen : p < e.length := by rw [hlen, ← hn]; exact hp
  unfold bflyF tabW
  by_cases hlo : p % (2 * t) < t
  · rw [if_pos hlo]
    have hpair := sp.pair (p / (2 * t)) (p % (2 * t)) (Nat.zero_le _) (by omega) hlo
    rw [hdm] at hpair
    rw [tab.pre _ (hidx _ hb2)] at hpair
    obtain ⟨xy, h, _, _, c1, _⟩ := fwdButterfly_spec q _ (e.getD p 0) (e.getD (p + t) 0) hq
      (tab.lt _ (hidx _ hb2)) (hok p hplen) (hok (p + t) (by rw [hlen, ← hn]; exact hb1 hlo))
    rw [hpair] at h
    have := Option.some.inj h
    rw [← this] at c1
    exact c1
  · rw [if_neg hlo]
    have hpair := sp.pair (p / (2 * t)) (p % (2 * t) - t) (Nat.zero_le _) (by omega) (by omega)
    have e1' : 2 * t * (p / (2 * t)) + (p % (2 * t) - t) = p - t := by omega
    have e2' : p - t + t = p := by omega
    rw [e1', e2'] at hpair
    rw [tab.pre _ (hidx _ hb2)] at hpair
    obtain ⟨xy, h, _, _, _, c2⟩ := fwdButterfly_spec q _ (e.getD (p - t) 0) (e.getD p 0) hq
      (tab.lt _ (hidx _ hb2)) (hok (p - t) (by omega)) (hok p hplen)
    rw [hpair] at h
    have := Option.some.inj h
    rw [← this] at c2
    exact c2

theorem fwdLayerLoop_spec (q k : Nat) (R P : List Nat) (hq : q < 2 ^ 62)
    (tab : FwdTab q k R P) :
    ∀ (d s fuel t : Nat) (e : List Nat), s + d = k → d ≤ fuel →
      (s < k → t = 2 ^ (k - 1 - s)) → e.length = 2 ^ k →
      (∀ p, p < e.length → e.getD p 0 < 4 * q) →
      ∃ e1, fwdLayerLoop (2 ^ k) q (shl64 q 1) R P fuel (2 ^ s) t e = some e1 ∧
        e1.length = 2 ^ k ∧ (∀ p, p < e1.length → e1.getD p 0 < 4 * q) ∧
        AgreeOn (2 ^ k) (resid q e1) (fwdZg (tabW q R) k d s (resid q e)) := by
  intro d
  induction d with
  | zero =>
    intro s fuel t e hs _ _ hlen hok
    have : s = k := by omega
    subst this
    refine ⟨e, ?_, hlen, hok, fun p _ => rfl⟩
    cases fuel <;> simp [fwdLayerLoop]
  | succ d ih =>
    intro s fuel t e hs hf ht hlen hok
    obtain ⟨fuel, rfl⟩ : ∃ f, fuel = f + 1 := ⟨fuel - 1, by omega⟩
    have hsk : s < k := by omega
    have hlt : 2 ^ s < 2 ^ k := Nat.pow_lt_pow_right (by norm_num) hsk
    obtain ⟨ea, ha1, ha2, ha3, ha4⟩ := fwd_layer q k s R P hq tab hsk e hlen hok
    rw [fwdLayerLoop, if_pos hlt, ht hsk, ha1]
    simp only []
    have hm : 2 ^ s <<< 1 = 2 ^ (s + 1) := by rw [Nat.shiftLeft_eq, pow_one, pow_succ]
    rw [hm]
    obtain ⟨e1, h1, h2, h3, h4⟩ := ih (s + 1) fuel (2 ^ (k - 1 - s) >>> 1) ea (by omega)
      (by omega)
      (by
        intro hs1
        rw [Nat.shiftRight_eq_div_pow, pow_one]
        have : k - 1 - s = (k - 1 - (s + 1)) + 1 := by omega
        rw [this, pow_succ]; omega)
      ha2 ha3
    refine ⟨e1, h1, h2, h3, ?_⟩
    intro p hp
    rw [h4 p hp, fwdZg]
    exact fwdZg_congr _ _ k (fun _ _ _ _ => rfl) d (s + 1) _ _ (by omega) ha4 p hp

theorem set_getD_self (e : List Nat) (i : Nat) : e.set i (e.getD i 0) = e := by
  apply List.ext_getElem?
  intro j
  by_cases h : i = j
  · subst h
    by_cases hi : i < e.length
    · rw [List.getElem?_set_self hi, List.getD_eq_getElem e 0 hi, List.getElem?_eq_getElem hi]
    · rw [List.getElem?_eq_none (by simp; omega), List.getElem?_eq_none (by omega)]
  · rw [List.getElem?_set_ne h]

/-- The two conditional subtractions after the forward layers bring a value
below `4q` to its remainder modulo `q`. -/
theorem fwdReduceStep_eq (q i : Nat) (e : List Nat) (hq : q < 2 ^ 62) (hq0 : 0 < q)
    (hi : i < e.length) (hv : e.getD i 0 < 4 * q) :
    fwdReduceStep q (shl64 q 1) i e = some (e.set i (e.getD i 0 % q)) := by
  unfold fwdReduceStep
  rw [shl64_one q (by omega)]
  set v := e.getD i 0 with hvdef
  have hmod : ∀ a b : Nat, a < q → a + b * q = v → v % q = a := by
    intro a b ha hab
    rw [← hab, Nat.add_mul_mod_self_right, Nat.mod_eq_of_lt ha]
  by_cases h1 : v ≥ 2 * q
  · rw [if_pos h1]
    simp only []
    rw [getD_set_eq _ _ _ hi, sub64_of_le _ _ (by omega) h1, List.set_set]
    by_cases h2 : v - 2 * q ≥ q
    · rw [if_pos h2, getD_set_eq _ _ _ hi, sub64_of_le _ _ (by omega) h2,
        if_neg (by omega)]
      congr 2
      exact (hmod _ 3 (by omega) (by omega)).symm
    · rw [if_neg h2, getD_set_eq _ _ _ hi, if_neg (by omega)]
      congr 2
      exact (hmod _ 2 (by omega) (by omega)).symm
  · rw [if_neg h1]
    simp only []
    by_cases h2 : v ≥ q
    · rw [if_pos h2, getD_set_eq _ _ _ hi, sub64_of_le _ _ (by omega) h2, if_neg (by omega)]
      congr 2
      exact (hmod _ 1 (by omega) (by omega)).symm
    · rw [if_neg h2, if_neg (by omega)]
      congr 1
      rw [hmod v 0 (by omega) (by omega)]
      exact (set_getD_self e i).symm

theorem fwdReduceLoop_spec (q : Nat) (hq : q < 2 ^ 62) (hq0 : 0 < q) :
    ∀ (cnt i : Nat) (e : List Nat), i + cnt ≤ e.length →
      (∀ p, p < e.length → e.getD p 0 < 4 * q) →
      ∃ e1, fwdReduceLoop q (shl64 q 1) cnt i e = some e1 ∧ e1.length = e.length ∧
        ∀ p, e1.getD p 0 = if i ≤ p ∧ p < i + cnt then e.getD p 0 % q else e.getD p 0 := by
  intro cnt
  induction cnt with
  | zero =>
    intro i e _ _
    exact ⟨e, rfl, rfl, fun p => by rw [if_neg (by omega)]⟩
  | succ cnt ih =>
    intro i e hlen hok
    rw [fwdReduceLoop, fwdReduceStep_eq q i e hq hq0 (by omega) (hok i (by omega))]
    simp only []
    have hget : ∀ p, (e.set i (e.getD i 0 % q)).getD p 0
        = if p = i then e.getD i 0 % q else e.getD p 0 := by
      intro p
      by_cases h : p = i
      · rw [if_pos h, h, getD_set_eq _ _ _ (by omega)]
      · rw [if_neg h, getD_set_ne _ _ _ _ (Ne.symm h)]
    obtain ⟨e1, h1, h2, h3⟩ := ih (i + 1) (e.set i (e.getD i 0 % q)) (by simp; omega)
      (by
        intro p hp
        rw [hget]
        split_ifs
        · have := Nat.mod_lt (e.getD i 0) hq0
          omega
        · exact hok p (by simpa using hp))
    refine ⟨e1, h1, by rw [h2]; simp, ?_⟩
    intro p
    rw [h3 p, hget]
    by_cases hpi : p = i
    · rw [if_neg (by omega), if_pos hpi, if_pos (by omega), hpi]
    · rw [if_neg hpi]
      by_cases hr : i + 1 ≤ p ∧ p < i + 1 + cnt
      · rw [if_pos hr, if_pos (by omega)]
      · rw [if_neg hr, if_neg (by omega)]

theorem CheckArguments_ok (k q : Nat) (hk : k ≤ 17) (hmod : q % (2 * 2 ^ k) = 1) :
    CheckArguments (2 ^ k) q = some true := by
  unfold CheckArguments
  have h1 : IsPowerOfTwo (2 ^ k) = true := IsPowerOfTwo_two_pow k (by omega)
  have h2 : 2 ^ k ≤ 1 <<< s_max_degree_bits := by
    rw [Nat.shiftLeft_eq, Nat.one_mul]
    exact Nat.pow_le_pow_right (by norm_num) hk
  have h3 : mul64 2 (2 ^ k) = 2 * 2 ^ k := by
    apply mul64_of_lt
    calc 2 * 2 ^ k = 2 ^ (k + 1) := by rw [pow_succ]; ring
      _ < 2 ^ 64 := Nat.pow_lt_pow_right (by norm_num) (by omega)
  have h4 : 0 < 2 ^ k := by positivity
  rw [h1, h3]
  simp only [not_true_eq_false, if_false, h2, hmod]
  rw [if_neg (by omega)]

theorem LATTICE_CHECK_BOUNDS_ok (x : List Nat) (n b : Nat) (h : ∀ p, p < n → x.getD p 0 < b) :
    LATTICE_CHECK_BOUNDS x n b = true := by
  unfold LATTICE_CHECK_BOUNDS
  rw [List.all_eq_true]
  intro i hi
  exact decide_eq_true (h i (List.mem_range.mp hi))

theorem resid_mod (q : Nat) (e e1 : List Nat) (n : Nat)
    (h : ∀ p, p < n → e1.getD p 0 = e.getD p 0 % q) : AgreeOn n (resid q e1) (resid q e) := by
  intro p hp
  unfold resid
  rw [h p hp, ZMod.natCast_mod]

/-- The forward transform on a valid input: it returns, the output obeys the
declared bound and its residues are those of the forward layers. -/
theorem Forward_spec (q k : Nat) (R P : List Nat) (hq : q < 2 ^ 62)
    (hk : k ≤ 17) (hmod : q % (2 * 2 ^ k) = 1) (tab : FwdTab q k R P)
    (x : List Nat) (imf omf : Nat) (himf : imf = 2 ∨ imf = 4) (homf : omf = 1 ∨ omf = 4)
    (hlen : x.length = 2 ^ k) (hx : ∀ p, p < 2 ^ k → x.getD p 0 < imf * q) :
    ∃ out, ForwardTransformToBitReverse64 (2 ^ k) q R P x imf omf = some out ∧
      out.length = 2 ^ k ∧ (∀ p, p < 2 ^ k → out.getD p 0 < omf * q) ∧
      AgreeOn (2 ^ k) (resid q out) (fwdZg (tabW q R) k k 0 (resid q x)) := by
  have hq0 : 0 < q := by
    rcases Nat.eq_zero_or_pos q with h | h
    · rw [h] at hmod; simp at hmod
    · exact h
  have himfq : mul64 q imf = imf * q := by
    rw [mul64_of_lt _ _ (by rcases himf with h | h <;> rw [h] <;> omega), Nat.mul_comm]
  have hok : ∀ p, p < x.length → x.getD p 0 < 4 * q := by
    intro p hp
    have := hx p (by rw [← hlen]; exact hp)
    rcases himf with h | h <;> rw [h] at this <;> omega
  obtain ⟨e1, h1, h2, h3, h4⟩ := fwdLayerLoop_spec q k R P hq tab k 0 64
    (2 ^ k >>> 1) x (by omega) (by omega)
    (by
      intro hk0
      rw [Nat.shiftRight_eq_div_pow, pow_one]
      have : k = (k - 1 - 0) + 1 := by omega
      conv_lhs => rw [this, pow_succ]
      omega)
    hlen hok
  rw [pow_zero] at h1
  unfold ForwardTransformToBitReverse64
  rw [CheckArguments_ok k q hk hmod, himfq, LATTICE_CHECK_BOUNDS_ok x _ _ hx]
  simp only [ne_eq, not_true_eq_false, if_false, himf, homf]
  rw [h1]
  simp only []
  rcases homf with ho | ho
  · rw [if_pos ho]
    obtain ⟨e2, g1, g2, g3⟩ := fwdReduceLoop_spec q hq hq0 (2 ^ k) 0 e1 (by omega) h3
    refine ⟨e2, g1, by rw [g2, h2], ?_, ?_⟩
    · intro p hp
      rw [g3 p, if_pos (by omega), ho, Nat.one_mul]
      exact Nat.mod_lt _ hq0
    · intro p hp
      rw [← h4 p hp]
      exact resid_mod q e1 e2 (2 ^ k) (fun p hp => by rw [g3 p, if_pos (by omega)]) p hp
  · rw [if_neg (by omega)]
    refine ⟨e1, rfl, h2, ?_, h4⟩
    intro p hp
    rw [ho]
    exact h3 p (by omega)

theorem inv_index_lt (k s i : Nat) (hs : s < k) (hi : i < 2 ^ s) :
    2 ^ k - 2 ^ (s + 1) + 1 + i < 2 ^ k ∧ 2 ^ s + i < 2 ^ k ∧ 2 ^ (s + 1) ≤ 2 ^ k := by
  have h : (2:Nat) ^ (s + 1) ≤ 2 ^ k := Nat.pow_le_pow_right (by norm_num) (by omega)
  have h2 : (2:Nat) ^ (s + 1) = 2 * 2 ^ s := by rw [pow_succ]; ring
  omega

theorem TablesSpec.inv_entry {q w k : Nat} {T : NTTTables} (h : TablesSpec q w k T)
    (hk : k ≤ 31) (hq2 : 2 ≤ q) (hq : q < 2 ^ 63) (hc : Nat.Coprime w q) :
    ∀ s i, s < k → i < 2 ^ s →
      T.inv_root_of_unity_powers.getD (2 ^ k - 2 ^ (s + 1) + 1 + i) 0 < q ∧
      ((T.inv_root_of_unity_powers.getD (2 ^ k - 2 ^ (s + 1) + 1 + i) 0 : Nat) : ZMod q)
        = twid k ((w : ZMod q)⁻¹) s i := by
  have key : ∀ s i, s < k → i < 2 ^ s →
      T.inv_root_of_unity_powers.getD (2 ^ k - 2 ^ (s + 1) + 1 + i) 0 < q ∧
      ((T.inv_root_of_unity_powers.getD (2 ^ k - 2 ^ (s + 1) + 1 + i) 0 : Nat) : ZMod q)
        = twid k ((w : ZMod q)⁻¹) s i := by
    intro s i hs hi
    obtain ⟨_, hlt, _⟩ := inv_index_lt k s i hs hi
    have hr := h.root_pos (by omega) _ hlt
    have hinv := h.inv s i hs hi
    rw [hr] at hinv
    obtain ⟨r, hr1, hr2, hr3⟩ := InverseUIntMod_spec _ q hq2 hq
      (coprime_pow_mod w q (ReverseBitsUInt (2 ^ s + i) k) hc)
    rw [hr1] at hinv
    have hreq := Option.some.inj hinv
    rw [← hreq]
    refine ⟨hr2, ?_⟩
    have h1 : ((w : ZMod q) ^ ReverseBitsUInt (2 ^ s + i) k) * (r : ZMod q) = 1 := by
      have : ((w ^ ReverseBitsUInt (2 ^ s + i) k % q * r % q : Nat) : ZMod q) = ((1 : Nat) : ZMod q) := by
        rw [hr3]
      rw [ZMod.natCast_mod, Nat.cast_mul, ZMod.natCast_mod, Nat.cast_pow, Nat.cast_one] at this
      exact this
    have h2 := twid_mul k (w : ZMod q) ((w : ZMod q)⁻¹) (ZMod.coe_mul_inv_eq_one w hc) s i
    unfold twid at h2 ⊢
    calc (r : ZMod q) = (r : ZMod q) * 1 := by ring
      _ = (r : ZMod q) * ((w : ZMod q) ^ ReverseBitsUInt (2 ^ s + i) k
            * (w : ZMod q)⁻¹ ^ ReverseBitsUInt (2 ^ s + i) k) := by rw [h2]
      _ = ((w : ZMod q) ^ ReverseBitsUInt (2 ^ s + i) k * (r : ZMod q))
            * (w : ZMod q)⁻¹ ^ ReverseBitsUInt (2 ^ s + i) k := by ring
      _ = _ := by rw [h1, one_mul]
  exact key

theorem TablesSpec.invTab {q w k : Nat} {T : NTTTables} (h : TablesSpec q w k T)
    (hk : k ≤ 31) (hq2 : 2 ≤ q) (hq : q < 2 ^ 63) (hc : Nat.Coprime w q) :
    InvTab q k T.inv_root_of_unity_powers T.precon64_inv_root_of_unity_powers := by
  have key := h.inv_entry hk hq2 hq hc
  refine ⟨fun s i hs hi => (key s i hs hi).1, ?_⟩
  intro s i hs hi
  obtain ⟨hlt, _, _⟩ := inv_index_lt k s i hs hi
  rw [h.ip64]
  exact precon_entry _ _ _ (by rw [h.lenI]; exact hlt) (key s i hs hi).1

theorem TablesSpec.itabW_eq {q w k : Nat} {T : NTTTables} (h : TablesSpec q w k T)
    (hk : k ≤ 31) (hq2 : 2 ≤ q) (hq : q < 2 ^ 63) (hc : Nat.Coprime w q)
    (s i : Nat) (hs : s < k) (hi : i < 2 ^ s) :
    itabW q k T.inv_root_of_unity_powers s i = twid k ((w : ZMod q)⁻¹) s i :=
  (h.inv_entry hk hq2 hq hc s i hs hi).2

theorem invGroupLoop_eq (q tm : Nat) (IR IP : List Nat) (t ri0 : Nat) :
    ∀ (cnt i j1 : Nat) (e : List Nat) (reads : InvReads),
      some (invGroupLoop q tm IR IP t cnt j1 (ri0 + i) e reads).1
        = groupLoop (fun i X Y => some (invButterfly q tm (IR.getD (ri0 + i) 0)
            (IP.getD (ri0 + i) 0) X Y)) t cnt i j1 e ∧
      (invGroupLoop q tm IR IP t cnt j1 (ri0 + i) e reads).2.1 = ri0 + i + cnt ∧
      (invGroupLoop q tm IR IP t cnt j1 (ri0 + i) e reads).2.2
        = { root_reads := reads.root_reads ++ List.range' (ri0 + i) cnt
            precon_reads := reads.precon_reads ++ List.range' (ri0 + i) cnt } := by
  intro cnt
  induction cnt with
  | zero =>
    intro i j1 e reads
    exact ⟨rfl, rfl, by simp [invGroupLoop]⟩
  | succ cnt ih =>
    intro i j1 e reads
    rw [invGroupLoop, groupLoop]
    rw [Nat.add_sub_cancel_left, ← invInnerLoop_eq]
    simp only []
    rw [Nat.shiftLeft_eq, pow_one, Nat.mul_comm t 2]
    have := ih (i + 1) (j1 + 2 * t)
      (invInnerLoop q tm (IR.getD (ri0 + i) 0) (IP.getD (ri0 + i) 0) t t j1 e)
      { root_reads := reads.root_reads ++ [ri0 + i]
        precon_reads := reads.precon_reads ++ [ri0 + i] }
    rw [← Nat.add_assoc] at this
    obtain ⟨h1, h2, h3⟩ := this
    refine ⟨h1, by rw [h2]; omega, ?_⟩
    rw [h3]
    simp [List.range'_succ]

/-- One inverse layer on a buffer below `2q`. -/
theorem inv_layer (q k s : Nat) (IR IP : List Nat) (hq : q < 2 ^ 62)
    (tab : InvTab q k IR IP) (hs : s < k) (e : List Nat) (hlen : e.length = 2 ^ k)
    (hok : ∀ p, p < e.length → e.getD p 0 < 2 * q) (reads : InvReads) :
    ∃ e1, invGroupLoop q (shl64 q 1) IR IP (2 ^ (k - 1 - s)) (2 ^ s) 0
          (2 ^ k - 2 ^ (s + 1) + 1) e reads
        = (e1, 2 ^ k - 2 ^ s + 1,
            { root_reads := reads.root_reads ++ List.range' (2 ^ k - 2 ^ (s + 1) + 1) (2 ^ s)
              precon_reads :=
                reads.precon_reads ++ List.range' (2 ^ k - 2 ^ (s + 1) + 1) (2 ^ s) }) ∧
      e1.length = 2 ^ k ∧ (∀ p, p < e1.length → e1.getD p 0 < 2 * q) ∧
      AgreeOn (2 ^ k) (resid q e1) (bflyG (itabW q k IR s) (2 ^ (k - 1 - s)) (resid q e)) := by
  set t := 2 ^ (k - 1 - s) with ht
  set ri := 2 ^ k - 2 ^ (s + 1) + 1 with hri
  have htpos : 0 < t := by positivity
  have hn : 2 * t * 2 ^ s = 2 ^ k := two_pow_split k s hs
  obtain ⟨g1, g2, g3⟩ := invGroupLoop_eq q (shl64 q 1) IR IP t ri (2 ^ s) 0 0 e reads
  rw [Nat.add_zero] at g1 g2 g3
  have hspec := groupLoop_spec
    (fun i X Y => some (invButterfly q (shl64 q 1) (IR.getD (ri + i) 0) (IP.getD (ri + i) 0) X Y))
    (fun v => v < 2 * q) t (2 ^ s) 0 e
    (by
      intro i1 _ h1 X Y hX hY
      rw [Nat.zero_add] at h1
      beta_reduce
      rw [tab.pre s i1 hs h1]
      obtain ⟨a, b, _, _⟩ := invButterfly_spec q _ X Y hq (tab.lt s i1 hs h1) hX hY
      exact ⟨_, rfl, a, b⟩)
    (by rw [Nat.zero_add, hn, hlen]) hok
  rw [Nat.mul_zero] at hspec
  obtain ⟨e1, h1, sp⟩ := hspec
  rw [← g1] at h1
  have he1 := Option.some.inj h1
  have h2s : (2:Nat) ^ (s + 1) = 2 * 2 ^ s := by rw [pow_succ]; ring
  have hle := (inv_index_lt k s 0 hs (by positivity)).2.2
  refine ⟨e1, ?_, by rw [sp.len, hlen], sp.ok1, ?_⟩
  · rw [← he1, ← g3]
    have : ri + 2 ^ s = 2 ^ k - 2 ^ s + 1 := by omega
    rw [← this, ← g2]
  · intro p hp
    rw [← hn] at hp
    obtain ⟨hb1, hb2⟩ := block_bounds t (2 ^ s) p htpos hp
    have hdm := Nat.div_add_mod p (2 * t)
    have hmlt := Nat.mod_lt p (show 0 < 2 * t by omega)
    have hplen : p < e.length := by rw [hlen, ← hn]; exact hp
    unfold bflyG itabW
    rw [← hri]
    by_cases hlo : p % (2 * t) < t
    · rw [if_pos hlo]
      have hpair := sp.pair (p / (2 * t)) (p % (2 * t)) (Nat.zero_le _) (by omega) hlo
      rw [hdm] at hpair
      rw [tab.pre s _ hs hb2] at hpair
      obtain ⟨_, _, c1, _⟩ := invButterfly_spec q _ (e.getD p 0) (e.getD (p + t) 0) hq
        (tab.lt s _ hs hb2) (hok p hplen) (hok (p + t) (by rw [hlen, ← hn]; exact hb1 hlo))
      have := Option.some.inj hpair
      rw [this] at c1
      exact c1
    · rw [if_neg hlo]
      have hpair := sp.pair (p / (2 * t)) (p % (2 * t) - t) (Nat.zero_le _) (by omega) (by omega)
      have e1' : 2 * t * (p / (2 * t)) + (p % (2 * t) - t) = p - t := by omega
      have e2' : p - t + t = p := by omega
      rw [e1', e2'] at hpair
      rw [tab.pre s _ hs hb2] at hpair
      obtain ⟨_, _, _, c2⟩ := invButterfly_spec q _ (e.getD (p - t) 0) (e.getD p 0) hq
        (tab.lt s _ hs hb2) (hok (p - t) (by omega)) (hok p hplen)
      have := Option.some.inj hpair
      rw [this] at c2
      exact c2

theorem invLayerLoop_spec (q k : Nat) (IR IP : List Nat) (hq : q < 2 ^ 62)
    (tab : InvTab q k IR IP) :
    ∀ (s fuel : Nat) (e : List Nat) (reads : InvReads), s < k → s ≤ fuel →
      e.length = 2 ^ k → (∀ p, p < e.length → e.getD p 0 < 2 * q) →
      ∃ e1, invLayerLoop q (shl64 q 1) IR IP fuel (2 ^ s) (2 ^ (k - 1 - s))
            (2 ^ k - 2 ^ (s + 1) + 1) e reads
          = some (e1, 2 ^ k - 1,
              { root_reads :=
                  reads.root_reads ++ List.range' (2 ^ k - 2 ^ (s + 1) + 1) (2 ^ (s + 1) - 2)
                precon_reads :=
                  reads.precon_reads
                    ++ List.range' (2 ^ k - 2 ^ (s + 1) + 1) (2 ^ (s + 1) - 2) }) ∧
        e1.length = 2 ^ k ∧ (∀ p, p < e1.length → e1.getD p 0 < 2 * q) ∧
        AgreeOn (2 ^ k) (resid q e1) (invZg (itabW q k IR) k s s (resid q e)) := by
  intro s
  induction s with
  | zero =>
    intro fuel e reads hk _ hlen hok
    refine ⟨e, ?_, hlen, hok, fun p _ => rfl⟩
    have h1 : (2:Nat) ^ (0 + 1) - 2 = 0 := by norm_num
    have h2 : 2 ^ k - 2 ^ (0 + 1) + 1 = 2 ^ k - 1 := by
      have := (inv_index_lt k 0 0 hk (by norm_num)).2.2
      omega
    rw [h1, h2]
    cases fuel <;> simp [invLayerLoop]
  | succ s ih =>
    intro fuel e reads hk hf hlen hok
    obtain ⟨fuel, rfl⟩ : ∃ f, fuel = f + 1 := ⟨fuel - 1, by omega⟩
    have hm : 1 < 2 ^ (s + 1) := Nat.one_lt_two_pow (by omega)
    obtain ⟨ea, ha1, ha2, ha3, ha4⟩ := inv_layer q k (s + 1) IR IP hq tab hk e hlen hok reads
    rw [invLayerLoop, if_pos hm]
    simp only []
    rw [ha1]
    simp only []
    have e1 : 2 ^ (s + 1) >>> 1 = 2 ^ s := by
      rw [Nat.shiftRight_eq_div_pow, pow_one, pow_succ]; omega
    have e2 : 2 ^ (k - 1 - (s + 1)) <<< 1 = 2 ^ (k - 1 - s) := by
      rw [Nat.shiftLeft_eq, pow_one, ← pow_succ]; congr 1; omega
    rw [e1, e2]
    obtain ⟨ef, h1, h2, h3, h4⟩ := ih fuel ea
      { root_reads := reads.root_reads ++ List.range' (2 ^ k - 2 ^ (s + 1 + 1) + 1) (2 ^ (s + 1))
        precon_reads :=
          reads.precon_reads ++ List.range' (2 ^ k - 2 ^ (s + 1 + 1) + 1) (2 ^ (s + 1)) }
      (by omega) (by omega) ha2 ha3
    have hle := (inv_index_lt k (s + 1) 0 hk (by positivity)).2.2
    have hp1 : (2:Nat) ^ (s + 1 + 1) = 2 * 2 ^ (s + 1) := by rw [pow_succ]; ring
    have hp2 : (2:Nat) ^ (s + 1) = 2 * 2 ^ s := by rw [pow_succ]; ring
    have hpos : 0 < 2 ^ s := by positivity
    have hidx : 2 ^ k - 2 ^ (s + 1 + 1) + 1 + 2 ^ (s + 1) = 2 ^ k - 2 ^ (s + 1) + 1 := by omega
    have hcnt : 2 ^ (s + 1) - 2 + 2 ^ (s + 1) = 2 ^ (s + 1 + 1) - 2 := by omega
    refine ⟨ef, ?_, h2, h3, ?_⟩
    · rw [h1]
      simp only [List.append_assoc]
      rw [← hidx, List.range'_append_1, hcnt]
    · intro p hp
      rw [h4 p hp, invZg]
      have : s + 1 - 1 = s := by omega
      rw [this]
      exact invZg_congr _ _ k (fun _ _ _ _ => rfl) s s _ _ (by omega) (by omega) ha4 p hp

theorem invFinalLoop_eq (n q tm inv_n inv_n_w : Nat) :
    ∀ (cnt jx : Nat) (e : List Nat),
      invFinalLoop n q tm inv_n inv_n_w cnt jx e
        = pairLoop (finalButterfly q tm inv_n inv_n_w) (n >>> 1) cnt jx e := by
  intro cnt
  induction cnt with
  | zero => intro jx e; rfl
  | succ cnt ih =>
    intro jx e
    rw [invFinalLoop, pairLoop]
    unfold finalButterfly
    rcases MultiplyUIntModLazy64_3
      (sub64 (add64 (e.getD jx 0) (e.getD (jx + n >>> 1) 0))
        (tm &&& mask64 (decide (add64 (e.getD jx 0) (e.getD (jx + n >>> 1) 0) ≥ tm)))) inv_n q
      with _ | x
    · rfl
    · rcases MultiplyUIntModLazy64_3
        (sub64 (add64 (e.getD jx 0) tm) (e.getD (jx + n >>> 1) 0)) inv_n_w q with _ | y
      · rfl
      · exact ih _ _

theorem finalButterfly_spec (q a b X Y : Nat) (hq : q < 2 ^ 62) (ha : a < q) (hb : b < q)
    (hX : X < 2 * q) (hY : Y < 2 * q) :
    ∃ xy, finalButterfly q (shl64 q 1) a b X Y = some xy ∧ xy.1 < 2 * q ∧ xy.2 < 2 * q ∧
      ((xy.1 : Nat) : ZMod q) = (a : ZMod q) * ((X : ZMod q) + Y) ∧
      ((xy.2 : Nat) : ZMod q) = (b : ZMod q) * ((X : ZMod q) - Y) := by
  unfold finalButterfly
  rw [shl64_one q (by omega)]
  have e1 : add64 X Y = X + Y := add64_of_lt _ _ (by omega)
  have e2 : add64 X (2 * q) = X + 2 * q := add64_of_lt _ _ (by omega)
  have e3 : sub64 (X + 2 * q) Y = X + 2 * q - Y := sub64_of_le _ _ (by omega) (by omega)
  rw [e1, e2, e3, condSub_eq (X + Y) (2 * q) (by omega) (by omega), lazy3_eq q a _ ha,
    lazy3_eq q b _ hb]
  simp only []
  have htx : (if X + Y ≥ 2 * q then X + Y - 2 * q else X + Y) < 2 * q := by
    split_ifs <;> omega
  refine ⟨_, rfl, lazy_lt q a _ (by omega) ha (by omega), lazy_lt q b _ (by omega) hb (by omega),
    ?_, ?_⟩
  · simp only []
    rw [lazy_cast q a _ (by omega) ha (by omega)]
    split_ifs with hge
    · rw [Nat.cast_sub hge]; simp; ring
    · simp; ring
  · simp only []
    rw [lazy_cast q b _ (by omega) hb (by omega), Nat.cast_sub (by omega)]; simp; ring

theorem invReduceStep_eq (q i : Nat) (e : List Nat) (hq : q < 2 ^ 62) (hq0 : 0 < q)
    (hi : i < e.length) (hv : e.getD i 0 < 2 * q) :
    invReduceStep q i e = some (e.set i (e.getD i 0 % q)) := by
  unfold invReduceStep
  set v := e.getD i 0 with hvdef
  have hmod : ∀ a b : Nat, a < q → a + b * q = v → v % q = a := by
    intro a b ha hab
    rw [← hab, Nat.add_mul_mod_self_right, Nat.mod_eq_of_lt ha]
  by_cases h2 : v ≥ q
  · rw [if_pos h2]
    simp only []
    rw [getD_set_eq _ _ _ hi, sub64_of_le _ _ (by omega) h2, if_neg (by omega)]
    congr 2
    exact (hmod _ 1 (by omega) (by omega)).symm
  · rw [if_neg h2]
    simp only []
    rw [if_neg (by omega)]
    congr 1
    rw [hmod v 0 (by omega) (by omega)]
    exact (set_getD_self e i).symm

theorem invReduceLoop_spec (q : Nat) (hq : q < 2 ^ 62) (hq0 : 0 < q) :
    ∀ (cnt i : Nat) (e : List Nat), i + cnt ≤ e.length →
      (∀ p, p < e.length → e.getD p 0 < 2 * q) →
      ∃ e1, invReduceLoop q cnt i e = some e1 ∧ e1.length = e.length ∧
        ∀ p, e1.getD p 0 = if i ≤ p ∧ p < i + cnt then e.getD p 0 % q else e.getD p 0 := by
  intro cnt
  induction cnt with
  | zero =>
    intro i e _ _
    exact ⟨e, rfl, rfl, fun p => by rw [if_neg (by omega)]⟩
  | succ cnt ih =>
    intro i e hlen hok
    rw [invReduceLoop, invReduceStep_eq q i e hq hq0 (by omega) (hok i (by omega))]
    simp only []
    have hget : ∀ p, (e.set i (e.getD i 0 % q)).getD p 0
        = if p = i then e.getD i 0 % q else e.getD p 0 := by
      intro p
      by_cases h : p = i
      · rw [if_pos h, h, getD_set_eq _ _ _ (by omega)]
      · rw [if_neg h, getD_set_ne _ _ _ _ (Ne.symm h)]
    obtain ⟨e1, h1, h2, h3⟩ := ih (i + 1) (e.set i (e.getD i 0 % q)) (by simp; omega)
      (by
        intro p hp
        rw [hget]
        split_ifs
        · have := Nat.mod_lt (e.getD i 0) hq0
          omega
        · exact hok p (by simpa using hp))
    refine ⟨e1, h1, by rw [h2]; simp, ?_⟩
    intro p
    rw [h3 p, hget]
    by_cases hpi : p = i
    · rw [if_neg (by omega), if_pos hpi, if_pos (by omega), hpi]
    · rw [if_neg hpi]
      by_cases hr : i + 1 ≤ p ∧ p < i + 1 + cnt
      · rw [if_pos hr, if_pos (by omega)]
      · rw [if_neg hr, if_neg (by omega)]

theorem coprime_two_pow (k q : Nat) (hmod : q % (2 * 2 ^ k) = 1) : Nat.Coprime (2 ^ k) q := by
  apply Nat.Coprime.pow_left
  rw [Nat.Prime.coprime_iff_not_dvd Nat.prime_two]
  intro hd
  have h := Nat.mod_mod_of_dvd q (show 2 ∣ 2 * 2 ^ k from Dvd.intro _ rfl)
  rw [hmod] at h
  have := Nat.mod_eq_zero_of_dvd hd
  omega

/-- The inverse transform on a valid input: it returns, reads its tables at
`1 .. n-1` (the shadow only up to `n-2`), the output obeys the declared bound
and its residues are those of the inverse layers scaled by `1/n`. -/
theorem Inverse_spec (q k : Nat) (IR IP : List Nat) (hq2 : 2 ≤ q)
    (hq : q < 2 ^ 62) (hk1 : 1 ≤ k) (hk : k ≤ 17) (hmod : q % (2 * 2 ^ k) = 1)
    (tab : InvTab q k IR IP)
    (y : List Nat) (imf omf : Nat) (himf : imf = 1 ∨ imf = 2) (homf : omf = 1 ∨ omf = 2)
    (hlen : y.length = 2 ^ k) (hy : ∀ p, p < 2 ^ k → y.getD p 0 < imf * q) :
    ∃ out, InverseTransformFromBitReverse64Traced (2 ^ k) q IR IP y imf omf
        = some (out, { root_reads := List.range' 1 (2 ^ k - 1)
                       precon_reads := List.range' 1 (2 ^ k - 2) }) ∧
      out.length = 2 ^ k ∧ (∀ p, p < 2 ^ k → out.getD p 0 < omf * q) ∧
      ∃ ninv : ZMod q, ((2 ^ k : Nat) : ZMod q) * ninv = 1 ∧
        AgreeOn (2 ^ k) (resid q out)
          (fun p => ninv * invZg (itabW q k IR) k k (k - 1) (resid q y) p) := by
  have hq0 : 0 < q := by omega
  have hok : ∀ p, p < y.length → y.getD p 0 < 2 * q := by
    intro p hp
    have := hy p (by rw [← hlen]; exact hp)
    rcases himf with h | h <;> rw [h] at this <;> omega
  have hk' : k - 1 + 1 = k := by omega
  have hpk : (2:Nat) ^ k = 2 * 2 ^ (k - 1) := by
    conv_lhs => rw [← hk', pow_succ]
    ring
  have hpos1 : 0 < 2 ^ (k - 1) := by positivity
  -- the layers
  obtain ⟨e1, h1, h2, h3, h4⟩ := invLayerLoop_spec q k IR IP hq tab (k - 1) 64 y
    { root_reads := [], precon_reads := [] } (by omega) (by omega) hlen hok
  have hshift : 2 ^ k >>> 1 = 2 ^ (k - 1) := by
    rw [Nat.shiftRight_eq_div_pow, pow_one]; omega
  have ht1 : 2 ^ (k - 1 - (k - 1)) = 1 := by rw [Nat.sub_self, pow_zero]
  rw [ht1, hk', Nat.sub_self, Nat.zero_add] at h1
  simp only [List.nil_append] at h1
  -- the scaling constants
  obtain ⟨inv_n, hn1, hn2, hn3⟩ := InverseUIntMod_spec (2 ^ k) q hq2 (by omega)
    (coprime_two_pow k q hmod)
  have hidx : 2 ^ k - 1 = 2 ^ k - 2 ^ (0 + 1) + 1 + 0 := by omega
  have hWlt : IR.getD (2 ^ k - 1) 0 < q := by
    rw [hidx]; exact tab.lt 0 0 (by omega) (by norm_num)
  have hWval : ((IR.getD (2 ^ k - 1) 0 : Nat) : ZMod q) = itabW q k IR 0 0 := by
    rw [hidx]; rfl
  have hnw := MultiplyUIntMod_eq inv_n (IR.getD (2 ^ k - 1) 0) q hn2 hWlt
  have hninv : ((2 ^ k : Nat) : ZMod q) * (inv_n : ZMod q) = 1 := by
    have : ((2 ^ k * inv_n % q : Nat) : ZMod q) = ((1 : Nat) : ZMod q) := by rw [hn3]
    rw [ZMod.natCast_mod, Nat.cast_mul, Nat.cast_one] at this
    exact this
  -- the fused last layer
  obtain ⟨e2, f1, sp⟩ := pairLoop_spec
    (finalButterfly q (shl64 q 1) inv_n (inv_n * IR.getD (2 ^ k - 1) 0 % q))
    (fun v => v < 2 * q)
    (by
      intro X Y hX hY
      obtain ⟨xy, a, b, c, _, _⟩ := finalButterfly_spec q inv_n
        (inv_n * IR.getD (2 ^ k - 1) 0 % q) X Y hq hn2 (Nat.mod_lt _ hq0) hX hY
      exact ⟨xy, a, b, c⟩)
    (2 ^ (k - 1)) (2 ^ (k - 1)) 0 e1 (le_refl _) (by rw [h2]; omega) h3
  have hfin : AgreeOn (2 ^ k) (resid q e2)
      (fun p => (inv_n : ZMod q) * invZg (itabW q k IR) k k (k - 1) (resid q y) p) := by
    intro p hp
    have hsn := invZg_snoc (itabW q k IR) k (k - 1) (k - 1) (resid q y) (le_refl _)
    rw [hk', Nat.sub_self, Nat.sub_zero] at hsn
    simp only []
    rw [hsn]
    have hcg := bflyG_congr (itabW q k IR 0) (itabW q k IR 0) (2 ^ (k - 1)) (2 ^ 0) hpos1 _ _
      (fun _ _ => rfl) (by rw [pow_zero, Nat.mul_one, ← hpk]; exact h4)
    rw [pow_zero, Nat.mul_one, ← hpk] at hcg
    rw [← hcg p hp]
    unfold bflyG
    have hpm : p % (2 * 2 ^ (k - 1)) = p := Nat.mod_eq_of_lt (by omega)
    have hpd : p / (2 * 2 ^ (k - 1)) = 0 := Nat.div_eq_of_lt (by omega)
    rw [hpm, hpd]
    by_cases hlo : p < 2 ^ (k - 1)
    · rw [if_pos hlo]
      have hpair := sp.pair p (Nat.zero_le _) (by omega)
      obtain ⟨xy, a, _, _, c1, _⟩ := finalButterfly_spec q inv_n
        (inv_n * IR.getD (2 ^ k - 1) 0 % q) (e1.getD p 0) (e1.getD (p + 2 ^ (k - 1)) 0) hq hn2
        (Nat.mod_lt _ hq0) (h3 p (by omega)) (h3 _ (by omega))
      rw [hpair] at a
      rw [← Option.some.inj a] at c1
      exact c1
    · rw [if_neg hlo]
      have hpair := sp.pair (p - 2 ^ (k - 1)) (Nat.zero_le _) (by omega)
      have e2' : p - 2 ^ (k - 1) + 2 ^ (k - 1) = p := by omega
      rw [e2'] at hpair
      obtain ⟨xy, a, _, _, _, c2⟩ := finalButterfly_spec q inv_n
        (inv_n * IR.getD (2 ^ k - 1) 0 % q) (e1.getD (p - 2 ^ (k - 1)) 0) (e1.getD p 0) hq hn2
        (Nat.mod_lt _ hq0) (h3 _ (by omega)) (h3 p (by omega))
      rw [hpair] at a
      rw [← Option.some.inj a] at c2
      unfold resid
      rw [c2, ZMod.natCast_mod, Nat.cast_mul, hWval]
      ring
  have hreads : List.range' 1 (2 ^ k - 2) ++ [2 ^ k - 1] = List.range' 1 (2 ^ k - 1) := by
    have : 2 ^ k - 1 = (2 ^ k - 2) + 1 := by omega
    conv_rhs => rw [this, List.range'_1_concat]
    congr 2
    omega
  -- assemble
  unfold InverseTransformFromBitReverse64Traced
  rw [CheckArguments_ok k q hk hmod]
  simp only [ne_eq, not_true_eq_false, if_false, himf, homf]
  rw [hshift, h1]
  simp only []
  rw [hn1]
  simp only []
  rw [hnw]
  simp only []
  rw [invFinalLoop_eq, hshift]
  have hcnt : 2 ^ k - 2 ^ (k - 1) = 2 ^ (k - 1) := by omega
  rw [hcnt, f1]
  simp only []
  rw [hreads]
  rcases homf with ho | ho
  · rw [if_pos ho]
    obtain ⟨e3, g1, g2, g3⟩ := invReduceLoop_spec q hq hq0 (2 ^ k) 0 e2
      (by rw [sp.len, h2]; omega) sp.ok1
    rw [g1]
    refine ⟨e3, rfl, by rw [g2, sp.len, h2], ?_, inv_n, hninv, ?_⟩
    · intro p hp
      rw [g3 p, if_pos (by omega), ho, Nat.one_mul]
      exact Nat.mod_lt _ hq0
    · intro p hp
      rw [← hfin p hp]
      exact resid_mod q e2 e3 (2 ^ k) (fun p hp => by rw [g3 p, if_pos (by omega)]) p hp
  · rw [if_neg (by omega)]
    refine ⟨e2, rfl, by rw [sp.len, h2], ?_, inv_n, hninv, hfin⟩
    intro p hp
    rw [ho]
    exact sp.ok1 p (by rw [sp.len, h2]; exact hp)

/-- One layer of the reference transform on a reduced buffer. -/
theorem ref_layer (q k s : Nat) (R : List Nat)
    (hR : ∀ idx, idx < 2 ^ k → R.getD idx 0 < q) (hs : s < k) (e : List Nat)
    (hlen : e.length = 2 ^ k) (hok : ∀ p, p < e.length → e.getD p 0 < q) :
    ∃ e1, refGroupLoop q R (2 ^ s) (2 ^ (k - 1 - s)) (2 ^ s) 0 0 e = some e1 ∧
      e1.length = 2 ^ k ∧ (∀ p, p < e1.length → e1.getD p 0 < q) ∧
      AgreeOn (2 ^ k) (resid q e1) (bflyF (tabW q R s) (2 ^ (k - 1 - s)) (resid q e)) := by
  set t := 2 ^ (k - 1 - s) with ht
  have htpos : 0 < t := by positivity
  have hn : 2 * t * 2 ^ s = 2 ^ k := two_pow_split k s hs
  have hidx : ∀ i1, i1 < 2 ^ s → 2 ^ s + i1 < 2 ^ k := fun i1 h1 => layer_index_lt k s i1 hs h1
  have hspec := groupLoop_spec
    (fun i => refButterfly q (R.getD (2 ^ s + i) 0))
    (fun v => v < q) t (2 ^ s) 0 e
    (by
      intro i1 _ h1 X Y hX hY
      rw [Nat.zero_add] at h1
      obtain ⟨xy, h, a, b, _, _⟩ := refButterfly_spec q _ X Y (hR _ (hidx i1 h1)) hX hY
      exact ⟨xy, h, a, b⟩)
    (by rw [Nat.zero_add, hn, hlen]) hok
  rw [Nat.mul_zero] at hspec
  obtain ⟨e1, h1, sp⟩ := hspec
  rw [refGroupLoop_eq]
  refine ⟨e1, h1, by rw [sp.len, hlen], sp.ok1, ?_⟩
  intro p hp
  rw [← hn] at hp
  obtain ⟨hb1, hb2⟩ := block_bounds t (2 ^ s) p htpos hp
  have hdm := Nat.div_add_mod p (2 * t)
  have hmlt := Nat.mod_lt p (show 0 < 2 * t by omega)
  have hplen : p < e.length := by rw [hlen, ← hn]; exact hp
  unfold bflyF tabW
  by_cases hlo : p % (2 * t) < t
  · rw [if_pos hlo]
    have hpair := sp.pair (p / (2 * t)) (p % (2 * t)) (Nat.zero_le _) (by omega) hlo
    rw [hdm] at hpair
    obtain ⟨xy, h, _, _, c1, _⟩ := refButterfly_spec q _ (e.getD p 0) (e.getD (p + t) 0)
      (hR _ (hidx _ hb2)) (hok p hplen) (hok (p + t) (by rw [hlen, ← hn]; exact hb1 hlo))
    rw [hpair] at h
    have := Option.some.inj h
    rw [← this] at c1
    exact c1
  · rw [if_neg hlo]
    have hpair := sp.pair (p / (2 * t)) (p % (2 * t) - t) (Nat.zero_le _) (by omega) (by omega)
    have e1' : 2 * t * (p / (2 * t)) + (p % (2 * t) - t) = p - t := by omega
    have e2' : p - t + t = p := by omega
    rw [e1', e2'] at hpair
    obtain ⟨xy, h, _, _, _, c2⟩ := refButterfly_spec q _ (e.getD (p - t) 0) (e.getD p 0)
      (hR _ (hidx _ hb2)) (hok (p - t) (by omega)) (hok p hplen)
    rw [hpair] at h
    have := Option.some.inj h
    rw [← this] at c2
    exact c2

theorem refLayerLoop_spec (q k : Nat) (R : List Nat)
    (hR : ∀ idx, idx < 2 ^ k → R.getD idx 0 < q) :
    ∀ (d s fuel t : Nat) (e : List Nat), s + d = k → d ≤ fuel →
      (s < k → t = 2 ^ (k - 1 - s)) → e.length = 2 ^ k →
      (∀ p, p < e.length → e.getD p 0 < q) →
      ∃ e1, refLayerLoop (2 ^ k) q R fuel (2 ^ s) t e = some e1 ∧
        e1.length = 2 ^ k ∧ (∀ p, p < e1.length → e1.getD p 0 < q) ∧
        AgreeOn (2 ^ k) (resid q e1) (fwdZg (tabW q R) k d s (resid q e)) := by
  intro d
  induction d with
  | zero =>
    intro s fuel t e hs _ _ hlen hok
    have : s = k := by omega
    subst this
    refine ⟨e, ?_, hlen, hok, fun p _ => rfl⟩
    cases fuel <;> simp [refLayerLoop]
  | succ d ih =>
    intro s fuel t e hs hf ht hlen hok
    obtain ⟨fuel, rfl⟩ : ∃ f, fuel = f + 1 := ⟨fuel - 1, by omega⟩
    have hsk : s < k := by omega
    have hlt : 2 ^ s < 2 ^ k := Nat.pow_lt_pow_right (by norm_num) hsk
    obtain ⟨ea, ha1, ha2, ha3, ha4⟩ := ref_layer q k s R hR hsk e hlen hok
    rw [refLayerLoop, if_pos hlt, ht hsk, ha1]
    simp only []
    have hm : 2 ^ s <<< 1 = 2 ^ (s + 1) := by rw [Nat.shiftLeft_eq, pow_one, pow_succ]
    rw [hm]
    obtain ⟨e1, h1, h2, h3, h4⟩ := ih (s + 1) fuel (2 ^ (k - 1 - s) >>> 1) ea (by omega)
      (by omega)
      (by
        intro hs1
        rw [Nat.shiftRight_eq_div_pow, pow_one]
        have : k - 1 - s = (k - 1 - (s + 1)) + 1 := by omega
        rw [this, pow_succ]; omega)
      ha2 ha3
    refine ⟨e1, h1, h2, h3, ?_⟩
    intro p hp
    rw [h4 p hp, fwdZg]
    exact fwdZg_congr _ _ k (fun _ _ _ _ => rfl) d (s + 1) _ _ (by omega) ha4 p hp

/-- The reference transform on a reduced input: it returns a reduced output
whose residues are those of the forward layers. -/
theorem Reference_spec (q k : Nat) (R : List Nat) (hk : k ≤ 17)
    (hmod : q % (2 * 2 ^ k) = 1) (hR : ∀ idx, idx < 2 ^ k → R.getD idx 0 < q)
    (x : List Nat) (hlen : x.length = 2 ^ k) (hx : ∀ p, p < 2 ^ k → x.getD p 0 < q) :
    ∃ out, ReferenceForwardTransformToBitReverse (2 ^ k) q R x = some out ∧
      out.length = 2 ^ k ∧ (∀ p, p < 2 ^ k → out.getD p 0 < q) ∧
      AgreeOn (2 ^ k) (resid q out) (fwdZg (tabW q R) k k 0 (resid q x)) := by
  obtain ⟨e1, h1, h2, h3, h4⟩ := refLayerLoop_spec q k R hR k 0 64 (2 ^ k >>> 1) x (by omega)
    (by omega)
    (by
      intro hk0
      rw [Nat.shiftRight_eq_div_pow, pow_one]
      have : k = (k - 1 - 0) + 1 := by omega
      conv_lhs => rw [this, pow_succ]
      omega)
    hlen (fun p hp => hx p (by rw [← hlen]; exact hp))
  rw [pow_zero] at h1
  unfold ReferenceForwardTransformToBitReverse
  rw [CheckArguments_ok k q hk hmod]
  simp only [ne_eq, not_true_eq_false, if_false]
  exact ⟨e1, h1, h2, fun p hp => h3 p (by rw [h2]; exact hp), h4⟩

/-- Two buffers of the same length with the same residues and entries below
`q` are equal. -/
theorem eq_of_resid (q n : Nat) (a b : List Nat) (ha : a.length = n) (hb : b.length = n)
    (hal : ∀ p, p < n → a.getD p 0 < q) (hbl : ∀ p, p < n → b.getD p 0 < q)
    (h : AgreeOn n (resid q a) (resid q b)) : a = b := by
  apply List.ext_getElem (by rw [ha, hb])
  intro p h1 h2
  have hp : p < n := by rw [← ha]; exact h1
  have := h p hp
  unfold resid at this
  rw [ZMod.natCast_eq_natCast_iff'] at this
  rw [Nat.mod_eq_of_lt (hal p hp), Nat.mod_eq_of_lt (hbl p hp)] at this
  rw [List.getD_eq_getElem a 0 h1, List.getD_eq_getElem b 0 h2] at this
  exact this

theorem IsPrimitiveRoot_true (w n q : Nat) (hq : 2 ≤ q) (hq64 : q < 2 ^ 64) (hn : 2 * n < 2 ^ 64)
    (h : IsPrimitiveRoot w (2 * n) q = some true) : w ≠ 0 ∧ w ^ n % q = q - 1 := by
  unfold IsPrimitiveRoot at h
  by_cases hw : w = 0
  · rw [if_pos hw] at h; simp at h
  · rw [if_neg hw] at h
    by_cases hp : ¬ IsPowerOfTwo (2 * n) = true
    · rw [if_pos hp] at h; simp at h
    · rw [if_neg hp] at h
      have e : 2 * n / 2 = n := by omega
      rw [e, PowMod_eq w n q hq (by omega), sub64_of_le q 1 (by omega) (by omega)] at h
      simp only [Option.map_some', Option.some.injEq, beq_iff_eq] at h
      exact ⟨hw, h⟩

theorem root_neg_one (w n q : Nat) (hq : 2 ≤ q) (h : w ^ n % q = q - 1) :
    ((w : ZMod q)) ^ n = -1 := by
  have h1 : ((w ^ n % q : Nat) : ZMod q) = ((q - 1 : Nat) : ZMod q) := by rw [h]
  rw [ZMod.natCast_mod, Nat.cast_pow, Nat.cast_sub (by omega)] at h1
  rw [h1]; simp

theorem coprime_of_prime (w q : Nat) (hp : q.Prime) (hw : w < q) (hw0 : w ≠ 0) :
    Nat.Coprime w q := by
  apply Nat.Coprime.symm
  rw [Nat.Prime.coprime_iff_not_dvd hp]
  intro hd
  have := Nat.le_of_dvd (Nat.pos_of_ne_zero hw0) hd
  omega

theorem getD_lt_of_forall_mem (x : List Nat) (b n : Nat) (hlen : x.length = n)
    (hx : ∀ v ∈ x, v < b) : ∀ p, p < n → x.getD p 0 < b := by
  intro p hp
  rw [List.getD_eq_getElem x 0 (by rw [hlen]; exact hp)]
  exact hx _ (List.getElem_mem _)

/-- The tables of a valid `(n, q, w)` and the facts the transforms use. -/
theorem tables_of_valid (k q w : Nat) (hk : k ≤ 17) (hq2 : 2 ≤ q) (hq : q < 2 ^ 62)
    (hw : w < q) (hc : Nat.Coprime w q) :
    ∃ T, ComputeRootOfUnityPowers (2 ^ k) q w (Log2 (2 ^ k)) = some T ∧ TablesSpec q w k T := by
  rw [Log2_two_pow k (by omega)]
  exact ComputeRootOfUnityPowers_spec q w k hq2 (by omega) hw hc (by omega)

/-- Residues of the forward output of a valid table: the forward layers with
the twiddles `ω^rev(2^s + i)`. -/
theorem forward_twid (k q w : Nat) (T : NTTTables) (hT : TablesSpec q w k T) (hk : k ≤ 17)
    (x out : List Nat)
    (h : AgreeOn (2 ^ k) (resid q out) (fwdZg (tabW q T.root_of_unity_powers) k k 0 (resid q x))) :
    AgreeOn (2 ^ k) (resid q out) (fwdZg (twid k (w : ZMod q)) k k 0 (resid q x)) := by
  intro p hp
  rw [h p hp]
  exact fwdZg_congr _ _ k (fun s i hs hi => hT.tabW_eq (by omega) s i hs hi) k 0 _ _ (by omega)
    (fun _ _ => rfl) p hp

/-- C1. Round trip: for a degree `n = 2^k` with `1 ≤ k ≤ 17`, a prime
`q < 2^62` with `q ≡ 1 (mod 2n)`, a primitive `2n`-th root `w` and the tables
of `ComputeRootOfUnityPowers`, the inverse transform (factors 1, 1) of the
forward transform (factors 2, 1) of a reduced array `x` is `x` itself. -/
theorem C1_round_trip (k n q w : Nat) (x : List Nat) (hn : n = 2 ^ k) (hk1 : 1 ≤ k)
    (hk : k ≤ 17) (hp : q.Prime) (hq : q < 2 ^ 62) (hmod : q % (2 * n) = 1) (hw : w < q)
    (hroot : IsPrimitiveRoot w (2 * n) q = some true) (hlen : x.length = n)
    (hx : ∀ v ∈ x, v < q) :
    ∃ T y, ComputeRootOfUnityPowers n q w (Log2 n) = some T ∧
      ForwardTransformToBitReverse64 n q T.root_of_unity_powers
        T.precon64_root_of_unity_powers x 2 1 = some y ∧
      InverseTransformFromBitReverse64 n q T.inv_root_of_unity_powers
        T.precon64_inv_root_of_unity_powers y 1 1 = some x := by
  subst hn
  have hq2 : 2 ≤ q := hp.two_le
  have hn64 : 2 * 2 ^ k < 2 ^ 64 := by
    calc 2 * 2 ^ k = 2 ^ (k + 1) := by rw [pow_succ]; ring
      _ < 2 ^ 64 := Nat.pow_lt_pow_right (by norm_num) (by omega)
  obtain ⟨hw0, _⟩ := IsPrimitiveRoot_true w (2 ^ k) q hq2 (by omega) hn64 hroot
  have hc := coprime_of_prime w q hp hw hw0
  obtain ⟨T, hT1, hT⟩ := tables_of_valid k q w hk hq2 hq hw hc
  have hxp := getD_lt_of_forall_mem x q (2 ^ k) hlen hx
  obtain ⟨y, hy1, hy2, hy3, hy4⟩ := Forward_spec q k _ _ hq hk hmod (hT.fwdTab (by omega) (by omega))
    x 2 1 (Or.inl rfl) (Or.inl rfl) hlen (fun p hp => by have := hxp p hp; omega)
  obtain ⟨out, ho1, ho2, ho3, ninv, hninv, ho4⟩ := Inverse_spec q k _ _ hq2 hq hk1 hk hmod
    (hT.invTab (by omega) hq2 (by omega) hc) y 1 1 (Or.inl rfl) (Or.inl rfl) hy2 hy3
  refine ⟨T, y, hT1, hy1, ?_⟩
  have hout : out = x := by
    apply eq_of_resid q (2 ^ k) out x ho2 hlen (fun p hp => by have := ho3 p hp; omega) hxp
    intro p hp
    rw [ho4 p hp]
    beta_reduce
    have h1 := invZg_congr (itabW q k T.inv_root_of_unity_powers) (twid k ((w : ZMod q)⁻¹)) k
      (fun s i hs hi => hT.itabW_eq (by omega) hq2 (by omega) hc s i hs hi) k (k - 1) _ _
      (by omega) (by omega) (forward_twid k q w T hT hk x y hy4) p hp
    rw [h1, invZg_fwdZg (twid k (w : ZMod q)) (twid k ((w : ZMod q)⁻¹)) k
      (twid_mul k _ _ (ZMod.coe_mul_inv_eq_one w hc)) k 0 _ (by omega)]
    rw [Nat.cast_pow] at hninv
    calc ninv * (2 ^ k * resid q x p) = ((2 : ZMod q) ^ k * ninv) * resid q x p := by ring
      _ = resid q x p := by
        have : ((2 : Nat) : ZMod q) = 2 := by norm_num
        rw [this] at hninv
        rw [hninv, one_mul]
  unfold InverseTransformFromBitReverse64
  rw [ho1, hout]
  rfl

/-- C1, at `n = 2`, `q = 5`, `w = 2`, `x = [1, 2]`. -/
theorem C1_round_trip_witness :
    (2 = 2 ^ 1 ∧ Nat.Prime 5 ∧ 5 % (2 * 2) = 1 ∧ IsPrimitiveRoot 2 (2 * 2) 5 = some true) ∧
    ∃ T y, ComputeRootOfUnityPowers 2 5 2 (Log2 2) = some T ∧
      ForwardTransformToBitReverse64 2 5 T.root_of_unity_powers
        T.precon64_root_of_unity_powers [1, 2] 2 1 = some y ∧
      InverseTransformFromBitReverse64 2 5 T.inv_root_of_unity_powers
        T.precon64_inv_root_of_unity_powers y 1 1 = some [1, 2] :=
  ⟨⟨by decide, by norm_num, by decide, by decide⟩,
    C1_round_trip 1 2 5 2 [1, 2] (by decide) (by decide) (by decide) (by norm_num) (by decide)
      (by decide) (by decide) (by decide) (by decide) (by decide)⟩

/-- C2. The forward transform computes the negacyclic NTT in bit-reversed
order: for a valid `(n, q, w)` with `n = 2^k`, `1 ≤ k ≤ 17`, and an input below
`input_mod_factor · q`, output `i` is congruent modulo `q` to
`Σ_j x[j] · w^((2·ReverseBitsUInt(i, log2 n) + 1)·j)`, for either output
factor. -/
theorem C2_forward_is_ntt (k n q w : Nat) (x : List Nat) (imf omf : Nat) (hn : n = 2 ^ k)
    (hk1 : 1 ≤ k) (hk : k ≤ 17) (hp : q.Prime) (hq : q < 2 ^ 62) (hmod : q % (2 * n) = 1)
    (hw : w < q) (hroot : IsPrimitiveRoot w (2 * n) q = some true)
    (himf : imf = 2 ∨ imf = 4) (homf : omf = 1 ∨ omf = 4) (hlen : x.length = n)
    (hx : ∀ v ∈ x, v < imf * q) :
    ∃ T out, ComputeRootOfUnityPowers n q w (Log2 n) = some T ∧
      ForwardTransformToBitReverse64 n q T.root_of_unity_powers
        T.precon64_root_of_unity_powers x imf omf = some out ∧
      out.length = n ∧
      ∀ i, i < n →
        out.getD i 0 ≡
          ∑ j in range n, x.getD j 0 * w ^ ((2 * ReverseBitsUInt i (Log2 n) + 1) * j) [MOD q] := by
  subst hn
  have hq2 : 2 ≤ q := hp.two_le
  have hn64 : 2 * 2 ^ k < 2 ^ 64 := by
    calc 2 * 2 ^ k = 2 ^ (k + 1) := by rw [pow_succ]; ring
      _ < 2 ^ 64 := Nat.pow_lt_pow_right (by norm_num) (by omega)
  obtain ⟨hw0, hwn⟩ := IsPrimitiveRoot_true w (2 ^ k) q hq2 (by omega) hn64 hroot
  have hc := coprime_of_prime w q hp hw hw0
  obtain ⟨T, hT1, hT⟩ := tables_of_valid k q w hk hq2 hq hw hc
  have hxp := getD_lt_of_forall_mem x (imf * q) (2 ^ k) hlen hx
  obtain ⟨y, hy1, hy2, _, hy4⟩ := Forward_spec q k _ _ hq hk hmod (hT.fwdTab (by omega) (by omega))
    x imf omf himf homf hlen hxp
  refine ⟨T, y, hT1, hy1, hy2, ?_⟩
  intro i hi
  rw [Log2_two_pow k (by omega), ← ZMod.natCast_eq_natCast_iff]
  have h1 := forward_twid k q w T hT hk x y hy4 i hi
  rw [fwdZ_closed k (by omega) (w : ZMod q) (root_neg_one w (2 ^ k) q hq2 hwn) _ i hi] at h1
  unfold resid at h1
  rw [h1]
  push_cast
  rfl

/-- C2, at `n = 2`, `q = 5`, `w = 2`, `x = [7, 9]`, factors 2 and 4. -/
theorem C2_forward_is_ntt_witness :
    (2 = 2 ^ 1 ∧ Nat.Prime 5 ∧ 5 % (2 * 2) = 1 ∧ IsPrimitiveRoot 2 (2 * 2) 5 = some true ∧
      ∀ v ∈ [7, 9], v < 2 * 5) ∧
    ∃ T out, ComputeRootOfUnityPowers 2 5 2 (Log2 2) = some T ∧
      ForwardTransformToBitReverse64 2 5 T.root_of_unity_powers
        T.precon64_root_of_unity_powers [7, 9] 2 4 = some out ∧
      out.length = 2 ∧
      ∀ i, i < 2 →
        out.getD i 0 ≡
          ∑ j in range 2, [7, 9].getD j 0 * 2 ^ ((2 * ReverseBitsUInt i (Log2 2) + 1) * j)
            [MOD 5] :=
  ⟨⟨by decide, by norm_num, by decide, by decide, by decide⟩,
    C2_forward_is_ntt 1 2 5 2 [7, 9] 2 4 (by decide) (by decide) (by decide) (by norm_num)
      (by decide) (by decide) (by decide) (by decide) (by decide) (by decide) (by decide)
      (by decide)⟩

theorem getD_map_any (f : Nat → Nat) (hf : f 0 = 0) (R : List Nat) (idx : Nat) :
    (R.map f).getD idx 0 = f (R.getD idx 0) := by
  by_cases h : idx < R.length
  · exact getD_map f R idx h
  · simp only [List.getD_eq_getElem?_getD]
    rw [List.getElem?_eq_none (by simp; omega), List.getElem?_eq_none (by omega)]
    simp [hf]

/-- A root table with reduced entries and its Barrett shadow serve the forward
transform. -/
theorem fwdTab_of_precon (q k : Nat) (R P : List Nat) (hq : 0 < q)
    (hR : ∀ idx, idx < 2 ^ k → R.getD idx 0 < q) (hP : preconTable R 64 q = some P) :
    FwdTab q k R P := by
  rw [preconTable_eq R 64 q (by omega)] at hP
  have hP := Option.some.inj hP
  refine ⟨hR, ?_⟩
  intro idx hidx
  rw [← hP, getD_map_any _ (by simp) R idx]
  apply Nat.mod_eq_of_lt
  apply Nat.div_lt_of_lt_mul
  exact Nat.mul_lt_mul_of_pos_right (hR idx hidx) (by positivity)

theorem invTab_of_precon (q k : Nat) (IR IP : List Nat) (hq : 0 < q)
    (hR : ∀ idx, 1 ≤ idx → idx < 2 ^ k → IR.getD idx 0 < q)
    (hP : preconTable IR 64 q = some IP) : InvTab q k IR IP := by
  rw [preconTable_eq IR 64 q (by omega)] at hP
  have hP := Option.some.inj hP
  have hlt : ∀ s i, s < k → i < 2 ^ s → IR.getD (2 ^ k - 2 ^ (s + 1) + 1 + i) 0 < q := by
    intro s i hs hi
    obtain ⟨h1, _, _⟩ := inv_index_lt k s i hs hi
    exact hR _ (by omega) h1
  refine ⟨hlt, ?_⟩
  intro s i hs hi
  rw [← hP, getD_map_any _ (by simp) IR _]
  apply Nat.mod_eq_of_lt
  apply Nat.div_lt_of_lt_mul
  exact Nat.mul_lt_mul_of_pos_right (hlt s i hs hi) (by positivity)

theorem pos_of_mod_one (q m : Nat) (h : q % m = 1) : 0 < q := by
  rcases Nat.eq_zero_or_pos q with h0 | h0
  · rw [h0] at h; simp at h
  · exact h0

/-- C3. The lazy forward transform and the reference forward transform agree:
on a valid `(n, q)`, the same root table and an input below `q`, the two
outputs are congruent modulo `q` index by index, and with
`output_mod_factor = 1` they are the same array. -/
theorem C3_lazy_matches_reference (k n q : Nat) (R P x : List Nat) (imf omf : Nat)
    (hn : n = 2 ^ k) (hk : k ≤ 17) (hq : q < 2 ^ 62) (hmod : q % (2 * n) = 1)
    (hR : ∀ idx, idx < n → R.getD idx 0 < q) (hP : preconTable R 64 q = some P)
    (himf : imf = 2 ∨ imf = 4) (homf : omf = 1 ∨ omf = 4) (hlen : x.length = n)
    (hx : ∀ v ∈ x, v < q) :
    ∃ a b, ForwardTransformToBitReverse64 n q R P x imf omf = some a ∧
      ReferenceForwardTransformToBitReverse n q R x = some b ∧
      a.length = n ∧ b.length = n ∧
      (∀ i, i < n → a.getD i 0 ≡ b.getD i 0 [MOD q]) ∧ (omf = 1 → a = b) := by
  subst hn
  have hq0 := pos_of_mod_one q _ hmod
  have hxp := getD_lt_of_forall_mem x q (2 ^ k) hlen hx
  obtain ⟨a, ha1, ha2, ha3, ha4⟩ := Forward_spec q k R P hq hk hmod
    (fwdTab_of_precon q k R P hq0 hR hP) x imf omf himf homf hlen
    (fun p hp => by
      have := hxp p hp
      rcases himf with h | h <;> rw [h] <;> omega)
  obtain ⟨b, hb1, hb2, hb3, hb4⟩ := Reference_spec q k R hk hmod hR x hlen hxp
  have hab : AgreeOn (2 ^ k) (resid q a) (resid q b) := fun p hp => by
    rw [ha4 p hp, hb4 p hp]
  refine ⟨a, b, ha1, hb1, ha2, hb2, ?_, ?_⟩
  · intro i hi
    exact (ZMod.natCast_eq_natCast_iff _ _ _).mp (hab i hi)
  · intro ho
    exact eq_of_resid q (2 ^ k) a b ha2 hb2
      (fun p hp => by have := ha3 p hp; rw [ho] at this; omega) hb3 hab

/-- C3, at `n = 2`, `q = 5`, the root table `[1, 2]`, `x = [3, 4]`. -/
theorem C3_lazy_matches_reference_witness :
    (2 = 2 ^ 1 ∧ 5 % (2 * 2) = 1 ∧ (∀ idx, idx < 2 → [1, 2].getD idx 0 < 5) ∧
      preconTable [1, 2] 64 5 = some [3689348814741910323, 7378697629483820646]) ∧
    ∃ a b, ForwardTransformToBitReverse64 2 5 [1, 2]
        [3689348814741910323, 7378697629483820646] [3, 4] 2 1 = some a ∧
      ReferenceForwardTransformToBitReverse 2 5 [1, 2] [3, 4] = some b ∧
      a.length = 2 ∧ b.length = 2 ∧
      (∀ i, i < 2 → a.getD i 0 ≡ b.getD i 0 [MOD 5]) ∧ (1 = 1 → a = b) :=
  ⟨⟨by decide, by decide, by decide, by decide⟩,
    C3_lazy_matches_reference 1 2 5 [1, 2] [3689348814741910323, 7378697629483820646] [3, 4]
      2 1 (by decide) (by decide) (by decide) (by decide) (by decide) (by decide) (by decide)
      (by decide) (by decide) (by decide)⟩

/-- The output with `output_mod_factor = 1` is the output with
`output_mod_factor = 4` reduced modulo `q` entry by entry. -/
theorem Forward_reduce (q k : Nat) (R P : List Nat) (hq : q < 2 ^ 62)
    (hk : k ≤ 17) (hmod : q % (2 * 2 ^ k) = 1) (tab : FwdTab q k R P)
    (x : List Nat) (imf : Nat) (himf : imf = 2 ∨ imf = 4)
    (hlen : x.length = 2 ^ k) (hx : ∀ p, p < 2 ^ k → x.getD p 0 < imf * q) :
    ∃ a b, ForwardTransformToBitReverse64 (2 ^ k) q R P x imf 1 = some a ∧
      ForwardTransformToBitReverse64 (2 ^ k) q R P x imf 4 = some b ∧
      a.length = 2 ^ k ∧ b.length = 2 ^ k ∧
      ∀ p, p < 2 ^ k → b.getD p 0 < 4 * q ∧ a.getD p 0 = b.getD p 0 % q := by
  have hq0 := pos_of_mod_one q _ hmod
  have himfq : mul64 q imf = imf * q := by
    rw [mul64_of_lt _ _ (by rcases himf with h | h <;> rw [h] <;> omega), Nat.mul_comm]
  have hok : ∀ p, p < x.length → x.getD p 0 < 4 * q := by
    intro p hp
    have := hx p (by rw [← hlen]; exact hp)
    rcases himf with h | h <;> rw [h] at this <;> omega
  obtain ⟨e1, h1, h2, h3, _⟩ := fwdLayerLoop_spec q k R P hq tab k 0 64
    (2 ^ k >>> 1) x (by omega) (by omega)
    (by
      intro hk0
      rw [Nat.shiftRight_eq_div_pow, pow_one]
      have : k = (k - 1 - 0) + 1 := by omega
      conv_lhs => rw [this, pow_succ]
      omega)
    hlen hok
  rw [pow_zero] at h1
  obtain ⟨e2, g1, g2, g3⟩ := fwdReduceLoop_spec q hq hq0 (2 ^ k) 0 e1 (by omega) h3
  refine ⟨e2, e1, ?_, ?_, by rw [g2, h2], h2, ?_⟩
  · unfold ForwardTransformToBitReverse64
    rw [CheckArguments_ok k q hk hmod, himfq, LATTICE_CHECK_BOUNDS_ok x _ _ hx]
    simp only [ne_eq, not_true_eq_false, if_false, himf]
    rw [h1]
    simp only [true_or, not_true_eq_false, if_false, if_true]
    exact g1
  · unfold ForwardTransformToBitReverse64
    rw [CheckArguments_ok k q hk hmod, himfq, LATTICE_CHECK_BOUNDS_ok x _ _ hx]
    simp only [ne_eq, not_true_eq_false, if_false, himf]
    rw [h1]
    simp
  · intro p hp
    exact ⟨h3 p (by omega), by rw [g3 p, if_pos (by omega)]⟩

/-- C4. Forward output bound: on a valid `(n, q)` with `q < 2^62` and an input
below `input_mod_factor · q`, every output is below `q` for
`output_mod_factor = 1` and below `4q` for `output_mod_factor = 4`, and the
final conditional subtractions keep every residue: the first output is the
second reduced modulo `q`. -/
theorem C4_forward_output_bound (k n q : Nat) (R P x : List Nat) (imf : Nat)
    (hn : n = 2 ^ k) (hk : k ≤ 17) (hq : q < 2 ^ 62) (hmod : q % (2 * n) = 1)
    (hR : ∀ idx, idx < n → R.getD idx 0 < q) (hP : preconTable R 64 q = some P)
    (himf : imf = 2 ∨ imf = 4) (hlen : x.length = n) (hx : ∀ v ∈ x, v < imf * q) :
    ∃ a b, ForwardTransformToBitReverse64 n q R P x imf 1 = some a ∧
      ForwardTransformToBitReverse64 n q R P x imf 4 = some b ∧
      a.length = n ∧ b.length = n ∧
      ∀ i, i < n → a.getD i 0 < q ∧ b.getD i 0 < 4 * q ∧ a.getD i 0 % q = b.getD i 0 % q := by
  subst hn
  have hq0 := pos_of_mod_one q _ hmod
  obtain ⟨a, b, h1, h2, h3, h4, h5⟩ := Forward_reduce q k R P hq hk hmod
    (fwdTab_of_precon q k R P hq0 hR hP) x imf himf hlen
    (getD_lt_of_forall_mem x (imf * q) (2 ^ k) hlen hx)
  refine ⟨a, b, h1, h2, h3, h4, ?_⟩
  intro i hi
  obtain ⟨hb, ha⟩ := h5 i hi
  refine ⟨by rw [ha]; exact Nat.mod_lt _ hq0, hb, by rw [ha, Nat.mod_mod]⟩

/-- C4, at `n = 2`, `q = 5`, the root table `[1, 2]`, `x = [19, 17]`, factor 4. -/
theorem C4_forward_output_bound_witness :
    (2 = 2 ^ 1 ∧ 5 % (2 * 2) = 1 ∧ (∀ idx, idx < 2 → [1, 2].getD idx 0 < 5) ∧
      preconTable [1, 2] 64 5 = some [3689348814741910323, 7378697629483820646] ∧
      ∀ v ∈ [19, 17], v < 4 * 5) ∧
    ∃ a b, ForwardTransformToBitReverse64 2 5 [1, 2]
        [3689348814741910323, 7378697629483820646] [19, 17] 4 1 = some a ∧
      ForwardTransformToBitReverse64 2 5 [1, 2]
        [3689348814741910323, 7378697629483820646] [19, 17] 4 4 = some b ∧
      a.length = 2 ∧ b.length = 2 ∧
      ∀ i, i < 2 → a.getD i 0 < 5 ∧ b.getD i 0 < 4 * 5 ∧ a.getD i 0 % 5 = b.getD i 0 % 5 :=
  ⟨⟨by decide, by decide, by decide, by decide, by decide⟩,
    C4_forward_output_bound 1 2 5 [1, 2] [3689348814741910323, 7378697629483820646] [19, 17]
      4 (by decide) (by decide) (by decide) (by decide) (by decide) (by decide) (by decide)
      (by decide) (by decide)⟩

/-- C5. Forward lazy-reduction invariant: for `q < 2^62` and table entries
`W < q` with `W_precon = ⌊W·2^64/q⌋`, a butterfly layer run on a buffer below
`4q` passes every debug check and leaves the buffer below `4q`; in each
butterfly `tx + T` stays below `2^64` and `tx + 2q - T` does not underflow, so
the stored values are the exact sums. -/
theorem C5_forward_lazy_invariant (k s q : Nat) (R P e : List Nat) (hs : s < k)
    (hq : q < 2 ^ 62) (hR : ∀ idx, idx < 2 ^ k → R.getD idx 0 < q)
    (hP : preconTable R 64 q = some P) (hlen : e.length = 2 ^ k) (he : ∀ v ∈ e, v < 4 * q) :
    (∃ e1, fwdGroupLoop q (shl64 q 1) R P (2 ^ s) (2 ^ (k - 1 - s)) (2 ^ s) 0 0 e = some e1 ∧
      e1.length = 2 ^ k ∧ ∀ v ∈ e1, v < 4 * q) ∧
    ∀ W X Y, W < q → X < 4 * q → Y < 4 * q →
      let tx := sub64 X (shl64 q 1 &&& mask64 (decide (X ≥ shl64 q 1)))
      let T := MultiplyUIntModLazy64 Y W (W * 2 ^ 64 / q) q
      tx + T < 2 ^ 64 ∧ T ≤ tx + shl64 q 1 ∧ tx + shl64 q 1 < 2 ^ 64 ∧
      tx + T < 4 * q ∧ tx + shl64 q 1 - T < 4 * q ∧
      fwdButterfly q (shl64 q 1) W (W * 2 ^ 64 / q) X Y = some (tx + T, tx + shl64 q 1 - T) := by
  have hq0 : 0 < q := by
    have := hR 0 (by positivity)
    omega
  constructor
  · obtain ⟨e1, h1, h2, h3, _⟩ := fwd_layer q k s R P hq (fwdTab_of_precon q k R P hq0 hR hP) hs e
      hlen (fun p hp => by
        rw [List.getD_eq_getElem e 0 hp]; exact he _ (List.getElem_mem _))
    refine ⟨e1, h1, h2, ?_⟩
    intro v hv
    obtain ⟨i, hi, rfl⟩ := List.getElem_of_mem hv
    have := h3 i hi
    rw [List.getD_eq_getElem e1 0 hi] at this
    exact this
  · intro W X Y hW hX hY
    obtain ⟨h, htx, hT, h1, h2, h3⟩ := fwdButterfly_eq q W X Y hq hW hX hY
    rw [shl64_one q (by omega)] at h ⊢
    rw [condSub_eq X (2 * q) (by omega) (by omega)]
    exact ⟨by omega, h3, by omega, h1, h2, h⟩

/-- C5, at `k = 1`, layer `s = 0`, `q = 5`, the root table `[1, 2]`, buffer
`[19, 17]`. -/
theorem C5_forward_lazy_invariant_witness :
    ((0 < 1) ∧ 5 < 2 ^ 62 ∧ (∀ idx, idx < 2 ^ 1 → [1, 2].getD idx 0 < 5) ∧
      preconTable [1, 2] 64 5 = some [3689348814741910323, 7378697629483820646] ∧
      ∀ v ∈ [19, 17], v < 4 * 5) ∧
    ((∃ e1, fwdGroupLoop 5 (shl64 5 1) [1, 2] [3689348814741910323, 7378697629483820646]
          (2 ^ 0) (2 ^ (1 - 1 - 0)) (2 ^ 0) 0 0 [19, 17] = some e1 ∧
        e1.length = 2 ^ 1 ∧ ∀ v ∈ e1, v < 4 * 5) ∧
      ∀ W X Y, W < 5 → X < 4 * 5 → Y < 4 * 5 →
        let tx := sub64 X (shl64 5 1 &&& mask64 (decide (X ≥ shl64 5 1)))
        let T := MultiplyUIntModLazy64 Y W (W * 2 ^ 64 / 5) 5
        tx + T < 2 ^ 64 ∧ T ≤ tx + shl64 5 1 ∧ tx + shl64 5 1 < 2 ^ 64 ∧
        tx + T < 4 * 5 ∧ tx + shl64 5 1 - T < 4 * 5 ∧
        fwdButterfly 5 (shl64 5 1) W (W * 2 ^ 64 / 5) X Y
          = some (tx + T, tx + shl64 5 1 - T)) :=
  ⟨⟨by decide, by decide, by decide, by decide, by decide⟩,
    C5_forward_lazy_invariant 1 0 5 [1, 2] [3689348814741910323, 7378697629483820646]
      [19, 17] (by decide) (by decide) (by decide) (by decide) (by decide) (by decide)⟩

theorem forall_mem_of_getD (e : List Nat) (b : Nat) (h : ∀ p, p < e.length → e.getD p 0 < b) :
    ∀ v ∈ e, v < b := by
  intro v hv
  obtain ⟨i, hi, rfl⟩ := List.getElem_of_mem hv
  have := h i hi
  rw [List.getD_eq_getElem e 0 hi] at this
  exact this

/-- C6. Inverse lazy-reduction bounds: for `q < 2^62` and an input below
`input_mod_factor · q`, every butterfly layer of the inverse transform maps a
buffer below `2q` to a buffer below `2q`, and the returned elements are below
`q` for `output_mod_factor = 1` and below `2q` for `output_mod_factor = 2`. -/
theorem C6_inverse_lazy_bounds (k n q : Nat) (IR IP y : List Nat) (imf omf : Nat)
    (hn : n = 2 ^ k) (hk1 : 1 ≤ k) (hk : k ≤ 17) (hq2 : 2 ≤ q) (hq : q < 2 ^ 62)
    (hmod : q % (2 * n) = 1) (hIR : ∀ idx, 1 ≤ idx → idx < n → IR.getD idx 0 < q)
    (hIP : preconTable IR 64 q = some IP) (himf : imf = 1 ∨ imf = 2)
    (homf : omf = 1 ∨ omf = 2) (hlen : y.length = n) (hy : ∀ v ∈ y, v < imf * q) :
    (∀ s e reads, 1 ≤ s → s < k → e.length = n → (∀ v ∈ e, v < 2 * q) →
      ∀ v ∈ (invGroupLoop q (shl64 q 1) IR IP (2 ^ (k - 1 - s)) (2 ^ s) 0
          (n - 2 ^ (s + 1) + 1) e reads).1, v < 2 * q) ∧
    ∃ out, InverseTransformFromBitReverse64 n q IR IP y imf omf = some out ∧
      out.length = n ∧ ∀ v ∈ out, v < omf * q := by
  subst hn
  have tab := invTab_of_precon q k IR IP (by omega) hIR hIP
  constructor
  · intro s e reads _ hs hlen1 he
    obtain ⟨e1, h1, h2, h3, _⟩ := inv_layer q k s IR IP hq tab hs e hlen1
      (getD_lt_of_forall_mem e (2 * q) _ rfl he) reads
    rw [h1]
    exact forall_mem_of_getD e1 _ h3
  · obtain ⟨out, ho1, ho2, ho3, _⟩ := Inverse_spec q k IR IP hq2 hq hk1 hk hmod tab y imf omf
      himf homf hlen (getD_lt_of_forall_mem y (imf * q) (2 ^ k) hlen hy)
    refine ⟨out, ?_, ho2, forall_mem_of_getD out _ (fun p hp => ho3 p (by omega))⟩
    unfold InverseTransformFromBitReverse64
    rw [ho1]; rfl

/-- C6, at `n = 4`, `q = 17`, the inverse table `[1, 9, 15, 13]`, input
`[33, 20, 7, 16]`, factors 2 and 2. -/
theorem C6_inverse_lazy_bounds_witness :
    (4 = 2 ^ 2 ∧ 17 % (2 * 4) = 1 ∧
      (∀ idx, 1 ≤ idx → idx < 4 → [1, 9, 15, 13].getD idx 0 < 17) ∧
      preconTable [1, 9, 15, 13] 64 17
        = some [1085102592571150095, 9765923333140350855, 16276538888567251425,
            14106333703424951235] ∧
      ∀ v ∈ [33, 20, 7, 16], v < 2 * 17) ∧
    ((∀ s e reads, 1 ≤ s → s < 2 → e.length = 4 → (∀ v ∈ e, v < 2 * 17) →
      ∀ v ∈ (invGroupLoop 17 (shl64 17 1) [1, 9, 15, 13]
          [1085102592571150095, 9765923333140350855, 16276538888567251425,
            14106333703424951235]
          (2 ^ (2 - 1 - s)) (2 ^ s) 0 (4 - 2 ^ (s + 1) + 1) e reads).1, v < 2 * 17) ∧
    ∃ out, InverseTransformFromBitReverse64 4 17 [1, 9, 15, 13]
        [1085102592571150095, 9765923333140350855, 16276538888567251425,
          14106333703424951235] [33, 20, 7, 16] 2 2 = some out ∧
      out.length = 4 ∧ ∀ v ∈ out, v < 2 * 17) :=
  ⟨⟨by decide, by decide, by decide, by decide, by decide⟩,
    C6_inverse_lazy_bounds 2 4 17 [1, 9, 15, 13]
      [1085102592571150095, 9765923333140350855, 16276538888567251425, 14106333703424951235]
      [33, 20, 7, 16] 2 2 (by decide) (by decide) (by decide) (by decide) (by decide)
      (by decide) (by decide) (by decide) (by decide) (by decide) (by decide) (by decide)⟩

/-- C7. Lazy Barrett multiply: for `2q ≤ 2^64`, `W < q` with
`W_precon = ⌊W·2^64/q⌋` and any 64-bit `y`, the value
`(y·W − ⌊y·W_precon/2^64⌋·q) mod 2^64` returned by `MultiplyUIntModLazy<64>` is
below `2q` and congruent to `y·W` modulo `q`. -/
theorem C7_lazy_multiply (q W W_precon y : Nat) (hq : 2 * q ≤ 2 ^ 64) (hW : W < q)
    (hP : BarrettFactor W 64 q = some W_precon) (hy : y < 2 ^ 64) :
    ((MultiplyUIntModLazy64 y W W_precon q : Nat) : Int)
        = ((y : Int) * W - ((y * W_precon / 2 ^ 64 : Nat) : Int) * q) % 2 ^ 64 ∧
      MultiplyUIntModLazy64 y W W_precon q < 2 * q ∧
      MultiplyUIntModLazy64 y W W_precon q ≡ y * W [MOD q] := by
  rw [BarrettFactor_eq W q hW] at hP
  have hP := Option.some.inj hP
  subst hP
  refine ⟨?_, lazy_lt q W y hq hW hy, lazy_modEq q W y hq hW hy⟩
  obtain ⟨h1, h2⟩ := lazy_quotient_bounds q W y hW hy
  rw [lazy_eq q W y hq hW hy]
  have e : ((y : Int) * W - ((y * (W * 2 ^ 64 / q) / 2 ^ 64 : Nat) : Int) * q)
      = ((y * W - y * (W * 2 ^ 64 / q) / 2 ^ 64 * q : Nat) : Int) := by
    rw [Nat.cast_sub h1]; push_cast; ring
  rw [e]
  have hlt : y * W - y * (W * 2 ^ 64 / q) / 2 ^ 64 * q < 2 ^ 64 := by omega
  rw [Int.emod_eq_of_lt (Int.natCast_nonneg _) (by exact_mod_cast hlt)]

/-- C7, at `q = 5`, `W = 3`, `y = 2^64 - 1`. -/
theorem C7_lazy_multiply_witness :
    (2 * 5 ≤ 2 ^ 64 ∧ 3 < 5 ∧ BarrettFactor 3 64 5 = some 11068046444225730969 ∧
      18446744073709551615 < 2 ^ 64) ∧
    (((MultiplyUIntModLazy64 18446744073709551615 3 11068046444225730969 5 : Nat) : Int)
        = ((18446744073709551615 : Int) * (3 : Nat)
            - ((18446744073709551615 * 11068046444225730969 / 2 ^ 64 : Nat) : Int) * (5 : Nat))
          % 2 ^ 64 ∧
      MultiplyUIntModLazy64 18446744073709551615 3 11068046444225730969 5 < 2 * 5 ∧
      MultiplyUIntModLazy64 18446744073709551615 3 11068046444225730969 5
        ≡ 18446744073709551615 * 3 [MOD 5]) :=
  ⟨⟨by decide, by decide, by decide, by decide⟩,
    C7_lazy_multiply 5 3 11068046444225730969 18446744073709551615 (by decide) (by decide)
      (by decide) (by decide)⟩

/-- C8. Root table contents: after `ComputeRootOfUnityPowers` for degree
`n = 2^k` and root `w`, `R[ReverseBitsUInt(i, k)] = w^i mod q = PowMod(w, i, q)`
for every `i < n`; in particular `R[0] = 1`, and every index below `n` is the
bit reversal of some `i < n`, so every entry is written. -/
theorem C8_root_table (k n q w : Nat) (hn : n = 2 ^ k) (hk : k ≤ 17) (hq2 : 2 ≤ q)
    (hq : q < 2 ^ 62) (hw : w < q) (hc : Nat.Coprime w q) :
    ∃ T, ComputeRootOfUnityPowers n q w (Log2 n) = some T ∧
      T.root_of_unity_powers.length = n ∧
      (∀ i, i < n →
        T.root_of_unity_powers.getD (ReverseBitsUInt i k) 0 = w ^ i % q ∧
        PowMod w i q = some (T.root_of_unity_powers.getD (ReverseBitsUInt i k) 0)) ∧
      T.root_of_unity_powers.getD 0 0 = 1 ∧
      ∀ idx, idx < n → ∃ i, i < n ∧ ReverseBitsUInt i k = idx := by
  subst hn
  obtain ⟨T, hT1, hT⟩ := tables_of_valid k q w hk hq2 hq hw hc
  have h17 : (2:Nat) ^ k ≤ 2 ^ 17 := Nat.pow_le_pow_right (by norm_num) hk
  refine ⟨T, hT1, hT.lenR, ?_, ?_, ?_⟩
  · intro i hi
    have h := hT.root i hi
    exact ⟨h, by rw [h, PowMod_eq w i q hq2 (by omega)]⟩
  · have h := hT.root 0 (by positivity)
    rw [ReverseBitsUInt_zero_arg k (by omega), pow_zero, Nat.mod_eq_of_lt (by omega)] at h
    exact h
  · intro idx hidx
    exact ⟨ReverseBitsUInt idx k, ReverseBitsUInt_lt k idx (by omega),
      ReverseBitsUInt_invol k idx (by omega) hidx⟩

/-- C8, at `n = 4`, `q = 17`, `w = 2`. -/
theorem C8_root_table_witness :
    (4 = 2 ^ 2 ∧ 2 ≤ 17 ∧ Nat.Coprime 2 17) ∧
    ∃ T, ComputeRootOfUnityPowers 4 17 2 (Log2 4) = some T ∧
      T.root_of_unity_powers.length = 4 ∧
      (∀ i, i < 4 →
        T.root_of_unity_powers.getD (ReverseBitsUInt i 2) 0 = 2 ^ i % 17 ∧
        PowMod 2 i 17 = some (T.root_of_unity_powers.getD (ReverseBitsUInt i 2) 0)) ∧
      T.root_of_unity_powers.getD 0 0 = 1 ∧
      ∀ idx, idx < 4 → ∃ i, i < 4 ∧ ReverseBitsUInt i 2 = idx :=
  ⟨⟨by decide, by decide, by decide⟩,
    C8_root_table 2 4 17 2 (by decide) (by decide) (by decide) (by decide) (by decide)
      (by decide)⟩

theorem log_bounds (k j : Nat) (h1 : 1 ≤ j) (h2 : j < 2 ^ k) :
    Nat.log 2 j < k ∧ 2 ^ Nat.log 2 j ≤ j ∧ j < 2 * 2 ^ Nat.log 2 j ∧
      2 * 2 ^ Nat.log 2 j ≤ 2 ^ k := by
  have a := Nat.pow_log_le_self 2 (show j ≠ 0 by omega)
  have b := Nat.lt_pow_succ_log_self (show 1 < 2 by norm_num) j
  have c := Nat.log_lt_of_lt_pow (show j ≠ 0 by omega) h2
  have d : (2:Nat) ^ (Nat.log 2 j + 1) ≤ 2 ^ k := Nat.pow_le_pow_right (by norm_num) (by omega)
  rw [Nat.succ_eq_add_one] at b
  rw [pow_succ] at b d
  exact ⟨c, a, by omega, by omega⟩

theorem reorderPos_range (k j : Nat) (h1 : 1 ≤ j) (h2 : j < 2 ^ k) :
    2 ^ k + 1 ≤ reorderPos k j + 2 * 2 ^ Nat.log 2 j ∧
      reorderPos k j + 2 ^ Nat.log 2 j ≤ 2 ^ k := by
  obtain ⟨a, b, c, d⟩ := log_bounds k j h1 h2
  unfold reorderPos
  rw [if_neg (by omega), pow_succ]
  omega

theorem pow_two_mono_of_lt (s t : Nat) (h : s < t) : 2 * 2 ^ s ≤ 2 ^ t := by
  have : (2:Nat) ^ (s + 1) ≤ 2 ^ t := Nat.pow_le_pow_right (by norm_num) (by omega)
  rw [pow_succ] at this
  omega

theorem reorderPos_inj (k j1 j2 : Nat) (h1 : j1 < 2 ^ k) (h2 : j2 < 2 ^ k)
    (h : reorderPos k j1 = reorderPos k j2) : j1 = j2 := by
  by_cases z1 : j1 = 0
  · by_cases z2 : j2 = 0
    · omega
    · have r := reorderPos_range k j2 (by omega) h2
      obtain ⟨a, b, c, d⟩ := log_bounds k j2 (by omega) h2
      rw [← h, z1] at r
      simp only [reorderPos, if_true] at r
      omega
  · by_cases z2 : j2 = 0
    · have r := reorderPos_range k j1 (by omega) h1
      obtain ⟨a, b, c, d⟩ := log_bounds k j1 (by omega) h1
      rw [h, z2] at r
      simp only [reorderPos, if_true] at r
      omega
    · have r1 := reorderPos_range k j1 (by omega) h1
      have r2 := reorderPos_range k j2 (by omega) h2
      obtain ⟨a1, b1, c1, d1⟩ := log_bounds k j1 (by omega) h1
      obtain ⟨a2, b2, c2, d2⟩ := log_bounds k j2 (by omega) h2
      have hs : Nat.log 2 j1 = Nat.log 2 j2 := by
        rcases Nat.lt_trichotomy (Nat.log 2 j1) (Nat.log 2 j2) with hlt | heq | hgt
        · have := pow_two_mono_of_lt _ _ hlt
          omega
        · exact heq
        · have := pow_two_mono_of_lt _ _ hgt
          omega
      unfold reorderPos at h
      rw [if_neg z1, if_neg z2, hs] at h
      rw [hs] at b1
      omega

theorem list_eq_map_range (l : List Nat) (n : Nat) (h : l.length = n) :
    l = (List.range n).map (fun p => l.getD p 0) := by
  apply List.ext_getElem (by simp [h])
  intro p h1 h2
  rw [List.getElem_map, List.getElem_range, List.getD_eq_getElem l 0 h1]

theorem reorderPos_perm (k : Nat) :
    List.Perm ((List.range (2 ^ k)).map (reorderPos k)) (List.range (2 ^ k)) := by
  apply List.Subperm.perm_of_length_le
  · apply List.Nodup.subperm
    · apply List.Nodup.map_on _ (List.nodup_range _)
      intro x hx y hy hxy
      exact reorderPos_inj k x y (List.mem_range.mp hx) (List.mem_range.mp hy) hxy
    · intro p hp
      obtain ⟨j, hj, rfl⟩ := List.mem_map.mp hp
      have hj := List.mem_range.mp hj
      rw [List.mem_range]
      by_cases z : j = 0
      · rw [z]; simp only [reorderPos, if_true]; positivity
      · have r := reorderPos_range k j (by omega) hj
        have : 0 < 2 ^ Nat.log 2 j := by positivity
        omega
  · simp

/-- C9. Inverse table layout: after `ComputeRootOfUnityPowers` for degree
`n = 2^k`, `k ≥ 1`, entry 0 of the stored inverse table is 1; for `m = 2^s`
and `i < m` the entry at `n - 2m + 1 + i` is `InverseUIntMod(R[m + i], q)`;
every position `1 .. n-1` is `n - 2m + 1 + i` for exactly one such `(m, i)`;
and the stored table is a permutation of the table of the inverses in root-table
order. -/
theorem C9_inverse_table_layout (k n q w : Nat) (hn : n = 2 ^ k) (hk1 : 1 ≤ k) (hk : k ≤ 17)
    (hq2 : 2 ≤ q) (hq : q < 2 ^ 62) (hw : w < q) (hc : Nat.Coprime w q) :
    ∃ T, ComputeRootOfUnityPowers n q w (Log2 n) = some T ∧
      T.inv_root_of_unity_powers.getD 0 0 = 1 ∧
      (∀ s i, s < k → i < 2 ^ s →
        InverseUIntMod (T.root_of_unity_powers.getD (2 ^ s + i) 0) q
          = some (T.inv_root_of_unity_powers.getD (n - 2 * 2 ^ s + 1 + i) 0)) ∧
      (∀ idx, 1 ≤ idx → idx < n →
        ∃ s i, (s < k ∧ i < 2 ^ s ∧ n - 2 * 2 ^ s + 1 + i = idx) ∧
          ∀ s1 i1, s1 < k → i1 < 2 ^ s1 → n - 2 * 2 ^ s1 + 1 + i1 = idx → s1 = s ∧ i1 = i) ∧
      ∃ U : List Nat, U.length = n ∧
        (∀ j, j < n → InverseUIntMod (T.root_of_unity_powers.getD j 0) q = some (U.getD j 0)) ∧
        List.Perm T.inv_root_of_unity_powers U := by
  subst hn
  obtain ⟨T, hT1, hT⟩ := tables_of_valid k q w hk hq2 hq hw hc
  have hp2 : ∀ s, (2:Nat) ^ (s + 1) = 2 * 2 ^ s := fun s => by rw [pow_succ]; ring
  have hinv : ∀ s i, s < k → i < 2 ^ s →
      InverseUIntMod (T.root_of_unity_powers.getD (2 ^ s + i) 0) q
        = some (T.inv_root_of_unity_powers.getD (2 ^ k - 2 * 2 ^ s + 1 + i) 0) := by
    intro s i hs hi
    rw [← hp2]; exact hT.inv s i hs hi
  have hposeq : ∀ j, 1 ≤ j → j < 2 ^ k →
      InverseUIntMod (T.root_of_unity_powers.getD j 0) q
        = some (T.inv_root_of_unity_powers.getD (reorderPos k j) 0) := by
    intro j h1 h2
    obtain ⟨a, b, c, d⟩ := log_bounds k j h1 h2
    have := hinv (Nat.log 2 j) (j - 2 ^ Nat.log 2 j) a (by omega)
    have e : 2 ^ Nat.log 2 j + (j - 2 ^ Nat.log 2 j) = j := by omega
    rw [e] at this
    rw [this]
    unfold reorderPos
    rw [if_neg (by omega), hp2]
  refine ⟨T, hT1, hT.inv0, hinv, ?_, ?_⟩
  · intro idx h1 h2
    -- the layer of a position is read off its distance to the end of the table
    have hd1 : 1 ≤ 2 ^ k - idx := by omega
    have hd2 : 2 ^ k - idx < 2 ^ k := by omega
    obtain ⟨a, b, c, d⟩ := log_bounds k (2 ^ k - idx) hd1 hd2
    refine ⟨Nat.log 2 (2 ^ k - idx), 2 * 2 ^ Nat.log 2 (2 ^ k - idx) - 1 - (2 ^ k - idx),
      ⟨a, by omega, by omega⟩, ?_⟩
    intro s1 i1 hs1 hi1 heq
    have hle := pow_two_mono_of_lt s1 k hs1
    have hs : s1 = Nat.log 2 (2 ^ k - idx) := by
      rcases Nat.lt_trichotomy s1 (Nat.log 2 (2 ^ k - idx)) with hlt | heq1 | hgt
      · have := pow_two_mono_of_lt _ _ hlt
        omega
      · exact heq1
      · have := pow_two_mono_of_lt _ _ hgt
        omega
    refine ⟨hs, ?_⟩
    rw [hs] at heq
    omega
  · refine ⟨(List.range (2 ^ k)).map (fun j => T.inv_root_of_unity_powers.getD (reorderPos k j) 0),
      by simp, ?_, ?_⟩
    · intro j hj
      have hval : ((List.range (2 ^ k)).map
            (fun j => T.inv_root_of_unity_powers.getD (reorderPos k j) 0)).getD j 0
          = T.inv_root_of_unity_powers.getD (reorderPos k j) 0 := by
        rw [List.getD_eq_getElem _ 0 (by simp; exact hj), List.getElem_map, List.getElem_range]
      rw [hval]
      by_cases z : j = 0
      · subst z
        have h0 := hT.root 0 (by positivity)
        rw [ReverseBitsUInt_zero_arg k (by omega), pow_zero, Nat.mod_eq_of_lt (by omega)] at h0
        rw [h0, InverseUIntMod_one q hq2]
        simp only [reorderPos, if_true]
        rw [hT.inv0]
      · exact hposeq j (by omega) hj
    · have e1 := list_eq_map_range T.inv_root_of_unity_powers (2 ^ k) hT.lenI
      have e2 : (List.range (2 ^ k)).map
            (fun j => T.inv_root_of_unity_powers.getD (reorderPos k j) 0)
          = ((List.range (2 ^ k)).map (reorderPos k)).map
              (fun p => T.inv_root_of_unity_powers.getD p 0) := by
        rw [List.map_map]; rfl
      rw [e2]
      conv_lhs => rw [e1]
      exact ((reorderPos_perm k).map _).symm

/-- C9, at `n = 4`, `q = 17`, `w = 2`. -/
theorem C9_inverse_table_layout_witness :
    (4 = 2 ^ 2 ∧ 2 ≤ 17 ∧ Nat.Coprime 2 17) ∧
    ∃ T, ComputeRootOfUnityPowers 4 17 2 (Log2 4) = some T ∧
      T.inv_root_of_unity_powers.getD 0 0 = 1 ∧
      (∀ s i, s < 2 → i < 2 ^ s →
        InverseUIntMod (T.root_of_unity_powers.getD (2 ^ s + i) 0) 17
          = some (T.inv_root_of_unity_powers.getD (4 - 2 * 2 ^ s + 1 + i) 0)) ∧
      (∀ idx, 1 ≤ idx → idx < 4 →
        ∃ s i, (s < 2 ∧ i < 2 ^ s ∧ 4 - 2 * 2 ^ s + 1 + i = idx) ∧
          ∀ s1 i1, s1 < 2 → i1 < 2 ^ s1 → 4 - 2 * 2 ^ s1 + 1 + i1 = idx → s1 = s ∧ i1 = i) ∧
      ∃ U : List Nat, U.length = 4 ∧
        (∀ j, j < 4 → InverseUIntMod (T.root_of_unity_powers.getD j 0) 17 = some (U.getD j 0)) ∧
        List.Perm T.inv_root_of_unity_powers U :=
  ⟨⟨by decide, by decide, by decide⟩,
    C9_inverse_table_layout 2 4 17 2 (by decide) (by decide) (by decide) (by decide)
      (by decide) (by decide) (by decide)⟩

/-- C10 (counterexample). At `n = 2`, `q = 5` the inverse transform reads the
inverse-root table at index `1 = n - 1` and reads the preconditioned shadow
nowhere, so the shadow is not read at the indices `1 .. n-1`. -/
theorem C10_shadow_unread_at_last_index :
    (InverseTransformFromBitReverse64Traced 2 5 [1, 3]
        [3689348814741910323, 11068046444225730969] [3, 4] 1 1).map
      (fun r => (r.2.root_reads, r.2.precon_reads)) = some ([1], []) ∧
    ([] : List Nat) ≠ List.range' 1 (2 - 1) := by
  decide

/-- C10 (amended). For `n = 2^k`, `k ≥ 1`, the inverse transform reads the
inverse-root table at exactly the indices `1, 2, .., n-1`, in strictly
increasing order, once per butterfly group, the last one (`n-1`) in the fused
final layer; it reads the preconditioned shadow at exactly `1, .., n-2`, once
per group of the layers before the final one; no read is at index 0 or at an
index `≥ n`. -/
theorem C10_inverse_table_reads (k n q : Nat) (IR IP y : List Nat) (imf omf : Nat)
    (hn : n = 2 ^ k) (hk1 : 1 ≤ k) (hk : k ≤ 17) (hq2 : 2 ≤ q) (hq : q < 2 ^ 62)
    (hmod : q % (2 * n) = 1) (hIR : ∀ idx, 1 ≤ idx → idx < n → IR.getD idx 0 < q)
    (hIP : preconTable IR 64 q = some IP) (himf : imf = 1 ∨ imf = 2)
    (homf : omf = 1 ∨ omf = 2) (hlen : y.length = n) (hy : ∀ v ∈ y, v < imf * q) :
    ∃ out reads, InverseTransformFromBitReverse64Traced n q IR IP y imf omf
        = some (out, reads) ∧
      reads.root_reads = List.range' 1 (n - 1) ∧
      reads.precon_reads = List.range' 1 (n - 2) ∧
      reads.root_reads = reads.precon_reads ++ [n - 1] ∧
      List.Pairwise (fun a b => a < b) reads.root_reads ∧
      (∀ i ∈ reads.root_reads, 1 ≤ i ∧ i < n) ∧
      ∀ i ∈ reads.precon_reads, 1 ≤ i ∧ i < n - 1 := by
  subst hn
  have tab := invTab_of_precon q k IR IP (by omega) hIR hIP
  obtain ⟨out, ho1, _, _, _⟩ := Inverse_spec q k IR IP hq2 hq hk1 hk hmod tab y imf omf
    himf homf hlen (getD_lt_of_forall_mem y (imf * q) (2 ^ k) hlen hy)
  have h2 : (2:Nat) ^ 1 ≤ 2 ^ k := Nat.pow_le_pow_right (by norm_num) hk1
  refine ⟨out, _, ho1, rfl, rfl, ?_, List.pairwise_lt_range' 1 _, ?_, ?_⟩
  · simp only []
    have : 2 ^ k - 1 = (2 ^ k - 2) + 1 := by omega
    conv_lhs => rw [this, List.range'_1_concat]
    congr 2
    omega
  · intro i hi
    simp only [List.mem_range'_1] at hi
    omega
  · intro i hi
    simp only [List.mem_range'_1] at hi
    omega

/-- C10 (amended), at `n = 4`, `q = 17`, the inverse table `[1, 9, 15, 13]`,
input `[33, 20, 7, 16]`, factors 2 and 2. -/
theorem C10_inverse_table_reads_witness :
    (4 = 2 ^ 2 ∧ 17 % (2 * 4) = 1 ∧
      (∀ idx, 1 ≤ idx → idx < 4 → [1, 9, 15, 13].getD idx 0 < 17) ∧
      preconTable [1, 9, 15, 13] 64 17
        = some [1085102592571150095, 9765923333140350855, 16276538888567251425,
            14106333703424951235] ∧
      ∀ v ∈ [33, 20, 7, 16], v < 2 * 17) ∧
    ∃ out reads, InverseTransformFromBitReverse64Traced 4 17 [1, 9, 15, 13]
        [1085102592571150095, 9765923333140350855, 16276538888567251425,
          14106333703424951235] [33, 20, 7, 16] 2 2 = some (out, reads) ∧
      reads.root_reads = List.range' 1 (4 - 1) ∧
      reads.precon_reads = List.range' 1 (4 - 2) ∧
      reads.root_reads = reads.precon_reads ++ [4 - 1] ∧
      List.Pairwise (fun a b => a < b) reads.root_reads ∧
      (∀ i ∈ reads.root_reads, 1 ≤ i ∧ i < 4) ∧
      ∀ i ∈ reads.precon_reads, 1 ≤ i ∧ i < 4 - 1 :=
  ⟨⟨by decide, by decide, by decide, by decide, by decide⟩,
    C10_inverse_table_reads 2 4 17 [1, 9, 15, 13]
      [1085102592571150095, 9765923333140350855, 16276538888567251425, 14106333703424951235]
      [33, 20, 7, 16] 2 2 (by decide) (by decide) (by decide) (by decide) (by decide)
      (by decide) (by decide) (by decide) (by decide) (by decide) (by decide) (by decide)⟩

/-- Every entry of the root table of `ComputeRootOfUnityPowers` is reduced. -/
theorem TablesSpec.root_lt {q w k : Nat} {T : NTTTables} (h : TablesSpec q w k T)
    (hk : k ≤ 64) (hq : 0 < q) (idx : Nat) (hidx : idx < 2 ^ k) :
    T.root_of_unity_powers.getD idx 0 < q := by
  have h1 := h.root (ReverseBitsUInt idx k) (ReverseBitsUInt_lt k idx hk)
  rw [ReverseBitsUInt_invol k idx hk hidx] at h1
  rw [h1]
  exact Nat.mod_lt _ hq

/-- A Barrett factor of a reduced operand fits in `B` bits. -/
theorem barrett_lt (r q B : Nat) (h : r < q) : r * 2 ^ B / q < 2 ^ B := by
  apply Nat.div_lt_of_lt_mul
  exact Nat.mul_lt_mul_of_pos_right h (by positivity)

/-- C11. Table bounds: after `ComputeRootOfUnityPowers` for a degree `n = 2^k`
and a root `w` coprime to `q`, every root-table entry `R[idx]`, `idx < n`, is
below `q`, and the preconditioned entries are `P_B[idx] = ⌊R[idx]·2^B / q⌋ < 2^B`
for `B = 64` and `B = 52`. -/
theorem C11_table_bounds (k n q w : Nat) (hn : n = 2 ^ k) (hk : k ≤ 17) (hq2 : 2 ≤ q)
    (hq : q < 2 ^ 62) (hw : w < q) (hc : Nat.Coprime w q) :
    ∃ T, ComputeRootOfUnityPowers n q w (Log2 n) = some T ∧
      T.root_of_unity_powers.length = n ∧
      T.precon64_root_of_unity_powers.length = n ∧
      T.precon52_root_of_unity_powers.length = n ∧
      ∀ idx, idx < n →
        T.root_of_unity_powers.getD idx 0 < q ∧
        T.precon64_root_of_unity_powers.getD idx 0
          = T.root_of_unity_powers.getD idx 0 * 2 ^ 64 / q ∧
        T.precon64_root_of_unity_powers.getD idx 0 < 2 ^ 64 ∧
        T.precon52_root_of_unity_powers.getD idx 0
          = T.root_of_unity_powers.getD idx 0 * 2 ^ 52 / q ∧
        T.precon52_root_of_unity_powers.getD idx 0 < 2 ^ 52 := by
  subst hn
  obtain ⟨T, hT1, hT⟩ := tables_of_valid k q w hk hq2 hq hw hc
  refine ⟨T, hT1, hT.lenR, by rw [hT.p64, List.length_map, hT.lenR],
    by rw [hT.p52, List.length_map, hT.lenR], ?_⟩
  intro idx hidx
  have hlt := hT.root_lt (by omega) (by omega) idx hidx
  have hlen : idx < T.root_of_unity_powers.length := by rw [hT.lenR]; exact hidx
  have h64 := barrett_lt _ q 64 hlt
  have h52 := barrett_lt _ q 52 hlt
  have e64 : T.precon64_root_of_unity_powers.getD idx 0
      = T.root_of_unity_powers.getD idx 0 * 2 ^ 64 / q := by
    rw [hT.p64, getD_map _ _ _ hlen]
    exact Nat.mod_eq_of_lt h64
  have e52 : T.precon52_root_of_unity_powers.getD idx 0
      = T.root_of_unity_powers.getD idx 0 * 2 ^ 52 / q := by
    rw [hT.p52, getD_map _ _ _ hlen]
    exact Nat.mod_eq_of_lt (lt_trans h52 (by norm_num))
  exact ⟨hlt, e64, by rw [e64]; exact h64, e52, by rw [e52]; exact h52⟩

/-- C11, at `n = 4`, `q = 17`, `w = 2`. -/
theorem C11_table_bounds_witness :
    (4 = 2 ^ 2 ∧ 2 ≤ 17 ∧ 2 < 17 ∧ Nat.Coprime 2 17) ∧
    ∃ T, ComputeRootOfUnityPowers 4 17 2 (Log2 4) = some T ∧
      T.root_of_unity_powers.length = 4 ∧
      T.precon64_root_of_unity_powers.length = 4 ∧
      T.precon52_root_of_unity_powers.length = 4 ∧
      ∀ idx, idx < 4 →
        T.root_of_unity_powers.getD idx 0 < 17 ∧
        T.precon64_root_of_unity_powers.getD idx 0
          = T.root_of_unity_powers.getD idx 0 * 2 ^ 64 / 17 ∧
        T.precon64_root_of_unity_powers.getD idx 0 < 2 ^ 64 ∧
        T.precon52_root_of_unity_powers.getD idx 0
          = T.root_of_unity_powers.getD idx 0 * 2 ^ 52 / 17 ∧
        T.precon52_root_of_unity_powers.getD idx 0 < 2 ^ 52 :=
  ⟨⟨by decide, by decide, by decide, by decide⟩,
    C11_table_bounds 2 4 17 2 (by decide) (by decide) (by decide) (by decide) (by decide)
      (by decide)⟩

/-- Index 1 of the root table is the bit reversal of `n / 2`. -/
theorem ReverseBitsUInt_half (k : Nat) (hk1 : 1 ≤ k) (hk : k ≤ 64) :
    ReverseBitsUInt (2 ^ (k - 1)) k = 1 := by
  have h := ReverseBitsUInt_layer k (k - 1) 0 hk (by omega) (by positivity)
  rw [Nat.add_zero, ReverseBitsUInt_zero_arg (k - 1) (by omega)] at h
  rw [h]
  have e : k - 1 - (k - 1) = 0 := by omega
  rw [e]; norm_num

/-- A natural number whose residue class is `1` leaves remainder 1. -/
theorem mod_eq_one_of_cast (a q : Nat) (hq : 2 ≤ q) (h : (a : ZMod q) = 1) : a % q = 1 := by
  have h1 : (a : ZMod q) = ((1 : Nat) : ZMod q) := by rw [h]; simp
  have h2 := (ZMod.natCast_eq_natCast_iff' a 1 q).1 h1
  rw [h2]
  exact Nat.mod_eq_of_lt (by omega)

/-- A natural number whose residue class is `-1` leaves remainder `q - 1`. -/
theorem mod_eq_pred_of_cast (a q : Nat) (hq : 2 ≤ q) (h : (a : ZMod q) = -1) :
    a % q = q - 1 := by
  have h1 : (a : ZMod q) = ((q - 1 : Nat) : ZMod q) := by
    rw [h, Nat.cast_sub (by omega)]; simp
  have h2 := (ZMod.natCast_eq_natCast_iff' a (q - 1) q).1 h1
  rw [h2]
  exact Nat.mod_eq_of_lt (by omega)

/-- C12 (counterexample). At `n = 2`, `q = 5`, `w = 2`, a prime with
`q ≡ 1 (mod 2n)` and a root that `IsPrimitiveRoot` accepts for degree `2n`, the
root table has `R[1] = 2` and `R[1] · R[1]^(n-1) mod q = 4`, which is not 1. -/
theorem C12_fails_at_degree_two :
    Nat.Prime 5 ∧ 5 % (2 * 2) = 1 ∧ IsPrimitiveRoot 2 (2 * 2) 5 = some true ∧
    (ComputeRootOfUnityPowers 2 5 2 (Log2 2)).map
      (fun T => T.root_of_unity_powers.getD 1 0 * T.root_of_unity_powers.getD 1 0 ^ (2 - 1) % 5)
      = some 4 :=
  ⟨by norm_num, by decide, by decide, by decide⟩

/-- C12 (amended). For a degree `n = 2^k` with `1 ≤ k ≤ 17`, a prime `q < 2^62`
and a root `w < q` that `IsPrimitiveRoot` accepts for degree `2n`, the root
table has `R[1] = w^(n/2) mod q`; for `n ≥ 4` it satisfies
`R[1] · R[1]^(n-1) ≡ 1 (mod q)`, and for `n = 2` the product is `≡ q - 1`. -/
theorem C12_root_table_power (k n q w : Nat) (hn : n = 2 ^ k) (hk1 : 1 ≤ k) (hk : k ≤ 17)
    (hp : q.Prime) (hq : q < 2 ^ 62) (hw : w < q)
    (hroot : IsPrimitiveRoot w (2 * n) q = some true) :
    ∃ T, ComputeRootOfUnityPowers n q w (Log2 n) = some T ∧
      T.root_of_unity_powers.getD 1 0 = w ^ (n / 2) % q ∧
      (2 ≤ k → T.root_of_unity_powers.getD 1 0 * T.root_of_unity_powers.getD 1 0 ^ (n - 1) % q
        = 1) ∧
      (k = 1 → T.root_of_unity_powers.getD 1 0 * T.root_of_unity_powers.getD 1 0 ^ (n - 1) % q
        = q - 1) := by
  subst hn
  have hq2 : 2 ≤ q := hp.two_le
  have hn64 : 2 * 2 ^ k < 2 ^ 64 := by
    calc 2 * 2 ^ k = 2 ^ (k + 1) := by rw [pow_succ]; ring
      _ < 2 ^ 64 := Nat.pow_lt_pow_right (by norm_num) (by omega)
  obtain ⟨hw0, hwn⟩ := IsPrimitiveRoot_true w (2 ^ k) q hq2 (by omega) hn64 hroot
  have hc := coprime_of_prime w q hp hw hw0
  obtain ⟨T, hT1, hT⟩ := tables_of_valid k q w hk hq2 hq hw hc
  have hneg := root_neg_one w (2 ^ k) q hq2 hwn
  have hhalf : (2:Nat) ^ k / 2 = 2 ^ (k - 1) := by
    obtain ⟨j, rfl⟩ : ∃ j, k = j + 1 := ⟨k - 1, by omega⟩
    rw [pow_succ]; simp
  have hR1 : T.root_of_unity_powers.getD 1 0 = w ^ (2 ^ k / 2) % q := by
    have h := hT.root (2 ^ (k - 1)) (Nat.pow_lt_pow_right (by norm_num) (by omega))
    rw [ReverseBitsUInt_half k hk1 (by omega)] at h
    rw [h, hhalf]
  have hpos : 0 < 2 ^ k := by positivity
  have hprod : ∀ r : Nat, r * r ^ (2 ^ k - 1) = r ^ 2 ^ k := by
    intro r
    have e : 2 ^ k = (2 ^ k - 1) + 1 := by omega
    conv_rhs => rw [e, pow_succ]
    ring
  have hcast : (((T.root_of_unity_powers.getD 1 0) ^ 2 ^ k : Nat) : ZMod q)
      = ((w : ZMod q) ^ 2 ^ k) ^ 2 ^ (k - 1) := by
    rw [hR1, hhalf, Nat.cast_pow, ZMod.natCast_mod, Nat.cast_pow, ← pow_mul, ← pow_mul,
      Nat.mul_comm]
  refine ⟨T, hT1, hR1, ?_, ?_⟩
  · intro hk2
    rw [hprod]
    apply mod_eq_one_of_cast _ q hq2
    rw [hcast, hneg]
    obtain ⟨j, rfl⟩ : ∃ j, k = j + 2 := ⟨k - 2, by omega⟩
    have e : j + 2 - 1 = j + 1 := by omega
    rw [e]
    exact Even.neg_one_pow ⟨2 ^ j, by rw [pow_succ]; ring⟩
  · intro hk1e
    subst hk1e
    rw [hprod]
    apply mod_eq_pred_of_cast _ q hq2
    rw [hcast, hneg]
    norm_num

/-- C12 (amended), at `n = 4`, `q = 17`, `w = 2`. -/
theorem C12_root_table_power_witness :
    (4 = 2 ^ 2 ∧ Nat.Prime 17 ∧ IsPrimitiveRoot 2 (2 * 4) 17 = some true) ∧
    ∃ T, ComputeRootOfUnityPowers 4 17 2 (Log2 4) = some T ∧
      T.root_of_unity_powers.getD 1 0 = 2 ^ (4 / 2) % 17 ∧
      (2 ≤ 2 → T.root_of_unity_powers.getD 1 0 * T.root_of_unity_powers.getD 1 0 ^ (4 - 1) % 17
        = 1) ∧
      (2 = 1 → T.root_of_unity_powers.getD 1 0 * T.root_of_unity_powers.getD 1 0 ^ (4 - 1) % 17
        = 17 - 1) :=
  ⟨⟨by decide, by norm_num, by decide⟩,
    C12_root_table_power 2 4 17 2 (by decide) (by decide) (by decide) (by norm_num)
      (by decide) (by decide) (by decide)⟩

/-- A degree that `IsPowerOfTwo` accepts is `2^k` with `k < 64`. -/
theorem IsPowerOfTwo_elim (d : Nat) (h : IsPowerOfTwo d = true) : ∃ k, k < 64 ∧ d = 2 ^ k := by
  unfold IsPowerOfTwo at h
  rw [List.any_eq_true] at h
  obtain ⟨k, hk, he⟩ := h
  exact ⟨k, List.mem_range.mp hk, by simpa using he⟩

/-- A residue below the modulus with a given product residue is unique when the
factor is invertible. -/
theorem inverse_unique (a m r s : Nat) (hr : r < m) (hs : s < m)
    (h1 : a * r % m = 1) (h2 : a * s % m = 1) : s = r := by
  have e : s * (a * r) % m = r * (a * s) % m := by
    congr 1; ring
  rw [Nat.mul_mod, h1, Nat.mul_mod r, h2] at e
  simp only [Nat.mul_one, Nat.mod_mod] at e
  rw [Nat.mod_eq_of_lt hs, Nat.mod_eq_of_lt hr] at e
  exact e

/-- C13. Modular inverse: for a modulus `2 ≤ m < 2^63` and an input `a` with
`gcd(a, m) = 1`, `InverseUIntMod(a, m)` returns a value `r` with `r < m` and
`(a · r) mod m = 1`; `r` is the only residue below `m` with that property. -/
theorem C13_inverse_mod (a m : Nat) (hm2 : 2 ≤ m) (hm : m < 2 ^ 63)
    (hc : Nat.gcd a m = 1) :
    ∃ r, InverseUIntMod a m = some r ∧ r < m ∧ (a * r) % m = 1 ∧
      ∀ s, s < m → (a * s) % m = 1 → s = r := by
  obtain ⟨r, h1, h2, h3⟩ := InverseUIntMod_spec a m hm2 hm hc
  refine ⟨r, h1, h2, h3, ?_⟩
  intro s hs h4
  exact inverse_unique a m r s h2 hs h3 h4

/-- C13, at `a = 9`, `m = 17`. -/
theorem C13_inverse_mod_witness :
    (2 ≤ 17 ∧ 17 < 2 ^ 63 ∧ Nat.gcd 9 17 = 1) ∧
    ∃ r, InverseUIntMod 9 17 = some r ∧ r < 17 ∧ (9 * r) % 17 = 1 ∧
      ∀ s, s < 17 → (9 * s) % 17 = 1 → s = r :=
  ⟨⟨by decide, by decide, by decide⟩, C13_inverse_mod 9 17 (by decide) (by decide) (by decide)⟩

/-- C14. At `InverseUIntMod(2, 4)` the only check, `a != 0`, passes
(`2 % 4 = 2`); two rounds of the loop lead to `a = 2`, `modulus = 0`, and the
third round evaluates `a / modulus` with a zero divisor, for every iteration
budget: the call ends in a division by zero, not in a reported error. -/
theorem C14_inverse_divides_by_zero :
    Nat.gcd 2 4 ≠ 1 ∧ 2 % 4 ≠ 0 ∧
    (∀ fuel, InverseUIntModLoop (fuel + 2) 2 4 1 0 = InverseUIntModLoop fuel 2 0 1 (-2)) ∧
    (∀ fuel x y, InverseUIntModLoop fuel 2 0 x y = none) ∧
    InverseUIntMod 2 4 = none := by
  refine ⟨by decide, by decide, ?_, ?_, by decide⟩
  · intro fuel
    rw [InverseUIntModLoop, if_pos (by decide), if_neg (by decide)]
    have e1 : toU64 (toS64 4) = 4 := by decide
    have e2 : wrapS64 (1 - wrapS64 (toS64 (2 / 4) * 0)) = 1 := by decide
    simp only [e1, e2]
    rw [InverseUIntModLoop, if_pos (by decide), if_neg (by decide)]
    have e3 : toU64 (toS64 2) = 2 := by decide
    have e4 : wrapS64 (0 - wrapS64 (toS64 (4 / 2) * 1)) = -2 := by decide
    have e5 : 2 % 4 = 2 := by decide
    have e6 : 4 % 2 = 0 := by decide
    simp only [e3, e4, e5, e6]
  · intro fuel x y
    cases fuel with
    | zero => simp [InverseUIntModLoop]
    | succ f => simp [InverseUIntModLoop]

/-- C15. Modular exponentiation: for a modulus `m ≥ 2`, any base `b` (reduced
or not) and any 64-bit exponent `e`, `PowMod(b, e, m)` returns `b^e mod m`
computed over the naturals, a value below `m`; for `e = 0` it returns 1. -/
theorem C15_pow_mod (b e m : Nat) (hm : 2 ≤ m) (he : e < 2 ^ 64) :
    PowMod b e m = some (b ^ e % m) ∧ b ^ e % m < m ∧ PowMod b 0 m = some 1 := by
  refine ⟨PowMod_eq b e m hm he, Nat.mod_lt _ (by omega), ?_⟩
  rw [PowMod_eq b 0 m hm (by norm_num), pow_zero, Nat.mod_eq_of_lt (by omega)]

/-- C15, at `b = 2^64 - 1` (not reduced), `e = 5`, `m = 17`. -/
theorem C15_pow_mod_witness :
    (2 ≤ 17 ∧ 5 < 2 ^ 64) ∧
    PowMod (2 ^ 64 - 1) 5 17 = some ((2 ^ 64 - 1) ^ 5 % 17) ∧ (2 ^ 64 - 1) ^ 5 % 17 < 17 ∧
      PowMod (2 ^ 64 - 1) 0 17 = some 1 :=
  ⟨⟨by decide, by decide⟩, C15_pow_mod (2 ^ 64 - 1) 5 17 (by decide) (by decide)⟩

/-- C16. Modular multiplication: for a modulus `q > 0` and `x, y < q`,
`MultiplyUIntMod(x, y, q)` returns `(x · y) mod q` with the exact product of the
naturals `x` and `y` (nothing is truncated to 64 bits before the reduction),
and the result is below `q`. -/
theorem C16_multiply_mod (x y q : Nat) (hq : 0 < q) (hx : x < q) (hy : y < q) :
    MultiplyUIntMod x y q = some (x * y % q) ∧ x * y % q < q ∧
      ∃ z, MultiplyUIntMod x y q = some z ∧ (z : ZMod q) = (x : ZMod q) * (y : ZMod q) := by
  have h := MultiplyUIntMod_eq x y q hx hy
  refine ⟨h, Nat.mod_lt _ hq, x * y % q, h, ?_⟩
  rw [ZMod.natCast_mod, Nat.cast_mul]

/-- C16, at a product that does not fit in 64 bits: `x = y = 2^63`,
`q = 2^64 - 1`. -/
theorem C16_multiply_mod_witness :
    (0 < 2 ^ 64 - 1 ∧ 2 ^ 63 < 2 ^ 64 - 1) ∧
    MultiplyUIntMod (2 ^ 63) (2 ^ 63) (2 ^ 64 - 1)
        = some (2 ^ 63 * 2 ^ 63 % (2 ^ 64 - 1)) ∧
      2 ^ 63 * 2 ^ 63 % (2 ^ 64 - 1) < 2 ^ 64 - 1 ∧
      ∃ z, MultiplyUIntMod (2 ^ 63) (2 ^ 63) (2 ^ 64 - 1) = some z ∧
        (z : ZMod (2 ^ 64 - 1)) = ((2 ^ 63 : Nat) : ZMod (2 ^ 64 - 1)) * ((2 ^ 63 : Nat) : ZMod (2 ^ 64 - 1)) :=
  ⟨⟨by decide, by decide⟩,
    C16_multiply_mod (2 ^ 63) (2 ^ 63) (2 ^ 64 - 1) (by decide) (by decide) (by decide)⟩

/-- C17 (counterexample). At `r = 0`, `d = 1`, `q = 2` the degree is a power
of two and `PowMod(0, 0, 2) = 1 = q - 1`, so the comparison is true, but
`IsPrimitiveRoot(0, 1, 2)` returns false. -/
theorem C17_zero_root_degree_one :
    IsPowerOfTwo 1 = true ∧
    (PowMod 0 (1 / 2) 2).map (fun v => v == 2 - 1) = some true ∧
    IsPrimitiveRoot 0 1 2 = some false :=
  ⟨by decide, by decide, by decide⟩

/-- C17 (amended). For a power-of-two degree `d`, a modulus `2 ≤ q < 2^64` and
a root `r`, other than the one case `r = 0`, `d = 1`, `q = 2`,
`IsPrimitiveRoot(r, d, q)` returns the truth value of
`PowMod(r, d/2, q) == q - 1`; for `r = 0` it returns false in every case,
without calling `PowMod`. -/
theorem C17_is_primitive_root (r d q : Nat) (hd : IsPowerOfTwo d = true) (hq2 : 2 ≤ q)
    (hq : q < 2 ^ 64) (hex : ¬ (r = 0 ∧ d = 1 ∧ q = 2)) :
    (∃ v, PowMod r (d / 2) q = some v ∧ IsPrimitiveRoot r d q = some (v == q - 1)) ∧
    (r = 0 → IsPrimitiveRoot r d q = some false) := by
  obtain ⟨k, hk, hdk⟩ := IsPowerOfTwo_elim d hd
  have hd64 : d / 2 < 2 ^ 64 := by
    have : d < 2 ^ 64 := by rw [hdk]; exact Nat.pow_lt_pow_right (by norm_num) hk
    omega
  have hpow := PowMod_eq r (d / 2) q hq2 hd64
  have hsub : sub64 q 1 = q - 1 := sub64_of_le q 1 hq (by omega)
  constructor
  · refine ⟨r ^ (d / 2) % q, hpow, ?_⟩
    by_cases hr : r = 0
    · subst hr
      unfold IsPrimitiveRoot
      rw [if_pos rfl]
      by_cases hd2 : d / 2 = 0
      · have hd1 : d = 1 := by
          have : 0 < d := by rw [hdk]; positivity
          omega
        have hq3 : q ≠ 2 := fun h => hex ⟨rfl, hd1, h⟩
        rw [hd2, pow_zero, Nat.mod_eq_of_lt (by omega)]
        have : (1 == q - 1) = false := by
          rw [beq_eq_false_iff_ne]; omega
        rw [this]
      · rw [zero_pow hd2, Nat.zero_mod]
        have : (0 == q - 1) = false := by
          rw [beq_eq_false_iff_ne]; omega
        rw [this]
    · unfold IsPrimitiveRoot
      rw [if_neg hr, if_neg (by simp [hd]), hpow, hsub]
      rfl
  · intro hr
    unfold IsPrimitiveRoot
    rw [if_pos hr]

/-- C17 (amended), at `r = 2`, `d = 4`, `q = 5`. -/
theorem C17_is_primitive_root_witness :
    (IsPowerOfTwo 4 = true ∧ 2 ≤ 5 ∧ 5 < 2 ^ 64 ∧ ¬ (2 = 0 ∧ 4 = 1 ∧ 5 = 2)) ∧
    (∃ v, PowMod 2 (4 / 2) 5 = some v ∧ IsPrimitiveRoot 2 4 5 = some (v == 5 - 1)) ∧
    (2 = 0 → IsPrimitiveRoot 2 4 5 = some false) :=
  ⟨⟨by decide, by decide, by decide, by decide⟩,
    C17_is_primitive_root 2 4 5 (by decide) (by decide) (by decide) (by decide)⟩

/-- Bits of a bit reversal: bit `j` of `ReverseBitsUInt x w` is bit `w - 1 - j`
of `x` below `w` and zero from `w` on. -/
theorem ReverseBitsUInt_testBit : ∀ (w x j : Nat), w ≤ 64 →
    (ReverseBitsUInt x w).testBit j = (decide (j < w) && x.testBit (w - 1 - j)) := by
  intro w
  induction w with
  | zero => intro x j _; simp [ReverseBitsUInt]
  | succ w ih =>
    intro x j hw
    have hlt := ReverseBitsUInt_lt w (x / 2) (by omega)
    rw [ReverseBitsUInt_succ x w (by omega), Nat.mul_comm (x % 2) (2 ^ w),
      Nat.testBit_mul_pow_two_add (x % 2) hlt j]
    by_cases h1 : j < w
    · rw [if_pos h1, ih (x / 2) j (by omega), Nat.testBit_div_two]
      have e : w - 1 - j + 1 = w + 1 - 1 - j := by omega
      rw [e]
      simp [h1, Nat.lt_succ_of_lt h1]
    · rw [if_neg h1]
      by_cases h2 : j = w
      · subst h2
        have e : j + 1 - 1 - j = 0 := by omega
        rw [e, Nat.sub_self]
        simp
      · have h3 : x % 2 < 2 ^ (j - w) := by
          have hb : x % 2 < 2 := Nat.mod_lt _ (by norm_num)
          have hp : 2 ^ 1 ≤ 2 ^ (j - w) := Nat.pow_le_pow_right (by norm_num) (by omega)
          omega
        rw [Nat.testBit_lt_two_pow h3]
        have h4 : ¬ j < w + 1 := by omega
        simp [h4]

/-- C19. Bit reversal: for a width `w ≤ 64` and any `x`, bit `j` of
`ReverseBitsUInt(x, w)` equals bit `w - 1 - j` of `x` for every `j < w`, the
bits at positions `≥ w` are zero, the result is below `2^w`, and
`ReverseBitsUInt(x, 0) = 0`. -/
theorem C19_reverse_bits (w x : Nat) (hw : w ≤ 64) :
    (∀ j, j < w → (ReverseBitsUInt x w).testBit j = x.testBit (w - 1 - j)) ∧
    (∀ j, w ≤ j → (ReverseBitsUInt x w).testBit j = false) ∧
    ReverseBitsUInt x w < 2 ^ w ∧
    ReverseBitsUInt x 0 = 0 := by
  refine ⟨?_, ?_, ReverseBitsUInt_lt w x hw, ReverseBitsUInt_zero x⟩
  · intro j hj
    rw [ReverseBitsUInt_testBit w x j hw]
    simp [hj]
  · intro j hj
    rw [ReverseBitsUInt_testBit w x j hw]
    have : ¬ j < w := by omega
    simp [this]

/-- C19, at the full width `w = 64` and `x = 2^64 - 2`. -/
theorem C19_reverse_bits_witness :
    64 ≤ 64 ∧
    (∀ j, j < 64 → (ReverseBitsUInt (2 ^ 64 - 2) 64).testBit j
      = (2 ^ 64 - 2).testBit (64 - 1 - j)) ∧
    (∀ j, 64 ≤ j → (ReverseBitsUInt (2 ^ 64 - 2) 64).testBit j = false) ∧
    ReverseBitsUInt (2 ^ 64 - 2) 64 < 2 ^ 64 ∧
    ReverseBitsUInt (2 ^ 64 - 2) 0 = 0 :=
  ⟨by decide, C19_reverse_bits 64 (2 ^ 64 - 2) (by decide)⟩

/-- For a non-zero root, `IsPrimitiveRoot` is the comparison of the power
`r^(d/2) mod q` with `q - 1`. -/
theorem IsPrimitiveRoot_eq (r d q : Nat) (hr : r ≠ 0) (hd : IsPowerOfTwo d = true)
    (hq2 : 2 ≤ q) (hq : q < 2 ^ 64) :
    IsPrimitiveRoot r d q = some (r ^ (d / 2) % q == q - 1) := by
  obtain ⟨k, hk, hdk⟩ := IsPowerOfTwo_elim d hd
  have hd64 : d / 2 < 2 ^ 64 := by
    have : d < 2 ^ 64 := by rw [hdk]; exact Nat.pow_lt_pow_right (by norm_num) hk
    omega
  unfold IsPrimitiveRoot
  rw [if_neg hr, if_neg (by simp [hd]), PowMod_eq r (d / 2) q hq2 hd64,
    sub64_of_le q 1 hq (by omega)]
  rfl

/-- A root that `IsPrimitiveRoot` accepts is non-zero and its power `d/2` is
`q - 1`. -/
theorem IsPrimitiveRoot_elim (r d q : Nat) (hd : IsPowerOfTwo d = true) (hq2 : 2 ≤ q)
    (hq : q < 2 ^ 64) (h : IsPrimitiveRoot r d q = some true) :
    r ≠ 0 ∧ r ^ (d / 2) % q = q - 1 := by
  have hr : r ≠ 0 := by
    intro h0
    rw [h0] at h
    simp [IsPrimitiveRoot] at h
  rw [IsPrimitiveRoot_eq r d q hr hd hq2 hq] at h
  refine ⟨hr, ?_⟩
  simpa using h

/-- A value returned by the trial loop is a power computed by `PowMod` that
`IsPrimitiveRoot` accepts. -/
theorem GeneratePrimitiveRootLoop_some (d q e : Nat) (draws : Nat → Nat) :
    ∀ (cnt trial g : Nat), GeneratePrimitiveRootLoop d q e draws cnt trial = some g →
      ∃ t, PowMod (draws t) e q = some g ∧ IsPrimitiveRoot g d q = some true := by
  intro cnt
  induction cnt with
  | zero => intro trial g h; simp [GeneratePrimitiveRootLoop] at h
  | succ cnt ih =>
    intro trial g h
    rw [GeneratePrimitiveRootLoop] at h
    cases hp : PowMod (draws trial) e q with
    | none => rw [hp] at h; simp at h
    | some root =>
      rw [hp] at h
      dsimp only at h
      cases hi : IsPrimitiveRoot root d q with
      | none => rw [hi] at h; simp at h
      | some b =>
        rw [hi] at h
        cases b with
        | true =>
          simp only [Option.some.injEq] at h
          subst h
          exact ⟨trial, hp, hi⟩
        | false => exact ih (trial + 1) g h

/-- A value returned by `GeneratePrimitiveRoot` is reduced and accepted by
`IsPrimitiveRoot`. -/
theorem GeneratePrimitiveRoot_some (d q g : Nat) (draws : Nat → Nat) (hq2 : 2 ≤ q)
    (hq : q < 2 ^ 64) (h : GeneratePrimitiveRoot d q draws = some g) :
    g < q ∧ IsPrimitiveRoot g d q = some true := by
  unfold GeneratePrimitiveRoot at h
  by_cases hd : d = 0
  · simp [hd] at h
  · simp only [hd, if_false] at h
    obtain ⟨t, hp, hi⟩ := GeneratePrimitiveRootLoop_some d q _ draws 1000 0 g h
    have hs : sub64 q 1 / d < 2 ^ 64 := by
      rw [sub64_of_le q 1 hq (by omega)]
      calc (q - 1) / d ≤ q - 1 := Nat.div_le_self _ _
        _ < 2 ^ 64 := by omega
    rw [PowMod_eq _ _ q hq2 hs] at hp
    simp only [Option.some.injEq] at hp
    exact ⟨by rw [← hp]; exact Nat.mod_lt _ (by omega), hi⟩

/-- The minimum loop returns the least of the start value and the `cnt`
candidates `c · s^i mod q`, `i < cnt`. -/
theorem MinimalPrimitiveRootLoop_spec (q s : Nat) (hs : s < q) :
    ∀ (cnt c m : Nat), c < q →
      ∃ r, MinimalPrimitiveRootLoop q s cnt c m = some r ∧ r ≤ m ∧
        (∀ i, i < cnt → r ≤ c * s ^ i % q) ∧
        (r = m ∨ ∃ i, i < cnt ∧ r = c * s ^ i % q) := by
  intro cnt
  induction cnt with
  | zero =>
    intro c m _
    exact ⟨m, by simp [MinimalPrimitiveRootLoop], le_refl _, by intro i hi; omega, Or.inl rfl⟩
  | succ cnt ih =>
    intro c m hc
    have hq : 0 < q := by omega
    rw [MinimalPrimitiveRootLoop, MultiplyUIntMod_eq c s q hc hs]
    obtain ⟨r, h1, h2, h3, h4⟩ := ih (c * s % q) (if c < m then c else m) (Nat.mod_lt _ hq)
    have hstep : ∀ i, c * s % q * s ^ i % q = c * s ^ (i + 1) % q := by
      intro i
      rw [Nat.mul_mod, Nat.mod_mod, ← Nat.mul_mod, pow_succ]
      congr 1; ring
    have hc0 : c * s ^ 0 % q = c := by rw [pow_zero, Nat.mul_one, Nat.mod_eq_of_lt hc]
    refine ⟨r, h1, ?_, ?_, ?_⟩
    · split_ifs at h2 <;> omega
    · intro i hi
      cases i with
      | zero => rw [hc0]; split_ifs at h2 <;> omega
      | succ i => rw [← hstep i]; exact h3 i (by omega)
    · rcases h4 with h4 | ⟨i, hi, h4⟩
      · by_cases hcm : c < m
        · rw [if_pos hcm] at h4
          exact Or.inr ⟨0, by omega, by rw [hc0]; exact h4⟩
        · rw [if_neg hcm] at h4
          exact Or.inl h4
      · exact Or.inr ⟨i + 1, by omega, by rw [← hstep i]; exact h4⟩

/-- In a prime field other than `ZMod 2`, `-1` differs from `1`. -/
theorem neg_one_ne_one_of_prime (q : Nat) (hp : q.Prime) (hq : q ≠ 2) : (-1 : ZMod q) ≠ 1 := by
  have h3 : 2 < q := by
    have := hp.two_le
    omega
  haveI : Fact (2 < q) := ⟨h3⟩
  exact ZMod.neg_one_ne_one

/-- An element whose power `2^j` is `-1` has order `2^(j+1)`. -/
theorem orderOf_of_half (q j : Nat) (hp : q.Prime) (hq : q ≠ 2) (X : ZMod q)
    (h : X ^ 2 ^ j = -1) : orderOf X = 2 ^ (j + 1) := by
  have hnot : ¬ X ^ 2 ^ j = 1 := by
    rw [h]; exact neg_one_ne_one_of_prime q hp hq
  have hfin : X ^ 2 ^ (j + 1) = 1 := by
    rw [pow_succ, pow_mul, h]; norm_num
  exact orderOf_eq_prime_pow hnot hfin

/-- An element of order `2^(j+1)` of a prime field has power `2^j` equal to
`-1`. -/
theorem half_of_orderOf (q j : Nat) (hp : q.Prime) (X : ZMod q)
    (h : orderOf X = 2 ^ (j + 1)) : X ^ 2 ^ j = -1 := by
  haveI : Fact q.Prime := ⟨hp⟩
  have h1 : X ^ 2 ^ j * X ^ 2 ^ j = 1 := by
    rw [← pow_add, ← two_mul, ← pow_succ', ← h]
    exact pow_orderOf_eq_one X
  rcases mul_self_eq_one_iff.mp h1 with h2 | h2
  · exfalso
    have hdvd := orderOf_dvd_of_pow_eq_one h2
    rw [h] at hdvd
    have hle := Nat.le_of_dvd (by positivity) hdvd
    have : 2 ^ j < 2 ^ (j + 1) := Nat.pow_lt_pow_right (by norm_num) (by omega)
    omega
  · exact h2

/-- Two elements with power `2^j` equal to `-1`: one is an odd power of the
other. -/
theorem odd_power_of_half (q j : Nat) (hp : q.Prime) (hq : q ≠ 2) (G X : ZMod q)
    (hG : G ^ 2 ^ j = -1) (hX : X ^ 2 ^ j = -1) :
    ∃ l, l < 2 ^ j ∧ X = G ^ (2 * l + 1) := by
  haveI : Fact q.Prime := ⟨hp⟩
  have hord := orderOf_of_half q j hp hq G hG
  have hprim := IsPrimitiveRoot.orderOf G
  rw [hord] at hprim
  have hX1 : X ^ 2 ^ (j + 1) = 1 := by
    rw [pow_succ, pow_mul, hX]; norm_num
  haveI : NeZero (2 ^ (j + 1)) := ⟨by positivity⟩
  obtain ⟨i, hi, hGi⟩ := hprim.eq_pow_of_pow_eq_one hX1
  rcases Nat.even_or_odd' i with ⟨l, hl | hl⟩
  · exfalso
    have h2 : X ^ 2 ^ j = 1 := by
      rw [← hGi, hl, ← pow_mul, Nat.mul_comm 2 l, Nat.mul_assoc, ← pow_succ', pow_mul', ← hord,
        pow_orderOf_eq_one, one_pow]
    rw [hX] at h2
    exact neg_one_ne_one_of_prime q hp hq h2
  · refine ⟨l, ?_, by rw [← hGi, hl]⟩
    rw [pow_succ] at hi
    omega

/-- A power of a residue class is `1` exactly when the natural power leaves
remainder 1. -/
theorem cast_pow_eq_one_iff (x j q : Nat) (hq : 2 ≤ q) :
    ((x : ZMod q)) ^ j = 1 ↔ x ^ j % q = 1 := by
  constructor
  · intro h
    apply mod_eq_one_of_cast _ q hq
    rw [Nat.cast_pow, h]
  · intro h
    have h1 : ((x ^ j % q : Nat) : ZMod q) = ((1 : Nat) : ZMod q) := by rw [h]
    rw [ZMod.natCast_mod, Nat.cast_pow, Nat.cast_one] at h1
    exact h1

/-- Order exactly `d` modulo `q`, stated on naturals, is `orderOf` in `ZMod q`. -/
theorem order_iff (x d q : Nat) (hq : 2 ≤ q) (hd : 0 < d) :
    (x ^ d % q = 1 ∧ ∀ j, 0 < j → j < d → x ^ j % q ≠ 1) ↔ orderOf (x : ZMod q) = d := by
  rw [orderOf_eq_iff hd, cast_pow_eq_one_iff x d q hq]
  constructor
  · rintro ⟨h1, h2⟩
    refine ⟨h1, fun m hm hm0 hc => ?_⟩
    exact h2 m hm0 hm ((cast_pow_eq_one_iff x m q hq).1 hc)
  · rintro ⟨h1, h2⟩
    refine ⟨h1, fun j hj0 hj hc => ?_⟩
    exact h2 j hj hj0 ((cast_pow_eq_one_iff x j q hq).2 hc)

/-- The candidate of round `i` of the minimum loop, as a residue: the odd power
`g^(2i+1)`. -/
theorem candidate_cast (g q i : Nat) :
    ((g * (g * g % q) ^ i % q : Nat) : ZMod q) = (g : ZMod q) ^ (2 * i + 1) := by
  rw [ZMod.natCast_mod, Nat.cast_mul, Nat.cast_pow, ZMod.natCast_mod, Nat.cast_mul]
  ring

/-- Two reduced naturals with the same residue class are equal. -/
theorem eq_of_cast_eq (a b q : Nat) (ha : a < q) (hb : b < q)
    (h : (a : ZMod q) = (b : ZMod q)) : a = b := by
  have h1 := (ZMod.natCast_eq_natCast_iff' a b q).1 h
  rwa [Nat.mod_eq_of_lt ha, Nat.mod_eq_of_lt hb] at h1

/-- What `MinimalPrimitiveRoot` returns once the random search has found a
root: an element of `[1, q)` of order exactly `d` that `IsPrimitiveRoot`
accepts and that no element of `[1, q)` of order `d` undercuts. -/
theorem MinimalPrimitiveRoot_min (d q g : Nat) (draws : Nat → Nat) (hp : q.Prime)
    (hq2 : q ≠ 2) (hq : q < 2 ^ 64) (hd : IsPowerOfTwo d = true) (hd2 : 2 ≤ d)
    (hg : GeneratePrimitiveRoot d q draws = some g) :
    ∃ r, MinimalPrimitiveRoot d q draws = some r ∧ 1 ≤ r ∧ r < q ∧
      IsPrimitiveRoot r d q = some true ∧
      (r ^ d % q = 1 ∧ ∀ j, 0 < j → j < d → r ^ j % q ≠ 1) ∧
      ∀ x, 1 ≤ x → x < q → (x ^ d % q = 1 ∧ ∀ j, 0 < j → j < d → x ^ j % q ≠ 1) → r ≤ x := by
  have hq2' : 2 ≤ q := hp.two_le
  obtain ⟨k, hk, hdk⟩ := IsPowerOfTwo_elim d hd
  obtain ⟨j, rfl⟩ : ∃ j, k = j + 1 := by
    refine ⟨k - 1, ?_⟩
    have : k ≠ 0 := by
      intro h0
      rw [h0] at hdk
      omega
    omega
  have hhalf : d / 2 = 2 ^ j := by rw [hdk, pow_succ]; simp
  have hdpos : 0 < d := by omega
  obtain ⟨hglt, hgi⟩ := GeneratePrimitiveRoot_some d q g draws hq2' hq hg
  obtain ⟨_, hgpow⟩ := IsPrimitiveRoot_elim g d q hd hq2' hq hgi
  have hG : (g : ZMod q) ^ 2 ^ j = -1 := by
    rw [← hhalf]; exact root_neg_one g (d / 2) q hq2' hgpow
  have hs : g * g % q < q := Nat.mod_lt _ (by omega)
  obtain ⟨r, hr1, hr2, hr3, hr4⟩ := MinimalPrimitiveRootLoop_spec q (g * g % q) hs d g g hglt
  have hcand : ∃ i, i < d ∧ r = g * (g * g % q) ^ i % q := by
    rcases hr4 with h | h
    · exact ⟨0, hdpos, by rw [h, pow_zero, Nat.mul_one, Nat.mod_eq_of_lt hglt]⟩
    · exact h
  obtain ⟨i, _, hri⟩ := hcand
  have hrlt : r < q := by rw [hri]; exact Nat.mod_lt _ (by omega)
  have hR : (r : ZMod q) ^ 2 ^ j = -1 := by
    rw [hri, candidate_cast, ← pow_mul, Nat.mul_comm, pow_mul, hG]
    exact Odd.neg_one_pow ⟨i, rfl⟩
  have hrpow : r ^ (d / 2) % q = q - 1 := by
    apply mod_eq_pred_of_cast _ q hq2'
    rw [Nat.cast_pow, hhalf, hR]
  have hr0 : r ≠ 0 := by
    intro h0
    rw [h0, hhalf, zero_pow (by positivity), Nat.zero_mod] at hrpow
    omega
  refine ⟨r, ?_, by omega, hrlt, ?_, ?_, ?_⟩
  · unfold MinimalPrimitiveRoot
    rw [if_neg (by simp [hd]), hg]
    dsimp only
    rw [MultiplyUIntMod_eq g g q hglt hglt]
    exact hr1
  · rw [IsPrimitiveRoot_eq r d q hr0 hd hq2' hq, hrpow]
    simp
  · rw [order_iff r d q hq2' hdpos, hdk]
    exact orderOf_of_half q j hp hq2 _ hR
  · intro x _ hxlt hx
    rw [order_iff x d q hq2' hdpos, hdk] at hx
    have hX := half_of_orderOf q j hp _ hx
    obtain ⟨l, hl, hXl⟩ := odd_power_of_half q j hp hq2 _ _ hG hX
    rw [← candidate_cast g q l] at hXl
    have hxe := eq_of_cast_eq x _ q hxlt (Nat.mod_lt _ (by omega)) hXl
    rw [hxe]
    apply hr3
    rw [hdk, pow_succ]
    omega

/-- C18. Minimal primitive root: for an odd prime `q < 2^64`, a power-of-two
degree `d ≥ 2` and any root `g` the random search of `GeneratePrimitiveRoot`
returns, `MinimalPrimitiveRoot` returns an element `r` of `[1, q)` of
multiplicative order exactly `d` modulo `q` (one `IsPrimitiveRoot` accepts)
that is at most every element of `[1, q)` of order `d`; the same `r` is
returned for every other sequence of draws on which the search succeeds. -/
theorem C18_minimal_primitive_root (d q g : Nat) (draws : Nat → Nat) (hp : q.Prime)
    (hq2 : q ≠ 2) (hq : q < 2 ^ 64) (hd : IsPowerOfTwo d = true) (hd2 : 2 ≤ d)
    (hg : GeneratePrimitiveRoot d q draws = some g) :
    ∃ r, MinimalPrimitiveRoot d q draws = some r ∧ 1 ≤ r ∧ r < q ∧
      IsPrimitiveRoot r d q = some true ∧
      (r ^ d % q = 1 ∧ ∀ j, 0 < j → j < d → r ^ j % q ≠ 1) ∧
      (∀ x, 1 ≤ x → x < q → (x ^ d % q = 1 ∧ ∀ j, 0 < j → j < d → x ^ j % q ≠ 1) → r ≤ x) ∧
      ∀ (draws2 : Nat → Nat) (g2 : Nat), GeneratePrimitiveRoot d q draws2 = some g2 →
        MinimalPrimitiveRoot d q draws2 = some r := by
  obtain ⟨r, h1, h2, h3, h4, h5, h6⟩ := MinimalPrimitiveRoot_min d q g draws hp hq2 hq hd hd2 hg
  refine ⟨r, h1, h2, h3, h4, h5, h6, ?_⟩
  intro draws2 g2 hg2
  obtain ⟨r2, k1, k2, k3, _, k5, k6⟩ :=
    MinimalPrimitiveRoot_min d q g2 draws2 hp hq2 hq hd hd2 hg2
  have e : r2 = r := Nat.le_antisymm (k6 r h2 h3 h5) (h6 r2 k2 k3 k5)
  rw [k1, e]

/-- C18, at `d = 8`, `q = 17` with the draws `3, 4, 5, ...`: the search returns
`3^2 mod 17 = 9` and the minimum is 2. -/
theorem C18_minimal_primitive_root_witness :
    (Nat.Prime 17 ∧ 17 ≠ 2 ∧ IsPowerOfTwo 8 = true ∧ 2 ≤ 8 ∧
      GeneratePrimitiveRoot 8 17 (fun t => 3 + t) = some 9) ∧
    ∃ r, MinimalPrimitiveRoot 8 17 (fun t => 3 + t) = some r ∧ 1 ≤ r ∧ r < 17 ∧
      IsPrimitiveRoot r 8 17 = some true ∧
      (r ^ 8 % 17 = 1 ∧ ∀ j, 0 < j → j < 8 → r ^ j % 17 ≠ 1) ∧
      (∀ x, 1 ≤ x → x < 17 → (x ^ 8 % 17 = 1 ∧ ∀ j, 0 < j → j < 8 → x ^ j % 17 ≠ 1) → r ≤ x) ∧
      ∀ (draws2 : Nat → Nat) (g2 : Nat), GeneratePrimitiveRoot 8 17 draws2 = some g2 →
        MinimalPrimitiveRoot 8 17 draws2 = some r :=
  ⟨⟨by norm_num, by decide, by decide, by decide, by decide⟩,
    C18_minimal_primitive_root 8 17 9 (fun t => 3 + t) (by norm_num) (by decide) (by decide)
      (by decide) (by decide) (by decide)⟩

/-- `IsPrime` on sample composites: an even number, a Carmichael number, the
square `41^2` (no prime factor up to 37), a strong pseudoprime to the bases
2, 3, 5, 7, and the least strong pseudoprime to the first eleven prime bases,
which the twelfth base rejects. -/
theorem IsPrime_samples :
    IsPrime 4 = some false ∧ IsPrime 561 = some false ∧ IsPrime 1681 = some false ∧
    IsPrime 3215031751 = some false ∧ IsPrime 3825123056546413051 = some false := by
  refine ⟨by decide, by decide, by decide, by decide, by decide⟩

/-- A composite with a prime factor among the twelve bases is rejected by the
first loop of `IsPrime`. -/
theorem IsPrime_small_factor (n a : Nat) (ha : a ∈ as) (hd : a ∣ n) (hn : ¬ n.Prime) :
    IsPrime n = some false := by
  have hne : ∀ b ∈ as, n ≠ b := by
    intro b hb h
    apply hn
    rw [h]
    simp only [as, List.mem_cons, List.mem_singleton, List.not_mem_nil, or_false] at hb
    rcases hb with h | h | h | h | h | h | h | h | h | h | h | h <;> subst h <;> norm_num
  have key : ∀ l : List Nat, (∀ b ∈ l, n ≠ b) → a ∈ l → IsPrimeTrialLoop n l = some false := by
    intro l
    induction l with
    | nil => intro _ h; simp at h
    | cons b rest ih =>
      intro h1 h2
      rw [IsPrimeTrialLoop, if_neg (h1 b (List.mem_cons_self _ _))]
      by_cases hb : n % b = 0
      · rw [if_pos hb]
      · rw [if_neg hb]
        apply ih (fun c hc => h1 c (List.mem_cons_of_mem _ hc))
        rcases List.mem_cons.mp h2 with h | h
        · exfalso; apply hb; rw [← h]; exact Nat.mod_eq_zero_of_dvd hd
        · exact h
  unfold IsPrime
  rw [key as hne ha]

/-- The first loop of `IsPrime` ends without returning when no base equals or
divides `n`. -/
theorem IsPrimeTrialLoop_none (n : Nat) :
    ∀ l : List Nat, (∀ a ∈ l, n ≠ a ∧ n % a ≠ 0) → IsPrimeTrialLoop n l = none := by
  intro l
  induction l with
  | nil => intro _; rfl
  | cons a rest ih =>
    intro h
    have ha := h a (List.mem_cons_self _ _)
    rw [IsPrimeTrialLoop, if_neg ha.1, if_neg ha.2]
    exact ih (fun b hb => h b (List.mem_cons_of_mem _ hb))

/-- Every base of `IsPrime` is a prime. -/
theorem as_prime (a : Nat) (ha : a ∈ as) : a.Prime := by
  simp only [as, List.mem_cons, List.mem_singleton, List.not_mem_nil, or_false] at ha
  rcases ha with h | h | h | h | h | h | h | h | h | h | h | h <;> subst h <;> norm_num

/-- A prime outside the table of bases is not divisible by any base. -/
theorem prime_not_base (n : Nat) (hp : n.Prime) (hn : n ∉ as) :
    ∀ a ∈ as, n ≠ a ∧ n % a ≠ 0 := by
  intro a ha
  have hne : n ≠ a := fun h => hn (h ▸ ha)
  refine ⟨hne, fun h => ?_⟩
  have hd : a ∣ n := Nat.dvd_of_mod_eq_zero h
  rcases (Nat.dvd_prime hp).1 hd with h1 | h1
  · exact (as_prime a ha).one_lt.ne' h1
  · exact hne h1.symm

/-- The factor loop entered at `R ≤ 63` returns the largest `r ≤ R` with
`2^r` dividing `m`, or 0. -/
theorem IsPrimeFactorLoop_spec (n m : Nat) (hm : sub64 n 1 = m) :
    ∀ R, R ≤ 63 →
      IsPrimeFactorLoop n R ≤ R ∧
      (0 < IsPrimeFactorLoop n R → 2 ^ IsPrimeFactorLoop n R ∣ m) ∧
      ∀ r, IsPrimeFactorLoop n R < r → r ≤ R → ¬ 2 ^ r ∣ m := by
  intro R
  induction R with
  | zero =>
    intro _
    refine ⟨le_refl _, fun h => ?_, fun r h1 h2 => ?_⟩
    · simp [IsPrimeFactorLoop] at h
    · simp only [IsPrimeFactorLoop] at h1; omega
  | succ R ih =>
    intro hR
    have hsh : shl64 1 (R + 1) = 2 ^ (R + 1) := by
      unfold shl64
      rw [Nat.shiftLeft_eq, Nat.one_mul]
      apply Nat.mod_eq_of_lt
      exact Nat.pow_lt_pow_right (by norm_num) (by omega)
    rw [IsPrimeFactorLoop, hm, hsh]
    by_cases hd : m % 2 ^ (R + 1) = 0
    · rw [if_pos hd]
      refine ⟨le_refl _, fun _ => Nat.dvd_of_mod_eq_zero hd, fun r h1 h2 => ?_⟩
      omega
    · rw [if_neg hd]
      obtain ⟨h1, h2, h3⟩ := ih (by omega)
      refine ⟨by omega, h2, fun r hr1 hr2 => ?_⟩
      by_cases hr : r = R + 1
      · subst hr
        intro hdv
        exact hd (Nat.mod_eq_zero_of_dvd hdv)
      · exact h3 r hr1 (by omega)

/-- The decomposition `n - 1 = 2^r · d` that `IsPrime` finds for an odd
`3 ≤ n < 2^64`: `r ≥ 1`, `r ≤ 63` and `d` odd. -/
theorem IsPrime_decomposition (n : Nat) (hn3 : 3 ≤ n) (hodd : n % 2 = 1) (hn : n < 2 ^ 64) :
    1 ≤ IsPrimeFactorLoop n 63 ∧ IsPrimeFactorLoop n 63 ≤ 63 ∧
    n - 1 = 2 ^ IsPrimeFactorLoop n 63 * ((n - 1) / 2 ^ IsPrimeFactorLoop n 63) ∧
    (n - 1) / 2 ^ IsPrimeFactorLoop n 63 % 2 = 1 := by
  have hm : sub64 n 1 = n - 1 := sub64_of_le n 1 hn (by omega)
  obtain ⟨h1, h2, h3⟩ := IsPrimeFactorLoop_spec n (n - 1) hm 63 (le_refl _)
  have hr1 : 1 ≤ IsPrimeFactorLoop n 63 := by
    by_contra hc
    have h0 : IsPrimeFactorLoop n 63 < 1 := by omega
    apply h3 1 h0 (by norm_num)
    rw [pow_one]
    exact Nat.dvd_of_mod_eq_zero (by omega)
  have hdv := h2 (by omega)
  have hmul : n - 1 = 2 ^ IsPrimeFactorLoop n 63 * ((n - 1) / 2 ^ IsPrimeFactorLoop n 63) :=
    (Nat.mul_div_cancel' hdv).symm
  refine ⟨hr1, h1, hmul, ?_⟩
  by_contra hc
  have he : (n - 1) / 2 ^ IsPrimeFactorLoop n 63 % 2 = 0 := by omega
  have hdv2 : 2 ^ (IsPrimeFactorLoop n 63 + 1) ∣ n - 1 := by
    rw [hmul, pow_succ]
    exact Nat.mul_dvd_mul (dvd_refl _) (Nat.dvd_of_mod_eq_zero he)
  by_cases h63 : IsPrimeFactorLoop n 63 + 1 ≤ 63
  · exact h3 _ (by omega) h63 hdv2
  · have e : IsPrimeFactorLoop n 63 + 1 = 64 := by omega
    rw [e] at hdv2
    have := Nat.le_of_dvd (by omega) hdv2
    omega

/-- The squaring loop reports whether one of the `cnt` successive squares of
`x` is `n - 1`. -/
theorem IsPrimeSquareLoop_spec (n : Nat) (hn : 2 ≤ n) (hn64 : n < 2 ^ 64) :
    ∀ (cnt x : Nat) (prime : Bool),
      ∃ b, IsPrimeSquareLoop n cnt x prime = some b ∧
        ((prime = true ∨ ∃ i, 1 ≤ i ∧ i ≤ cnt ∧ x ^ 2 ^ i % n = n - 1) → b = true) := by
  have hsub : sub64 n 1 = n - 1 := sub64_of_le n 1 hn64 (by omega)
  intro cnt
  induction cnt with
  | zero =>
    intro x prime
    refine ⟨prime, rfl, ?_⟩
    rintro (h | ⟨i, h1, h2, _⟩)
    · exact h
    · omega
  | succ cnt ih =>
    intro x prime
    rw [IsPrimeSquareLoop, PowMod_eq x 2 n hn (by norm_num), hsub]
    obtain ⟨b, hb1, hb2⟩ := ih (x ^ 2 % n) (if x ^ 2 % n = n - 1 then true else prime)
    refine ⟨b, hb1, ?_⟩
    have hstep : ∀ i, (x ^ 2 % n) ^ 2 ^ i % n = x ^ 2 ^ (i + 1) % n := by
      intro i
      rw [← Nat.pow_mod, ← pow_mul, pow_succ']
    rintro (h | ⟨i, h1, h2, h3⟩)
    · apply hb2
      left
      rw [h]; simp
    · by_cases hi : i = 1
      · subst hi
        apply hb2
        left
        rw [pow_one] at h3
        rw [if_pos h3]
      · apply hb2
        right
        refine ⟨i - 1, by omega, by omega, ?_⟩
        rw [hstep]
        have e : i - 1 + 1 = i := by omega
        rw [e]; exact h3

/-- The Miller-Rabin chain over a prime field: an element whose power `2^r`
is 1 and that is neither 1 nor -1 has a square-power `2^i`, `1 ≤ i ≤ r - 1`,
equal to -1. -/
theorem square_chain (n : Nat) (hp : n.Prime) :
    ∀ (r : Nat) (Y : ZMod n), Y ^ 2 ^ r = 1 → Y ≠ 1 → Y ≠ -1 →
      ∃ i, 1 ≤ i ∧ i ≤ r - 1 ∧ Y ^ 2 ^ i = -1 := by
  haveI : Fact n.Prime := ⟨hp⟩
  intro r
  induction r with
  | zero =>
    intro Y h1 h2 _
    rw [pow_zero, pow_one] at h1
    exact absurd h1 h2
  | succ r ih =>
    intro Y h1 h2 h3
    have hZ : (Y ^ 2) ^ 2 ^ r = 1 := by rw [← pow_mul, ← pow_succ']; exact h1
    by_cases hz1 : Y ^ 2 = 1
    · exfalso
      rw [pow_two] at hz1
      rcases mul_self_eq_one_iff.mp hz1 with h | h
      · exact h2 h
      · exact h3 h
    · by_cases hz2 : Y ^ 2 = -1
      · have hr : r ≠ 0 := by
          intro h0
          rw [h0, pow_zero, pow_one] at hZ
          exact hz1 hZ
        exact ⟨1, le_refl _, by omega, by rw [pow_one]; exact hz2⟩
      · obtain ⟨i, hi1, hi2, hi3⟩ := ih (Y ^ 2) hZ hz1 hz2
        refine ⟨i + 1, by omega, by omega, ?_⟩
        rw [pow_succ', pow_mul]; exact hi3

/-- A natural power leaves remainder `n - 1` when its residue class is -1. -/
theorem cast_pow_eq_neg_one (x j n : Nat) (hn : 2 ≤ n) (h : ((x : ZMod n)) ^ j = -1) :
    x ^ j % n = n - 1 := by
  apply mod_eq_pred_of_cast _ n hn
  rw [Nat.cast_pow, h]

/-- For a prime `n` and a base `a` not divisible by `n`, the Miller-Rabin
test of `IsPrime` passes: `a^d` is 1 or `n - 1`, or one of the squares
`a^(2^i d)`, `1 ≤ i ≤ r - 1`, is `n - 1`. -/
theorem miller_rabin_passes (n a r d : Nat) (hp : n.Prime) (ha : ¬ n ∣ a)
    (hdec : n - 1 = 2 ^ r * d) :
    a ^ d % n = 1 ∨ a ^ d % n = n - 1 ∨
      ∃ i, 1 ≤ i ∧ i ≤ r - 1 ∧ (a ^ d % n) ^ 2 ^ i % n = n - 1 := by
  haveI : Fact n.Prime := ⟨hp⟩
  have hn2 : 2 ≤ n := hp.two_le
  have hA : (a : ZMod n) ≠ 0 := by
    intro h0
    exact ha ((ZMod.natCast_zmod_eq_zero_iff_dvd a n).1 h0)
  have hfermat : ((a : ZMod n) ^ d) ^ 2 ^ r = 1 := by
    rw [← pow_mul, Nat.mul_comm, ← hdec]
    exact ZMod.pow_card_sub_one_eq_one hA
  by_cases h1 : (a : ZMod n) ^ d = 1
  · left
    exact (cast_pow_eq_one_iff a d n hn2).1 h1
  · by_cases h2 : (a : ZMod n) ^ d = -1
    · right; left
      exact cast_pow_eq_neg_one a d n hn2 h2
    · right; right
      obtain ⟨i, hi1, hi2, hi3⟩ := square_chain n hp r _ hfermat h1 h2
      refine ⟨i, hi1, hi2, ?_⟩
      apply cast_pow_eq_neg_one _ _ n hn2
      rw [ZMod.natCast_mod, Nat.cast_pow]
      exact hi3

/-- The second loop of `IsPrime` returns true for a prime `n` when no base in
the list is divisible by `n`. -/
theorem IsPrimeWitnessLoop_prime (n r d : Nat) (hp : n.Prime) (hn64 : n < 2 ^ 64)
    (hdec : n - 1 = 2 ^ r * d) (hd : d < 2 ^ 64) :
    ∀ l : List Nat, (∀ a ∈ l, ¬ n ∣ a) → IsPrimeWitnessLoop n d r l = some true := by
  have hn2 : 2 ≤ n := hp.two_le
  have hsub : sub64 n 1 = n - 1 := sub64_of_le n 1 hn64 (by omega)
  intro l
  induction l with
  | nil => intro _; rfl
  | cons a rest ih =>
    intro h
    have hrest := ih (fun b hb => h b (List.mem_cons_of_mem _ hb))
    rw [IsPrimeWitnessLoop, PowMod_eq a d n hn2 hd, hsub]
    dsimp only
    by_cases hx : a ^ d % n = 1 ∨ a ^ d % n = n - 1
    · rw [if_pos hx]; exact hrest
    · rw [if_neg hx]
      obtain ⟨b, hb1, hb2⟩ := IsPrimeSquareLoop_spec n hn2 hn64 (r - 1) (a ^ d % n) false
      rcases miller_rabin_passes n a r d hp (h a (List.mem_cons_self _ _)) hdec with
        h1 | h1 | h1
      · exact absurd (Or.inl h1) hx
      · exact absurd (Or.inr h1) hx
      · have hb : b = true := hb2 (Or.inr h1)
        rw [hb1, hb]
        simp only [not_true_eq_false, if_false]
        exact hrest

/-- What `IsPrime` does on a prime outside its table of bases: the first loop
falls through, the decomposition `n - 1 = 2^r · d` has `r ≥ 1` and `d` odd, and
the second loop returns true. -/
theorem IsPrime_large_prime (n : Nat) (hp : n.Prime) (hn : n < 2 ^ 64) (hnot : n ∉ as) :
    IsPrime n = some true ∧
    1 ≤ IsPrimeFactorLoop n 63 ∧
    n - 1 = 2 ^ IsPrimeFactorLoop n 63 * ((n - 1) / 2 ^ IsPrimeFactorLoop n 63) ∧
    (n - 1) / 2 ^ IsPrimeFactorLoop n 63 % 2 = 1 := by
  have hn2 : 2 ≤ n := hp.two_le
  have hbase := prime_not_base n hp hnot
  have hodd : n % 2 = 1 := by
    have := (hbase 2 (by simp [as])).2
    omega
  have hn3 : 3 ≤ n := by
    have := (hbase 2 (by simp [as])).1
    omega
  obtain ⟨hr1, hr63, hdec, hdodd⟩ := IsPrime_decomposition n hn3 hodd hn
  refine ⟨?_, hr1, hdec, hdodd⟩
  have hsub : sub64 n 1 = n - 1 := sub64_of_le n 1 hn (by omega)
  have hsh : shl64 1 (IsPrimeFactorLoop n 63) = 2 ^ IsPrimeFactorLoop n 63 := by
    unfold shl64
    rw [Nat.shiftLeft_eq, Nat.one_mul]
    apply Nat.mod_eq_of_lt
    exact Nat.pow_lt_pow_right (by norm_num) (by omega)
  have hndiv : ∀ a ∈ as, ¬ n ∣ a := by
    intro a ha hd
    rcases (Nat.dvd_prime (as_prime a ha)).1 hd with h | h
    · omega
    · exact hnot (h ▸ ha)
  have hdlt : (n - 1) / 2 ^ IsPrimeFactorLoop n 63 < 2 ^ 64 := by
    calc (n - 1) / 2 ^ IsPrimeFactorLoop n 63 ≤ n - 1 := Nat.div_le_self _ _
      _ < 2 ^ 64 := by omega
  have hcheck : n = add64 (mul64 (2 ^ IsPrimeFactorLoop n 63)
      ((n - 1) / 2 ^ IsPrimeFactorLoop n 63)) 1 := by
    rw [mul64_of_lt _ _ (by rw [← hdec]; omega), ← hdec, add64_of_lt _ _ (by omega)]
    omega
  unfold IsPrime
  rw [IsPrimeTrialLoop_none n as hbase]
  dsimp only
  rw [if_neg (by omega), hsub, hsh, if_neg (not_not.mpr hcheck), if_neg (not_not.mpr hdodd)]
  exact IsPrimeWitnessLoop_prime n _ _ hp hn hdec hdlt as hndiv

/-- C21. No false negatives: for every prime `n < 2^64`, `IsPrime(n)` returns
true. For a prime outside the table of bases the decomposition
`n - 1 = 2^r · d` has `r ≥ 1` and `d` odd, and for each base `a` the chain
`a^d, a^(2d), ..., a^(2^(r-1) d) mod n` passes the Miller-Rabin test. -/
theorem C21_is_prime_no_false_negative (n : Nat) (hp : n.Prime) (hn : n < 2 ^ 64) :
    IsPrime n = some true ∧
    (n ∉ as →
      1 ≤ IsPrimeFactorLoop n 63 ∧
      n - 1 = 2 ^ IsPrimeFactorLoop n 63 * ((n - 1) / 2 ^ IsPrimeFactorLoop n 63) ∧
      (n - 1) / 2 ^ IsPrimeFactorLoop n 63 % 2 = 1 ∧
      ∀ a ∈ as,
        a ^ ((n - 1) / 2 ^ IsPrimeFactorLoop n 63) % n = 1 ∨
        ∃ i, i ≤ IsPrimeFactorLoop n 63 - 1 ∧
          a ^ (2 ^ i * ((n - 1) / 2 ^ IsPrimeFactorLoop n 63)) % n = n - 1) := by
  constructor
  · by_cases hmem : n ∈ as
    · simp only [as, List.mem_cons, List.mem_singleton, List.not_mem_nil, or_false] at hmem
      rcases hmem with h | h | h | h | h | h | h | h | h | h | h | h <;> subst h <;> decide
    · exact (IsPrime_large_prime n hp hn hmem).1
  · intro hmem
    obtain ⟨_, h1, h2, h3⟩ := IsPrime_large_prime n hp hn hmem
    refine ⟨h1, h2, h3, ?_⟩
    intro a ha
    have hndiv : ¬ n ∣ a := by
      intro hd
      rcases (Nat.dvd_prime (as_prime a ha)).1 hd with h | h
      · have := hp.two_le; omega
      · exact hmem (h ▸ ha)
    rcases miller_rabin_passes n a _ _ hp hndiv h2 with h | h | ⟨i, hi1, hi2, hi3⟩
    · exact Or.inl h
    · exact Or.inr ⟨0, by omega, by rw [pow_zero, Nat.one_mul]; exact h⟩
    · refine Or.inr ⟨i, hi2, ?_⟩
      rw [← Nat.pow_mod, ← pow_mul, Nat.mul_comm] at hi3
      exact hi3

/-- C21, at the prime `n = 769` (outside the table of bases). -/
theorem C21_is_prime_no_false_negative_witness :
    (Nat.Prime 769 ∧ 769 < 2 ^ 64) ∧
    IsPrime 769 = some true ∧
    (769 ∉ as →
      1 ≤ IsPrimeFactorLoop 769 63 ∧
      769 - 1 = 2 ^ IsPrimeFactorLoop 769 63 * ((769 - 1) / 2 ^ IsPrimeFactorLoop 769 63) ∧
      (769 - 1) / 2 ^ IsPrimeFactorLoop 769 63 % 2 = 1 ∧
      ∀ a ∈ as,
        a ^ ((769 - 1) / 2 ^ IsPrimeFactorLoop 769 63) % 769 = 1 ∨
        ∃ i, i ≤ IsPrimeFactorLoop 769 63 - 1 ∧
          a ^ (2 ^ i * ((769 - 1) / 2 ^ IsPrimeFactorLoop 769 63)) % 769 = 769 - 1) :=
  ⟨⟨by norm_num, by decide⟩, C21_is_prime_no_false_negative 769 (by norm_num) (by decide)⟩

/-- Left shift of 1 by less than 64 places is the power of two. -/
theorem shl64_one_pow (s : Nat) (hs : s < 64) : shl64 1 s = 2 ^ s := by
  unfold shl64
  rw [Nat.shiftLeft_eq, Nat.one_mul]
  exact Nat.mod_eq_of_lt (Nat.pow_lt_pow_right (by norm_num) hs)

/-- The candidates seen so far and accepted by `IsPrime`, extended by one
candidate. -/
theorem filter_range_succ (f : Nat → Nat) (p : Nat → Bool) (j : Nat) :
    ((List.range (j + 1)).map f).filter p
      = ((List.range j).map f).filter p ++ (if p (f j) then [f j] else []) := by
  rw [List.range_succ, List.map_append, List.filter_append]
  simp only [List.map_cons, List.map_nil]
  by_cases h : p (f j) = true
  · simp [h]
  · simp [h]

/-- Invariant of the loop of `GeneratePrimes` in the checked build: entered at candidate number `j`
with the accepted candidates below `j`, a successful run returns the accepted
candidates below some `J > j`, exactly `k` of them, the last candidate being
accepted and below the bound. -/
theorem GeneratePrimesLoop_spec (k b n : Nat) (hb : b ≤ 62) (h2n : 2 * n ≤ 2 ^ b) :
    ∀ (fuel j : Nat) (ret out : List Nat),
      ret = ((List.range j).map (fun i => 2 ^ b + 1 + 2 * n * i)).filter
        (fun v => IsPrime v = some true) →
      ret.length < k →
      GeneratePrimesLoop true k b n fuel (2 ^ b + 1 + 2 * n * j) ret = some out →
      ∃ J, j < J ∧
        out = ((List.range J).map (fun i => 2 ^ b + 1 + 2 * n * i)).filter
          (fun v => IsPrime v = some true) ∧
        out.length = k ∧ 2 ^ b + 1 + 2 * n * (J - 1) < 2 ^ (b + 1) := by
  have hpb : (2:Nat) ^ b ≤ 2 ^ 62 := Nat.pow_le_pow_right (by norm_num) hb
  have hsh : shl64 1 (b + 1) = 2 ^ (b + 1) := shl64_one_pow (b + 1) (by omega)
  have hp1 : (2:Nat) ^ (b + 1) = 2 * 2 ^ b := by rw [pow_succ]; ring
  intro fuel
  induction fuel with
  | zero => intro j ret out _ _ h; simp [GeneratePrimesLoop] at h
  | succ fuel ih =>
    intro j ret out hret hlen h
    rw [GeneratePrimesLoop, hsh] at h
    by_cases hv : 2 ^ b + 1 + 2 * n * j < 2 ^ (b + 1)
    · rw [if_pos hv] at h
      have hnext : add64 (2 ^ b + 1 + 2 * n * j) (mul64 2 n) = 2 ^ b + 1 + 2 * n * (j + 1) := by
        rw [mul64_of_lt 2 n (by omega), add64_of_lt _ _ (by omega)]
        ring
      have hsucc := filter_range_succ (fun i => 2 ^ b + 1 + 2 * n * i)
        (fun v => decide (IsPrime v = some true)) j
      cases hp : IsPrime (2 ^ b + 1 + 2 * n * j) with
      | none => rw [hp] at h; simp at h
      | some t =>
        rw [hp] at h
        cases t with
        | true =>
          dsimp only at h
          have hret1 : ret ++ [2 ^ b + 1 + 2 * n * j]
              = ((List.range (j + 1)).map (fun i => 2 ^ b + 1 + 2 * n * i)).filter
                (fun v => IsPrime v = some true) := by
            rw [hsucc, ← hret]
            simp [hp]
          by_cases hk : (ret ++ [2 ^ b + 1 + 2 * n * j]).length = k
          · rw [if_pos hk] at h
            simp only [Option.some.injEq] at h
            subst h
            exact ⟨j + 1, by omega, hret1, hk, by simpa using hv⟩
          · rw [if_neg hk, hnext] at h
            have hlen1 : (ret ++ [2 ^ b + 1 + 2 * n * j]).length < k := by
              rw [List.length_append, List.length_singleton] at hk ⊢
              omega
            obtain ⟨J, hJ, h1, h2, h3⟩ := ih (j + 1) _ out hret1 hlen1 h
            exact ⟨J, by omega, h1, h2, h3⟩
        | false =>
          dsimp only at h
          rw [hnext] at h
          have hret1 : ret
              = ((List.range (j + 1)).map (fun i => 2 ^ b + 1 + 2 * n * i)).filter
                (fun v => IsPrime v = some true) := by
            rw [hsucc, ← hret]
            simp [hp]
          obtain ⟨J, hJ, h1, h2, h3⟩ := ih (j + 1) _ out hret1 hlen h
          exact ⟨J, by omega, h1, h2, h3⟩
    · rw [if_neg hv] at h
      simp at h

/-- What a successful call of `GeneratePrimes` with `bit_size ≤ 62` returns:
the degree is `2^l` with `l < b`, and the list is made of the candidates
`2^b + 1 + 2n·j`, `j < J`, that `IsPrime` accepts, exactly `k` of them, all
below `2^(b+1)`. -/
theorem GeneratePrimes_spec (k b n : Nat) (ret : List Nat) (hb : b ≤ 62)
    (h : GeneratePrimes k b n = some ret) :
    ∃ l J, n = 2 ^ l ∧ l < b ∧ 0 < k ∧ 0 < J ∧
      ret = ((List.range J).map (fun i => 2 ^ b + 1 + 2 * n * i)).filter
        (fun v => IsPrime v = some true) ∧
      ret.length = k ∧ 2 ^ b + 1 + 2 * n * (J - 1) < 2 ^ (b + 1) := by
  unfold GeneratePrimes at h
  by_cases hk : k > 0
  swap
  · rw [if_pos hk] at h; simp at h
  rw [if_neg (not_not.mpr hk)] at h
  by_cases hpow : IsPowerOfTwo n = true
  swap
  · rw [if_pos (by simpa using hpow)] at h; simp at h
  rw [if_neg (by simp [hpow])] at h
  by_cases hlog : Log2 n < b
  swap
  · rw [if_pos hlog] at h; simp at h
  rw [if_neg (not_not.mpr hlog)] at h
  obtain ⟨l, hl, hnl⟩ := IsPowerOfTwo_elim n hpow
  rw [hnl, Log2_two_pow l hl] at hlog
  have h2n : 2 * n ≤ 2 ^ b := by
    rw [hnl, ← pow_succ']
    exact Nat.pow_le_pow_right (by norm_num) (by omega)
  have hpb : (2:Nat) ^ b ≤ 2 ^ 62 := Nat.pow_le_pow_right (by norm_num) hb
  have hstart : add64 (shl64 1 b) 1 = 2 ^ b + 1 + 2 * n * 0 := by
    rw [shl64_one_pow b (by omega), add64_of_lt _ _ (by omega)]
    ring
  dsimp only at h
  rw [hstart] at h
  obtain ⟨J, hJ, h1, h2, h3⟩ := GeneratePrimesLoop_spec k b n hb h2n (2 ^ 64) 0 [] ret
    (by simp) (by simpa using hk) h
  exact ⟨l, J, hnl, hlog, hk, by omega, h1, h2, h3⟩

/-- The list of accepted candidates over a longer range starts with the list
over a shorter range. -/
theorem filter_range_prefix (f : Nat → Nat) (p : Nat → Bool) (J J2 : Nat) (h : J ≤ J2) :
    ∃ rest, ((List.range J2).map f).filter p = ((List.range J).map f).filter p ++ rest := by
  obtain ⟨e, rfl⟩ : ∃ e, J2 = J + e := ⟨J2 - J, by omega⟩
  rw [List.range_add, List.map_append, List.filter_append]
  exact ⟨_, rfl⟩

/-- The candidates of `GeneratePrimes` are congruent to 1 modulo `2n`. -/
theorem candidate_mod (b l j : Nat) (hl : l < b) :
    (2 ^ b + 1 + 2 * 2 ^ l * j) % (2 * 2 ^ l) = 1 := by
  obtain ⟨e, rfl⟩ : ∃ e, b = l + 1 + e := ⟨b - l - 1, by omega⟩
  have h2 : 2 ≤ 2 * 2 ^ l := by
    have : 0 < 2 ^ l := by positivity
    omega
  have e1 : 2 ^ (l + 1 + e) + 1 + 2 * 2 ^ l * j = 1 + 2 * 2 ^ l * (2 ^ e + j) := by
    rw [pow_add, pow_succ]; ring
  rw [e1, Nat.add_mul_mod_self_left, Nat.mod_eq_of_lt (by omega)]

/-- C22. Prime generation: when `GeneratePrimes(k, b, n)` with `b ≤ 62`
succeeds, then `k ≥ 1`, `n` is a power of two with `log2 n < b`, and the
result has exactly `k` values, strictly increasing, each in `[2^b, 2^(b+1))`;
it is the list of the candidates `2^b + 1 + 2n·j`, `j < J`, that `IsPrime`
accepts, for some `J`, hence the first `k` accepted members of the sequence. -/
theorem C22_generate_primes (k b n : Nat) (ret : List Nat) (hb : b ≤ 62)
    (h : GeneratePrimes k b n = some ret) :
    1 ≤ k ∧ IsPowerOfTwo n = true ∧ Log2 n < b ∧
    ret.length = k ∧ ret.Pairwise (fun u v => u < v) ∧
    (∀ v ∈ ret, 2 ^ b ≤ v ∧ v < 2 ^ (b + 1)) ∧
    ∃ J, ret = ((List.range J).map (fun j => 2 ^ b + 1 + 2 * n * j)).filter
        (fun v => IsPrime v = some true) ∧
      ∀ J2, J ≤ J2 →
        (((List.range J2).map (fun j => 2 ^ b + 1 + 2 * n * j)).filter
          (fun v => IsPrime v = some true)).take k = ret := by
  obtain ⟨l, J, hnl, hl, hk, hJ, hret, hlen, hlast⟩ := GeneratePrimes_spec k b n ret hb h
  have hl64 : l < 64 := by omega
  refine ⟨hk, by rw [hnl]; exact IsPowerOfTwo_two_pow l hl64,
    by rw [hnl, Log2_two_pow l hl64]; exact hl, hlen, ?_, ?_, J, hret, ?_⟩
  · rw [hret]
    apply List.Pairwise.filter
    rw [List.pairwise_map]
    apply List.Pairwise.imp _ (List.pairwise_lt_range J)
    intro u v huv
    have hn : 0 < n := by rw [hnl]; positivity
    have : 2 * n * u < 2 * n * v := Nat.mul_lt_mul_of_pos_left huv (by omega)
    omega
  · intro v hv
    rw [hret, List.mem_filter, List.mem_map] at hv
    obtain ⟨⟨j, hj, rfl⟩, _⟩ := hv
    rw [List.mem_range] at hj
    have hle : 2 * n * j ≤ 2 * n * (J - 1) := Nat.mul_le_mul_left _ (by omega)
    constructor <;> omega
  · intro J2 hJ2
    obtain ⟨rest, hrest⟩ := filter_range_prefix (fun j => 2 ^ b + 1 + 2 * n * j)
      (fun v => decide (IsPrime v = some true)) J J2 hJ2
    rw [hrest, ← hret]
    exact List.take_left' hlen

/-- C22, at `GeneratePrimes(2, 6, 4) = [73, 89]`. -/
theorem C22_generate_primes_witness :
    (6 ≤ 62 ∧ GeneratePrimes 2 6 4 = some [73, 89]) ∧
    1 ≤ 2 ∧ IsPowerOfTwo 4 = true ∧ Log2 4 < 6 ∧
    [73, 89].length = 2 ∧ [73, 89].Pairwise (fun u v => u < v) ∧
    (∀ v ∈ [73, 89], 2 ^ 6 ≤ v ∧ v < 2 ^ (6 + 1)) ∧
    ∃ J, [73, 89] = ((List.range J).map (fun j => 2 ^ 6 + 1 + 2 * 4 * j)).filter
        (fun v => IsPrime v = some true) ∧
      ∀ J2, J ≤ J2 →
        (((List.range J2).map (fun j => 2 ^ 6 + 1 + 2 * 4 * j)).filter
          (fun v => IsPrime v = some true)).take 2 = [73, 89] :=
  ⟨⟨by decide, by decide⟩, C22_generate_primes 2 6 4 [73, 89] (by decide) (by decide)⟩

/-- C23. Every value returned by `GeneratePrimes(k, b, n)` with `b ≤ 62` is
congruent to 1 modulo `2n` (the degree `n` is then a power of two with
`log2 n < b`). -/
theorem C23_generated_primes_mod (k b n : Nat) (ret : List Nat) (hb : b ≤ 62)
    (h : GeneratePrimes k b n = some ret) :
    ∀ v ∈ ret, v % (2 * n) = 1 := by
  obtain ⟨l, J, hnl, hl, _, _, hret, _, _⟩ := GeneratePrimes_spec k b n ret hb h
  intro v hv
  rw [hret, List.mem_filter, List.mem_map] at hv
  obtain ⟨⟨j, _, rfl⟩, _⟩ := hv
  rw [hnl]
  exact candidate_mod b l j hl

/-- C23, at `GeneratePrimes(3, 10, 8) = [1153, 1201, 1217]`. -/
theorem C23_generated_primes_mod_witness :
    (10 ≤ 62 ∧ GeneratePrimes 3 10 8 = some [1153, 1201, 1217]) ∧
    ∀ v ∈ [1153, 1201, 1217], v % (2 * 8) = 1 :=
  ⟨⟨by decide, by decide⟩,
    C23_generated_primes_mod 3 10 8 [1153, 1201, 1217] (by decide) (by decide)⟩

/-- In the checked build, too few primes make the call fail: when fewer than `k`
of the candidates `2^b + 1 + 2n·j` below `2^(b+1)` are accepted by `IsPrime`
(`b ≤ 62`; the candidates below the bound have `j < 2^b`), `GeneratePrimes`
with `LATTICE_DEBUG` returns no list. -/
theorem GeneratePrimes_too_few (k b n : Nat) (hb : b ≤ 62)
    (hfew : (((List.range (2 ^ b)).map (fun j => 2 ^ b + 1 + 2 * n * j)).filter
      (fun v => v < 2 ^ (b + 1) ∧ IsPrime v = some true)).length < k) :
    GeneratePrimes k b n = none := by
  cases hg : GeneratePrimes k b n with
  | none => rfl
  | some ret =>
    exfalso
    obtain ⟨l, J, hnl, hl, _, hJ, hret, hlen, hlast⟩ := GeneratePrimes_spec k b n ret hb hg
    have hn : 0 < n := by rw [hnl]; positivity
    have hp1 : (2:Nat) ^ (b + 1) = 2 * 2 ^ b := by rw [pow_succ]; ring
    have hJle : J ≤ 2 ^ b := by
      have : 1 * (J - 1) ≤ 2 * n * (J - 1) := Nat.mul_le_mul_right _ (by omega)
      omega
    obtain ⟨rest, hrest⟩ := filter_range_prefix (fun j => 2 ^ b + 1 + 2 * n * j)
      (fun v => decide (v < 2 ^ (b + 1) ∧ IsPrime v = some true)) J (2 ^ b) hJle
    have hsame : ((List.range J).map (fun j => 2 ^ b + 1 + 2 * n * j)).filter
        (fun v => decide (v < 2 ^ (b + 1) ∧ IsPrime v = some true)) = ret := by
      rw [hret]
      apply List.filter_congr
      intro v hv
      rw [List.mem_map] at hv
      obtain ⟨j, hj, rfl⟩ := hv
      rw [List.mem_range] at hj
      have hle : 2 * n * j ≤ 2 * n * (J - 1) := Nat.mul_le_mul_left _ (by omega)
      have hlt : 2 ^ b + 1 + 2 * n * j < 2 ^ (b + 1) := by omega
      simp [hlt]
    rw [hrest, hsame, List.length_append, hlen] at hfew
    omega

/-- C24. Too few primes: at `GeneratePrimes(2, 5, 4)` the arguments pass the
three checks and of the candidates 33, 41, 49, 57 below 64 only 41 is accepted
by `IsPrime`, fewer than the 2 asked for. With `LATTICE_DEBUG` the final
`LATTICE_CHECK(false, ...)` fails and no list is returned; without it the
`return ret` after the check hands the caller the partial list `[41]`. -/
theorem C24_partial_list_returned :
    (0 < 2 ∧ IsPowerOfTwo 4 = true ∧ Log2 4 < 5) ∧
    ((List.range (2 ^ 5)).map (fun j => 2 ^ 5 + 1 + 2 * 4 * j)).filter
      (fun v => v < 2 ^ (5 + 1) ∧ IsPrime v = some true) = [41] ∧
    [IsPrime 33, IsPrime 41, IsPrime 49, IsPrime 57]
      = [some false, some true, some false, some false] ∧
    GeneratePrimes 2 5 4 = none ∧
    GeneratePrimesRelease 2 5 4 = some [41] := by
  refine ⟨⟨by decide, by decide, by decide⟩, by decide, by decide, by decide, by decide⟩

/-- A root whose power `n ≥ 1` is `-1` modulo `q` is coprime to `q`. -/
theorem coprime_of_neg_one (w n q : Nat) (hn : 0 < n) (hq : 2 ≤ q)
    (h : w ^ n % q = q - 1) : Nat.Coprime w q := by
  have hgw : Nat.gcd w q ∣ w ^ n := dvd_trans (Nat.gcd_dvd_left w q) (dvd_pow_self w (by omega))
  have hgq : Nat.gcd w q ∣ q := Nat.gcd_dvd_right w q
  have h1 : Nat.gcd w q ∣ w ^ n % q := (Nat.dvd_mod_iff hgq).mpr hgw
  rw [h] at h1
  have h2 : Nat.gcd w q ∣ q - (q - 1) := Nat.dvd_sub' hgq h1
  have e : q - (q - 1) = 1 := by omega
  rw [e] at h2
  exact Nat.dvd_one.mp h2

/-- C25 (counterexample). The modulus `q = 25` is not prime, the degree
`n = 2` is a power of two, `q ≡ 1 (mod 2n)` and `w = 7` has `w^n ≡ q - 1`;
both checks of the constructor pass and the construction completes (in a build
without the AVX512 flags). -/
theorem C25_composite_modulus_accepted :
    ¬ Nat.Prime 25 ∧ IsPowerOfTwo 2 = true ∧ 25 % (2 * 2) = 1 ∧ 7 ^ 2 % 25 = 25 - 1 ∧
    CheckArguments 2 25 = some true ∧ IsPrimitiveRoot 7 (mul64 2 2) 25 = some true ∧
    (NTTImpl.new NTTEnv.scalar 2 25 7).map
      (fun impl => (impl.m_degree, impl.m_p, impl.m_w, impl.m_winv,
        impl.tables.root_of_unity_powers)) = some (2, 25, 7, 18, [1, 7]) :=
  ⟨by norm_num, by decide, by decide, by decide, by decide, by decide, by decide⟩

/-- What `CheckArguments(degree, p)` tests: the degree is a power of two, it is
at most `2^17`, and `p ≡ 1 (mod 2·degree)`; nothing else about `p`. -/
theorem CheckArguments_iff (d p : Nat) :
    CheckArguments d p = some true ↔
      (IsPowerOfTwo d = true ∧ d ≤ 2 ^ 17 ∧ p % (2 * d) = 1) := by
  constructor
  · intro h
    unfold CheckArguments at h
    by_cases h1 : IsPowerOfTwo d = true
    swap
    · rw [if_pos (by simpa using h1)] at h; simp at h
    rw [if_neg (by simp [h1])] at h
    by_cases h2 : d ≤ 1 <<< s_max_degree_bits
    swap
    · rw [if_pos h2] at h; simp at h
    rw [if_neg (not_not.mpr h2)] at h
    by_cases h3 : mul64 2 d = 0
    · rw [if_pos h3] at h; simp at h
    rw [if_neg h3] at h
    by_cases h4 : p % (mul64 2 d) = 1
    swap
    · rw [if_pos h4] at h; simp at h
    have hd : d ≤ 2 ^ 17 := by
      have e : 1 <<< s_max_degree_bits = 2 ^ 17 := by decide
      rw [e] at h2
      exact h2
    have hmul : mul64 2 d = 2 * d := mul64_of_lt 2 d (by norm_num at hd ⊢; omega)
    rw [hmul] at h4
    exact ⟨h1, hd, h4⟩
  · rintro ⟨h1, h2, h3⟩
    obtain ⟨k, _, rfl⟩ := IsPowerOfTwo_elim d h1
    have hk : k ≤ 17 := (Nat.pow_le_pow_iff_right (by norm_num)).mp h2
    exact CheckArguments_ok k p hk h3

/-- C25 (amended). The constructor does not test primality. `CheckArguments`
tests only that the degree is a power of two, at most `2^17`, and that
`p ≡ 1 (mod 2·degree)`, nothing about the size or the primality of `p`. For a
degree `n = 2^k` with `k ≤ 17`, any modulus `q < 2^62`, prime or not, with
`q ≡ 1 (mod 2n)`, and a root `w < q` that `IsPrimitiveRoot` accepts for degree
`2n` (`w^n ≡ q - 1`), `CheckArguments` and the `IsPrimitiveRoot` check pass and
the construction completes with `m_winv = InverseUIntMod(w, q)` and the tables
of `ComputeRootOfUnityPowers`. -/
theorem C25_construction_without_primality (env : NTTEnv) (k n q w : Nat)
    (hn : n = 2 ^ k) (hk : k ≤ 17) (hq : q < 2 ^ 62) (hmod : q % (2 * n) = 1) (hw : w < q)
    (hroot : IsPrimitiveRoot w (2 * n) q = some true) :
    (∀ d p, CheckArguments d p = some true ↔
      (IsPowerOfTwo d = true ∧ d ≤ 2 ^ 17 ∧ p % (2 * d) = 1)) ∧
    CheckArguments n q = some true ∧
    ∃ impl, NTTImpl.new env n q w = some impl ∧
      impl.m_degree = n ∧ impl.m_p = q ∧ impl.m_w = w ∧
      InverseUIntMod w q = some impl.m_winv ∧
      ComputeRootOfUnityPowers n q w (Log2 n) = some impl.tables := by
  subst hn
  have hn64 : 2 * 2 ^ k < 2 ^ 64 := by
    calc 2 * 2 ^ k = 2 ^ (k + 1) := by rw [pow_succ]; ring
      _ < 2 ^ 64 := Nat.pow_lt_pow_right (by norm_num) (by omega)
  have hq2 : 2 ≤ q := by
    by_contra hc
    have hq1 : q = 1 := by
      rcases Nat.lt_or_ge q 1 with h | h
      · have : q = 0 := by omega
        rw [this] at hmod
        simp at hmod
      · omega
    have hw0 : w = 0 := by omega
    rw [hw0] at hroot
    simp [IsPrimitiveRoot] at hroot
  obtain ⟨_, hwn⟩ := IsPrimitiveRoot_true w (2 ^ k) q hq2 (by omega) hn64 hroot
  have hc := coprime_of_neg_one w (2 ^ k) q (by positivity) hq2 hwn
  obtain ⟨T, hT1, _⟩ := tables_of_valid k q w hk hq2 hq hw hc
  obtain ⟨winv, hinv, _, _⟩ := InverseUIntMod_spec w q hq2 (by omega) hc
  have hcheck := CheckArguments_ok k q hk hmod
  have hmul : mul64 2 (2 ^ k) = 2 * 2 ^ k := mul64_of_lt _ _ hn64
  refine ⟨CheckArguments_iff, hcheck, ?_⟩
  unfold NTTImpl.new
  rw [hcheck, hmul, hroot, hinv]
  simp [hT1]

/-- C25 (amended), at the composite modulus `q = 25` with `n = 2`, `w = 7`. -/
theorem C25_construction_without_primality_witness :
    (2 = 2 ^ 1 ∧ 25 % (2 * 2) = 1 ∧ IsPrimitiveRoot 7 (2 * 2) 25 = some true) ∧
    (∀ d p, CheckArguments d p = some true ↔
      (IsPowerOfTwo d = true ∧ d ≤ 2 ^ 17 ∧ p % (2 * d) = 1)) ∧
    CheckArguments 2 25 = some true ∧
    ∃ impl, NTTImpl.new NTTEnv.scalar 2 25 7 = some impl ∧
      impl.m_degree = 2 ∧ impl.m_p = 25 ∧ impl.m_w = 7 ∧
      InverseUIntMod 7 25 = some impl.m_winv ∧
      ComputeRootOfUnityPowers 2 25 7 (Log2 2) = some impl.tables :=
  ⟨⟨by decide, by decide, by decide⟩,
    C25_construction_without_primality NTTEnv.scalar 1 2 25 7 (by decide) (by decide)
      (by decide) (by decide) (by decide) (by decide)⟩

/-- What `storeLanes` leaves in the buffer. -/
theorem storeLanes_spec (v : m512i) (p : Nat) :
    ∀ (l : Nat) (mem : List Nat), p + l ≤ mem.length →
      (storeLanes v p l mem).length = mem.length ∧
      ∀ j, (storeLanes v p l mem).getD j 0
        = if p ≤ j ∧ j < p + l then v (j - p) else mem.getD j 0 := by
  intro l
  induction l with
  | zero =>
    intro mem _
    refine ⟨rfl, fun j => ?_⟩
    rw [if_neg (by omega)]; rfl
  | succ l ih =>
    intro mem h
    obtain ⟨h1, h2⟩ := ih mem (by omega)
    rw [storeLanes]
    refine ⟨by rw [List.length_set, h1], fun j => ?_⟩
    by_cases hj : j = p + l
    · subst hj
      rw [getD_set_eq _ _ _ (by rw [h1]; omega), if_pos (by omega)]
      congr 1; omega
    · rw [getD_set_ne _ _ _ _ (fun h => hj h.symm), h2 j]
      by_cases hc : p ≤ j ∧ j < p + l
      · rw [if_pos hc, if_pos (by omega)]
      · rw [if_neg hc, if_neg (by omega)]

/-- The conditional subtraction reduces a value below `2q` modulo `q`. -/
theorem small_mod_eq (x q : Nat) (hx : x < 2 * q) (hx64 : x < 2 ^ 64) :
    (if x ≥ q then sub64 x q else x) = x % q := by
  by_cases h : x ≥ q
  · rw [if_pos h, sub64_of_le x q hx64 h, Nat.mod_eq_sub_mod h, Nat.mod_eq_of_lt (by omega)]
  · rw [if_neg h, Nat.mod_eq_of_lt (by omega)]

/-- One lane of the multiply step of `FMAModScalarAVX512<64>`: the Barrett
estimate, the two low products, the subtraction and the conditional
subtraction give `a · b mod q`. -/
theorem fma_lane_mul (a b q : Nat) (hq : q < 2 ^ 62) (ha : a < q) (hb : b < q) :
    (if sub64 ((a % 2 ^ 64) * (b % 2 ^ 64) % 2 ^ 64)
          (mul64 ((a % 2 ^ 64) * ((b * 2 ^ 64 / q) % 2 ^ 64) / 2 ^ 64) q) ≥ q
      then sub64 (sub64 ((a % 2 ^ 64) * (b % 2 ^ 64) % 2 ^ 64)
          (mul64 ((a % 2 ^ 64) * ((b * 2 ^ 64 / q) % 2 ^ 64) / 2 ^ 64) q)) q
      else sub64 ((a % 2 ^ 64) * (b % 2 ^ 64) % 2 ^ 64)
          (mul64 ((a % 2 ^ 64) * ((b * 2 ^ 64 / q) % 2 ^ 64) / 2 ^ 64) q))
      = a * b % q := by
  have ha64 : a < 2 ^ 64 := by omega
  have hb64 : b < 2 ^ 64 := by omega
  have hbarr : b * 2 ^ 64 / q < 2 ^ 64 := barrett_lt b q 64 hb
  have e : sub64 ((a % 2 ^ 64) * (b % 2 ^ 64) % 2 ^ 64)
      (mul64 ((a % 2 ^ 64) * ((b * 2 ^ 64 / q) % 2 ^ 64) / 2 ^ 64) q)
      = MultiplyUIntModLazy64 a b (b * 2 ^ 64 / q) q := by
    rw [Nat.mod_eq_of_lt ha64, Nat.mod_eq_of_lt hb64, Nat.mod_eq_of_lt hbarr]
    unfold MultiplyUIntModLazy64 MultiplyUInt64Hi64 mul64
    rw [Nat.mul_comm a b]
  rw [e]
  have hlt := lazy_lt q b a (by omega) hb ha64
  have hmod := lazy_modEq q b a (by omega) hb ha64
  rw [small_mod_eq _ q hlt (by omega)]
  exact hmod

/-- One lane of `FMAModScalarAVX512<64>` with the addend: `(a · b + c) mod q`. -/
theorem fma_lane_add (x c q : Nat) (hq : q < 2 ^ 62) (hx : x < q) (hc : c < q) :
    (if add64 x c ≥ q then sub64 (add64 x c) q else add64 x c) = (x + c) % q := by
  rw [add64_of_lt x c (by omega)]
  exact small_mod_eq _ q (by omega) (by omega)

/-- One lane of the vector computed in the branch `if (arg3)`. -/
theorem fma_vector_add (varg1 varg3 : m512i) (b q l : Nat) (hq : q < 2 ^ 62) (hb : b < q)
    (ha : varg1 l < q) (hc : varg3 l < q) :
    mm512_il_small_mod_epi64
      (mm512_add_epi64
        (mm512_il_small_mod_epi64
          (mm512_sub_epi64 (mm512_il_mullo_epi 64 varg1 (mm512_set1_epi64 b))
            (mm512_mullo_epi64
              (mm512_il_mulhi_epi 64 varg1 (mm512_set1_epi64 (b * 2 ^ 64 / q)))
              (mm512_set1_epi64 q)))
          (mm512_set1_epi64 q))
        varg3)
      (mm512_set1_epi64 q) l = (varg1 l * b + varg3 l) % q := by
  unfold mm512_il_small_mod_epi64 mm512_add_epi64 mm512_sub_epi64 mm512_il_mullo_epi
    mm512_mullo_epi64 mm512_il_mulhi_epi mm512_set1_epi64
  simp only []
  rw [fma_lane_mul (varg1 l) b q hq ha hb,
    fma_lane_add _ (varg3 l) q hq (Nat.mod_lt _ (by omega)) hc, Nat.mod_add_mod]

/-- One lane of the vector computed for `arg3 == nullptr`. -/
theorem fma_vector_mul (varg1 : m512i) (b q l : Nat) (hq : q < 2 ^ 62) (hb : b < q)
    (ha : varg1 l < q) :
    mm512_il_small_mod_epi64
      (mm512_sub_epi64 (mm512_il_mullo_epi 64 varg1 (mm512_set1_epi64 b))
        (mm512_mullo_epi64
          (mm512_il_mulhi_epi 64 varg1 (mm512_set1_epi64 (b * 2 ^ 64 / q)))
          (mm512_set1_epi64 q)))
      (mm512_set1_epi64 q) l = varg1 l * b % q := by
  unfold mm512_il_small_mod_epi64 mm512_sub_epi64 mm512_il_mullo_epi
    mm512_mullo_epi64 mm512_il_mulhi_epi mm512_set1_epi64
  rw [fma_lane_mul (varg1 l) b q hq ha hb]

/-- The SIMD loop with the addend: `cnt` blocks of eight words read at `p1`
and `p3` and written at `po`. -/
theorem FMAModScalarAVX512LoopAdd_spec (arg1 arg3 : List Nat) (b q : Nat) (hq : q < 2 ^ 62)
    (hb : b < q) :
    ∀ (cnt p1 p3 po : Nat) (out : List Nat),
      p1 + 8 * cnt ≤ arg1.length → p3 + 8 * cnt ≤ arg3.length → po + 8 * cnt ≤ out.length →
      (∀ i, i < 8 * cnt → arg1.getD (p1 + i) 0 < q) →
      (∀ i, i < 8 * cnt → arg3.getD (p3 + i) 0 < q) →
      ∃ out1, FMAModScalarAVX512LoopAdd 64 arg1 arg3 (mm512_set1_epi64 b)
          (mm512_set1_epi64 (b * 2 ^ 64 / q)) (mm512_set1_epi64 q) cnt p1 p3 po out = some out1 ∧
        out1.length = out.length ∧
        ∀ j, out1.getD j 0
          = if po ≤ j ∧ j < po + 8 * cnt
            then (arg1.getD (p1 + (j - po)) 0 * b + arg3.getD (p3 + (j - po)) 0) % q
            else out.getD j 0 := by
  intro cnt
  induction cnt with
  | zero =>
    intro p1 p3 po out _ _ _ _ _
    refine ⟨out, rfl, rfl, fun j => ?_⟩
    rw [if_neg (by omega)]
  | succ cnt ih =>
    intro p1 p3 po out h1 h3 ho ha hc
    rw [FMAModScalarAVX512LoopAdd]
    unfold mm512_loadu_si512 mm512_storeu_si512
    rw [if_pos (by omega), if_pos (by omega)]
    dsimp only
    rw [if_pos (by omega)]
    dsimp only
    obtain ⟨hs1, hs2⟩ := storeLanes_spec
      (mm512_il_small_mod_epi64
        (mm512_add_epi64
          (mm512_il_small_mod_epi64
            (mm512_sub_epi64
              (mm512_il_mullo_epi 64 (fun l => arg1.getD (p1 + l) 0) (mm512_set1_epi64 b))
              (mm512_mullo_epi64
                (mm512_il_mulhi_epi 64 (fun l => arg1.getD (p1 + l) 0)
                  (mm512_set1_epi64 (b * 2 ^ 64 / q)))
                (mm512_set1_epi64 q)))
            (mm512_set1_epi64 q))
          (fun l => arg3.getD (p3 + l) 0))
        (mm512_set1_epi64 q)) po 8 out (by omega)
    obtain ⟨out1, e1, e2, e3⟩ := ih (p1 + 8) (p3 + 8) (po + 8) _ (by omega) (by omega)
      (by rw [hs1]; omega)
      (fun i hi => by have := ha (8 + i) (by omega); rwa [← Nat.add_assoc] at this)
      (fun i hi => by have := hc (8 + i) (by omega); rwa [← Nat.add_assoc] at this)
    refine ⟨out1, e1, by rw [e2, hs1], fun j => ?_⟩
    rw [e3 j]
    by_cases hj : po + 8 ≤ j ∧ j < po + 8 + 8 * cnt
    · rw [if_pos hj, if_pos (by omega)]
      have e4 : p1 + 8 + (j - (po + 8)) = p1 + (j - po) := by omega
      have e5 : p3 + 8 + (j - (po + 8)) = p3 + (j - po) := by omega
      rw [e4, e5]
    · rw [if_neg hj, hs2 j]
      by_cases hj2 : po ≤ j ∧ j < po + 8
      · rw [if_pos hj2, if_pos (by omega)]
        exact fma_vector_add _ _ b q (j - po) hq hb (ha (j - po) (by omega))
          (hc (j - po) (by omega))
      · rw [if_neg hj2, if_neg (by omega)]

/-- The SIMD loop without addend. -/
theorem FMAModScalarAVX512LoopMul_spec (arg1 : List Nat) (b q : Nat) (hq : q < 2 ^ 62)
    (hb : b < q) :
    ∀ (cnt p1 po : Nat) (out : List Nat),
      p1 + 8 * cnt ≤ arg1.length → po + 8 * cnt ≤ out.length →
      (∀ i, i < 8 * cnt → arg1.getD (p1 + i) 0 < q) →
      ∃ out1, FMAModScalarAVX512LoopMul 64 arg1 (mm512_set1_epi64 b)
          (mm512_set1_epi64 (b * 2 ^ 64 / q)) (mm512_set1_epi64 q) cnt p1 po out = some out1 ∧
        out1.length = out.length ∧
        ∀ j, out1.getD j 0
          = if po ≤ j ∧ j < po + 8 * cnt
            then arg1.getD (p1 + (j - po)) 0 * b % q
            else out.getD j 0 := by
  intro cnt
  induction cnt with
  | zero =>
    intro p1 po out _ _ _
    refine ⟨out, rfl, rfl, fun j => ?_⟩
    rw [if_neg (by omega)]
  | succ cnt ih =>
    intro p1 po out h1 ho ha
    rw [FMAModScalarAVX512LoopMul]
    unfold mm512_loadu_si512 mm512_storeu_si512
    rw [if_pos (by omega)]
    dsimp only
    rw [if_pos (by omega)]
    dsimp only
    obtain ⟨hs1, hs2⟩ := storeLanes_spec
      (mm512_il_small_mod_epi64
        (mm512_sub_epi64
          (mm512_il_mullo_epi 64 (fun l => arg1.getD (p1 + l) 0) (mm512_set1_epi64 b))
          (mm512_mullo_epi64
            (mm512_il_mulhi_epi 64 (fun l => arg1.getD (p1 + l) 0)
              (mm512_set1_epi64 (b * 2 ^ 64 / q)))
            (mm512_set1_epi64 q)))
        (mm512_set1_epi64 q)) po 8 out (by omega)
    obtain ⟨out1, e1, e2, e3⟩ := ih (p1 + 8) (po + 8) _ (by omega)
      (by rw [hs1]; omega)
      (fun i hi => by have := ha (8 + i) (by omega); rwa [← Nat.add_assoc] at this)
    refine ⟨out1, e1, by rw [e2, hs1], fun j => ?_⟩
    rw [e3 j]
    by_cases hj : po + 8 ≤ j ∧ j < po + 8 + 8 * cnt
    · rw [if_pos hj, if_pos (by omega)]
      have e4 : p1 + 8 + (j - (po + 8)) = p1 + (j - po) := by omega
      rw [e4]
    · rw [if_neg hj, hs2 j]
      by_cases hj2 : po ≤ j ∧ j < po + 8
      · rw [if_pos hj2, if_pos (by omega)]
        exact fma_vector_mul _ b q (j - po) hq hb (ha (j - po) (by omega))
      · rw [if_neg hj2, if_neg (by omega)]

/-- A list is determined by its length and its entries. -/
theorem list_eq_map_of_getD (l : List Nat) (n : Nat) (f : Nat → Nat) (h : l.length = n)
    (hf : ∀ j, j < n → l.getD j 0 = f j) : l = (List.range n).map f := by
  rw [list_eq_map_range l n h]
  apply List.map_congr_left
  intro j hj
  exact hf j (List.mem_range.mp hj)

/-- C26. Lanes of the SIMD fused multiply-add: for a length `n = 8m`, a modulus
`q < 2^62`, a scalar `b < q` with `arg2_barr = ⌊b · 2^64 / q⌋` and vectors of
length `n` with entries below `q`, `FMAModScalarAVX512<64>` returns with
`out[i] = (a[i] · b + c[i]) mod q` for every `i < n`, and with
`out[i] = (a[i] · b) mod q` when `arg3` is absent. -/
theorem C26_fma_simd_lanes (m n q b : Nat) (a c out : List Nat) (hn : n = 8 * m)
    (hq : q < 2 ^ 62) (hb : b < q) (hal : a.length = n) (hcl : c.length = n)
    (hol : out.length = n) (ha : ∀ v ∈ a, v < q) (hc : ∀ v ∈ c, v < q) :
    FMAModScalarAVX512 64 a b (some c) out (b * 2 ^ 64 / q) n q
      = some ((List.range n).map (fun i => (a.getD i 0 * b + c.getD i 0) % q)) ∧
    FMAModScalarAVX512 64 a b none out (b * 2 ^ 64 / q) n q
      = some ((List.range n).map (fun i => a.getD i 0 * b % q)) := by
  subst hn
  have h8 : 8 * m % 8 = 0 := Nat.mul_mod_right 8 m
  have hd8 : 8 * m / 8 = m := Nat.mul_div_cancel_left m (by norm_num)
  have hag := getD_lt_of_forall_mem a q (8 * m) hal ha
  have hcg := getD_lt_of_forall_mem c q (8 * m) hcl hc
  have hmax : q < MaximumValue 64 := by unfold MaximumValue; omega
  have hbnd : LATTICE_CHECK_BOUNDS (List.drop 0 a) (8 * m) q = true := by
    rw [List.drop_zero]
    exact LATTICE_CHECK_BOUNDS_ok a (8 * m) q hag
  constructor
  · obtain ⟨out1, e1, e2, e3⟩ := FMAModScalarAVX512LoopAdd_spec a c b q hq hb m 0 0 0 out
      (by omega) (by omega) (by omega)
      (fun i hi => by rw [Nat.zero_add]; exact hag i hi)
      (fun i hi => by rw [Nat.zero_add]; exact hcg i hi)
    unfold FMAModScalarAVX512
    simp only [h8, ne_eq, not_true_eq_false, if_false, hmax, hbnd, hb, hd8, or_true,
      not_false_eq_true]
    rw [e1]
    congr 1
    apply list_eq_map_of_getD out1 (8 * m) _ (by rw [e2, hol])
    intro j hj
    rw [e3 j, if_pos (by omega)]
    simp
  · obtain ⟨out1, e1, e2, e3⟩ := FMAModScalarAVX512LoopMul_spec a b q hq hb m 0 0 out
      (by omega) (by omega)
      (fun i hi => by rw [Nat.zero_add]; exact hag i hi)
    unfold FMAModScalarAVX512
    simp only [h8, ne_eq, not_true_eq_false, if_false, hmax, hbnd, hb, hd8, or_true,
      not_false_eq_true]
    rw [e1]
    congr 1
    apply list_eq_map_of_getD out1 (8 * m) _ (by rw [e2, hol])
    intro j hj
    rw [e3 j, if_pos (by omega)]
    simp

/-- C26, at the spec's scenario S4: `q = 101`, `a = [1..16]`, `b = 3`,
`c = [2..17]`. -/
theorem C26_fma_simd_lanes_witness :
    (16 = 8 * 2 ∧ 101 < 2 ^ 62 ∧ 3 < 101 ∧
      (∀ v ∈ [1, 2, 3, 4, 5, 6, 7, 8, 9, 10, 11, 12, 13, 14, 15, 16], v < 101) ∧
      (∀ v ∈ [2, 3, 4, 5, 6, 7, 8, 9, 10, 11, 12, 13, 14, 15, 16, 17], v < 101)) ∧
    FMAModScalarAVX512 64 [1, 2, 3, 4, 5, 6, 7, 8, 9, 10, 11, 12, 13, 14, 15, 16] 3
        (some [2, 3, 4, 5, 6, 7, 8, 9, 10, 11, 12, 13, 14, 15, 16, 17])
        [0, 0, 0, 0, 0, 0, 0, 0, 0, 0, 0, 0, 0, 0, 0, 0] (3 * 2 ^ 64 / 101) 16 101
      = some ((List.range 16).map (fun i =>
          ([1, 2, 3, 4, 5, 6, 7, 8, 9, 10, 11, 12, 13, 14, 15, 16].getD i 0 * 3
            + [2, 3, 4, 5, 6, 7, 8, 9, 10, 11, 12, 13, 14, 15, 16, 17].getD i 0) % 101)) ∧
    FMAModScalarAVX512 64 [1, 2, 3, 4, 5, 6, 7, 8, 9, 10, 11, 12, 13, 14, 15, 16] 3 none
        [0, 0, 0, 0, 0, 0, 0, 0, 0, 0, 0, 0, 0, 0, 0, 0] (3 * 2 ^ 64 / 101) 16 101
      = some ((List.range 16).map (fun i =>
          [1, 2, 3, 4, 5, 6, 7, 8, 9, 10, 11, 12, 13, 14, 15, 16].getD i 0 * 3 % 101)) :=
  ⟨⟨by decide, by decide, by decide, by decide, by decide⟩,
    C26_fma_simd_lanes 2 16 101 3 [1, 2, 3, 4, 5, 6, 7, 8, 9, 10, 11, 12, 13, 14, 15, 16]
      [2, 3, 4, 5, 6, 7, 8, 9, 10, 11, 12, 13, 14, 15, 16, 17]
      [0, 0, 0, 0, 0, 0, 0, 0, 0, 0, 0, 0, 0, 0, 0, 0] (by decide) (by decide) (by decide)
      (by decide) (by decide) (by decide) (by decide) (by decide)⟩

/-- C27. At `n = 9`, `q = 101`, `b = 3`, `a = [1..9]`, `c = [10, 20, .., 90]`
and an output buffer of zeros, the scalar `FMAModScalarNative` writes
`(a[i] · b + c[i]) mod q` at every `i < 9`, while `FMAModScalarAVX512<64>`
writes the scalar head at `out[0]`, then stores the SIMD block computed from
`a[1..8]`, `c[1..8]` at `out[0..7]` again, because `out` is not advanced with
`arg1` and `arg3`: the outputs are shifted by one and `out[8]` is never
written. -/
theorem C27_simd_fma_tail_misplaced :
    FMAModScalarNative [1, 2, 3, 4, 5, 6, 7, 8, 9] 3
        (some [10, 20, 30, 40, 50, 60, 70, 80, 90]) [0, 0, 0, 0, 0, 0, 0, 0, 0]
        (3 * 2 ^ 64 / 101) 9 101
      = some [13, 26, 39, 52, 65, 78, 91, 3, 16] ∧
    FMAModScalarAVX512 64 [1, 2, 3, 4, 5, 6, 7, 8, 9] 3
        (some [10, 20, 30, 40, 50, 60, 70, 80, 90]) [0, 0, 0, 0, 0, 0, 0, 0, 0]
        (3 * 2 ^ 64 / 101) 9 101
      = some [26, 39, 52, 65, 78, 91, 3, 16, 0] :=
  ⟨by decide, by decide⟩

/-- Reading a buffer of the heap after one buffer was replaced. -/
theorem heap_getD_set (heap : List (List Nat)) (r p : Nat) (X : List Nat)
    (hr : r < heap.length) :
    (heap.set r X).getD p [] = if p = r then X else heap.getD p [] := by
  by_cases h : p = r
  · subst h
    rw [if_pos rfl]
    simp [List.getD_eq_getElem?_getD, List.getElem?_set_self hr]
  · rw [if_neg h]
    simp [List.getD_eq_getElem?_getD, List.getElem?_set_ne (fun e => h e.symm)]

/-- Reading a word of the heap after one word of one buffer was written. -/
theorem heap_word_set (heap : List (List Nat)) (r i v : Nat) (hr : r < heap.length)
    (hi : i < (heap.getD r []).length) (x j : Nat) :
    ((heap.set r ((heap.getD r []).set i v)).getD x []).getD j 0
      = if x = r ∧ j = i then v else (heap.getD x []).getD j 0 := by
  rw [heap_getD_set heap r x _ hr]
  by_cases hx : x = r
  · subst hx
    rw [if_pos rfl]
    by_cases hj : j = i
    · subst hj
      rw [if_pos ⟨rfl, rfl⟩, getD_set_eq _ _ _ hi]
    · rw [if_neg (fun h => hj h.2), getD_set_ne _ _ _ _ (fun e => hj e.symm)]
  · rw [if_neg hx, if_neg (fun h => hx h.1)]

/-- Two lists of the same length with the same entries are equal. -/
theorem list_ext_getD (l1 l2 : List Nat) (hlen : l1.length = l2.length)
    (h : ∀ j, l1.getD j 0 = l2.getD j 0) : l1 = l2 := by
  apply List.ext_getElem hlen
  intro j h1 h2
  have := h j
  rwa [List.getD_eq_getElem l1 0 h1, List.getD_eq_getElem l2 0 h2] at this

/-- The element-wise loop on two vectors writes `f a[j] b[j]` at the words
`i .. i + cnt - 1` of the result buffer, from the operands as they were before
the loop, whichever buffers coincide, and changes nothing else. -/
theorem EltwiseLoopVV_spec (f : Nat → Nat → Nat) (r a b : Nat) :
    ∀ (cnt i : Nat) (heap : List (List Nat)), r < heap.length →
      i + cnt ≤ (heap.getD r []).length →
      (EltwiseLoopVV f r a b cnt i heap).length = heap.length ∧
      (∀ p, ((EltwiseLoopVV f r a b cnt i heap).getD p []).length = (heap.getD p []).length) ∧
      ∀ p j, ((EltwiseLoopVV f r a b cnt i heap).getD p []).getD j 0
        = if p = r ∧ i ≤ j ∧ j < i + cnt
          then f ((heap.getD a []).getD j 0) ((heap.getD b []).getD j 0)
          else (heap.getD p []).getD j 0 := by
  intro cnt
  induction cnt with
  | zero =>
    intro i heap _ _
    refine ⟨rfl, fun _ => rfl, fun p j => ?_⟩
    rw [if_neg (by omega)]; rfl
  | succ cnt ih =>
    intro i heap hr hlen
    rw [EltwiseLoopVV]
    have hlen1 : ∀ p, ((heap.set r ((heap.getD r []).set i
        (f ((heap.getD a []).getD i 0) ((heap.getD b []).getD i 0)))).getD p []).length
          = (heap.getD p []).length := by
      intro p
      rw [heap_getD_set heap r p _ hr]
      by_cases hp : p = r
      · rw [if_pos hp, List.length_set, hp]
      · rw [if_neg hp]
    obtain ⟨h1, h2, h3⟩ := ih (i + 1) (heap.set r ((heap.getD r []).set i
        (f ((heap.getD a []).getD i 0) ((heap.getD b []).getD i 0))))
      (by rw [List.length_set]; exact hr) (by rw [hlen1 r]; omega)
    refine ⟨by rw [h1, List.length_set], fun p => by rw [h2 p, hlen1 p], fun p j => ?_⟩
    rw [h3 p j]
    have hw := heap_word_set heap r i
      (f ((heap.getD a []).getD i 0) ((heap.getD b []).getD i 0)) hr (by omega)
    by_cases hc : p = r ∧ i + 1 ≤ j ∧ j < i + 1 + cnt
    · rw [if_pos hc, if_pos (by omega), hw a j, hw b j, if_neg (by omega), if_neg (by omega)]
    · rw [if_neg hc, hw p j]
      by_cases hc2 : p = r ∧ j = i
      · rw [if_pos hc2, if_pos (by omega), hc2.2]
      · rw [if_neg hc2, if_neg (by omega)]

/-- The element-wise loop on a vector and a scalar. -/
theorem EltwiseLoopVS_spec (f : Nat → Nat → Nat) (r a s : Nat) :
    ∀ (cnt i : Nat) (heap : List (List Nat)), r < heap.length →
      i + cnt ≤ (heap.getD r []).length →
      (EltwiseLoopVS f r a s cnt i heap).length = heap.length ∧
      (∀ p, ((EltwiseLoopVS f r a s cnt i heap).getD p []).length = (heap.getD p []).length) ∧
      ∀ p j, ((EltwiseLoopVS f r a s cnt i heap).getD p []).getD j 0
        = if p = r ∧ i ≤ j ∧ j < i + cnt
          then f ((heap.getD a []).getD j 0) s
          else (heap.getD p []).getD j 0 := by
  intro cnt
  induction cnt with
  | zero =>
    intro i heap _ _
    refine ⟨rfl, fun _ => rfl, fun p j => ?_⟩
    rw [if_neg (by omega)]; rfl
  | succ cnt ih =>
    intro i heap hr hlen
    rw [EltwiseLoopVS]
    have hlen1 : ∀ p, ((heap.set r ((heap.getD r []).set i
        (f ((heap.getD a []).getD i 0) s))).getD p []).length
          = (heap.getD p []).length := by
      intro p
      rw [heap_getD_set heap r p _ hr]
      by_cases hp : p = r
      · rw [if_pos hp, List.length_set, hp]
      · rw [if_neg hp]
    obtain ⟨h1, h2, h3⟩ := ih (i + 1) (heap.set r ((heap.getD r []).set i
        (f ((heap.getD a []).getD i 0) s)))
      (by rw [List.length_set]; exact hr) (by rw [hlen1 r]; omega)
    refine ⟨by rw [h1, List.length_set], fun p => by rw [h2 p, hlen1 p], fun p j => ?_⟩
    rw [h3 p j]
    have hw := heap_word_set heap r i (f ((heap.getD a []).getD i 0) s) hr (by omega)
    by_cases hc : p = r ∧ i + 1 ≤ j ∧ j < i + 1 + cnt
    · rw [if_pos hc, if_pos (by omega), hw a j, if_neg (by omega)]
    · rw [if_neg hc, hw p j]
      by_cases hc2 : p = r ∧ j = i
      · rw [if_pos hc2, if_pos (by omega), hc2.2]
      · rw [if_neg hc2, if_neg (by omega)]

/-- The operand checks of an element-wise kernel pass on a valid operand. -/
theorem EltwiseOperandOk_true (heap : List (List Nat)) (a n q : Nat) (ha : a < heap.length)
    (hal : n ≤ (heap.getD a []).length) (hav : ∀ i, i < n → (heap.getD a []).getD i 0 < q) :
    EltwiseOperandOk heap a n q = true := by
  unfold EltwiseOperandOk
  rw [LATTICE_CHECK_BOUNDS_ok _ n q hav]
  simp only [ha, hal, decide_True, Bool.and_self]

/-- The difference modulo `q` of two reduced values. -/
theorem sub_mod_cases (x y q : Nat) (hx : x < q) (hy : y < q) :
    (x + q - y) % q = (if x ≥ y then x - y else x + q - y) ∧ (x + q - y) % q < q ∧
    (x = y → (x + q - y) % q = 0) := by
  have hq : 0 < q := by omega
  refine ⟨?_, Nat.mod_lt _ hq, ?_⟩
  · by_cases h : x ≥ y
    · rw [if_pos h]
      have e : x + q - y = x - y + q := by omega
      rw [e, Nat.add_mod_right, Nat.mod_eq_of_lt (by omega)]
    · rw [if_neg h, Nat.mod_eq_of_lt (by omega)]
  · intro h
    subst h
    have e : x + q - x = q := by omega
    rw [e, Nat.mod_self]

/-- C28. Element-wise modular subtraction: for a modulus `q ≥ 2`, a length
`n ≥ 1` and operands with `a[i], b[i] < q`, `EltwiseSubModNative` returns with
`out[i] = (a[i] + q - b[i]) mod q`, that is `a[i] - b[i]` when `a[i] ≥ b[i]`
and `a[i] + q - b[i]` otherwise, below `q`, and 0 when `a[i] = b[i]`; the
result buffer may be operand `a` (or any buffer), the values are those of the
operands before the call, and no other buffer changes. The scalar overload
gives the same with `b` in every position. -/
theorem C28_eltwise_sub_mod (heap : List (List Nat)) (r a b n q s : Nat) (hn : 1 ≤ n)
    (hq : 2 ≤ q) (hr : r < heap.length) (hrl : n ≤ (heap.getD r []).length)
    (ha : a < heap.length) (hal : n ≤ (heap.getD a []).length)
    (hav : ∀ i, i < n → (heap.getD a []).getD i 0 < q)
    (hb : b < heap.length) (hbl : n ≤ (heap.getD b []).length)
    (hbv : ∀ i, i < n → (heap.getD b []).getD i 0 < q) (hs : s < q) :
    (∃ heap1, EltwiseSubModNative heap r a b n q = some heap1 ∧
      (∀ i, i < n →
        (heap1.getD r []).getD i 0
          = ((heap.getD a []).getD i 0 + q - (heap.getD b []).getD i 0) % q ∧
        (heap1.getD r []).getD i 0
          = (if (heap.getD a []).getD i 0 ≥ (heap.getD b []).getD i 0
             then (heap.getD a []).getD i 0 - (heap.getD b []).getD i 0
             else (heap.getD a []).getD i 0 + q - (heap.getD b []).getD i 0) ∧
        (heap1.getD r []).getD i 0 < q ∧
        ((heap.getD a []).getD i 0 = (heap.getD b []).getD i 0 →
          (heap1.getD r []).getD i 0 = 0)) ∧
      ∀ p, p ≠ r → heap1.getD p [] = heap.getD p []) ∧
    (∃ heap1, EltwiseSubModNativeScalar heap r a s n q = some heap1 ∧
      (∀ i, i < n →
        (heap1.getD r []).getD i 0 = ((heap.getD a []).getD i 0 + q - s) % q ∧
        (heap1.getD r []).getD i 0
          = (if (heap.getD a []).getD i 0 ≥ s then (heap.getD a []).getD i 0 - s
             else (heap.getD a []).getD i 0 + q - s) ∧
        (heap1.getD r []).getD i 0 < q ∧
        ((heap.getD a []).getD i 0 = s → (heap1.getD r []).getD i 0 = 0)) ∧
      ∀ p, p ≠ r → heap1.getD p [] = heap.getD p []) := by
  have hoa := EltwiseOperandOk_true heap a n q ha hal hav
  have hob := EltwiseOperandOk_true heap b n q hb hbl hbv
  constructor
  · obtain ⟨_, h2, h3⟩ := EltwiseLoopVV_spec (fun x y => (x + q - y) % q) r a b n 0 heap hr
      (by omega)
    refine ⟨EltwiseLoopVV (fun x y => (x + q - y) % q) r a b n 0 heap, ?_, ?_, ?_⟩
    · unfold EltwiseSubModNative
      rw [if_neg (by omega), if_neg (by omega), if_neg (not_not.mpr ⟨hr, hrl⟩),
        if_neg (by simp [hoa]), if_neg (by simp [hob])]
    · intro i hi
      have e := h3 r i
      rw [if_pos ⟨rfl, by omega, by omega⟩] at e
      obtain ⟨c1, c2, c3⟩ := sub_mod_cases _ _ q (hav i hi) (hbv i hi)
      rw [e]
      exact ⟨rfl, c1, c2, c3⟩
    · intro p hp
      apply list_ext_getD _ _ (h2 p)
      intro j
      rw [h3 p j, if_neg (fun h => hp h.1)]
  · obtain ⟨_, h2, h3⟩ := EltwiseLoopVS_spec (fun x y => (x + q - y) % q) r a s n 0 heap hr
      (by omega)
    refine ⟨EltwiseLoopVS (fun x y => (x + q - y) % q) r a s n 0 heap, ?_, ?_, ?_⟩
    · unfold EltwiseSubModNativeScalar
      rw [if_neg (by omega), if_neg (by omega), if_neg (not_not.mpr ⟨hr, hrl⟩),
        if_neg (by simp [hoa]), if_neg (by omega)]
    · intro i hi
      have e := h3 r i
      rw [if_pos ⟨rfl, by omega, by omega⟩] at e
      obtain ⟨c1, c2, c3⟩ := sub_mod_cases _ s q (hav i hi) hs
      rw [e]
      exact ⟨rfl, c1, c2, c3⟩
    · intro p hp
      apply list_ext_getD _ _ (h2 p)
      intro j
      rw [h3 p j, if_neg (fun h => hp h.1)]

/-- C28, at the inputs of the tests `vector_vector_native_small` and
`vector_scalar_native_small`: `q = 10`, `a = [1..8]` (also the result buffer),
`b = [1, 3, 5, 7, 9, 4, 4, 6]`, scalar 3. -/
theorem C28_eltwise_sub_mod_witness :
    (1 ≤ 8 ∧ 2 ≤ 10 ∧
      (∀ i, i < 8 → ([[1, 2, 3, 4, 5, 6, 7, 8], [1, 3, 5, 7, 9, 4, 4, 6]].getD 0 []).getD i 0
        < 10) ∧
      (∀ i, i < 8 → ([[1, 2, 3, 4, 5, 6, 7, 8], [1, 3, 5, 7, 9, 4, 4, 6]].getD 1 []).getD i 0
        < 10) ∧
      EltwiseSubModNative [[1, 2, 3, 4, 5, 6, 7, 8], [1, 3, 5, 7, 9, 4, 4, 6]] 0 0 1 8 10
        = some [[0, 9, 8, 7, 6, 2, 3, 2], [1, 3, 5, 7, 9, 4, 4, 6]] ∧
      EltwiseSubModNativeScalar [[1, 2, 3, 4, 5, 6, 7, 8], [1, 3, 5, 7, 9, 4, 4, 6]] 0 0 3 8 10
        = some [[8, 9, 0, 1, 2, 3, 4, 5], [1, 3, 5, 7, 9, 4, 4, 6]]) ∧
    ((∃ heap1, EltwiseSubModNative [[1, 2, 3, 4, 5, 6, 7, 8], [1, 3, 5, 7, 9, 4, 4, 6]]
        0 0 1 8 10 = some heap1 ∧
      (∀ i, i < 8 →
        (heap1.getD 0 []).getD i 0
          = (([[1, 2, 3, 4, 5, 6, 7, 8], [1, 3, 5, 7, 9, 4, 4, 6]].getD 0 []).getD i 0 + 10
              - ([[1, 2, 3, 4, 5, 6, 7, 8], [1, 3, 5, 7, 9, 4, 4, 6]].getD 1 []).getD i 0) % 10 ∧
        (heap1.getD 0 []).getD i 0
          = (if ([[1, 2, 3, 4, 5, 6, 7, 8], [1, 3, 5, 7, 9, 4, 4, 6]].getD 0 []).getD i 0
                ≥ ([[1, 2, 3, 4, 5, 6, 7, 8], [1, 3, 5, 7, 9, 4, 4, 6]].getD 1 []).getD i 0
             then ([[1, 2, 3, 4, 5, 6, 7, 8], [1, 3, 5, 7, 9, 4, 4, 6]].getD 0 []).getD i 0
                - ([[1, 2, 3, 4, 5, 6, 7, 8], [1, 3, 5, 7, 9, 4, 4, 6]].getD 1 []).getD i 0
             else ([[1, 2, 3, 4, 5, 6, 7, 8], [1, 3, 5, 7, 9, 4, 4, 6]].getD 0 []).getD i 0 + 10
                - ([[1, 2, 3, 4, 5, 6, 7, 8], [1, 3, 5, 7, 9, 4, 4, 6]].getD 1 []).getD i 0) ∧
        (heap1.getD 0 []).getD i 0 < 10 ∧
        (([[1, 2, 3, 4, 5, 6, 7, 8], [1, 3, 5, 7, 9, 4, 4, 6]].getD 0 []).getD i 0
            = ([[1, 2, 3, 4, 5, 6, 7, 8], [1, 3, 5, 7, 9, 4, 4, 6]].getD 1 []).getD i 0 →
          (heap1.getD 0 []).getD i 0 = 0)) ∧
      ∀ p, p ≠ 0 → heap1.getD p []
        = [[1, 2, 3, 4, 5, 6, 7, 8], [1, 3, 5, 7, 9, 4, 4, 6]].getD p []) ∧
    (∃ heap1, EltwiseSubModNativeScalar [[1, 2, 3, 4, 5, 6, 7, 8], [1, 3, 5, 7, 9, 4, 4, 6]]
        0 0 3 8 10 = some heap1 ∧
      (∀ i, i < 8 →
        (heap1.getD 0 []).getD i 0
          = (([[1, 2, 3, 4, 5, 6, 7, 8], [1, 3, 5, 7, 9, 4, 4, 6]].getD 0 []).getD i 0 + 10
              - 3) % 10 ∧
        (heap1.getD 0 []).getD i 0
          = (if ([[1, 2, 3, 4, 5, 6, 7, 8], [1, 3, 5, 7, 9, 4, 4, 6]].getD 0 []).getD i 0 ≥ 3
             then ([[1, 2, 3, 4, 5, 6, 7, 8], [1, 3, 5, 7, 9, 4, 4, 6]].getD 0 []).getD i 0 - 3
             else ([[1, 2, 3, 4, 5, 6, 7, 8], [1, 3, 5, 7, 9, 4, 4, 6]].getD 0 []).getD i 0 + 10
                - 3) ∧
        (heap1.getD 0 []).getD i 0 < 10 ∧
        (([[1, 2, 3, 4, 5, 6, 7, 8], [1, 3, 5, 7, 9, 4, 4, 6]].getD 0 []).getD i 0 = 3 →
          (heap1.getD 0 []).getD i 0 = 0)) ∧
      ∀ p, p ≠ 0 → heap1.getD p []
        = [[1, 2, 3, 4, 5, 6, 7, 8], [1, 3, 5, 7, 9, 4, 4, 6]].getD p [])) :=
  ⟨⟨by decide, by decide, by decide, by decide, by decide, by decide⟩,
    C28_eltwise_sub_mod [[1, 2, 3, 4, 5, 6, 7, 8], [1, 3, 5, 7, 9, 4, 4, 6]] 0 0 1 8 10 3
      (by decide) (by decide) (by decide) (by decide) (by decide) (by decide) (by decide)
      (by decide) (by decide) (by decide) (by decide)⟩

/-- C29. Element-wise modular multiplication: for a modulus `q ≥ 2`, a length
`n ≥ 1` (a multiple of 8 or not) and operands in distinct buffers with
`a[i], b[i] < q`, `MultiplyModInPlaceNative` and `MultiplyModInPlace` return
with `a[i]` replaced by `(a[i] · b[i]) mod q`, the product being the exact
product of naturals, and with `b` and every other buffer unchanged. -/
theorem C29_multiply_mod_in_place (heap : List (List Nat)) (a b n q : Nat) (hn : 1 ≤ n)
    (hq : 2 ≤ q) (ha : a < heap.length) (hal : n ≤ (heap.getD a []).length)
    (hav : ∀ i, i < n → (heap.getD a []).getD i 0 < q)
    (hb : b < heap.length) (hbl : n ≤ (heap.getD b []).length)
    (hbv : ∀ i, i < n → (heap.getD b []).getD i 0 < q) (hab : a ≠ b) :
    ∃ heap1, MultiplyModInPlaceNative heap a b n q = some heap1 ∧
      MultiplyModInPlace heap a b n q = some heap1 ∧
      (∀ i, i < n → (heap1.getD a []).getD i 0
        = (heap.getD a []).getD i 0 * (heap.getD b []).getD i 0 % q) ∧
      (∀ i, n ≤ i → (heap1.getD a []).getD i 0 = (heap.getD a []).getD i 0) ∧
      heap1.getD b [] = heap.getD b [] ∧
      ∀ p, p ≠ a → heap1.getD p [] = heap.getD p [] := by
  have hoa := EltwiseOperandOk_true heap a n q ha hal hav
  have hob := EltwiseOperandOk_true heap b n q hb hbl hbv
  obtain ⟨_, h2, h3⟩ := EltwiseLoopVV_spec (fun x y => x * y % q) a a b n 0 heap ha (by omega)
  have hnat : MultiplyModInPlaceNative heap a b n q
      = some (EltwiseLoopVV (fun x y => x * y % q) a a b n 0 heap) := by
    unfold MultiplyModInPlaceNative
    rw [if_neg (by omega), if_neg (by omega), if_neg (by simp [hoa]), if_neg (by simp [hob])]
  have hother : ∀ p, p ≠ a → (EltwiseLoopVV (fun x y => x * y % q) a a b n 0 heap).getD p []
      = heap.getD p [] := by
    intro p hp
    apply list_ext_getD _ _ (h2 p)
    intro j
    rw [h3 p j, if_neg (fun h => hp h.1)]
  refine ⟨EltwiseLoopVV (fun x y => x * y % q) a a b n 0 heap, hnat, hnat, ?_, ?_,
    hother b (fun h => hab h.symm), hother⟩
  · intro i hi
    rw [h3 a i, if_pos ⟨rfl, by omega, by omega⟩]
  · intro i hi
    rw [h3 a i, if_neg (by omega)]

/-- C29, at the inputs of the test `PolyMult.6`: `q = 769`,
`a = [0, 1, 2, 3, 4, 5]`, `b = [2, 4, 6, 8, 10, 12]`. -/
theorem C29_multiply_mod_in_place_witness :
    (1 ≤ 6 ∧ 2 ≤ 769 ∧
      (∀ i, i < 6 → ([[0, 1, 2, 3, 4, 5], [2, 4, 6, 8, 10, 12]].getD 0 []).getD i 0 < 769) ∧
      (∀ i, i < 6 → ([[0, 1, 2, 3, 4, 5], [2, 4, 6, 8, 10, 12]].getD 1 []).getD i 0 < 769) ∧
      MultiplyModInPlace [[0, 1, 2, 3, 4, 5], [2, 4, 6, 8, 10, 12]] 0 1 6 769
        = some [[0, 4, 12, 24, 40, 60], [2, 4, 6, 8, 10, 12]]) ∧
    ∃ heap1, MultiplyModInPlaceNative [[0, 1, 2, 3, 4, 5], [2, 4, 6, 8, 10, 12]] 0 1 6 769
        = some heap1 ∧
      MultiplyModInPlace [[0, 1, 2, 3, 4, 5], [2, 4, 6, 8, 10, 12]] 0 1 6 769 = some heap1 ∧
      (∀ i, i < 6 → (heap1.getD 0 []).getD i 0
        = ([[0, 1, 2, 3, 4, 5], [2, 4, 6, 8, 10, 12]].getD 0 []).getD i 0
          * ([[0, 1, 2, 3, 4, 5], [2, 4, 6, 8, 10, 12]].getD 1 []).getD i 0 % 769) ∧
      (∀ i, 6 ≤ i → (heap1.getD 0 []).getD i 0
        = ([[0, 1, 2, 3, 4, 5], [2, 4, 6, 8, 10, 12]].getD 0 []).getD i 0) ∧
      heap1.getD 1 [] = [[0, 1, 2, 3, 4, 5], [2, 4, 6, 8, 10, 12]].getD 1 [] ∧
      ∀ p, p ≠ 0 → heap1.getD p [] = [[0, 1, 2, 3, 4, 5], [2, 4, 6, 8, 10, 12]].getD p [] :=
  ⟨⟨by decide, by decide, by decide, by decide, by decide⟩,
    C29_multiply_mod_in_place [[0, 1, 2, 3, 4, 5], [2, 4, 6, 8, 10, 12]] 0 1 6 769
      (by decide) (by decide) (by decide) (by decide) (by decide) (by decide) (by decide)
      (by decide) (by decide)⟩

/-- The in-place forward transform acts on the buffer it is given and on
nothing else: on a heap it does what it does on the one-buffer heap that holds
that buffer. -/
theorem ComputeForward_buffer (env : NTTEnv) (impl : NTTImpl) (heap : List (List Nat))
    (p imf omf : Nat) (hp : p < heap.length) :
    NTTImpl.ComputeForward env impl heap (some p) imf omf
      = (NTTImpl.ComputeForward env impl [heap.getD p []] (some 0) imf omf).map
          (fun h1 => heap.set p (h1.getD 0 [])) := by
  unfold NTTImpl.ComputeForward
  have h1 : (0 : Nat) < [heap.getD p []].length := by simp
  have h2 : [heap.getD p []].getD 0 [] = heap.getD p [] := rfl
  simp only [hp, h1, h2, not_true_eq_false, if_false]
  split_ifs <;> simp [Option.map_map, Function.comp_def]

/-- The in-place inverse transform acts on the buffer it is given and on
nothing else. -/
theorem ComputeInverse_buffer (env : NTTEnv) (impl : NTTImpl) (heap : List (List Nat))
    (p imf omf : Nat) (hp : p < heap.length) :
    NTTImpl.ComputeInverse env impl heap (some p) imf omf
      = (NTTImpl.ComputeInverse env impl [heap.getD p []] (some 0) imf omf).map
          (fun h1 => heap.set p (h1.getD 0 [])) := by
  unfold NTTImpl.ComputeInverse
  have h1 : (0 : Nat) < [heap.getD p []].length := by simp
  have h2 : [heap.getD p []].getD 0 [] = heap.getD p [] := rfl
  simp only [hp, h1, h2, not_true_eq_false, if_false]
  split_ifs <;> simp [Option.map_map, Function.comp_def]

/-- Copying a whole buffer onto another of the same length. -/
theorem memcpy_whole (heap : List (List Nat)) (r e m : Nat)
    (hel : (heap.getD e []).length = m) (hrl : (heap.getD r []).length = m) :
    memcpy heap r e m = some (heap.set r (heap.getD e [])) := by
  unfold memcpy
  rw [if_neg (not_not.mpr ⟨by omega, by omega⟩)]
  have e1 : (heap.getD e []).take m = heap.getD e [] := List.take_of_length_le (by omega)
  have e2 : (heap.getD r []).drop m = [] := List.drop_of_length_le (by omega)
  rw [e1, e2, List.append_nil]

/-- C30. Out-of-place transforms: for two distinct buffers `elements` and
`result` of `m_degree` words, `ComputeForward(elements, result, in, out)` and
`ComputeInverse(elements, result, in, out)` succeed exactly when the in-place
transform succeeds on a copy of `elements`, leave every buffer but `result`
unchanged, the input buffer in particular, and leave in `result` what the
in-place transform produces on that copy; with `elements` and `result` the same
buffer the call is the in-place call. -/
theorem C30_out_of_place (env : NTTEnv) (impl : NTTImpl) (heap : List (List Nat))
    (e r imf omf : Nat) (he : e < heap.length) (hr : r < heap.length) (hne : e ≠ r)
    (hel : (heap.getD e []).length = impl.m_degree)
    (hrl : (heap.getD r []).length = impl.m_degree) :
    NTTImpl.ComputeForwardOut env impl heap (some e) (some r) imf omf
      = (NTTImpl.ComputeForward env impl [heap.getD e []] (some 0) imf omf).map
          (fun h1 => heap.set r (h1.getD 0 [])) ∧
    NTTImpl.ComputeInverseOut env impl heap (some e) (some r) imf omf
      = (NTTImpl.ComputeInverse env impl [heap.getD e []] (some 0) imf omf).map
          (fun h1 => heap.set r (h1.getD 0 [])) ∧
    (∀ heap1, NTTImpl.ComputeForwardOut env impl heap (some e) (some r) imf omf = some heap1 →
      heap1.getD e [] = heap.getD e [] ∧ ∀ p, p ≠ r → heap1.getD p [] = heap.getD p []) ∧
    (∀ heap1, NTTImpl.ComputeInverseOut env impl heap (some e) (some r) imf omf = some heap1 →
      heap1.getD e [] = heap.getD e [] ∧ ∀ p, p ≠ r → heap1.getD p [] = heap.getD p []) ∧
    NTTImpl.ComputeForwardOut env impl heap (some e) (some e) imf omf
      = NTTImpl.ComputeForward env impl heap (some e) imf omf ∧
    NTTImpl.ComputeInverseOut env impl heap (some e) (some e) imf omf
      = NTTImpl.ComputeInverse env impl heap (some e) imf omf := by
  have hcopy := memcpy_whole heap r e impl.m_degree hel hrl
  have hr1 : r < (heap.set r (heap.getD e [])).length := by rw [List.length_set]; exact hr
  have hget : (heap.set r (heap.getD e [])).getD r [] = heap.getD e [] := by
    rw [heap_getD_set heap r r _ hr, if_pos rfl]
  have hfwd : NTTImpl.ComputeForwardOut env impl heap (some e) (some r) imf omf
      = (NTTImpl.ComputeForward env impl [heap.getD e []] (some 0) imf omf).map
          (fun h1 => heap.set r (h1.getD 0 [])) := by
    unfold NTTImpl.ComputeForwardOut
    simp only [he, hr, and_self, not_true_eq_false, if_false, ne_eq, hne, not_false_eq_true,
      if_true, hcopy]
    rw [ComputeForward_buffer env impl _ r imf omf hr1, hget]
    simp only [List.set_set]
  have hinv : NTTImpl.ComputeInverseOut env impl heap (some e) (some r) imf omf
      = (NTTImpl.ComputeInverse env impl [heap.getD e []] (some 0) imf omf).map
          (fun h1 => heap.set r (h1.getD 0 [])) := by
    unfold NTTImpl.ComputeInverseOut
    simp only [he, hr, and_self, not_true_eq_false, if_false, ne_eq, hne, not_false_eq_true,
      if_true, hcopy]
    rw [ComputeInverse_buffer env impl _ r imf omf hr1, hget]
    simp only [List.set_set]
  have hframe : ∀ (o : Option (List (List Nat))) (heap1 : List (List Nat)),
      o.map (fun h1 => heap.set r (h1.getD 0 [])) = some heap1 →
      heap1.getD e [] = heap.getD e [] ∧ ∀ p, p ≠ r → heap1.getD p [] = heap.getD p [] := by
    intro o heap1 h
    cases o with
    | none => simp at h
    | some h1 =>
      simp only [Option.map_some', Option.some.injEq] at h
      subst h
      refine ⟨?_, fun p hp => ?_⟩
      · rw [heap_getD_set heap r e _ hr, if_neg hne]
      · rw [heap_getD_set heap r p _ hr, if_neg hp]
  refine ⟨hfwd, hinv, fun heap1 h => hframe _ heap1 (hfwd ▸ h),
    fun heap1 h => hframe _ heap1 (hinv ▸ h), ?_, ?_⟩
  · unfold NTTImpl.ComputeForwardOut
    simp only [he, and_self, not_true_eq_false, if_false, ne_eq, not_true_eq_false]
  · unfold NTTImpl.ComputeInverseOut
    simp only [he, and_self, not_true_eq_false, if_false, ne_eq, not_true_eq_false]

/-- C30, at degree 4, modulus 17, root 2, with `elements = [1, 2, 3, 4]` in
buffer 0 and `result` in buffer 1. -/
theorem C30_out_of_place_witness :
    (NTTImpl.new NTTEnv.scalar 4 17 2 = some NTTImpl.sample ∧
      0 < [[1, 2, 3, 4], [0, 0, 0, 0]].length ∧ 1 < [[1, 2, 3, 4], [0, 0, 0, 0]].length ∧
      0 ≠ 1 ∧
      ([[1, 2, 3, 4], [0, 0, 0, 0]].getD 0 []).length = NTTImpl.sample.m_degree ∧
      ([[1, 2, 3, 4], [0, 0, 0, 0]].getD 1 []).length = NTTImpl.sample.m_degree ∧
      NTTImpl.ComputeForwardOut NTTEnv.scalar NTTImpl.sample [[1, 2, 3, 4], [0, 0, 0, 0]]
        (some 0) (some 1) 2 1 = some [[1, 2, 3, 4], [15, 11, 13, 16]]) ∧
    NTTImpl.ComputeForwardOut NTTEnv.scalar NTTImpl.sample [[1, 2, 3, 4], [0, 0, 0, 0]]
        (some 0) (some 1) 2 1
      = (NTTImpl.ComputeForward NTTEnv.scalar NTTImpl.sample
          [[[1, 2, 3, 4], [0, 0, 0, 0]].getD 0 []] (some 0) 2 1).map
          (fun h1 => [[1, 2, 3, 4], [0, 0, 0, 0]].set 1 (h1.getD 0 [])) ∧
    NTTImpl.ComputeInverseOut NTTEnv.scalar NTTImpl.sample [[1, 2, 3, 4], [0, 0, 0, 0]]
        (some 0) (some 1) 2 1
      = (NTTImpl.ComputeInverse NTTEnv.scalar NTTImpl.sample
          [[[1, 2, 3, 4], [0, 0, 0, 0]].getD 0 []] (some 0) 2 1).map
          (fun h1 => [[1, 2, 3, 4], [0, 0, 0, 0]].set 1 (h1.getD 0 [])) ∧
    (∀ heap1, NTTImpl.ComputeForwardOut NTTEnv.scalar NTTImpl.sample
        [[1, 2, 3, 4], [0, 0, 0, 0]] (some 0) (some 1) 2 1 = some heap1 →
      heap1.getD 0 [] = [[1, 2, 3, 4], [0, 0, 0, 0]].getD 0 [] ∧
      ∀ p, p ≠ 1 → heap1.getD p [] = [[1, 2, 3, 4], [0, 0, 0, 0]].getD p []) ∧
    (∀ heap1, NTTImpl.ComputeInverseOut NTTEnv.scalar NTTImpl.sample
        [[1, 2, 3, 4], [0, 0, 0, 0]] (some 0) (some 1) 2 1 = some heap1 →
      heap1.getD 0 [] = [[1, 2, 3, 4], [0, 0, 0, 0]].getD 0 [] ∧
      ∀ p, p ≠ 1 → heap1.getD p [] = [[1, 2, 3, 4], [0, 0, 0, 0]].getD p []) ∧
    NTTImpl.ComputeForwardOut NTTEnv.scalar NTTImpl.sample [[1, 2, 3, 4], [0, 0, 0, 0]]
        (some 0) (some 0) 2 1
      = NTTImpl.ComputeForward NTTEnv.scalar NTTImpl.sample [[1, 2, 3, 4], [0, 0, 0, 0]]
          (some 0) 2 1 ∧
    NTTImpl.ComputeInverseOut NTTEnv.scalar NTTImpl.sample [[1, 2, 3, 4], [0, 0, 0, 0]]
        (some 0) (some 0) 2 1
      = NTTImpl.ComputeInverse NTTEnv.scalar NTTImpl.sample [[1, 2, 3, 4], [0, 0, 0, 0]]
          (some 0) 2 1 :=
  ⟨⟨by decide, by decide, by decide, by decide, by decide, by decide, by decide⟩,
    C30_out_of_place NTTEnv.scalar NTTImpl.sample [[1, 2, 3, 4], [0, 0, 0, 0]] 0 1 2 1
      (by decide) (by decide) (by decide) (by decide) (by decide)⟩

theorem shuffle_swap (a : m512i) (l : Nat) (h : a l < 2 ^ 64) :
    mm512_shuffle_epi32 a 0xB1 l % 2 ^ 32 = a l / 2 ^ 32 := by
  unfold mm512_shuffle_epi32 dword
  rcases Nat.mod_two_eq_zero_or_one l with hl | hl
  · have e1 : 2 * l % 4 = 0 := by omega
    have e2 : (2 * l + 1) % 4 = 1 := by omega
    have e3 : (4 * (2 * l / 4) + 177 / 4 ^ 0 % 4) / 2 = l := by norm_num; omega
    have e4 : (4 * (2 * l / 4) + 177 / 4 ^ 0 % 4) % 2 = 1 := by norm_num; omega
    rw [e1, e2, e3, e4]
    norm_num
    omega
  · have e1 : 2 * l % 4 = 2 := by omega
    have e2 : (2 * l + 1) % 4 = 3 := by omega
    have e3 : (4 * (2 * l / 4) + 177 / 4 ^ 2 % 4) / 2 = l := by norm_num; omega
    have e4 : (4 * (2 * l / 4) + 177 / 4 ^ 2 % 4) % 2 = 1 := by norm_num; omega
    rw [e1, e2, e3, e4]
    norm_num
    omega

theorem schoolbook_hi (x y : Nat) (hx : x < 2 ^ 64) (hy : y < 2 ^ 64) :
    (x % 2 ^ 32) * (y / 2 ^ 32) + (x % 2 ^ 32) * (y % 2 ^ 32) / 2 ^ 32 < 2 ^ 64 ∧
    (x / 2 ^ 32) * (y % 2 ^ 32)
      + ((x % 2 ^ 32) * (y / 2 ^ 32) + (x % 2 ^ 32) * (y % 2 ^ 32) / 2 ^ 32) % 2 ^ 32 < 2 ^ 64 ∧
    (x / 2 ^ 32) * (y / 2 ^ 32)
      + ((x % 2 ^ 32) * (y / 2 ^ 32) + (x % 2 ^ 32) * (y % 2 ^ 32) / 2 ^ 32) / 2 ^ 32 < 2 ^ 64 ∧
    (x / 2 ^ 32) * (y / 2 ^ 32)
      + ((x % 2 ^ 32) * (y / 2 ^ 32) + (x % 2 ^ 32) * (y % 2 ^ 32) / 2 ^ 32) / 2 ^ 32
      + ((x / 2 ^ 32) * (y % 2 ^ 32)
        + ((x % 2 ^ 32) * (y / 2 ^ 32) + (x % 2 ^ 32) * (y % 2 ^ 32) / 2 ^ 32) % 2 ^ 32) / 2 ^ 32
      = x * y / 2 ^ 64 := by
  have hxl : x % 2 ^ 32 ≤ 2 ^ 32 - 1 := by omega
  have hyl : y % 2 ^ 32 ≤ 2 ^ 32 - 1 := by omega
  have hxh : x / 2 ^ 32 ≤ 2 ^ 32 - 1 := by omega
  have hyh : y / 2 ^ 32 ≤ 2 ^ 32 - 1 := by omega
  have b0 := Nat.mul_le_mul hxl hyl
  have b1 := Nat.mul_le_mul hxl hyh
  have b2 := Nat.mul_le_mul hxh hyl
  have b3 := Nat.mul_le_mul hxh hyh
  have ex := Nat.div_add_mod x (2 ^ 32)
  have ey := Nat.div_add_mod y (2 ^ 32)
  have key : x * y = (x / 2 ^ 32) * (y / 2 ^ 32) * 2 ^ 64
      + ((x % 2 ^ 32) * (y / 2 ^ 32) + (x / 2 ^ 32) * (y % 2 ^ 32)) * 2 ^ 32
      + (x % 2 ^ 32) * (y % 2 ^ 32) := by
    conv_lhs => rw [← ex, ← ey]
    ring
  generalize (x % 2 ^ 32) * (y % 2 ^ 32) = w0 at *
  generalize (x % 2 ^ 32) * (y / 2 ^ 32) = w1 at *
  generalize (x / 2 ^ 32) * (y % 2 ^ 32) = w2 at *
  generalize (x / 2 ^ 32) * (y / 2 ^ 32) = w3 at *
  generalize x * y = P at *
  norm_num at *
  omega

theorem schoolbook_lane (x y : m512i) (l : Nat) (hx : x l < 2 ^ 64) (hy : y l < 2 ^ 64) :
    mm512_add_epi64
      (mm512_add_epi64 (mm512_mul_epu32 (mm512_shuffle_epi32 x 0xB1) (mm512_shuffle_epi32 y 0xB1))
        (mm512_srli_epi64
          (mm512_add_epi64 (mm512_mul_epu32 x (mm512_shuffle_epi32 y 0xB1))
            (mm512_srli_epi64 (mm512_mul_epu32 x y) 32)) 32))
      (mm512_srli_epi64
        (mm512_add_epi64 (mm512_mul_epu32 (mm512_shuffle_epi32 x 0xB1) y)
          (mm512_and_si512
            (mm512_add_epi64 (mm512_mul_epu32 x (mm512_shuffle_epi32 y 0xB1))
              (mm512_srli_epi64 (mm512_mul_epu32 x y) 32))
            (mm512_set1_epi64 0x00000000ffffffff))) 32) l
      = x l * y l / 2 ^ 64 := by
  obtain ⟨h1, h2, h3, h4⟩ := schoolbook_hi (x l) (y l) hx hy
  have hlt : x l * y l / 2 ^ 64 < 2 ^ 64 := by
    apply Nat.div_lt_of_lt_mul
    exact Nat.mul_lt_mul'' hx hy
  have hmask : ∀ v : Nat, v &&& 0x00000000ffffffff = v % 2 ^ 32 := by
    intro v
    have := Nat.and_pow_two_sub_one_eq_mod v 32
    norm_num at this ⊢
    exact this
  simp only [mm512_add_epi64, mm512_srli_epi64, mm512_and_si512, mm512_mul_epu32,
    mm512_set1_epi64, add64, shuffle_swap x l hx, shuffle_swap y l hy, hmask,
    Nat.shiftRight_eq_div_pow, show ¬ (32 > 63) by decide, if_false]
  rw [Nat.mod_eq_of_lt h1, Nat.mod_eq_of_lt h2, Nat.mod_eq_of_lt h3, h4, Nat.mod_eq_of_lt hlt]

/-- C38. Schoolbook high product: for lane values `x, y < 2^64` both copies of
the 32-bit-limb routine return `⌊x · y / 2^64⌋` in that lane, the three inner
sums `s1 = w1 + (w0 >> 32)`, `s2 = w2 + (s1 & mask)` and `hi1 = w3 + (s1 >> 32)`
stay below `2^64` (with `w0 = xl·yl`, `w1 = xl·yh`, `w2 = xh·yl`, `w3 = xh·yh`),
and `avx512_multiply_uint64` returns `hi` and `lo` with
`hi · 2^64 + lo = x · y`. -/
theorem C38_schoolbook_multiply (x y : m512i) (l : Nat) (hx : x l < 2 ^ 64)
    (hy : y l < 2 ^ 64) :
    avx512_multiply_uint64_hi_64 x y l = x l * y l / 2 ^ 64 ∧
    ntt.avx512_multiply_uint64_hi x y l = x l * y l / 2 ^ 64 ∧
    (x l % 2 ^ 32) * (y l / 2 ^ 32) + (x l % 2 ^ 32) * (y l % 2 ^ 32) / 2 ^ 32 < 2 ^ 64 ∧
    (x l / 2 ^ 32) * (y l % 2 ^ 32)
      + ((x l % 2 ^ 32) * (y l / 2 ^ 32) + (x l % 2 ^ 32) * (y l % 2 ^ 32) / 2 ^ 32) % 2 ^ 32
      < 2 ^ 64 ∧
    (x l / 2 ^ 32) * (y l / 2 ^ 32)
      + ((x l % 2 ^ 32) * (y l / 2 ^ 32) + (x l % 2 ^ 32) * (y l % 2 ^ 32) / 2 ^ 32) / 2 ^ 32
      < 2 ^ 64 ∧
    (avx512_multiply_uint64 x y).1 l = x l * y l / 2 ^ 64 ∧
    (avx512_multiply_uint64 x y).2 l = x l * y l % 2 ^ 64 ∧
    (avx512_multiply_uint64 x y).1 l * 2 ^ 64 + (avx512_multiply_uint64 x y).2 l
      = x l * y l := by
  obtain ⟨h1, h2, h3, _⟩ := schoolbook_hi (x l) (y l) hx hy
  have hhi := schoolbook_lane x y l hx hy
  have hlo : (avx512_multiply_uint64 x y).2 l = x l * y l % 2 ^ 64 := rfl
  have hhi2 : (avx512_multiply_uint64 x y).1 l = x l * y l / 2 ^ 64 := hhi
  refine ⟨hhi, hhi, h1, h2, h3, hhi2, hlo, ?_⟩
  rw [hhi2, hlo]
  have := Nat.div_add_mod (x l * y l) (2 ^ 64)
  linarith

/-- C38, at the lane values `x = 2^64 - 1`, `y = 2^64 - 1`. -/
theorem C38_schoolbook_multiply_witness :
    (2 ^ 64 - 1 < 2 ^ 64) ∧
    avx512_multiply_uint64_hi_64 (fun _ => 2 ^ 64 - 1) (fun _ => 2 ^ 64 - 1) 0
      = (2 ^ 64 - 1) * (2 ^ 64 - 1) / 2 ^ 64 ∧
    ntt.avx512_multiply_uint64_hi (fun _ => 2 ^ 64 - 1) (fun _ => 2 ^ 64 - 1) 0
      = (2 ^ 64 - 1) * (2 ^ 64 - 1) / 2 ^ 64 ∧
    ((2 ^ 64 - 1) % 2 ^ 32) * ((2 ^ 64 - 1) / 2 ^ 32)
      + ((2 ^ 64 - 1) % 2 ^ 32) * ((2 ^ 64 - 1) % 2 ^ 32) / 2 ^ 32 < 2 ^ 64 ∧
    ((2 ^ 64 - 1) / 2 ^ 32) * ((2 ^ 64 - 1) % 2 ^ 32)
      + (((2 ^ 64 - 1) % 2 ^ 32) * ((2 ^ 64 - 1) / 2 ^ 32)
        + ((2 ^ 64 - 1) % 2 ^ 32) * ((2 ^ 64 - 1) % 2 ^ 32) / 2 ^ 32) % 2 ^ 32
      < 2 ^ 64 ∧
    ((2 ^ 64 - 1) / 2 ^ 32) * ((2 ^ 64 - 1) / 2 ^ 32)
      + (((2 ^ 64 - 1) % 2 ^ 32) * ((2 ^ 64 - 1) / 2 ^ 32)
        + ((2 ^ 64 - 1) % 2 ^ 32) * ((2 ^ 64 - 1) % 2 ^ 32) / 2 ^ 32) / 2 ^ 32
      < 2 ^ 64 ∧
    (avx512_multiply_uint64 (fun _ => 2 ^ 64 - 1) (fun _ => 2 ^ 64 - 1)).1 0
      = (2 ^ 64 - 1) * (2 ^ 64 - 1) / 2 ^ 64 ∧
    (avx512_multiply_uint64 (fun _ => 2 ^ 64 - 1) (fun _ => 2 ^ 64 - 1)).2 0
      = (2 ^ 64 - 1) * (2 ^ 64 - 1) % 2 ^ 64 ∧
    (avx512_multiply_uint64 (fun _ => 2 ^ 64 - 1) (fun _ => 2 ^ 64 - 1)).1 0 * 2 ^ 64
      + (avx512_multiply_uint64 (fun _ => 2 ^ 64 - 1) (fun _ => 2 ^ 64 - 1)).2 0
      = (2 ^ 64 - 1) * (2 ^ 64 - 1) :=
  ⟨by decide, C38_schoolbook_multiply (fun _ => 2 ^ 64 - 1) (fun _ => 2 ^ 64 - 1) 0
    (by decide) (by decide)⟩

/-- C39. In `src/ntt`, `avx512_cmpgteq_epu64` compares its lanes as signed
integers: at `a = 2^63` (top bit set) and `b = 1`, where `a ≥ b` as unsigned
integers, it returns 0 in the lane, the same as `avx512_cmplt_epu64`, of which
it should be the complement; the two agree with the unsigned comparison at
`a = 5`, `b = 1`. -/
theorem C39_cmpgteq_is_signed :
    (1 : Nat) ≤ 2 ^ 63 ∧ 2 ^ 63 < 2 ^ 64 ∧
    ntt.avx512_cmpgteq_epu64 (fun _ => 2 ^ 63) (fun _ => 1) 0 = 0 ∧
    ntt.avx512_cmplt_epu64 (fun _ => 2 ^ 63) (fun _ => 1) 0 = 0 ∧
    ntt.avx512_cmpgteq_epu64 (fun _ => 1) (fun _ => 2 ^ 63) 0 = 0xFFFFFFFFFFFFFFFF ∧
    ntt.avx512_cmplt_epu64 (fun _ => 1) (fun _ => 2 ^ 63) 0 = 0xFFFFFFFFFFFFFFFF ∧
    ntt.avx512_cmpgteq_epu64 (fun _ => 5) (fun _ => 1) 0 = 0xFFFFFFFFFFFFFFFF ∧
    ntt.avx512_cmplt_epu64 (fun _ => 5) (fun _ => 1) 0 = 0 := by
  refine ⟨by decide, by decide, ?_, ?_, ?_, ?_, ?_, ?_⟩ <;> decide

/-- C40. Small modular reduction: for lane values `0 < p < 2^64` and
`x < 2^64` with `x < 2p` (the product taken without wrap-around),
`avx512_mod_epu64(x, p)`, the minimum of `x` and `(x - p) mod 2^64`, is
`x mod p` in that lane. -/
theorem C40_small_mod (x p : m512i) (l : Nat) (hp0 : 0 < p l) (hp : p l < 2 ^ 64)
    (hx : x l < 2 ^ 64) (hx2 : x l < 2 * p l) :
    avx512_mod_epu64 x p l = min (x l) ((x l + (2 ^ 64 - p l)) % 2 ^ 64) ∧
    avx512_mod_epu64 x p l = x l % p l := by
  have e : avx512_mod_epu64 x p l = min (x l) ((x l + (2 ^ 64 - p l)) % 2 ^ 64) := by
    simp only [avx512_mod_epu64, mm512_min_epu64, mm512_sub_epi64, sub64]
    rw [Nat.mod_eq_of_lt hp]
  refine ⟨e, ?_⟩
  rw [e]
  by_cases h : x l < p l
  · rw [Nat.mod_eq_of_lt h]
    have : (x l + (2 ^ 64 - p l)) % 2 ^ 64 = x l + (2 ^ 64 - p l) := Nat.mod_eq_of_lt (by omega)
    rw [this]
    omega
  · have h1 : (x l + (2 ^ 64 - p l)) % 2 ^ 64 = x l - p l := by
      have : x l + (2 ^ 64 - p l) = (x l - p l) + 2 ^ 64 := by omega
      rw [this, Nat.add_mod_right]
      exact Nat.mod_eq_of_lt (by omega)
    have h2 : x l % p l = x l - p l := by
      rw [Nat.mod_eq_sub_mod (by omega)]
      exact Nat.mod_eq_of_lt (by omega)
    rw [h1, h2]
    omega

/-- C40, at `p = 2^63 + 5` (so that `2p` exceeds `2^64`) and `x = 2^64 - 1`. -/
theorem C40_small_mod_witness :
    (0 < 2 ^ 63 + 5 ∧ 2 ^ 63 + 5 < 2 ^ 64 ∧ 2 ^ 64 - 1 < 2 * (2 ^ 63 + 5)) ∧
    avx512_mod_epu64 (fun _ => 2 ^ 64 - 1) (fun _ => 2 ^ 63 + 5) 0
      = min (2 ^ 64 - 1) ((2 ^ 64 - 1 + (2 ^ 64 - (2 ^ 63 + 5))) % 2 ^ 64) ∧
    avx512_mod_epu64 (fun _ => 2 ^ 64 - 1) (fun _ => 2 ^ 63 + 5) 0
      = (2 ^ 64 - 1) % (2 ^ 63 + 5) :=
  ⟨by decide, C40_small_mod (fun _ => 2 ^ 64 - 1) (fun _ => 2 ^ 63 + 5) 0
    (by decide) (by decide) (by decide) (by decide)⟩

/-- C37. `IsPrime(0)` returns false at the first base: `0 % 2 == 0`. `IsPrime(1)`
does not return false: no base divides 1, the factoring loop stops at `r = 63`
with `d = 0`, and the check `d % 2 == 1` ("d is even") fails; were that check
skipped, every base would pass (`PowMod(a, 0, 1) = 1`) and the Miller-Rabin
loop would return true. -/
theorem C37_is_prime_below_two :
    IsPrime 0 = some false ∧
    IsPrime 1 = none ∧
    IsPrimeTrialLoop 1 as = none ∧
    IsPrimeFactorLoop 1 63 = 63 ∧
    sub64 1 1 / shl64 1 63 = 0 ∧
    (∀ a ∈ as, PowMod a 0 1 = some 1) ∧
    IsPrimeWitnessLoop 1 0 63 as = some true := by
  refine ⟨by decide, by decide, by decide, by decide, by decide, by decide, by decide⟩

theorem InverseUIntModExactLoop_spec (a0 m0 : Nat) (hm0 : m0 < 2 ^ 63) :
    ∀ (fuel a m : Nat) (x y : Int) (trace : List Int), EuclidInv a0 m0 a m x y →
      a * m < 2 ^ fuel → (∀ v ∈ trace, -(2 ^ 63 : Int) ≤ v ∧ v < 2 ^ 63) →
      ∃ x1 trace1, InverseUIntModExactLoop fuel a m x y trace = some (x1, trace1) ∧
        InverseUIntModLoop fuel a m x y = some x1 ∧
        (∀ v ∈ trace1, -(2 ^ 63 : Int) ≤ v ∧ v < 2 ^ 63) ∧
        (m0 : Int) ∣ x1 * a0 - 1 ∧ -(m0 : Int) ≤ x1 ∧ x1 ≤ m0 := by
  intro fuel
  induction fuel with
  | zero =>
    intro a m x y trace inv hlt htr
    have ham : a * m = 0 := by simpa using hlt
    have ha1 : ¬ a > 1 := by
      intro ha
      have := inv.modulus_pos ha
      have : 0 < a * m := Nat.mul_pos (by omega) this
      omega
    exact ⟨x, trace, by simp [InverseUIntModExactLoop, ha1], by simp [InverseUIntModLoop, ha1],
      htr, inv.exit ha1, inv.xlo, inv.xhi⟩
  | succ fuel ih =>
    intro a m x y trace inv hlt htr
    unfold InverseUIntModExactLoop InverseUIntModLoop
    by_cases ha1 : a > 1
    · rw [if_pos ha1, if_pos ha1]
      have hmpos := inv.modulus_pos ha1
      rw [if_neg (by omega), if_neg (by omega)]
      simp only []
      obtain ⟨inv1, q1, q2, y1, y2⟩ := inv.step ha1
      have hab := inv.ab
      have hle := inv.le
      have hdiv : a / m ≤ a := Nat.div_le_self _ _
      have hm0I : ((m0 : Nat) : Int) < 2 ^ 63 := by exact_mod_cast hm0
      have hqI : (((a / m : Nat) : Nat) : Int) < 2 ^ 63 := by
        have : a / m < 2 ^ 63 := by omega
        exact_mod_cast this
      have hmI : ((m : Nat) : Int) < 2 ^ 63 := by
        have : m < 2 ^ 63 := by omega
        exact_mod_cast this
      have hq0 : (0 : Int) ≤ ((a / m : Nat) : Int) := Int.natCast_nonneg _
      have hmm0 : (0 : Int) ≤ ((m : Nat) : Int) := Int.natCast_nonneg _
      have hyb1 := inv1.xlo
      have hyb2 := inv1.xhi
      rw [toS64_of_lt (a / m) (by omega), toS64_of_lt m (by omega), toU64_natCast m (by omega),
        wrapS64_of_range (((a / m : Nat) : Int) * y) (by linarith) (by linarith),
        wrapS64_of_range (x - ((a / m : Nat) : Int) * y) (by linarith) (by linarith)]
      apply ih _ _ _ _ _ inv1
      · have h1 : a % m < m := Nat.mod_lt _ hmpos
        have h2 := Nat.div_add_mod a m
        have h3 : 1 ≤ a / m := Nat.div_pos hle hmpos
        have h4 : 2 * (a % m) ≤ a := by nlinarith
        have h5 : 2 * (m * (a % m)) ≤ a * m := by nlinarith
        rw [pow_succ] at hlt
        omega
      · intro v hv
        rw [List.mem_append] at hv
        rcases hv with hv | hv
        · exact htr v hv
        · simp only [List.mem_cons, List.mem_singleton, List.not_mem_nil, or_false] at hv
          rcases hv with h | h | h | h | h | h <;> rw [h] <;> constructor <;> linarith
    · rw [if_neg ha1, if_neg ha1]
      exact ⟨x, trace, rfl, rfl, htr, inv.exit ha1, inv.xlo, inv.xhi⟩

theorem InverseUIntModExact_run (input m : Nat) (hm2 : 2 ≤ m) (hm : m < 2 ^ 63)
    (hc : Nat.Coprime input m) :
    ∃ x1 trace1, InverseUIntModExactLoop 128 (input % m) m 1 0 [(m : Int), 0, 1]
        = some (x1, trace1) ∧
      InverseUIntModLoop 128 (input % m) m 1 0 = some x1 ∧
      (∀ v ∈ trace1, -(2 ^ 63 : Int) ≤ v ∧ v < 2 ^ 63) ∧
      -(m : Int) < x1 ∧ x1 < m := by
  have hmI : ((m : Nat) : Int) < 2 ^ 63 := by exact_mod_cast hm
  have hm2I : (2 : Int) ≤ (m : Int) := by exact_mod_cast hm2
  have halt : input % m < m := Nat.mod_lt _ (by omega)
  have hcop : Nat.Coprime (input % m) m := by
    rw [Nat.Coprime, ← Nat.gcd_rec, Nat.gcd_comm]; exact hc
  have htr0 : ∀ v ∈ [(m : Int), 0, 1], -(2 ^ 63 : Int) ≤ v ∧ v < 2 ^ 63 := by
    intro v hv
    simp only [List.mem_cons, List.mem_singleton, List.not_mem_nil, or_false] at hv
    rcases hv with h | h | h <;> rw [h] <;> constructor <;> linarith
  have hloop : ∃ x1 trace1, InverseUIntModExactLoop 128 (input % m) m 1 0 [(m : Int), 0, 1]
        = some (x1, trace1) ∧
      InverseUIntModLoop 128 (input % m) m 1 0 = some x1 ∧
      (∀ v ∈ trace1, -(2 ^ 63 : Int) ≤ v ∧ v < 2 ^ 63) ∧
      (m : Int) ∣ x1 * (input % m : Nat) - 1 ∧ -(m : Int) ≤ x1 ∧ x1 ≤ m := by
    by_cases ha1 : input % m > 1
    · have inv0 : EuclidInv (input % m) m m (input % m) 0 1 :=
        ⟨hcop.symm, by simp, by simp, Or.inr ⟨le_refl _, by norm_num, by simp⟩,
          by linarith, by linarith, halt.le, le_refl _⟩
      have hq : input % m / m = 0 := Nat.div_eq_of_lt halt
      have hstep : InverseUIntModLoop 128 (input % m) m 1 0
          = InverseUIntModLoop 127 m (input % m) 0 1 := by
        show InverseUIntModLoop (127 + 1) (input % m) m 1 0 = _
        rw [InverseUIntModLoop, if_pos ha1, if_neg (by omega)]
        simp only []
        rw [hq, Nat.mod_eq_of_lt halt, toS64_of_lt m hm, toU64_natCast m (by omega)]
        have : toS64 0 = 0 := by simp [toS64]
        rw [this]
        have h0 : wrapS64 (0 * 0) = 0 := by simp [wrapS64]
        have h1 : wrapS64 (1 - 0) = 1 := by simp [wrapS64]
        rw [h0, h1]
      have hstepE : InverseUIntModExactLoop 128 (input % m) m 1 0 [(m : Int), 0, 1]
          = InverseUIntModExactLoop 127 m (input % m) 0 1
              ([(m : Int), 0, 1] ++ [0, (m : Int), 0, 0, 1, 0]) := by
        show InverseUIntModExactLoop (127 + 1) (input % m) m 1 0 _ = _
        rw [InverseUIntModExactLoop, if_pos ha1, if_neg (by omega)]
        simp only []
        rw [hq, Nat.mod_eq_of_lt halt]
        norm_num
      rw [hstep, hstepE]
      apply InverseUIntModExactLoop_spec (input % m) m hm 127 _ _ _ _ _ inv0
      · have : m * (input % m) < 2 ^ 63 * 2 ^ 63 :=
          Nat.mul_lt_mul'' hm (by omega)
        calc m * (input % m) < 2 ^ 63 * 2 ^ 63 := this
          _ ≤ 2 ^ 127 := by norm_num
      · intro v hv
        simp only [List.mem_append, List.mem_cons, List.mem_singleton, List.not_mem_nil,
          or_false] at hv
        rcases hv with (h | h | h) | h | h | h | h | h | h <;> rw [h] <;> constructor <;> linarith
    · have ha : input % m = 1 := by
        have : input % m ≠ 0 := by
          intro h
          have : m ∣ input := Nat.dvd_of_mod_eq_zero h
          have := Nat.Coprime.eq_one_of_dvd hc.symm this
          omega
        omega
      refine ⟨1, [(m : Int), 0, 1], ?_, ?_, htr0, ?_, by linarith, by linarith⟩
      · rw [ha]
        show InverseUIntModExactLoop (127 + 1) 1 m 1 0 _ = _
        unfold InverseUIntModExactLoop
        simp
      · rw [ha]
        show InverseUIntModLoop (127 + 1) 1 m 1 0 = _
        unfold InverseUIntModLoop
        simp
      · rw [ha]; simp
  obtain ⟨x1, trace1, hE, hx1, htr, hdvd, hlo, hhi⟩ := hloop
  have hdvd2 : (m : Int) ∣ x1 * (input : Int) - 1 := by
    have e : ((input % m : Nat) : Int) = (input : Int) - m * ((input / m : Nat) : Int) := by
      have := Nat.div_add_mod input m
      have h2 : ((m * (input / m) + input % m : Nat) : Int) = (input : Int) := by rw [this]
      push_cast at h2 ⊢
      linarith
    rw [e] at hdvd
    have : x1 * (input : Int) - 1 = (x1 * ((input : Int) - m * ((input / m : Nat) : Int)) - 1)
        + m * (x1 * ((input / m : Nat) : Int)) := by ring
    rw [this]
    exact Dvd.dvd.add hdvd (Dvd.intro _ rfl)
  have hne : ∀ z : Int, x1 ≠ m * z := by
    intro z hz
    rw [hz] at hdvd2
    have h1 : (m : Int) ∣ m * z * input := ⟨z * input, by ring⟩
    have h2 : (m : Int) ∣ 1 := by
      have := Dvd.dvd.sub h1 hdvd2
      simpa using this
    have := Int.le_of_dvd (by norm_num) h2
    linarith
  have hxlo : -(m : Int) < x1 := by
    rcases lt_or_eq_of_le hlo with h | h
    · exact h
    · exact absurd (by rw [← h]; ring) (hne (-1))
  have hxhi : x1 < m := by
    rcases lt_or_eq_of_le hhi with h | h
    · exact h
    · exact absurd (by rw [h]; ring) (hne 1)
  exact ⟨x1, trace1, hE, hx1, htr, hxlo, hxhi⟩

/-- C36. No signed overflow in the Euclid loop: for a modulus `2 ≤ m < 2^63`
and an input coprime to `m`, the run of `InverseUIntMod` over unbounded
integers returns a value `z` with `0 ≤ z < m`, every value it stores in an
`int64_t` (`m0`, the quotient `q`, `t`, `x`, `y`, the product `q * y`, the
difference `x - q * y`, the final `x + m0`) lies in `[-2^63, 2^63)`, and the
64-bit code returns the same `z`. -/
theorem C36_no_signed_overflow (input m : Nat) (hm2 : 2 ≤ m) (hm : m < 2 ^ 63)
    (hc : Nat.Coprime input m) :
    ∃ z trace, InverseUIntModExact input m = some (z, trace) ∧
      (∀ v ∈ trace, -(2 ^ 63 : Int) ≤ v ∧ v < 2 ^ 63) ∧
      0 ≤ z ∧ z < m ∧ InverseUIntMod input m = some z.toNat := by
  have hmI : ((m : Nat) : Int) < 2 ^ 63 := by exact_mod_cast hm
  have hm2I : (2 : Int) ≤ (m : Int) := by exact_mod_cast hm2
  have ha0 : input % m ≠ 0 := by
    intro h
    have : m ∣ input := Nat.dvd_of_mod_eq_zero h
    have := Nat.Coprime.eq_one_of_dvd hc.symm this
    omega
  obtain ⟨x1, trace1, hE, hx1, htr, hxlo, hxhi⟩ := InverseUIntModExact_run input m hm2 hm hc
  unfold InverseUIntModExact InverseUIntMod
  simp only [if_neg (show ¬ m = 0 by omega), if_neg ha0, if_neg (show ¬ m = 1 by omega),
    hx1, hE, toS64_of_lt m hm, Option.map_some']
  by_cases hneg : x1 < 0
  · rw [if_pos hneg, if_pos hneg, wrapS64_of_range _ (by linarith) (by linarith)]
    refine ⟨x1 + m, trace1 ++ [x1 + m], rfl, ?_, by linarith, by linarith, ?_⟩
    · intro v hv
      rw [List.mem_append, List.mem_singleton] at hv
      rcases hv with hv | hv
      · exact htr v hv
      · rw [hv]; constructor <;> linarith
    · obtain ⟨r, hr⟩ := Int.eq_ofNat_of_zero_le (show 0 ≤ x1 + m by linarith)
      rw [hr, toU64_natCast r (by
        have : (r : Int) < 2 ^ 63 := by rw [← hr]; linarith
        have : r < 2 ^ 63 := by exact_mod_cast this
        omega)]
      simp
  · rw [if_neg hneg, if_neg hneg]
    refine ⟨x1, trace1, rfl, htr, by linarith, hxhi, ?_⟩
    obtain ⟨r, hr⟩ := Int.eq_ofNat_of_zero_le (show 0 ≤ x1 by linarith)
    rw [hr, toU64_natCast r (by
      have : (r : Int) < 2 ^ 63 := by rw [← hr]; linarith
      have : r < 2 ^ 63 := by exact_mod_cast this
      omega)]
    simp

/-- C36, at `InverseUIntMod(3, 7) = 5`. -/
theorem C36_no_signed_overflow_witness :
    (2 ≤ 7 ∧ 7 < 2 ^ 63 ∧ Nat.Coprime 3 7 ∧ InverseUIntMod 3 7 = some 5) ∧
    ∃ z trace, InverseUIntModExact 3 7 = some (z, trace) ∧
      (∀ v ∈ trace, -(2 ^ 63 : Int) ≤ v ∧ v < 2 ^ 63) ∧
      0 ≤ z ∧ z < (7 : Nat) ∧ InverseUIntMod 3 7 = some z.toNat :=
  ⟨⟨by decide, by decide, by decide, by decide⟩,
    C36_no_signed_overflow 3 7 (by decide) (by decide) (by decide)⟩

/-- C33. For an odd prime `q < 2^64`, a power-of-two degree `d ≥ 2` and
`r > 0` (in particular `0 < r < q`), `IsPrimitiveRoot(r, d, q)` returns, and it
returns true exactly
when `r` has multiplicative order `d` modulo `q`: `r^d ≡ 1` and `r^j ≢ 1` for
`0 < j < d`. An accepted root has `r^d ≡ 1` and `r^(d/2) ≡ q - 1`, which for
`d = 2n` reads `w^(2n) ≡ 1` and `w^n ≡ q - 1`. -/
theorem C33_primitive_root_order (q d r : Nat) (hp : q.Prime) (hq2 : q ≠ 2) (hq : q < 2 ^ 64)
    (hd : IsPowerOfTwo d = true) (hd2 : 2 ≤ d) (hr0 : 0 < r) :
    ∃ b, IsPrimitiveRoot r d q = some b ∧
      (b = true ↔ (r ^ d % q = 1 ∧ ∀ j, 0 < j → j < d → r ^ j % q ≠ 1)) ∧
      (b = true → r ^ d % q = 1 ∧ r ^ (d / 2) % q = q - 1) := by
  have hq2le : 2 ≤ q := hp.two_le
  obtain ⟨k, hk, hdk⟩ := IsPowerOfTwo_elim d hd
  obtain ⟨j, rfl⟩ : ∃ j, k = j + 1 := by
    rcases k with _ | j
    · rw [hdk] at hd2; norm_num at hd2
    · exact ⟨j, rfl⟩
  have hhalf : d / 2 = 2 ^ j := by
    rw [hdk, pow_succ]; omega
  have heq := IsPrimitiveRoot_eq r d q (by omega) hd hq2le hq
  rw [hhalf] at heq
  have hiff : (r ^ 2 ^ j % q == q - 1) = true ↔
      (r ^ d % q = 1 ∧ ∀ i, 0 < i → i < d → r ^ i % q ≠ 1) := by
    rw [beq_iff_eq, order_iff r d q hq2le (by omega), hdk]
    constructor
    · intro h
      exact orderOf_of_half q j hp hq2 _ (root_neg_one r (2 ^ j) q hq2le h)
    · intro h
      exact cast_pow_eq_neg_one r (2 ^ j) q hq2le (half_of_orderOf q j hp _ h)
  refine ⟨_, heq, hiff, fun hb => ⟨(hiff.mp hb).1, ?_⟩⟩
  rw [hhalf]
  exact beq_iff_eq.mp hb

/-- C33, at `q = 17`, `d = 8`, `r = 2` (order 8). -/
theorem C33_primitive_root_order_witness :
    (Nat.Prime 17 ∧ 17 ≠ 2 ∧ IsPowerOfTwo 8 = true ∧ 2 ≤ 8 ∧ 0 < 2 ∧ 2 < 17 ∧
      IsPrimitiveRoot 2 8 17 = some true) ∧
    ∃ b, IsPrimitiveRoot 2 8 17 = some b ∧
      (b = true ↔ (2 ^ 8 % 17 = 1 ∧ ∀ j, 0 < j → j < 8 → 2 ^ j % 17 ≠ 1)) ∧
      (b = true → 2 ^ 8 % 17 = 1 ∧ 2 ^ (8 / 2) % 17 = 17 - 1) :=
  ⟨⟨by norm_num, by decide, by decide, by decide, by decide, by decide, by decide⟩,
    C33_primitive_root_order 17 8 2 (by norm_num) (by decide) (by decide) (by decide)
      (by decide) (by decide)⟩

theorem NTTImpl.new_fields (env : NTTEnv) (n q w : Nat) (impl : NTTImpl)
    (h : NTTImpl.new env n q w = some impl) :
    impl.m_degree = n ∧ impl.m_p = q ∧
    impl.m_fwd_bit_shift
      = (if env.LATTICE_HAS_AVX512IFMA = true ∧ q < env.s_max_fwd_ifma_modulus
         then s_ifma_shift_bits else s_default_shift_bits) ∧
    impl.m_inv_bit_shift
      = (if env.LATTICE_HAS_AVX512IFMA = true ∧ q < env.s_max_inv_ifma_modulus
         then s_ifma_shift_bits else s_default_shift_bits) := by
  unfold NTTImpl.new at h
  by_cases h1 : CheckArguments n q ≠ some true
  · rw [if_pos h1] at h; exact absurd h (by simp)
  rw [if_neg h1] at h
  by_cases h2 : IsPrimitiveRoot w (mul64 2 n) q ≠ some true
  · rw [if_pos h2] at h; exact absurd h (by simp)
  rw [if_neg h2] at h
  cases hi : InverseUIntMod w q with
  | none => rw [hi] at h; exact absurd h (by simp)
  | some m_winv =>
    cases ht : ComputeRootOfUnityPowers n q w (Log2 n) with
    | none => rw [hi] at h; simp only [ht] at h; exact absurd h (by simp)
    | some tables =>
      rw [hi] at h
      simp only [ht, Option.some.injEq] at h
      subst h
      exact ⟨rfl, rfl, rfl, rfl⟩

/-- C31. Forward kernel selection, for an object built by the constructor and a
call that passes the argument checks: `ComputeForward` runs the 52-bit SIMD
kernel exactly when the latched `m_fwd_bit_shift` is 52, IFMA is available (build
flag and runtime bit) and `n ≥ 16`; otherwise the 64-bit SIMD kernel exactly
when AVX512-DQ is available (build flag and runtime bit) and `n ≥ 16`; otherwise
the scalar kernel. For `n < 16` it runs the scalar kernel, and for a modulus at
or above `s_max_fwd_ifma_modulus` the latched shift is 64 and the 52-bit kernel
is not run. -/
theorem C31_forward_dispatch (env : NTTEnv) (n q w : Nat) (impl : NTTImpl)
    (heap : List (List Nat)) (e imf omf : Nat)
    (hnew : NTTImpl.new env n q w = some impl) (he : e < heap.length)
    (hb : LATTICE_CHECK_BOUNDS (heap.getD e []) n (mul64 q imf) = true) :
    NTTImpl.ComputeForward env impl heap (some e) imf omf
      = (if impl.m_fwd_bit_shift = 52 ∧
            (env.LATTICE_HAS_AVX512IFMA = true ∧ env.has_avx512_ifma = true) ∧ 16 ≤ n then
          (env.ForwardTransformToBitReverseAVX512 52 n q impl.tables.root_of_unity_powers
            impl.tables.precon52_root_of_unity_powers (heap.getD e []) imf omf).map
            (fun r => heap.set e r)
        else if (env.LATTICE_HAS_AVX512DQ = true ∧ env.has_avx512_dq = true) ∧ 16 ≤ n then
          (env.ForwardTransformToBitReverseAVX512 64 n q impl.tables.root_of_unity_powers
            impl.tables.precon64_root_of_unity_powers (heap.getD e []) imf omf).map
            (fun r => heap.set e r)
        else
          (ForwardTransformToBitReverse64 n q impl.tables.root_of_unity_powers
            impl.tables.precon64_root_of_unity_powers (heap.getD e []) imf omf).map
            (fun r => heap.set e r)) ∧
    (n < 16 →
      NTTImpl.ComputeForward env impl heap (some e) imf omf
        = (ForwardTransformToBitReverse64 n q impl.tables.root_of_unity_powers
            impl.tables.precon64_root_of_unity_powers (heap.getD e []) imf omf).map
            (fun r => heap.set e r)) ∧
    (env.s_max_fwd_ifma_modulus ≤ q →
      impl.m_fwd_bit_shift = 64 ∧
      NTTImpl.ComputeForward env impl heap (some e) imf omf
        = (if (env.LATTICE_HAS_AVX512DQ = true ∧ env.has_avx512_dq = true) ∧ 16 ≤ n then
            (env.ForwardTransformToBitReverseAVX512 64 n q impl.tables.root_of_unity_powers
              impl.tables.precon64_root_of_unity_powers (heap.getD e []) imf omf).map
              (fun r => heap.set e r)
          else
            (ForwardTransformToBitReverse64 n q impl.tables.root_of_unity_powers
              impl.tables.precon64_root_of_unity_powers (heap.getD e []) imf omf).map
              (fun r => heap.set e r))) := by
  obtain ⟨hd, hp, hf, _⟩ := NTTImpl.new_fields env n q w impl hnew
  have hshift : impl.m_fwd_bit_shift = s_ifma_shift_bits ∨
      impl.m_fwd_bit_shift = s_default_shift_bits := by
    rw [hf]; split_ifs
    · exact Or.inl rfl
    · exact Or.inr rfl
  have hmain : NTTImpl.ComputeForward env impl heap (some e) imf omf
      = (if impl.m_fwd_bit_shift = 52 ∧
            (env.LATTICE_HAS_AVX512IFMA = true ∧ env.has_avx512_ifma = true) ∧ 16 ≤ n then
          (env.ForwardTransformToBitReverseAVX512 52 n q impl.tables.root_of_unity_powers
            impl.tables.precon52_root_of_unity_powers (heap.getD e []) imf omf).map
            (fun r => heap.set e r)
        else if (env.LATTICE_HAS_AVX512DQ = true ∧ env.has_avx512_dq = true) ∧ 16 ≤ n then
          (env.ForwardTransformToBitReverseAVX512 64 n q impl.tables.root_of_unity_powers
            impl.tables.precon64_root_of_unity_powers (heap.getD e []) imf omf).map
            (fun r => heap.set e r)
        else
          (ForwardTransformToBitReverse64 n q impl.tables.root_of_unity_powers
            impl.tables.precon64_root_of_unity_powers (heap.getD e []) imf omf).map
            (fun r => heap.set e r)) := by
    unfold NTTImpl.ComputeForward
    rw [if_neg (not_not.mpr hshift)]
    simp only []
    rw [if_neg (not_not.mpr he), hd, hp, if_neg (by rw [hb]; simp)]
    by_cases c1 : impl.m_fwd_bit_shift = 52 ∧
        (env.LATTICE_HAS_AVX512IFMA = true ∧ env.has_avx512_ifma = true) ∧ 16 ≤ n
    · have hlt : q < env.s_max_fwd_ifma_modulus := by
        by_contra hq
        have h52 := c1.1
        rw [hf, if_neg (fun hh => hq hh.2)] at h52
        exact absurd h52 (by decide)
      rw [if_pos c1, if_pos ⟨c1.2.1.1, c1.2.1.2, c1.1, hlt, c1.2.2⟩]
      rfl
    · rw [if_neg c1, if_neg (fun hh => c1 ⟨hh.2.2.1, ⟨hh.1, hh.2.1⟩, hh.2.2.2.2⟩)]
      by_cases c2 : (env.LATTICE_HAS_AVX512DQ = true ∧ env.has_avx512_dq = true) ∧ 16 ≤ n
      · rw [if_pos c2, if_pos ⟨c2.1.1, c2.1.2, c2.2⟩]
        rfl
      · rw [if_neg c2, if_neg (fun hh => c2 ⟨⟨hh.1, hh.2.1⟩, hh.2.2⟩)]
  refine ⟨hmain, fun hn => ?_, fun hq => ?_⟩
  · rw [hmain, if_neg (fun hh => by omega), if_neg (fun hh => by omega)]
  · have h64 : impl.m_fwd_bit_shift = 64 := by
      rw [hf, if_neg (fun hh => by omega)]
      rfl
    refine ⟨h64, ?_⟩
    rw [hmain, if_neg (fun hh => by rw [h64] at hh; exact absurd hh.1 (by decide))]

/-- C31, at degree 16, modulus 97, root 28, in a build with the IFMA flag on a
CPU with IFMA and AVX512-DQ and both thresholds at 1000: the 52-bit kernel
runs; with the threshold at 50 the 64-bit kernel runs. -/
theorem C31_forward_dispatch_witness :
    ((NTTImpl.new (NTTEnv.probe true true true true 1000 1000) 16 97 28).bind
      (fun impl => NTTImpl.ComputeForward (NTTEnv.probe true true true true 1000 1000) impl
        [[1, 2, 3, 4, 5, 6, 7, 8, 9, 10, 11, 12, 13, 14, 15, 16]] (some 0) 2 1)
        = some [[52]] ∧
      (NTTImpl.new (NTTEnv.probe true true true true 50 1000) 16 97 28).bind
      (fun impl => NTTImpl.ComputeForward (NTTEnv.probe true true true true 50 1000) impl
        [[1, 2, 3, 4, 5, 6, 7, 8, 9, 10, 11, 12, 13, 14, 15, 16]] (some 0) 2 1)
        = some [[64]]) ∧
    ∃ impl, NTTImpl.new (NTTEnv.probe true true true true 1000 1000) 16 97 28 = some impl ∧
      0 < [[1, 2, 3, 4, 5, 6, 7, 8, 9, 10, 11, 12, 13, 14, 15, 16]].length ∧
      LATTICE_CHECK_BOUNDS
        ([[1, 2, 3, 4, 5, 6, 7, 8, 9, 10, 11, 12, 13, 14, 15, 16]].getD 0 []) 16
        (mul64 97 2) = true ∧
      NTTImpl.ComputeForward (NTTEnv.probe true true true true 1000 1000) impl
          [[1, 2, 3, 4, 5, 6, 7, 8, 9, 10, 11, 12, 13, 14, 15, 16]] (some 0) 2 1
        = (if impl.m_fwd_bit_shift = 52 ∧
              ((NTTEnv.probe true true true true 1000 1000).LATTICE_HAS_AVX512IFMA = true ∧
                (NTTEnv.probe true true true true 1000 1000).has_avx512_ifma = true) ∧
              16 ≤ 16 then
            ((NTTEnv.probe true true true true 1000 1000).ForwardTransformToBitReverseAVX512
              52 16 97 impl.tables.root_of_unity_powers
              impl.tables.precon52_root_of_unity_powers
              ([[1, 2, 3, 4, 5, 6, 7, 8, 9, 10, 11, 12, 13, 14, 15, 16]].getD 0 []) 2 1).map
              (fun r => [[1, 2, 3, 4, 5, 6, 7, 8, 9, 10, 11, 12, 13, 14, 15, 16]].set 0 r)
          else if ((NTTEnv.probe true true true true 1000 1000).LATTICE_HAS_AVX512DQ = true ∧
              (NTTEnv.probe true true true true 1000 1000).has_avx512_dq = true) ∧
              16 ≤ 16 then
            ((NTTEnv.probe true true true true 1000 1000).ForwardTransformToBitReverseAVX512
              64 16 97 impl.tables.root_of_unity_powers
              impl.tables.precon64_root_of_unity_powers
              ([[1, 2, 3, 4, 5, 6, 7, 8, 9, 10, 11, 12, 13, 14, 15, 16]].getD 0 []) 2 1).map
              (fun r => [[1, 2, 3, 4, 5, 6, 7, 8, 9, 10, 11, 12, 13, 14, 15, 16]].set 0 r)
          else
            (ForwardTransformToBitReverse64 16 97 impl.tables.root_of_unity_powers
              impl.tables.precon64_root_of_unity_powers
              ([[1, 2, 3, 4, 5, 6, 7, 8, 9, 10, 11, 12, 13, 14, 15, 16]].getD 0 []) 2 1).map
              (fun r => [[1, 2, 3, 4, 5, 6, 7, 8, 9, 10, 11, 12, 13, 14, 15, 16]].set 0 r)) :=
  ⟨⟨by decide, by decide⟩,
    (Option.isSome_iff_exists.mp
      (show (NTTImpl.new (NTTEnv.probe true true true true 1000 1000) 16 97 28).isSome = true
        by decide)).elim
      (fun impl h => ⟨impl, h, by decide, by decide,
        (C31_forward_dispatch (NTTEnv.probe true true true true 1000 1000) 16 97 28 impl
          [[1, 2, 3, 4, 5, 6, 7, 8, 9, 10, 11, 12, 13, 14, 15, 16]] 0 2 1 h
          (by decide) (by decide)).1⟩)⟩

/-- C32. Inverse kernel selection, for an object built by the constructor and a
call that passes the argument checks: `ComputeInverse` runs the 52-bit IFMA
kernel whenever the latched `m_inv_bit_shift` is 52 and `n ≥ 16`, whatever the
runtime IFMA bit `has_avx512_ifma` says; the shift is latched to 52 exactly when
the build has the IFMA flag and the modulus is below `s_max_inv_ifma_modulus`.
Otherwise it runs the 64-bit SIMD kernel when AVX512-DQ is available and
`n ≥ 16`, and the scalar kernel in the remaining cases. -/
theorem C32_inverse_dispatch_ignores_runtime_ifma (env : NTTEnv) (n q w : Nat)
    (impl : NTTImpl) (heap : List (List Nat)) (e imf omf : Nat)
    (hnew : NTTImpl.new env n q w = some impl) (he : e < heap.length)
    (hb : LATTICE_CHECK_BOUNDS (heap.getD e []) n (mul64 q imf) = true) :
    NTTImpl.ComputeInverse env impl heap (some e) imf omf
      = (if impl.m_inv_bit_shift = 52 ∧ 16 ≤ n then
          (env.InverseTransformFromBitReverseAVX512 52 n q impl.tables.inv_root_of_unity_powers
            impl.tables.precon52_inv_root_of_unity_powers (heap.getD e []) imf omf).map
            (fun r => heap.set e r)
        else if (env.LATTICE_HAS_AVX512DQ = true ∧ env.has_avx512_dq = true) ∧ 16 ≤ n then
          (env.InverseTransformFromBitReverseAVX512 64 n q impl.tables.inv_root_of_unity_powers
            impl.tables.precon64_inv_root_of_unity_powers (heap.getD e []) imf omf).map
            (fun r => heap.set e r)
        else
          (InverseTransformFromBitReverse64 n q impl.tables.inv_root_of_unity_powers
            impl.tables.precon64_inv_root_of_unity_powers (heap.getD e []) imf omf).map
            (fun r => heap.set e r)) ∧
    (impl.m_inv_bit_shift = 52 ↔
      env.LATTICE_HAS_AVX512IFMA = true ∧ q < env.s_max_inv_ifma_modulus) := by
  obtain ⟨hd, hp, _, hf⟩ := NTTImpl.new_fields env n q w impl hnew
  have hshift : impl.m_inv_bit_shift = s_ifma_shift_bits ∨
      impl.m_inv_bit_shift = s_default_shift_bits := by
    rw [hf]; split_ifs
    · exact Or.inl rfl
    · exact Or.inr rfl
  have hlatch : impl.m_inv_bit_shift = 52 ↔
      env.LATTICE_HAS_AVX512IFMA = true ∧ q < env.s_max_inv_ifma_modulus := by
    rw [hf]
    constructor
    · intro h
      by_contra hc
      rw [if_neg hc] at h
      exact absurd h (by decide)
    · intro h
      rw [if_pos h]
      rfl
  refine ⟨?_, hlatch⟩
  unfold NTTImpl.ComputeInverse
  simp only []
  rw [if_neg (not_not.mpr he), hd, hp, if_neg (by rw [hb]; simp), if_neg (not_not.mpr hshift)]
  by_cases c1 : impl.m_inv_bit_shift = 52 ∧ 16 ≤ n
  · rw [if_pos c1, if_pos ⟨(hlatch.mp c1.1).1, c1.1, (hlatch.mp c1.1).2, c1.2⟩]
    rfl
  · rw [if_neg c1, if_neg (fun hh => c1 ⟨hh.2.1, hh.2.2.2⟩)]
    by_cases c2 : (env.LATTICE_HAS_AVX512DQ = true ∧ env.has_avx512_dq = true) ∧ 16 ≤ n
    · rw [if_pos c2, if_pos ⟨c2.1.1, c2.1.2, c2.2⟩]
      rfl
    · rw [if_neg c2, if_neg (fun hh => c2 ⟨⟨hh.1, hh.2.1⟩, hh.2.2⟩)]

/-- C32, at degree 16, modulus 97, root 28, in a build with the IFMA flag on a
CPU without IFMA (`has_avx512_ifma = false`) but with AVX512-DQ and both
thresholds at 1000: the inverse transform runs the 52-bit IFMA kernel, the
forward transform the 64-bit kernel. -/
theorem C32_inverse_dispatch_ignores_runtime_ifma_witness :
    ((NTTEnv.probe true true false true 1000 1000).has_avx512_ifma = false ∧
      (NTTImpl.new (NTTEnv.probe true true false true 1000 1000) 16 97 28).bind
      (fun impl => NTTImpl.ComputeInverse (NTTEnv.probe true true false true 1000 1000) impl
        [[1, 2, 3, 4, 5, 6, 7, 8, 9, 10, 11, 12, 13, 14, 15, 16]] (some 0) 1 1)
        = some [[52]] ∧
      (NTTImpl.new (NTTEnv.probe true true false true 1000 1000) 16 97 28).bind
      (fun impl => NTTImpl.ComputeForward (NTTEnv.probe true true false true 1000 1000) impl
        [[1, 2, 3, 4, 5, 6, 7, 8, 9, 10, 11, 12, 13, 14, 15, 16]] (some 0) 2 1)
        = some [[64]]) ∧
    ∃ impl, NTTImpl.new (NTTEnv.probe true true false true 1000 1000) 16 97 28 = some impl ∧
      0 < [[1, 2, 3, 4, 5, 6, 7, 8, 9, 10, 11, 12, 13, 14, 15, 16]].length ∧
      LATTICE_CHECK_BOUNDS
        ([[1, 2, 3, 4, 5, 6, 7, 8, 9, 10, 11, 12, 13, 14, 15, 16]].getD 0 []) 16
        (mul64 97 1) = true ∧
      (NTTImpl.ComputeInverse (NTTEnv.probe true true false true 1000 1000) impl
          [[1, 2, 3, 4, 5, 6, 7, 8, 9, 10, 11, 12, 13, 14, 15, 16]] (some 0) 1 1
        = (if impl.m_inv_bit_shift = 52 ∧ 16 ≤ 16 then
            ((NTTEnv.probe true true false true 1000 1000).InverseTransformFromBitReverseAVX512
              52 16 97 impl.tables.inv_root_of_unity_powers
              impl.tables.precon52_inv_root_of_unity_powers
              ([[1, 2, 3, 4, 5, 6, 7, 8, 9, 10, 11, 12, 13, 14, 15, 16]].getD 0 []) 1 1).map
              (fun r => [[1, 2, 3, 4, 5, 6, 7, 8, 9, 10, 11, 12, 13, 14, 15, 16]].set 0 r)
          else if ((NTTEnv.probe true true false true 1000 1000).LATTICE_HAS_AVX512DQ = true ∧
              (NTTEnv.probe true true false true 1000 1000).has_avx512_dq = true) ∧
              16 ≤ 16 then
            ((NTTEnv.probe true true false true 1000 1000).InverseTransformFromBitReverseAVX512
              64 16 97 impl.tables.inv_root_of_unity_powers
              impl.tables.precon64_inv_root_of_unity_powers
              ([[1, 2, 3, 4, 5, 6, 7, 8, 9, 10, 11, 12, 13, 14, 15, 16]].getD 0 []) 1 1).map
              (fun r => [[1, 2, 3, 4, 5, 6, 7, 8, 9, 10, 11, 12, 13, 14, 15, 16]].set 0 r)
          else
            (InverseTransformFromBitReverse64 16 97 impl.tables.inv_root_of_unity_powers
              impl.tables.precon64_inv_root_of_unity_powers
              ([[1, 2, 3, 4, 5, 6, 7, 8, 9, 10, 11, 12, 13, 14, 15, 16]].getD 0 []) 1 1).map
              (fun r => [[1, 2, 3, 4, 5, 6, 7, 8, 9, 10, 11, 12, 13, 14, 15, 16]].set 0 r)) ∧
        (impl.m_inv_bit_shift = 52 ↔
          (NTTEnv.probe true true false true 1000 1000).LATTICE_HAS_AVX512IFMA = true ∧
            97 < (NTTEnv.probe true true false true 1000 1000).s_max_inv_ifma_modulus)) :=
  ⟨⟨by decide, by decide, by decide⟩,
    (Option.isSome_iff_exists.mp
      (show (NTTImpl.new (NTTEnv.probe true true false true 1000 1000) 16 97 28).isSome = true
        by decide)).elim
      (fun impl h => ⟨impl, h, by decide, by decide,
        C32_inverse_dispatch_ignores_runtime_ifma (NTTEnv.probe true true false true 1000 1000)
          16 97 28 impl [[1, 2, 3, 4, 5, 6, 7, 8, 9, 10, 11, 12, 13, 14, 15, 16]] 0 1 1 h
          (by decide) (by decide)⟩)⟩

theorem fwdZg_smul {q : Nat} (W : Nat → Nat → ZMod q) (k : Nat) (c : ZMod q) :
    ∀ (d s : Nat) (A : Nat → ZMod q),
      fwdZg W k d s (fun x => c * A x) = fun p => c * fwdZg W k d s A p := by
  intro d
  induction d with
  | zero => intro s A; rfl
  | succ d ih =>
    intro s A
    rw [fwdZg]
    have e : bflyF (W s) (2 ^ (k - 1 - s)) (fun x => c * A x)
        = fun p => c * bflyF (W s) (2 ^ (k - 1 - s)) A p := by
      funext p
      exact bflyF_smul _ _ _ _ _
    rw [e, ih (s + 1)]
    rfl

theorem fwdZg_invZg {q : Nat} (W W1 : Nat → Nat → ZMod q) (k : Nat)
    (h : ∀ s i, W s i * W1 s i = 1) :
    ∀ (d s : Nat) (B : Nat → ZMod q), s + d = k →
      fwdZg W k d s (invZg W1 k d (k - 1) B) = fun p => 2 ^ d * B p := by
  intro d
  induction d with
  | zero => intro s B _; funext p; simp [invZg, fwdZg]
  | succ d ih =>
    intro s B hs
    rw [invZg_snoc W1 k d (k - 1) _ (by omega), fwdZg]
    have e : k - 1 - d = s := by omega
    rw [e]
    have e2 : bflyF (W s) (2 ^ (k - 1 - s))
        (bflyG (W1 s) (2 ^ (k - 1 - s)) (invZg W1 k d (k - 1) B))
        = fun p => 2 * invZg W1 k d (k - 1) B p := by
      funext p
      exact bflyF_bflyG _ _ (h s) _ (by positivity) _ _
    rw [e2, fwdZg_smul, ih (s + 1) _ (by omega)]
    funext p
    rw [pow_succ]
    ring

/-- C35. The forward transform undoes the inverse transform: for `n = 2^k`,
`1 ≤ k ≤ 17`, a prime `q < 2^62` with `q ≡ 1 (mod 2n)`, a root `w` accepted by
`IsPrimitiveRoot(w, 2n, q)` and an array `y` of `n` values below `q`, the inverse
transform (factors 1, 1) returns an array `x`, and the forward transform of `x`
(input factor 2, output factor 1) returns exactly `y`. -/
theorem C35_forward_after_inverse (k n q w : Nat) (y : List Nat) (hn : n = 2 ^ k)
    (hk1 : 1 ≤ k) (hk : k ≤ 17) (hp : q.Prime) (hq : q < 2 ^ 62) (hmod : q % (2 * n) = 1)
    (hw : w < q) (hroot : IsPrimitiveRoot w (2 * n) q = some true) (hlen : y.length = n)
    (hy : ∀ v ∈ y, v < q) :
    ∃ T x, ComputeRootOfUnityPowers n q w (Log2 n) = some T ∧
      InverseTransformFromBitReverse64 n q T.inv_root_of_unity_powers
        T.precon64_inv_root_of_unity_powers y 1 1 = some x ∧
      ForwardTransformToBitReverse64 n q T.root_of_unity_powers
        T.precon64_root_of_unity_powers x 2 1 = some y := by
  subst hn
  have hq2 : 2 ≤ q := hp.two_le
  have hn64 : 2 * 2 ^ k < 2 ^ 64 := by
    calc 2 * 2 ^ k = 2 ^ (k + 1) := by rw [pow_succ]; ring
      _ < 2 ^ 64 := Nat.pow_lt_pow_right (by norm_num) (by omega)
  obtain ⟨hw0, _⟩ := IsPrimitiveRoot_true w (2 ^ k) q hq2 (by omega) hn64 hroot
  have hc := coprime_of_prime w q hp hw hw0
  obtain ⟨T, hT1, hT⟩ := tables_of_valid k q w hk hq2 hq hw hc
  have hyp := getD_lt_of_forall_mem y q (2 ^ k) hlen hy
  obtain ⟨x, hx1, hx2, hx3, ninv, hninv, hx4⟩ := Inverse_spec q k _ _ hq2 hq hk1 hk hmod
    (hT.invTab (by omega) hq2 (by omega) hc) y 1 1 (Or.inl rfl) (Or.inl rfl) hlen
    (fun p hp => by have := hyp p hp; omega)
  obtain ⟨z, hz1, hz2, hz3, hz4⟩ := Forward_spec q k _ _ hq hk hmod
    (hT.fwdTab (by omega) (by omega)) x 2 1 (Or.inl rfl) (Or.inl rfl) hx2
    (fun p hp => by have := hx3 p hp; omega)
  have hinv : InverseTransformFromBitReverse64 (2 ^ k) q T.inv_root_of_unity_powers
      T.precon64_inv_root_of_unity_powers y 1 1 = some x := by
    unfold InverseTransformFromBitReverse64
    rw [hx1]
    rfl
  refine ⟨T, x, hT1, hinv, ?_⟩
  have hzy : z = y := by
    apply eq_of_resid q (2 ^ k) z y hz2 hlen (fun p hp => by have := hz3 p hp; omega) hyp
    intro p hp
    have hagree : AgreeOn (2 ^ k) (resid q x)
        (fun p => ninv * invZg (twid k ((w : ZMod q)⁻¹)) k k (k - 1) (resid q y) p) := by
      intro p hp
      rw [hx4 p hp]
      beta_reduce
      rw [invZg_congr (itabW q k T.inv_root_of_unity_powers) (twid k ((w : ZMod q)⁻¹)) k
        (fun s i hs hi => hT.itabW_eq (by omega) hq2 (by omega) hc s i hs hi) k (k - 1) _ _
        (by omega) (by omega) (fun p _ => rfl) p hp]
    have h1 := forward_twid k q w T hT hk x z hz4 p hp
    have h2 := fwdZg_congr (twid k (w : ZMod q)) (twid k (w : ZMod q)) k
      (fun s i _ _ => rfl) k 0 _ _ (by omega) hagree p hp
    rw [h1, h2, fwdZg_smul, fwdZg_invZg (twid k (w : ZMod q)) (twid k ((w : ZMod q)⁻¹)) k
      (twid_mul k _ _ (ZMod.coe_mul_inv_eq_one w hc)) k 0 _ (by omega)]
    rw [Nat.cast_pow] at hninv
    have : ((2 : Nat) : ZMod q) = 2 := by norm_num
    rw [this] at hninv
    calc ninv * (2 ^ k * resid q y p) = ((2 : ZMod q) ^ k * ninv) * resid q y p := by ring
      _ = resid q y p := by rw [hninv, one_mul]
  rw [hz1, hzy]

/-- C35, at `n = 4`, `q = 17`, `w = 2`, `y = [15, 11, 13, 16]`. -/
theorem C35_forward_after_inverse_witness :
    (4 = 2 ^ 2 ∧ Nat.Prime 17 ∧ 17 % (2 * 4) = 1 ∧
      IsPrimitiveRoot 2 (2 * 4) 17 = some true ∧ (∀ v ∈ [15, 11, 13, 16], v < 17)) ∧
    ∃ T x, ComputeRootOfUnityPowers 4 17 2 (Log2 4) = some T ∧
      InverseTransformFromBitReverse64 4 17 T.inv_root_of_unity_powers
        T.precon64_inv_root_of_unity_powers [15, 11, 13, 16] 1 1 = some x ∧
      ForwardTransformToBitReverse64 4 17 T.root_of_unity_powers
        T.precon64_root_of_unity_powers x 2 1 = some [15, 11, 13, 16] :=
  ⟨⟨by decide, by norm_num, by decide, by decide, by decide⟩,
    C35_forward_after_inverse 2 4 17 2 [15, 11, 13, 16] (by decide) (by decide) (by decide)
      (by norm_num) (by decide) (by decide) (by decide) (by decide) (by decide) (by decide)⟩

theorem negacyclic_term {R : Type} [CommRing R] (n : Nat) (u ζ : R) (hζ : ζ ^ n = -1)
    (i j : Nat) (hi : i < n) (hj : j < n) :
    ∑ m in range n, (if i + j = m then u else if i + j = m + n then -u else 0) * ζ ^ m
      = u * ζ ^ (i + j) := by
  by_cases h : i + j < n
  · rw [Finset.sum_eq_single (i + j)]
    · rw [if_pos rfl]
    · intro m _ hm
      rw [if_neg (fun e => hm e.symm), if_neg (by omega), zero_mul]
    · intro hm
      exact absurd (Finset.mem_range.mpr h) hm
  · rw [Finset.sum_eq_single (i + j - n)]
    · rw [if_neg (by omega), if_pos (by omega)]
      have e : i + j = (i + j - n) + n := by omega
      conv_rhs => rw [e, pow_add, hζ]
      ring
    · intro m hm hne
      have := Finset.mem_range.mp hm
      rw [if_neg (by omega), if_neg (by omega), zero_mul]
    · intro hm
      exact absurd (Finset.mem_range.mpr (by omega)) hm

theorem negacyclic_eval {R : Type} [CommRing R] (n : Nat) (f g : Nat → R) (ζ : R)
    (hζ : ζ ^ n = -1) :
    (∑ i in range n, f i * ζ ^ i) * (∑ j in range n, g j * ζ ^ j)
      = ∑ m in range n,
          (∑ i in range n, ∑ j in range n,
            (if i + j = m then f i * g j else if i + j = m + n then -(f i * g j) else 0))
            * ζ ^ m := by
  have e1 : ∀ m, (∑ i in range n, ∑ j in range n,
      (if i + j = m then f i * g j else if i + j = m + n then -(f i * g j) else 0)) * ζ ^ m
      = ∑ i in range n, ∑ j in range n,
        (if i + j = m then f i * g j else if i + j = m + n then -(f i * g j) else 0) * ζ ^ m := by
    intro m
    rw [Finset.sum_mul]
    apply Finset.sum_congr rfl
    intro i _
    rw [Finset.sum_mul]
  have rhs : ∑ m in range n,
      (∑ i in range n, ∑ j in range n,
        (if i + j = m then f i * g j else if i + j = m + n then -(f i * g j) else 0)) * ζ ^ m
      = ∑ i in range n, ∑ j in range n, f i * g j * ζ ^ (i + j) := by
    simp only [e1]
    rw [Finset.sum_comm]
    apply Finset.sum_congr rfl
    intro i hi
    rw [Finset.sum_comm]
    apply Finset.sum_congr rfl
    intro j hj
    exact negacyclic_term n (f i * g j) ζ hζ i j (Finset.mem_range.mp hi)
      (Finset.mem_range.mp hj)
  rw [rhs, Finset.sum_mul_sum]
  apply Finset.sum_congr rfl
  intro i _
  apply Finset.sum_congr rfl
  intro j _
  rw [pow_add]
  ring

theorem getD_map_range (f : Nat → Nat) (n i : Nat) (h : i < n) :
    ((List.range n).map f).getD i 0 = f i := by
  rw [List.getD_eq_getElem _ 0 (by simp [h])]
  simp

theorem forward_eval (k q w : Nat) (T : NTTTables) (hT : TablesSpec q w k T) (hk : k ≤ 17)
    (hω : ((w : ZMod q)) ^ 2 ^ k = -1) (x out : List Nat)
    (h : AgreeOn (2 ^ k) (resid q out)
      (fwdZg (tabW q T.root_of_unity_powers) k k 0 (resid q x)))
    (p : Nat) (hp : p < 2 ^ k) :
    resid q out p
      = ∑ l in range (2 ^ k),
          resid q x l * ((w : ZMod q) ^ (2 * ReverseBitsUInt p k + 1)) ^ l := by
  rw [forward_twid k q w T hT hk x out h p hp, fwdZ_closed k (by omega) _ hω _ p hp]
  apply Finset.sum_congr rfl
  intro l _
  rw [pow_mul]

theorem int_of_resid (q c : Nat) (S : Int) (hc : c < q)
    (h : ((c : Nat) : ZMod q) = ((S : Int) : ZMod q)) : (c : Int) = S % (q : Int) := by
  have h1 : (((c : Nat) : Int) : ZMod q) = ((S : Int) : ZMod q) := by
    rw [Int.cast_natCast]; exact h
  have h2 := (ZMod.intCast_eq_intCast_iff _ _ _).mp h1
  have h3 : ((c : Nat) : Int) % (q : Int) = (c : Int) :=
    Int.emod_eq_of_lt (Int.natCast_nonneg _) (by exact_mod_cast hc)
  rw [← h3]
  exact h2

/-- C34. Negacyclic convolution: for `n = 2^k`, `1 ≤ k ≤ 17`, a prime
`q < 2^62` with `q ≡ 1 (mod 2n)`, a root `w` accepted by
`IsPrimitiveRoot(w, 2n, q)` and arrays `a`, `b` of `n` values below `q`, the
forward transforms `A`, `B` (factors 2, 1) return, the products
`P[i] = MultiplyUIntMod(A[i], B[i], q)` are defined, and the inverse transform of
`P` (factors 1, 1) returns the array `c` with
`c[m] = (Σ_{i+j=m} a[i]·b[j] − Σ_{i+j=m+n} a[i]·b[j]) mod q`, the coefficients of
`a(x)·b(x)` modulo `x^n + 1` and `q`. -/
theorem C34_negacyclic_convolution (k n q w : Nat) (a b : List Nat) (hn : n = 2 ^ k)
    (hk1 : 1 ≤ k) (hk : k ≤ 17) (hp : q.Prime) (hq : q < 2 ^ 62) (hmod : q % (2 * n) = 1)
    (hw : w < q) (hroot : IsPrimitiveRoot w (2 * n) q = some true)
    (hal : a.length = n) (hbl : b.length = n) (ha : ∀ v ∈ a, v < q) (hb : ∀ v ∈ b, v < q) :
    ∃ T A B P c, ComputeRootOfUnityPowers n q w (Log2 n) = some T ∧
      ForwardTransformToBitReverse64 n q T.root_of_unity_powers
        T.precon64_root_of_unity_powers a 2 1 = some A ∧
      ForwardTransformToBitReverse64 n q T.root_of_unity_powers
        T.precon64_root_of_unity_powers b 2 1 = some B ∧
      P.length = n ∧
      (∀ i, i < n → MultiplyUIntMod (A.getD i 0) (B.getD i 0) q = some (P.getD i 0)) ∧
      InverseTransformFromBitReverse64 n q T.inv_root_of_unity_powers
        T.precon64_inv_root_of_unity_powers P 1 1 = some c ∧
      c.length = n ∧
      ∀ m, m < n →
        ((c.getD m 0 : Nat) : Int)
          = (∑ i in range n, ∑ j in range n,
              (if i + j = m then ((a.getD i 0 : Nat) : Int) * ((b.getD j 0 : Nat) : Int)
               else if i + j = m + n then
                 -(((a.getD i 0 : Nat) : Int) * ((b.getD j 0 : Nat) : Int))
               else 0)) % (q : Int) := by
  subst hn
  have hq2 : 2 ≤ q := hp.two_le
  have hn64 : 2 * 2 ^ k < 2 ^ 64 := by
    calc 2 * 2 ^ k = 2 ^ (k + 1) := by rw [pow_succ]; ring
      _ < 2 ^ 64 := Nat.pow_lt_pow_right (by norm_num) (by omega)
  obtain ⟨hw0, hwn⟩ := IsPrimitiveRoot_true w (2 ^ k) q hq2 (by omega) hn64 hroot
  have hω : ((w : ZMod q)) ^ 2 ^ k = -1 := root_neg_one w (2 ^ k) q hq2 hwn
  have hc := coprime_of_prime w q hp hw hw0
  obtain ⟨T, hT1, hT⟩ := tables_of_valid k q w hk hq2 hq hw hc
  have hap := getD_lt_of_forall_mem a q (2 ^ k) hal ha
  have hbp := getD_lt_of_forall_mem b q (2 ^ k) hbl hb
  obtain ⟨A, hA1, hA2, hA3, hA4⟩ := Forward_spec q k _ _ hq hk hmod
    (hT.fwdTab (by omega) (by omega)) a 2 1 (Or.inl rfl) (Or.inl rfl) hal
    (fun p hp => by have := hap p hp; omega)
  obtain ⟨B, hB1, hB2, hB3, hB4⟩ := Forward_spec q k _ _ hq hk hmod
    (hT.fwdTab (by omega) (by omega)) b 2 1 (Or.inl rfl) (Or.inl rfl) hbl
    (fun p hp => by have := hbp p hp; omega)
  have hPlen : ((List.range (2 ^ k)).map (fun i => A.getD i 0 * B.getD i 0 % q)).length
      = 2 ^ k := by simp
  have hPget : ∀ i, i < 2 ^ k →
      ((List.range (2 ^ k)).map (fun i => A.getD i 0 * B.getD i 0 % q)).getD i 0
        = A.getD i 0 * B.getD i 0 % q := fun i hi => getD_map_range _ _ i hi
  obtain ⟨c, hc1, hc2, hc3, ninv, hninv, hc4⟩ := Inverse_spec q k _ _ hq2 hq hk1 hk hmod
    (hT.invTab (by omega) hq2 (by omega) hc)
    ((List.range (2 ^ k)).map (fun i => A.getD i 0 * B.getD i 0 % q)) 1 1
    (Or.inl rfl) (Or.inl rfl) hPlen
    (fun p hp => by
      rw [hPget p hp, one_mul]
      exact Nat.mod_lt _ (by omega))
  have hinv : InverseTransformFromBitReverse64 (2 ^ k) q T.inv_root_of_unity_powers
      T.precon64_inv_root_of_unity_powers
      ((List.range (2 ^ k)).map (fun i => A.getD i 0 * B.getD i 0 % q)) 1 1 = some c := by
    unfold InverseTransformFromBitReverse64
    rw [hc1]
    rfl
  refine ⟨T, A, B, _, c, hT1, hA1, hB1, hPlen, ?_, hinv, hc2, ?_⟩
  · intro i hi
    rw [hPget i hi]
    exact MultiplyUIntMod_eq _ _ q (by have := hA3 i hi; omega) (by have := hB3 i hi; omega)
  · intro m hm
    -- the transform of the product is the pointwise product of the transforms
    have hP : AgreeOn (2 ^ k)
        (resid q ((List.range (2 ^ k)).map (fun i => A.getD i 0 * B.getD i 0 % q)))
        (fwdZg (twid k (w : ZMod q)) k k 0
          (fun m => ∑ i in range (2 ^ k), ∑ j in range (2 ^ k),
            (if i + j = m then resid q a i * resid q b j
             else if i + j = m + 2 ^ k then -(resid q a i * resid q b j) else 0))) := by
      intro p hpp
      rw [fwdZ_closed k (by omega) _ hω _ p hpp]
      have hζ : ((w : ZMod q) ^ (2 * ReverseBitsUInt p k + 1)) ^ 2 ^ k = -1 := by
        rw [← pow_mul, mul_comm, pow_mul, hω]
        exact Odd.neg_one_pow ⟨ReverseBitsUInt p k, rfl⟩
      have e1 : resid q ((List.range (2 ^ k)).map (fun i => A.getD i 0 * B.getD i 0 % q)) p
          = resid q A p * resid q B p := by
        unfold resid
        rw [hPget p hpp, ZMod.natCast_mod, Nat.cast_mul]
      rw [e1, forward_eval k q w T hT hk hω a A hA4 p hpp,
        forward_eval k q w T hT hk hω b B hB4 p hpp,
        negacyclic_eval (2 ^ k) (resid q a) (resid q b) _ hζ]
      apply Finset.sum_congr rfl
      intro l _
      rw [pow_mul]
    have h1 := invZg_congr (itabW q k T.inv_root_of_unity_powers) (twid k ((w : ZMod q)⁻¹)) k
      (fun s i hs hi => hT.itabW_eq (by omega) hq2 (by omega) hc s i hs hi) k (k - 1) _ _
      (by omega) (by omega) hP m hm
    have hres : resid q c m
        = ∑ i in range (2 ^ k), ∑ j in range (2 ^ k),
            (if i + j = m then resid q a i * resid q b j
             else if i + j = m + 2 ^ k then -(resid q a i * resid q b j) else 0) := by
      rw [hc4 m hm]
      beta_reduce
      rw [h1, invZg_fwdZg (twid k (w : ZMod q)) (twid k ((w : ZMod q)⁻¹)) k
        (twid_mul k _ _ (ZMod.coe_mul_inv_eq_one w hc)) k 0 _ (by omega)]
      rw [Nat.cast_pow] at hninv
      have : ((2 : Nat) : ZMod q) = 2 := by norm_num
      rw [this] at hninv
      beta_reduce
      rw [← mul_assoc, mul_comm ninv, hninv, one_mul]
    apply int_of_resid q _ _ (by have := hc3 m hm; omega)
    unfold resid at hres
    rw [hres]
    push_cast
    rfl

/-- C34, at `n = 4`, `q = 17`, `w = 2`, `a = [1, 2, 3, 4]`, `b = [5, 6, 7, 8]`
(the result is `c = [12, 15, 2, 9]`). -/
theorem C34_negacyclic_convolution_witness :
    (4 = 2 ^ 2 ∧ Nat.Prime 17 ∧ 17 % (2 * 4) = 1 ∧ IsPrimitiveRoot 2 (2 * 4) 17 = some true ∧
      (∀ v ∈ [1, 2, 3, 4], v < 17) ∧ (∀ v ∈ [5, 6, 7, 8], v < 17)) ∧
    ∃ T A B P c, ComputeRootOfUnityPowers 4 17 2 (Log2 4) = some T ∧
      ForwardTransformToBitReverse64 4 17 T.root_of_unity_powers
        T.precon64_root_of_unity_powers [1, 2, 3, 4] 2 1 = some A ∧
      ForwardTransformToBitReverse64 4 17 T.root_of_unity_powers
        T.precon64_root_of_unity_powers [5, 6, 7, 8] 2 1 = some B ∧
      P.length = 4 ∧
      (∀ i, i < 4 → MultiplyUIntMod (A.getD i 0) (B.getD i 0) 17 = some (P.getD i 0)) ∧
      InverseTransformFromBitReverse64 4 17 T.inv_root_of_unity_powers
        T.precon64_inv_root_of_unity_powers P 1 1 = some c ∧
      c.length = 4 ∧
      ∀ m, m < 4 →
        ((c.getD m 0 : Nat) : Int)
          = (∑ i in range 4, ∑ j in range 4,
              (if i + j = m then
                 (([1, 2, 3, 4].getD i 0 : Nat) : Int) * (([5, 6, 7, 8].getD j 0 : Nat) : Int)
               else if i + j = m + 4 then
                 -((([1, 2, 3, 4].getD i 0 : Nat) : Int) * (([5, 6, 7, 8].getD j 0 : Nat) : Int))
               else 0)) % ((17 : Nat) : Int) :=
  ⟨⟨by decide, by norm_num, by decide, by decide, by decide, by decide⟩,
    C34_negacyclic_convolution 2 4 17 2 [1, 2, 3, 4] [5, 6, 7, 8] (by decide) (by decide)
      (by decide) (by norm_num) (by decide) (by decide) (by decide) (by decide) (by decide)
      (by decide) (by decide) (by decide)⟩

end Lattice
